import Mathlib

/-!
# A two-pass assembler for a 16-bit architecture: shallow embedding and checked properties

The development embeds `src/assembler.cpp` (class `Assembler`) into Lean.

* Machine integers are mathematical integers with explicit wrap-around:
  `int16_t` values are `Int` normalised by `toInt16`, `uint16_t` values are `Nat` below `2^16`,
  bytes are `Nat` below `2^8`.
* `std::unordered_map<std::string, T*>` is an association list keyed by name; a pointer into a
  table is the key of the entry it points to.
* Exceptions are the error side of `Except AssemblingException`; dereferencing a null pointer and
  other undefined behaviour is the error kind `undefinedBehaviour`.
* The headers `types.h`, `utils.h`, `symbol.h`, `section.h`, `instruction.h`, `relocation.h` and
  `exceptions.h` are not part of the sources at hand.  The lexer and the instruction parser are a
  parameter (`Utils`) of every function that calls them; the small record types and constants are
  modelled from the specification and say so in their doc comments.
-/

set_option autoImplicit false

deriving instance DecidableEq for Except

namespace Asm

/-! ## Machine integers -/

/-- Conversion of an integer to `int16_t` (two's complement wrap-around). -/
def toInt16 (x : Int) : Int := (x + 32768) % 65536 - 32768

/-- Conversion of an integer to `uint16_t`. -/
def toUInt16 (x : Int) : Nat := (x % 65536).toNat

/-- Conversion of an integer to `int` (32 bits). -/
def toInt32 (x : Int) : Int := (x + 2147483648) % 4294967296 - 2147483648

/-- The byte `value & 0x00FF`. -/
def lowerByte (value : Int) : Nat := (value % 256).toNat

/-- The byte `(value & 0xFF00) >> 8`. -/
def higherByte (value : Int) : Nat := (value % 65536 / 256).toNat

/-! ## The C library function `strtol` with base 0 -/

/-- Value of a digit character in bases up to 36. -/
def digitValue (c : Char) : Option Nat :=
  if 48 ≤ c.toNat ∧ c.toNat ≤ 57 then some (c.toNat - 48)
  else if 97 ≤ c.toNat ∧ c.toNat ≤ 122 then some (c.toNat - 87)
  else if 65 ≤ c.toNat ∧ c.toNat ≤ 90 then some (c.toNat - 55)
  else none

/-- Accumulates the longest prefix of digits valid in `base`. -/
def parseDigits (base : Nat) : List Char → Nat → Nat
  | [], acc => acc
  | c :: cs, acc =>
    match digitValue c with
    | some d => if d < base then parseDigits base cs (acc * base + d) else acc
    | none => acc

/-- Whether `c` is a digit of the given base. -/
def isDigitOf (base : Nat) (c : Char) : Bool :=
  match digitValue c with
  | some d => decide (d < base)
  | none => false

/-- The magnitude parsed by `strtol(_, NULL, 0)` after the sign: `0x` selects base 16 (when a
hexadecimal digit follows), a leading `0` base 8, anything else base 10. -/
def parseMagnitude : List Char → Nat
  | '0' :: 'x' :: c :: cs => if isDigitOf 16 c then parseDigits 16 (c :: cs) 0 else 0
  | '0' :: 'X' :: c :: cs => if isDigitOf 16 c then parseDigits 16 (c :: cs) 0 else 0
  | '0' :: cs => parseDigits 8 cs 0
  | cs => parseDigits 10 cs 0

/-- Drops the leading white space that `strtol` skips. -/
def skipSpaces : List Char → List Char
  | c :: cs => if c = ' ' ∨ (9 ≤ c.toNat ∧ c.toNat ≤ 13) then skipSpaces cs else c :: cs
  | [] => []

/-- Clamp to the range of `long` (64 bits), as `strtol` does on overflow. -/
def clampLong (x : Int) : Int :=
  if x < -9223372036854775808 then -9223372036854775808
  else if 9223372036854775807 < x then 9223372036854775807 else x

/-- The call `strtol(s.c_str(), NULL, 0)`. -/
def strtol (s : String) : Int :=
  match skipSpaces s.data with
  | '-' :: cs => clampLong (-(parseMagnitude cs : Int))
  | '+' :: cs => clampLong (parseMagnitude cs)
  | cs => clampLong (parseMagnitude cs)

/-! ## Data model -/

/-- The exceptions thrown by the assembler, one kind per message. -/
inductive ErrorKind
  | doubleLabel
  | labelOutsideSection
  | directiveWithoutArguments
  | globalExternExpectSymbol
  | externButDefined
  | globalButUndefined
  | sectionNameMissing
  | illegalSectionName
  | illegalSectionFlags
  | directiveOutsideSection
  | equExpectsSymbolAndExpression
  | equMissingExpression
  | alignNeedsImmediate
  | skipNeedsImmediate
  | illegalFillValue
  | memoryInitInBSS
  | missingInitialValues
  | unexpectedError
  | instructionOutsideExecutableSection
  | invalidToken
  | trailingTokens
  | cyclicEquivalence
  | symbolAlreadyDefined
  | sectionAlreadyDefined
  | invalidOperandType
  | invalidExpression
  | byteOverflow
  | byteOperandExpected
  | pcRelativeOnConstant
  | instructionSyntax
  | undefinedBehaviour
  deriving DecidableEq, Repr

/-- An `AssemblingException(line, message)`. -/
structure AssemblingException where
  line : Nat
  kind : ErrorKind
  deriving DecidableEq, Repr

/-- Modelled from the spec: the enumeration `ScopeType` of the absent `types.h`. -/
inductive ScopeType
  | LOCAL | GLOBAL
  deriving DecidableEq, Repr

/-- Modelled from the spec: the enumeration `SymbolType` of the absent `types.h`. -/
inductive SymbolType
  | LABEL | SECTION | CONSTANT | ALIAS | EXTERN
  deriving DecidableEq, Repr

/-- Modelled from the spec: the enumeration `RelocationType` of the absent `types.h`, in the order
the spec lists it; each subtractive type is the successor of its plain counterpart. -/
inductive RelocationType
  | R_386_8 | R_386_SUB_8 | R_386_16 | R_386_SUB_16 | R_386_PC16 | R_386_SUB_PC16
  deriving DecidableEq, Repr

namespace RelocationType

/-- The cast `(RelocationType)(type + 1)`; the code applies it to the plain types only. -/
def next : RelocationType → RelocationType
  | R_386_8 => R_386_SUB_8
  | R_386_SUB_8 => R_386_16
  | R_386_16 => R_386_SUB_16
  | R_386_SUB_16 => R_386_PC16
  | R_386_PC16 => R_386_SUB_PC16
  | R_386_SUB_PC16 => R_386_SUB_PC16

/-- The cast `(RelocationType)(type - 1)`; the code applies it to the subtractive types only. -/
def prev : RelocationType → RelocationType
  | R_386_8 => R_386_8
  | R_386_SUB_8 => R_386_8
  | R_386_16 => R_386_SUB_8
  | R_386_SUB_16 => R_386_16
  | R_386_PC16 => R_386_SUB_16
  | R_386_SUB_PC16 => R_386_PC16

end RelocationType

/-- Modelled from the spec: the token tags of the absent `types.h`; `OTHER` stands for every tag
that `assembler.cpp` never names. -/
inductive TokenType
  | LABEL | SYMBOL | SECTION | SECTION_NAME | SECTION_FLAGS | DIRECTIVE | GLOBAL_EXTERN
  | INSTRUCTION | OPERAND_IMMED | EXPRESSION | OTHER
  deriving DecidableEq, Repr

/-- Modelled from the spec: the addressing modes of the absent `types.h`. -/
inductive AddressingMode
  | IMMED | REG_DIR | REG_IND | REG_IND_8 | REG_IND_16 | MEMORY
  deriving DecidableEq, Repr

/-- Modelled from the spec: the numeric code of an addressing mode (its rank in the table of the
spec); the absent `types.h` fixes the real values. -/
def AddressingMode.code : AddressingMode → Nat
  | .IMMED => 0
  | .REG_DIR => 1
  | .REG_IND => 2
  | .REG_IND_8 => 3
  | .REG_IND_16 => 4
  | .MEMORY => 5

/-- Modelled from the spec: the operand kinds of the absent `types.h` that
`generateInstructionCode` distinguishes. -/
inductive OperandType
  | IMMED_VALUE | IMMED_SYMBOL | REGISTER | PSW | DISPL_VALUE | DISPL_SYMBOL | PCRELATIVE
  | MEMORY_VALUE | MEMORY_SYMBOL
  deriving DecidableEq, Repr

/-- Modelled from the spec: size in bytes of a byte operand (`types.h`). -/
def BYTE : Nat := 1
/-- Modelled from the spec: size in bytes of a word operand (`types.h`). -/
def WORD : Nat := 2
/-- Modelled from the spec: shift of the opcode in the first byte (`types.h`). -/
def CODE_OFFSET : Nat := 3
/-- Modelled from the spec: shift of the operand-size bit in the first byte (`types.h`). -/
def SIZE_OFFSET : Nat := 2
/-- Modelled from the spec: shift of the addressing mode in a descriptor byte (`types.h`). -/
def ADDR_OFFSET : Nat := 5
/-- Modelled from the spec: shift of the register number in a descriptor byte (`types.h`). -/
def REGS_OFFSET : Nat := 1
/-- Modelled from the spec: the reserved register code of `psw` (`types.h`); the spec does not
give its value. -/
def PSW_CODE : Nat := 15
/-- Modelled from the spec: the section name of symbols without a section (`types.h`). -/
def UNDEFINED : String := "UNDEFINED"
/-- Modelled from the spec: position of the writable flag in a flag string. -/
def W : Nat := 0
/-- Modelled from the spec: position of the allocatable flag in a flag string. -/
def A : Nat := 1
/-- Modelled from the spec: position of the executable flag in a flag string. -/
def X : Nat := 2

/-- Modelled from the spec: the record `Symbol` of the absent `symbol.h`. -/
structure Symbol where
  name : String
  sect : String
  value : Int
  scope : ScopeType
  type : SymbolType
  defined : Bool
  symbolTableEntry : Nat
  deriving DecidableEq, Repr

/-- Modelled from the spec: `Symbol::setData` of the absent `symbol.h`; name and index stay. -/
def Symbol.setData (s : Symbol) (sect : String) (value : Int) (scope : ScopeType)
    (type : SymbolType) (defined : Bool) : Symbol :=
  { s with sect := sect, value := value, scope := scope, type := type, defined := defined }

/-- Modelled from the spec: the record `Section` of the absent `section.h`; `flags` holds the ten
flag characters. -/
structure Section where
  name : String
  flags : List Char
  size : Nat
  bytes : List Nat
  sectionTableEntry : Nat
  symbolTableEntry : Nat
  deriving DecidableEq, Repr

/-- Overwrites `bs` at the start of `buf`, extending `buf` when it is too short. -/
def overwrite : List Nat → List Nat → List Nat
  | buf, [] => buf
  | [], b :: bs => b :: overwrite [] bs
  | _ :: buf, b :: bs => b :: overwrite buf bs

/-- Writes `bs` into the dense buffer `buf` at `offset`; a gap is filled with zero bytes. -/
def writeAt : Nat → List Nat → List Nat → List Nat
  | 0, buf, bs => overwrite buf bs
  | n + 1, [], bs => 0 :: writeAt n [] bs
  | n + 1, x :: buf, bs => x :: writeAt n buf bs

/-- Modelled from the spec: `Section::write(offset, bytes)` of the absent `section.h`, which
stores the bytes in the dense byte buffer at the given offset. -/
def Section.write (s : Section) (offset : Nat) (bs : List Nat) : Section :=
  { s with bytes := writeAt offset s.bytes bs }

/-- Modelled from the spec: `Section::writeValue(start, count, value)` of the absent `section.h`,
which stores `count` copies of the byte `value` from offset `start` on. -/
def Section.writeValue (s : Section) (start : Nat) (count : Int) (value : Int) : Section :=
  s.write start (List.replicate count.toNat (lowerByte value))

/-- The record `UnresolvedSymbol` of `usymbol.h`: `dependencies` pairs a symbol name with the
operation `"+"` or `"-"`; `sect` is the key of the section pointed to. -/
structure UnresolvedSymbol where
  name : String
  dependencies : List (String × String)
  sect : String
  deriving DecidableEq, Repr

/-- Modelled from the spec: the record `Relocation` of the absent `relocation.h`. -/
structure Relocation where
  symbol : String
  sect : String
  offset : Nat
  type : RelocationType
  deriving DecidableEq, Repr

/-- Modelled from the spec: the record `Instruction::Operand` of the absent `instruction.h`. -/
structure Operand where
  addressing : AddressingMode
  type : OperandType
  value : String
  displacement : String
  size : Nat
  deriving DecidableEq, Repr

/-- Modelled from the spec: the record `Instruction` of the absent `instruction.h`. -/
structure Instruction where
  code : Nat
  operandSize : Nat
  size : Nat
  destination : Option Operand
  source : Option Operand
  deriving DecidableEq, Repr

/-- The functions of the absent `utils.h` and `instruction.h` that `assembler.cpp` calls.
`getTokenType token` returns the tag and the match groups (`matches[i]` is the `i`-th element,
empty when absent); `extract queue matches line` returns the parsed instruction and the tokens
it left in the queue. -/
structure Utils where
  getTokenType : String → TokenType × List String
  isExpression : String → Bool
  setFlags : List Char → String → List Char
  extract : List String → List String → Nat → Except AssemblingException (Instruction × List String)

/-- The match group `matches[i]`. -/
def group (ms : List String) (i : Nat) : String := ms.getD i ""

/-! ## Tables -/

/-- The lookup `table.find(key)` of an `unordered_map`. -/
def find? {α : Type} (key : String) : List (String × α) → Option α
  | [] => none
  | (k, v) :: rest => if k = key then some v else find? key rest

/-- The test `table.count(key)`. -/
def count {α : Type} (key : String) (table : List (String × α)) : Bool :=
  (find? key table).isSome

/-- Replaces the value stored under `key` (the object a table entry points to is mutated). -/
def update {α : Type} (key : String) (v : α) : List (String × α) → List (String × α)
  | [] => []
  | (k, w) :: rest => if k = key then (k, v) :: rest else (k, w) :: update key v rest

/-- The state of an `Assembler` object. -/
structure Assembler where
  line : Nat
  locationCounter : Nat
  instructions : List Instruction
  assembly : List (List String)
  symbolTable : List (String × Symbol)
  sectionTable : List (String × Section)
  UST : List (String × UnresolvedSymbol)
  relocationTable : List Relocation
  deriving DecidableEq, Repr

namespace Assembler

/-- A freshly constructed assembler holding the token lines read from the input. -/
def init (assembly : List (List String)) : Assembler :=
  { line := 0, locationCounter := 0, instructions := [], assembly := assembly,
    symbolTable := [], sectionTable := [], UST := [], relocationTable := [] }

/-- Throwing `AssemblingException(line, kind)`. -/
def fail {α : Type} (a : Assembler) (kind : ErrorKind) : Except AssemblingException α :=
  .error ⟨a.line, kind⟩

/-- The method `Assembler::addSymbol`. -/
def addSymbol (a : Assembler) (name sect : String) (value : Int) (scope : ScopeType)
    (type : SymbolType) (defined : Bool) : Except AssemblingException Assembler :=
  match find? name a.symbolTable with
  | some s =>
    if s.defined ∨ count name a.UST then a.fail .symbolAlreadyDefined
    else
      let table := update name (s.setData sect value scope type defined) a.symbolTable
      .ok { a with symbolTable := table }
  | none =>
    if count name a.UST then a.fail .symbolAlreadyDefined
    else
      let symbol : Symbol := ⟨name, sect, value, scope, type, defined, a.symbolTable.length⟩
      .ok { a with symbolTable := a.symbolTable ++ [(name, symbol)] }

/-- The method `Assembler::addSection`. -/
def addSection (a : Assembler) (s : Section) : Except AssemblingException Assembler :=
  if count s.name a.sectionTable then a.fail .sectionAlreadyDefined
  else .ok { a with sectionTable := a.sectionTable ++ [(s.name, s)] }

/-- The access `symbolTable[name]` followed by a dereference: a missing key yields a null
pointer, whose dereference is undefined behaviour. -/
def symbol (a : Assembler) (name : String) : Except AssemblingException Symbol :=
  match find? name a.symbolTable with
  | some s => .ok s
  | none => a.fail .undefinedBehaviour

/-- Appends relocations to the relocation table. -/
def pushRelocations (a : Assembler) (rs : List Relocation) : Assembler :=
  { a with relocationTable := a.relocationTable ++ rs }

/-- The relocations appended by a loop over `UST[symbol]->dependencies`: one per dependency, of
the type chosen from the dependency's operation. -/
def dependencyRelocations (deps : List (String × String)) (sectName : String) (offset : Nat)
    (typeOf : String → RelocationType) : List Relocation :=
  deps.map fun d => ⟨d.1, sectName, offset, typeOf d.2⟩

/-! ## `Assembler::evaluate` -/

/-- The relocation type with which `evaluate` starts. -/
def baseType (directive : String) : RelocationType :=
  if directive = ".byte" then .R_386_8 else .R_386_16

/-- The update of `relocationType` before the second term of an expression
(lines 781-785 and 917-921). -/
def secondType (directive operation : String) (relocationType : RelocationType) :
    RelocationType :=
  if operation = "-" ∧ directive = ".byte" then .R_386_SUB_8
  else if operation = "-" then .R_386_SUB_16
  else relocationType

/-- Type of the relocation for a dependency of a first (or only) term
(lines 723-726, 844-847, 889-892). -/
def firstDependencyType (relocationType : RelocationType) (op : String) : RelocationType :=
  if op = "-" then relocationType.next else relocationType

/-- Type of the relocation for a dependency of a second term (lines 794-800, 930-936). -/
def secondDependencyType (operation : String) (relocationType : RelocationType) (op : String) :
    RelocationType :=
  if operation = "+" ∧ op = "-" then relocationType.next
  else if operation = "-" ∧ op = "-" then relocationType.prev
  else relocationType

/-- The value after `value += v` (operation `"+"`) or `value -= v` (anything else) on an
`int16_t`. -/
def applyOperation (operation : String) (value v : Int) : Int :=
  if operation = "+" then toInt16 (value + v) else toInt16 (value - v)

/-- The branch of `evaluate` for a term that is a key of UST: the value of the symbol enters the
literal and every dependency yields a relocation at the location counter. -/
def evaluateUnresolved (a : Assembler) (symbol : String) (value : Int) (operation : String)
    (sectName : String) (typeOf : String → RelocationType) :
    Except AssemblingException (Assembler × Int) :=
  match find? symbol a.symbolTable, find? symbol a.UST with
  | some s, some u =>
    .ok (a.pushRelocations (dependencyRelocations u.dependencies sectName a.locationCounter typeOf),
         applyOperation operation value s.value)
  | _, _ => a.fail .undefinedBehaviour

/-- The branch of `evaluate` for a term that is not a key of UST.  `known` is the symbol-table
entry of the term (`nullptr` when it has none).  A LOCAL symbol adds its value and is relocated
against its section unless it is a CONSTANT; a GLOBAL symbol is relocated against its own name; an
unknown symbol is first added as an undefined GLOBAL EXTERN symbol. -/
def evaluateKnown (a : Assembler) (symbol : String) (known : Option Symbol) (value : Int)
    (operation : String) (sectName : String) (relocationType : RelocationType) :
    Except AssemblingException (Assembler × Int) :=
  match known with
  | some s =>
    if s.scope = .LOCAL then
      if s.type = .CONSTANT then .ok (a, applyOperation operation value s.value)
      else .ok (a.pushRelocations [⟨s.sect, sectName, a.locationCounter, relocationType⟩],
                applyOperation operation value s.value)
    else .ok (a.pushRelocations [⟨symbol, sectName, a.locationCounter, relocationType⟩], value)
  | none =>
    match a.addSymbol symbol UNDEFINED 0 .GLOBAL .EXTERN false with
    | .error e => .error e
    | .ok a1 =>
      .ok (a1.pushRelocations [⟨symbol, sectName, a1.locationCounter, relocationType⟩], value)

/-- One symbolic term of `evaluate`: the code repeats this block for the single symbol
(lines 719-746), the symbol after an immediate (787-823), the symbol before an immediate
(840-867) and both symbols of a two-symbol expression (885-916, 923-963). -/
def evaluateTerm (a : Assembler) (symbol : String) (known : Option Symbol) (value : Int)
    (operation : String) (sectName : String) (relocationType : RelocationType)
    (typeOf : String → RelocationType) : Except AssemblingException (Assembler × Int) :=
  if count symbol a.UST then evaluateUnresolved a symbol value operation sectName typeOf
  else evaluateKnown a symbol known value operation sectName relocationType

/-- The code of `case SYMBOL` under a first operand that is an immediate (lines 778-826). -/
def evaluateImmedSymbol (a : Assembler) (directive first operation second sectName : String) :
    Except AssemblingException (Assembler × Int) :=
  let relocationType := secondType directive operation (baseType directive)
  evaluateTerm a second (find? second a.symbolTable) (toInt16 (strtol first)) operation sectName
    relocationType (secondDependencyType operation relocationType)

/-- The condition under which a two-symbol expression is folded (lines 875-880). -/
def foldable (a : Assembler) (first operation second : String) : Option (Symbol × Symbol) :=
  match find? first a.symbolTable, find? second a.symbolTable with
  | some symbol1, some symbol2 =>
    if ¬ count first a.UST ∧ ¬ count second a.UST ∧ symbol1.sect = symbol2.sect ∧ operation = "-"
    then some (symbol1, symbol2) else none
  | _, _ => none

/-- The `switch` of `evaluate` (lines 705-983): the literal value of the expression, with the
relocations it needs appended and unknown symbols added to the symbol table. -/
def evaluateValue (U : Utils) (a : Assembler) (directive expression sectName : String) :
    Except AssemblingException (Assembler × Int) :=
  let relocationType := baseType directive
  match U.getTokenType expression with
  | (.OPERAND_IMMED, _) => .ok (a, toInt16 (strtol expression))
  | (.SYMBOL, _) =>
    evaluateTerm a expression (find? expression a.symbolTable) 0 "+" sectName relocationType
      (firstDependencyType relocationType)
  | (.EXPRESSION, ms) =>
    let first := group ms 1
    let operation := group ms 2
    let second := group ms 3
    match (U.getTokenType first).1, (U.getTokenType second).1 with
    | .OPERAND_IMMED, .OPERAND_IMMED =>
      -- the sum (or, by `value = operand1 = operand2`, the second operand) is assigned to `value`,
      -- but the case has no `break`: control falls through into `case SYMBOL`, which overwrites it
      if operation = "+" ∨ operation = "-" then
        evaluateImmedSymbol a directive first operation second sectName
      else a.fail .unexpectedError
    | .OPERAND_IMMED, .SYMBOL => evaluateImmedSymbol a directive first operation second sectName
    | .OPERAND_IMMED, _ => a.fail .invalidOperandType
    | .SYMBOL, .OPERAND_IMMED =>
      let value := toInt16 (strtol second)
      let value := if operation = "-" then toInt16 (-value - 1) else value
      evaluateTerm a first (find? first a.symbolTable) value "+" sectName relocationType
        (firstDependencyType relocationType)
    | .SYMBOL, .SYMBOL =>
      match foldable a first operation second with
      | some (symbol1, symbol2) => .ok (a, toInt16 (symbol1.value - symbol2.value))
      | none =>
        let symbol1 := find? first a.symbolTable
        let symbol2 := find? second a.symbolTable
        match evaluateTerm a first symbol1 0 "+" sectName relocationType
            (firstDependencyType relocationType) with
        | .error e => .error e
        | .ok (a1, value) =>
          let relocationType2 := secondType directive operation relocationType
          evaluateTerm a1 second symbol2 value operation sectName relocationType2
            (secondDependencyType operation relocationType2)
    | .SYMBOL, _ => a.fail .invalidOperandType
    | _, _ => a.fail .invalidOperandType
  | _ => a.fail .invalidExpression

/-- The call `section->write(locationCounter, bytes)` on the section stored under `key`. -/
def writeSection (a : Assembler) (key : String) (sec : Section) (bs : List Nat) : Assembler :=
  { a with sectionTable := update key (sec.write a.locationCounter bs) a.sectionTable }

/-- The method `Assembler::evaluate`; `sect` is the key of the section pointed to. -/
def evaluate (U : Utils) (a : Assembler) (directive expression sect : String) :
    Except AssemblingException Assembler :=
  match find? sect a.sectionTable with
  | none => a.fail .undefinedBehaviour
  | some sec =>
    match evaluateValue U a directive expression sec.name with
    | .error e => .error e
    | .ok (a1, value) =>
      let lower := lowerByte value
      let higher := higherByte value
      if directive = ".byte" then
        if higher > 0 then a1.fail .byteOverflow
        else
          let a2 := a1.writeSection sect sec [lower]
          .ok { a2 with locationCounter := (a2.locationCounter + BYTE) % 65536 }
      else if directive = ".word" then
        let a2 := a1.writeSection sect sec [lower, higher]
        .ok { a2 with locationCounter := (a2.locationCounter + WORD) % 65536 }
      else a1.fail .unexpectedError

/-! ## `Assembler::evaluateEQU` -/

/-- The call `UST.insert({symbol, new UnresolvedSymbol(symbol, section)})`; an existing key is
kept. -/
def insertUnresolved (a : Assembler) (symbol sect : String) : Assembler :=
  if count symbol a.UST then a
  else { a with UST := a.UST ++ [(symbol, ⟨symbol, [], sect⟩)] }

/-- The two-way statement that ends every alias case of `evaluateEQU`:
`if (UST.count(term)) UST[symbol]->dependencies = UST[term]->dependencies;`
`else UST[symbol]->dependencies.push_back({term, operation});`
(the `push_back` is skipped for a constant term of a two-symbol expression). -/
def inheritOrPush (a : Assembler) (symbol term operation : String) (constant : Bool) :
    Except AssemblingException Assembler :=
  match find? symbol a.UST with
  | none => a.fail .undefinedBehaviour
  | some u =>
    match find? term a.UST with
    | some t => .ok { a with UST := update symbol { u with dependencies := t.dependencies } a.UST }
    | none =>
      if constant then .ok a
      else
        let entry := { u with dependencies := u.dependencies ++ [(term, operation)] }
        .ok { a with UST := update symbol entry a.UST }

/-- The analysis of one symbolic term of `.equ` that precedes the definition of the alias
(lines 1024-1043, 1088-1114, 1142-1161).  The result is the state, the value, the `defined` flag
and the name under which the term is recorded (its section for a LOCAL symbol); `none` stands
for the early exit that defines `symbol` as a CONSTANT. -/
def equTerm (a : Assembler) (symbol term sectName : String) (value : Int) (operation : String) :
    Except AssemblingException (Assembler × Option (Int × Bool × String)) :=
  if count term a.UST then
    match find? term a.symbolTable with
    | none => a.fail .undefinedBehaviour
    | some s => .ok (a, some (applyOperation operation value s.value, s.defined, term))
  else
    match find? term a.symbolTable with
    | some s =>
      if s.scope = .LOCAL then
        if s.type = .CONSTANT then
          match a.addSymbol symbol sectName (applyOperation operation value s.value) .LOCAL
              .CONSTANT true with
          | .error e => .error e
          | .ok a1 => .ok (a1, none)
        else .ok (a, some (applyOperation operation value s.value, true, s.sect))
      else .ok (a, some (value, false, term))
    | none =>
      match a.addSymbol term UNDEFINED 0 .GLOBAL .EXTERN false with
      | .error e => .error e
      | .ok a1 => .ok (a1, some (value, false, term))

/-- A one-symbol case of `evaluateEQU`: the term is analysed, then the alias is added to the
symbol table and to UST with the dependencies of the term. -/
def equAlias (a : Assembler) (symbol term sectName sect : String) (value : Int)
    (operation edge : String) : Except AssemblingException Assembler :=
  match equTerm a symbol term sectName value operation with
  | .error e => .error e
  | .ok (a1, none) => .ok a1
  | .ok (a1, some (value1, defined, name)) =>
    match a1.addSymbol symbol sectName value1 .LOCAL .ALIAS defined with
    | .error e => .error e
    | .ok a2 => inheritOrPush (a2.insertUnresolved symbol sect) symbol name edge false

/-- The analysis of the first symbol of a two-symbol `.equ` expression (lines 1197-1214):
state, value, `defined`, `constant1` and the name recorded for the term. -/
def equFirst (a : Assembler) (first : String) (symbol1 : Option Symbol) :
    Except AssemblingException (Assembler × Int × Bool × Bool × String) :=
  match symbol1 with
  | some s =>
    if count first a.UST then .ok (a, applyOperation "+" 0 s.value, s.defined, false, first)
    else if s.scope = .LOCAL then
      .ok (a, applyOperation "+" 0 s.value, true, decide (s.type = .CONSTANT), s.sect)
    else .ok (a, 0, false, false, first)
  | none =>
    match a.addSymbol first UNDEFINED 0 .GLOBAL .EXTERN false with
    | .error e => .error e
    | .ok a1 => .ok (a1, 0, false, false, first)

/-- The analysis of the second symbol of a two-symbol `.equ` expression (lines 1216-1240). -/
def equSecond (a : Assembler) (second operation : String) (symbol2 : Option Symbol)
    (value : Int) (defined : Bool) :
    Except AssemblingException (Assembler × Int × Bool × Bool × String) :=
  match symbol2 with
  | some s =>
    if count second a.UST then
      .ok (a, applyOperation operation value s.value, defined && s.defined, false, second)
    else if s.scope = .LOCAL then
      .ok (a, applyOperation operation value s.value, defined, decide (s.type = .CONSTANT),
           s.sect)
    else .ok (a, value, defined, false, second)
  | none =>
    match a.addSymbol second UNDEFINED 0 .GLOBAL .EXTERN false with
    | .error e => .error e
    | .ok a1 => .ok (a1, value, false, false, second)

/-- The two-symbol case of `evaluateEQU` when the expression is not folded
(lines 1193-1256). -/
def equTwoSymbols (a : Assembler) (symbol first operation second sectName sect : String) :
    Except AssemblingException Assembler :=
  let symbol1 := find? first a.symbolTable
  let symbol2 := find? second a.symbolTable
  match equFirst a first symbol1 with
  | .error e => .error e
  | .ok (a1, value1, defined1, constant1, name1) =>
    match equSecond a1 second operation symbol2 value1 defined1 with
    | .error e => .error e
    | .ok (a2, value2, defined2, constant2, name2) =>
      match a2.addSymbol symbol sectName value2 .LOCAL .ALIAS defined2 with
      | .error e => .error e
      | .ok a3 =>
        match inheritOrPush (a3.insertUnresolved symbol sect) symbol name1 "+" constant1 with
        | .error e => .error e
        | .ok a4 => inheritOrPush a4 symbol name2 operation constant2

/-- The method `Assembler::evaluateEQU`; `sect` is the key of the section pointed to. -/
def evaluateEQU (U : Utils) (a : Assembler) (symbol expression sect : String) :
    Except AssemblingException Assembler :=
  match find? sect a.sectionTable with
  | none => a.fail .undefinedBehaviour
  | some sec =>
    match U.getTokenType expression with
    | (.OPERAND_IMMED, _) =>
      a.addSymbol symbol sec.name (toInt16 (strtol expression)) .LOCAL .CONSTANT true
    | (.SYMBOL, _) => equAlias a symbol expression sec.name sect 0 "+" "+"
    | (.EXPRESSION, ms) =>
      let first := group ms 1
      let operation := group ms 2
      let second := group ms 3
      match (U.getTokenType first).1, (U.getTokenType second).1 with
      | .OPERAND_IMMED, .OPERAND_IMMED =>
        a.addSymbol symbol sec.name
          (applyOperation operation (toInt16 (strtol first)) (toInt16 (strtol second)))
          .LOCAL .CONSTANT true
      | .OPERAND_IMMED, .SYMBOL =>
        equAlias a symbol second sec.name sect (toInt16 (strtol first)) operation operation
      | .OPERAND_IMMED, _ => a.fail .invalidOperandType
      | .SYMBOL, .OPERAND_IMMED =>
        let value := toInt16 (strtol second)
        let value := if operation = "-" then toInt16 (-value - 1) else value
        equAlias a symbol first sec.name sect value "+" "+"
      | .SYMBOL, .SYMBOL =>
        match foldable a first operation second with
        | some (symbol1, symbol2) =>
          a.addSymbol symbol sec.name (toInt16 (symbol1.value - symbol2.value)) .LOCAL .CONSTANT
            true
        | none => equTwoSymbols a symbol first operation second sec.name sect
      | .SYMBOL, _ => a.fail .invalidOperandType
      | _, _ => a.fail .invalidOperandType
    | _ => a.fail .invalidExpression

/-! ## `Assembler::generateInstructionCode` -/

/-- The bytes pushed for a 16-bit `value`: the lower byte alone for a byte-sized operand, which
must have a zero higher byte, else lower and higher byte. -/
def payload (a : Assembler) (value : Int) (byteSized : Bool) :
    Except AssemblingException (List Nat) :=
  if byteSized then
    if higherByte value > 0 then a.fail .byteOperandExpected else .ok [lowerByte value]
  else .ok [lowerByte value, higherByte value]

/-- The plain relocation type of an operand payload. -/
def plainType (byteSized : Bool) : RelocationType :=
  if byteSized then .R_386_8 else .R_386_16

/-- The relocation type for a dependency of a UST symbol used as operand payload. -/
def operandDependencyType (byteSized : Bool) (op : String) : RelocationType :=
  if op = "+" then (if byteSized then .R_386_8 else .R_386_16)
  else (if byteSized then .R_386_SUB_8 else .R_386_SUB_16)

/-- The payload of an operand that is a symbol (types `IMMED_SYMBOL`, `DISPL_SYMBOL`,
`MEMORY_SYMBOL`; lines 1312-1389, 1451-1501, 1577-1627): the bytes of the value known for the
symbol, and the relocations at `offset`.  Only `IMMED_SYMBOL` can be byte-sized. -/
def symbolPayload (a : Assembler) (symbol : String) (byteSized : Bool) (offset : Nat)
    (sectName : String) : Except AssemblingException (Assembler × List Nat) :=
  if count symbol a.UST then
    match find? symbol a.symbolTable, find? symbol a.UST with
    | some s, some u =>
      match payload a s.value byteSized with
      | .error e => .error e
      | .ok bs =>
        .ok (a.pushRelocations
              (dependencyRelocations u.dependencies sectName offset
                (operandDependencyType byteSized)), bs)
    | _, _ => a.fail .undefinedBehaviour
  else
    match find? symbol a.symbolTable with
    | some s =>
      if s.scope = .LOCAL then
        match payload a s.value byteSized with
        | .error e => .error e
        | .ok bs =>
          if s.type = .CONSTANT then .ok (a, bs)
          else .ok (a.pushRelocations [⟨s.sect, sectName, offset, plainType byteSized⟩], bs)
      else
        match payload a 0 byteSized with
        | .error e => .error e
        | .ok bs => .ok (a.pushRelocations [⟨symbol, sectName, offset, plainType byteSized⟩], bs)
    | none =>
      match a.addSymbol symbol UNDEFINED 0 .GLOBAL .EXTERN false with
      | .error e => .error e
      | .ok a1 =>
        match payload a1 0 byteSized with
        | .error e => .error e
        | .ok bs => .ok (a1.pushRelocations [⟨symbol, sectName, offset, plainType byteSized⟩], bs)

/-- The relocations of a PC-relative operand whose symbol is in UST (lines 1516-1535): the first
dependency gets a PC-relative type, the others the plain 16-bit types. -/
def pcDependencyRelocations (deps : List (String × String)) (sectName : String) (offset : Nat) :
    List Relocation :=
  match deps with
  | [] => []
  | d :: rest =>
    ⟨d.1, sectName, offset, if d.2 = "+" then .R_386_PC16 else .R_386_SUB_PC16⟩ ::
      dependencyRelocations rest sectName offset (operandDependencyType false)

/-- The payload of a PC-relative operand (lines 1502-1559); `offset` is the `int16_t` offset of
the payload and `size` the size of the instruction. -/
def pcRelativePayload (a : Assembler) (symbol : String) (offset : Int) (size : Nat)
    (sectName : String) : Except AssemblingException (Assembler × List Nat) :=
  let value := toInt16 (offset - ((a.locationCounter : Int) + size))
  if count symbol a.UST then
    match find? symbol a.symbolTable, find? symbol a.UST with
    | some s, some u =>
      let value := toInt16 (value + s.value)
      .ok (a.pushRelocations (pcDependencyRelocations u.dependencies sectName (toUInt16 offset)),
           [lowerByte value, higherByte value])
    | _, _ => a.fail .undefinedBehaviour
  else
    match find? symbol a.symbolTable with
    | some s =>
      let value := if s.scope = .LOCAL then toInt16 (value + s.value) else value
      let target := if s.scope = .LOCAL then s.sect else symbol
      match find? target a.symbolTable with
      | none => a.fail .undefinedBehaviour
      | some t =>
        if t.type = .CONSTANT then a.fail .pcRelativeOnConstant
        else
          .ok (a.pushRelocations [⟨target, sectName, toUInt16 offset, .R_386_PC16⟩],
               [lowerByte value, higherByte value])
    | none =>
      match a.addSymbol symbol UNDEFINED 0 .GLOBAL .EXTERN false with
      | .error e => .error e
      | .ok a1 =>
        .ok (a1.pushRelocations [⟨symbol, sectName, toUInt16 offset, .R_386_PC16⟩],
             [lowerByte value, higherByte value])

/-- The `uint8_t` register number `value[1] - '0'`. -/
def registerDigit (value : String) : Nat :=
  toUInt16 (((value.data.getD 1 (Char.ofNat 0)).toNat : Int) - 48) % 256

/-- The descriptor byte `addressing << ADDR_OFFSET`, with `registerNumber << REGS_OFFSET` and
the high-half bit or-ed in. -/
def descriptor (addressing : AddressingMode) (registerNumber high : Nat) : Nat :=
  (((addressing.code <<< ADDR_OFFSET) % 256) ||| (registerNumber <<< REGS_OFFSET) ||| high) % 256

/-- The bytes and relocations for one operand (lines 1289-1636 for the destination and the
textually equal lines 1645-1995 for the source); `offset` is the `int16_t` offset of the
payload. -/
def operandCode (a : Assembler) (instruction : Instruction) (operand : Operand) (offset : Int)
    (sectName : String) : Except AssemblingException (Assembler × List Nat) :=
  let byteSized := decide (instruction.operandSize = BYTE)
  match operand.addressing with
  | .IMMED =>
    let byte := descriptor .IMMED 0 0
    match operand.type with
    | .IMMED_VALUE =>
      match payload a (toInt16 (strtol operand.value)) byteSized with
      | .error e => .error e
      | .ok bs => .ok (a, byte :: bs)
    | .IMMED_SYMBOL =>
      match symbolPayload a operand.value byteSized (toUInt16 offset) sectName with
      | .error e => .error e
      | .ok (a1, bs) => .ok (a1, byte :: bs)
    | _ => a.fail .unexpectedError
  | .REG_DIR =>
    let high := if instruction.operandSize = BYTE ∧ operand.displacement = "h" then 1 else 0
    match operand.type with
    | .REGISTER => .ok (a, [descriptor .REG_DIR (registerDigit operand.value) high])
    | .PSW => .ok (a, [descriptor .REG_DIR PSW_CODE high])
    | _ => a.fail .unexpectedError
  | .REG_IND =>
    match operand.type with
    | .REGISTER => .ok (a, [descriptor .REG_IND (registerDigit operand.value) 0])
    | .PSW => .ok (a, [descriptor .REG_IND PSW_CODE 0])
    | _ => a.fail .unexpectedError
  | .MEMORY =>
    let byte := descriptor .MEMORY 0 0
    match operand.type with
    | .MEMORY_VALUE =>
      .ok (a, [byte, lowerByte (strtol operand.value), higherByte (strtol operand.value)])
    | .MEMORY_SYMBOL =>
      match symbolPayload a operand.value false (toUInt16 offset) sectName with
      | .error e => .error e
      | .ok (a1, bs) => .ok (a1, byte :: bs)
    | _ => a.fail .unexpectedError
  | addressing =>
    -- `case REG_IND_8:` and `case REG_IND_16:` share their code
    let registerNumber := if operand.value = "psw" then PSW_CODE else registerDigit operand.value
    let byte := descriptor addressing registerNumber 0
    match operand.type with
    | .DISPL_VALUE =>
      let displacement := toInt16 (strtol operand.displacement)
      if addressing = .REG_IND_8 then .ok (a, [byte, lowerByte displacement])
      else .ok (a, [byte, lowerByte displacement, higherByte displacement])
    | .DISPL_SYMBOL =>
      match symbolPayload a operand.displacement false (toUInt16 offset) sectName with
      | .error e => .error e
      | .ok (a1, bs) => .ok (a1, byte :: bs)
    | .PCRELATIVE =>
      match pcRelativePayload a operand.displacement offset instruction.size sectName with
      | .error e => .error e
      | .ok (a1, bs) => .ok (a1, byte :: bs)
    | _ => a.fail .unexpectedError

/-- The vector `bytes` that `generateInstructionCode` builds (lines 1279-1996), with the
relocations appended and unknown symbols added on the way. -/
def instructionBytes (a : Assembler) (instruction : Instruction) (sectName : String) :
    Except AssemblingException (Assembler × List Nat) :=
  let byte := ((instruction.code <<< CODE_OFFSET) |||
    ((instruction.operandSize - 1) <<< SIZE_OFFSET)) % 256
  let destination : Except AssemblingException (Assembler × List Nat) :=
    match instruction.destination with
    | some d => operandCode a instruction d (toInt16 (a.locationCounter + BYTE * 2)) sectName
    | none => .ok (a, [])
  match destination with
  | .error e => .error e
  | .ok (a1, bs1) =>
    match instruction.source with
    | none => .ok (a1, byte :: bs1)
    | some s =>
      let size := match instruction.destination with
        | some d => d.size
        | none => 0
      match operandCode a1 instruction s (toInt16 (a1.locationCounter + BYTE * 2 + size))
          sectName with
      | .error e => .error e
      | .ok (a2, bs2) => .ok (a2, byte :: (bs1 ++ bs2))

/-- The method `Assembler::generateInstructionCode`; `sect` is the key of the section pointed
to. -/
def generateInstructionCode (a : Assembler) (instruction : Instruction) (sect : String) :
    Except AssemblingException Assembler :=
  match find? sect a.sectionTable with
  | none => a.fail .undefinedBehaviour
  | some sec =>
    match instructionBytes a instruction sec.name with
    | .error e => .error e
    | .ok (a1, bs) => .ok (a1.writeSection sect sec bs)

/-! ## `Assembler::firstPass` -/

/-- The local variables `labelDefined` and `currentSection` of the pass loops, next to the
assembler state; `currentSection` holds the key of the section pointed to. -/
structure Pass where
  asm : Assembler
  labelDefined : Bool
  currentSection : Option String
  deriving DecidableEq, Repr

/-- The argument loop of `.global`/`.extern` in the first pass (lines 132-151). -/
def firstPassGlobalExtern (U : Utils) (directive : String) :
    List String → Assembler → Except AssemblingException Assembler
  | [], a => .ok a
  | currentToken :: queue, a =>
    if (U.getTokenType currentToken).1 ≠ .SYMBOL then a.fail .globalExternExpectSymbol
    else
      match find? currentToken a.symbolTable with
      | some s =>
        if s.defined then
          if directive = ".extern" then a.fail .externButDefined
          else
            let table := update currentToken { s with scope := .GLOBAL } a.symbolTable
            firstPassGlobalExtern U directive queue { a with symbolTable := table }
        else
          match a.addSymbol currentToken UNDEFINED 0 .GLOBAL .EXTERN false with
          | .error e => .error e
          | .ok a1 => firstPassGlobalExtern U directive queue a1
      | none =>
        match a.addSymbol currentToken UNDEFINED 0 .GLOBAL .EXTERN false with
        | .error e => .error e
        | .ok a1 => firstPassGlobalExtern U directive queue a1

/-- The flag string `string flags(10, '0')`. -/
def noFlags : List Char := List.replicate 10 '0'

/-- The default flags of a section created without explicit flags (lines 197-213). -/
def defaultFlags (name : String) : List Char :=
  if name = ".text" then (noFlags.set X '1').set A '1'
  else if name = ".data" then (noFlags.set W '1').set A '1'
  else if name = ".bss" then noFlags.set W '1'
  else if name = ".rodata" then noFlags.set A '1'
  else ((noFlags.set X '1').set W '1').set A '1'

/-- The name, the flags and the remaining queue of a section directive (lines 165-213);
`name` is `matches[0]` of the directive token. -/
def sectionHeader (U : Utils) (a : Assembler) (name : String) (queue : List String) :
    Except AssemblingException (String × List Char × List String) :=
  if name = ".section" then
    match queue with
    | [] => a.fail .sectionNameMissing
    | nameToken :: queue1 =>
      match U.getTokenType nameToken with
      | (type, ms) =>
        if type ≠ .SYMBOL ∧ type ≠ .SECTION ∧ type ≠ .SECTION_NAME then
          a.fail .illegalSectionName
        else
          match queue1 with
          | [] => .ok (group ms 0, defaultFlags (group ms 0), [])
          | flagsToken :: queue2 =>
            match U.getTokenType flagsToken with
            | (.SECTION_FLAGS, fs) => .ok (group ms 0, U.setFlags noFlags (group fs 0), queue2)
            | _ => a.fail .illegalSectionFlags
  else .ok (name, defaultFlags name, queue)

/-- The assignment `currentSection->size = locationCounter`. -/
def closeSection (a : Assembler) (currentSection : Option String) : Assembler :=
  match currentSection with
  | none => a
  | some key =>
    match find? key a.sectionTable with
    | none => a
    | some sec =>
      { a with sectionTable := update key { sec with size := a.locationCounter } a.sectionTable }

/-- The `case SECTION` of the first pass (lines 159-222): state, new current section and the
remaining queue. -/
def firstPassSection (U : Utils) (a : Assembler) (currentSection : Option String)
    (name : String) (queue : List String) :
    Except AssemblingException (Assembler × Option String × List String) :=
  let a0 := { closeSection a currentSection with locationCounter := 0 }
  match sectionHeader U a0 name queue with
  | .error e => .error e
  | .ok (name1, flags, queue1) =>
    match a0.addSymbol name1 name1 0 .LOCAL .SECTION true with
    | .error e => .error e
    | .ok a1 =>
      match find? name1 a1.symbolTable with
      | none => a1.fail .undefinedBehaviour
      | some s =>
        let sec : Section := ⟨name1, flags, 0, [], a1.sectionTable.length, s.symbolTableEntry⟩
        match a1.addSection sec with
        | .error e => .error e
        | .ok a2 => .ok (a2, some name1, queue1)

/-- The location counter after `.align` with `(int)pow(2, alignment)` (lines 267-270 and
501-506); an exponent outside `0..30` leaves the range of `int` or divides by zero. -/
def alignCounter (locationCounter : Nat) (exponent : Int) : Option Nat :=
  if 0 ≤ exponent ∧ exponent ≤ 30 then
    let alignment : Nat := 2 ^ exponent.toNat
    if locationCounter % alignment = 0 then some locationCounter
    else some ((locationCounter / alignment * alignment + alignment) % 65536)
  else none

/-- The counting loop of `.byte`/`.word` in the first pass (lines 308-318). -/
def countData (U : Utils) : List String → Bool → Nat → Nat
  | [], _, bytes => bytes
  | token :: queue, symbolPreceds, bytes =>
    if U.isExpression token then
      if symbolPreceds then countData U queue true (bytes + 1)
      else countData U queue true bytes
    else countData U queue false bytes

/-- The `case DIRECTIVE` of the first pass (lines 223-328): state and remaining queue. -/
def firstPassDirective (U : Utils) (a : Assembler) (currentSection : Option String)
    (directive : String) (queue : List String) :
    Except AssemblingException (Assembler × List String) :=
  match currentSection with
  | none => a.fail .directiveOutsideSection
  | some key =>
    if directive = ".equ" then
      match queue with
      | [] => a.fail .equExpectsSymbolAndExpression
      | symbol :: queue1 =>
        if (U.getTokenType symbol).1 ≠ .SYMBOL then a.fail .equExpectsSymbolAndExpression
        else
          match queue1 with
          | [] => a.fail .equMissingExpression
          | _ :: _ =>
            match evaluateEQU U a symbol (String.join queue1) key with
            | .error e => .error e
            | .ok a1 => .ok (a1, [])
    else if directive = ".align" then
      match queue with
      | [] =>
        match alignCounter a.locationCounter 1 with
        | none => a.fail .undefinedBehaviour
        | some lc => .ok ({ a with locationCounter := lc }, [])
      | token :: queue1 =>
        match U.getTokenType token with
        | (.OPERAND_IMMED, ms) =>
          match alignCounter a.locationCounter (toInt32 (strtol (group ms 0))) with
          | none => a.fail .undefinedBehaviour
          | some lc => .ok ({ a with locationCounter := lc }, queue1)
        | _ => a.fail .alignNeedsImmediate
    else if directive = ".skip" then
      match queue with
      | [] => .ok ({ a with locationCounter := toUInt16 (a.locationCounter + 1) }, [])
      | token :: queue1 =>
        match U.getTokenType token with
        | (.OPERAND_IMMED, ms) =>
          let bytes := toInt32 (strtol (group ms 0))
          let a1 := { a with locationCounter := toUInt16 (a.locationCounter + bytes) }
          match queue1 with
          | [] => .ok (a1, [])
          | fill :: queue2 =>
            if (U.getTokenType fill).1 ≠ .OPERAND_IMMED then a1.fail .illegalFillValue
            else .ok (a1, queue2)
        | _ => a.fail .skipNeedsImmediate
    else
      match find? key a.sectionTable with
      | none => a.fail .undefinedBehaviour
      | some sec =>
        if sec.flags.getD A '0' ≠ '1' then a.fail .memoryInitInBSS
        else
          match queue with
          | [] => a.fail .missingInitialValues
          | _ :: _ =>
            let bytes := countData U queue true 0
            if directive = ".byte" then
              .ok ({ a with locationCounter := (a.locationCounter + bytes * BYTE) % 65536 }, [])
            else if directive = ".word" then
              .ok ({ a with locationCounter := (a.locationCounter + bytes * WORD) % 65536 }, [])
            else a.fail .unexpectedError

/-- The `case INSTRUCTION` of the first pass (lines 329-339). -/
def firstPassInstruction (U : Utils) (a : Assembler) (currentSection : Option String)
    (ms : List String) (queue : List String) :
    Except AssemblingException (Assembler × List String) :=
  let executable : Bool :=
    match currentSection with
    | none => false
    | some key =>
      match find? key a.sectionTable with
      | none => false
      | some sec => decide (sec.flags.getD X '0' = '1')
  if ¬ executable then a.fail .instructionOutsideExecutableSection
  else
    match U.extract queue ms a.line with
    | .error e => .error e
    | .ok (instruction, queue1) =>
      .ok ({ a with locationCounter := (a.locationCounter + instruction.size) % 65536,
                    instructions := a.instructions ++ [instruction] }, queue1)

/-- The `switch` of the first pass with the check for trailing tokens (lines 123-346), for a
token of tag `type` with match groups `ms`. -/
def firstPassSwitch (U : Utils) (p : Pass) (currentToken : String) (type : TokenType)
    (ms : List String) (queue : List String) : Except AssemblingException Pass :=
  let a := p.asm
  let step : Except AssemblingException (Assembler × Option String × List String) :=
    match type with
    | .GLOBAL_EXTERN =>
      match queue with
      | [] => a.fail .directiveWithoutArguments
      | _ :: _ =>
        match firstPassGlobalExtern U currentToken queue a with
        | .error e => .error e
        | .ok a1 => .ok (a1, p.currentSection, [])
    | .LABEL => a.fail .doubleLabel
    | .SECTION => firstPassSection U a p.currentSection (group ms 0) queue
    | .DIRECTIVE =>
      match firstPassDirective U a p.currentSection (group ms 0) queue with
      | .error e => .error e
      | .ok (a1, queue1) => .ok (a1, p.currentSection, queue1)
    | .INSTRUCTION =>
      match firstPassInstruction U a p.currentSection ms queue with
      | .error e => .error e
      | .ok (a1, queue1) => .ok (a1, p.currentSection, queue1)
    | _ => a.fail .invalidToken
  match step with
  | .error e => .error e
  | .ok (a1, currentSection, []) => .ok ⟨a1, false, currentSection⟩
  | .ok (a1, _, _ :: _) => a1.fail .trailingTokens

/-- One iteration of the loop of the first pass (lines 92-347) on the tokens of a line. -/
def firstPassLine (U : Utils) (p : Pass) (tokens : List String) :
    Except AssemblingException Pass :=
  let a := { p.asm with line := p.asm.line + 1 }
  match tokens with
  | [] => a.fail .undefinedBehaviour
  | currentToken :: queue =>
    match U.getTokenType currentToken with
    | (.LABEL, ms) =>
      if p.labelDefined then a.fail .doubleLabel
      else
        match p.currentSection with
        | none => a.fail .labelOutsideSection
        | some key =>
          match find? key a.sectionTable with
          | none => a.fail .undefinedBehaviour
          | some sec =>
            match a.addSymbol (group ms 1) sec.name (toInt16 a.locationCounter) .LOCAL .LABEL
                true with
            | .error e => .error e
            | .ok a1 =>
              match queue with
              | [] => .ok ⟨a1, true, p.currentSection⟩
              | currentToken1 :: queue1 =>
                match U.getTokenType currentToken1 with
                | (type, ms1) =>
                  firstPassSwitch U ⟨a1, false, p.currentSection⟩ currentToken1 type ms1 queue1
    | (type, ms) => firstPassSwitch U ⟨a, false, p.currentSection⟩ currentToken type ms queue

/-- The loop of a pass over the token lines. -/
def passLoop (step : Pass → List String → Except AssemblingException Pass) :
    List (List String) → Pass → Except AssemblingException Pass
  | [], p => .ok p
  | tokens :: rest, p =>
    match step p tokens with
    | .error e => .error e
    | .ok p1 => passLoop step rest p1

/-- The method `Assembler::firstPass`. -/
def firstPass (U : Utils) (a : Assembler) : Except AssemblingException Assembler :=
  match passLoop (firstPassLine U) a.assembly ⟨{ a with line := 0 }, false, none⟩ with
  | .error e => .error e
  | .ok p => .ok (closeSection p.asm p.currentSection)

/-! ## `Assembler::hasCycle`, `Assembler::cycle` and `Assembler::resolveSymbols` -/

/-- The two `unordered_set`s that `cycle` updates through its reference parameters. -/
structure Marks where
  visited : List String
  recursionStack : List String
  deriving DecidableEq, Repr

/-- The loop of `cycle` over the dependencies of a symbol (lines 401-406); `call` is the
recursive call of `cycle`. -/
def cycleLoop (call : String → Marks → Option (Bool × Marks)) :
    List (String × String) → Marks → Option (Bool × Marks)
  | [], m => some (false, m)
  | dependency :: rest, m =>
    if dependency.1 ∉ m.visited then
      match call dependency.1 m with
      | none => none
      | some (true, m1) => some (true, m1)
      | some (false, m1) =>
        if dependency.1 ∈ m1.recursionStack then some (true, m1) else cycleLoop call rest m1
    else if dependency.1 ∈ m.recursionStack then some (true, m)
    else cycleLoop call rest m

/-- The method `Assembler::cycle`; the recursion depth is bounded by `fuel` and `none` reports
that the bound was hit. -/
def cycle (a : Assembler) : Nat → String → Marks → Option (Bool × Marks)
  | 0, _, _ => none
  | fuel + 1, symbol, m =>
    match find? symbol a.UST with
    | none => some (false, m)
    | some u =>
      if symbol ∉ m.visited then
        match cycleLoop (cycle a fuel) u.dependencies
            ⟨symbol :: m.visited, symbol :: m.recursionStack⟩ with
        | none => none
        | some (true, m1) => some (true, m1)
        | some (false, m1) =>
          some (false, { m1 with recursionStack := m1.recursionStack.filter (· ≠ symbol) })
      else some (false, { m with recursionStack := m.recursionStack.filter (· ≠ symbol) })

/-- The loop of `hasCycle` over the entries of the table passed to it (lines 383-385). -/
def hasCycleLoop (a : Assembler) (fuel : Nat) :
    List (String × UnresolvedSymbol) → Marks → Option Bool
  | [], _ => some false
  | entry :: rest, m =>
    match cycle a fuel entry.1 m with
    | none => none
    | some (true, _) => some true
    | some (false, m1) => hasCycleLoop a fuel rest m1

/-- The method `Assembler::hasCycle`; the recursion of `cycle` marks a new key of UST at every
level, so the number of entries bounds its depth. -/
def hasCycle (a : Assembler) (UST : List (String × UnresolvedSymbol)) : Option Bool :=
  hasCycleLoop a (a.UST.length + 1) UST ⟨[], []⟩

/-- The inner loop of `resolveSymbols` over the dependencies of the entry `name`
(lines 361-372): the state, the rewritten dependencies and the flag `defined`. -/
def resolveDependencies (name : String) :
    List (String × String) → Assembler →
      Except AssemblingException (Assembler × List (String × String) × Bool)
  | [], a => .ok (a, [], true)
  | relocation :: rest, a =>
    match find? relocation.1 a.symbolTable with
    | none => a.fail .undefinedBehaviour
    | some d =>
      if d.defined then
        match find? name a.symbolTable with
        | none => a.fail .undefinedBehaviour
        | some e =>
          let e1 := { e with value := applyOperation relocation.2 e.value d.value }
          match resolveDependencies name rest { a with symbolTable := update name e1 a.symbolTable } with
          | .error err => .error err
          | .ok (a1, rest1, defined) => .ok (a1, (d.sect, relocation.2) :: rest1, defined)
      else
        match resolveDependencies name rest a with
        | .error err => .error err
        | .ok (a1, rest1, _) => .ok (a1, relocation :: rest1, false)

/-- The body of the loop of `resolveSymbols` for the UST entry `name` (lines 359-374). -/
def resolveEntry (a : Assembler) (name : String) : Except AssemblingException Assembler :=
  match find? name a.UST with
  | none => a.fail .undefinedBehaviour
  | some u =>
    match resolveDependencies name u.dependencies a with
    | .error err => .error err
    | .ok (a1, dependencies, defined) =>
      match find? name a1.symbolTable with
      | none => a1.fail .undefinedBehaviour
      | some e =>
        .ok { a1 with
              symbolTable := update name { e with defined := defined } a1.symbolTable,
              UST := update name { u with dependencies := dependencies } a1.UST }

/-- The loop of `resolveSymbols` over the entries of UST, visited in the given order. -/
def resolveLoop : List String → Assembler → Except AssemblingException Assembler
  | [], a => .ok a
  | name :: rest, a =>
    match resolveEntry a name with
    | .error err => .error err
    | .ok a1 => resolveLoop rest a1

/-- The method `Assembler::resolveSymbols`.  The iteration order of an `unordered_map` is
unspecified: `order` lists the keys of UST in the order in which the loop visits them. -/
def resolveSymbols (a : Assembler) (order : List String) : Except AssemblingException Assembler :=
  match a.hasCycle a.UST with
  | none => a.fail .undefinedBehaviour
  | some true => a.fail .cyclicEquivalence
  | some false => resolveLoop order a

/-! ## `Assembler::secondPass` -/

/-- The argument loop of `.global`/`.extern` in the second pass (lines 449-471). -/
def secondPassGlobalExtern (U : Utils) (directive : String) :
    List String → Assembler → Except AssemblingException Assembler
  | [], a => .ok a
  | currentToken :: queue, a =>
    if (U.getTokenType currentToken).1 ≠ .SYMBOL then a.fail .globalExternExpectSymbol
    else
      let undefinedCase : Except AssemblingException Assembler :=
        if directive = ".global" then a.fail .globalButUndefined
        else
          match a.addSymbol currentToken UNDEFINED 0 .GLOBAL .EXTERN false with
          | .error e => .error e
          | .ok a1 => secondPassGlobalExtern U directive queue a1
      match find? currentToken a.symbolTable with
      | some s =>
        if s.defined then
          if directive = ".extern" then a.fail .externButDefined
          else
            let table := update currentToken { s with scope := .GLOBAL } a.symbolTable
            secondPassGlobalExtern U directive queue { a with symbolTable := table }
        else undefinedCase
      | none => undefinedCase

/-- The inner loop that regroups the operand tokens of `.byte`/`.word` into one expression
(lines 545-555): the expression and the tokens left in the queue. -/
def nextExpression (U : Utils) : List String → Bool → String → String × List String
  | [], _, expression => (expression, [])
  | token :: queue, symbolPreceds, expression =>
    if U.isExpression token then
      if symbolPreceds then (expression, token :: queue)
      else nextExpression U queue true (expression ++ token)
    else nextExpression U queue false (expression ++ token)

/-- The outer loop of `.byte`/`.word` in the second pass (lines 541-558).  Every round takes at
least one token from the queue, so the length of the queue bounds the number of rounds;
`fuel` is that bound. -/
def evaluateData (U : Utils) (directive sect : String) :
    Nat → List String → Assembler → Except AssemblingException Assembler
  | _, [], a => .ok a
  | 0, _ :: _, a => a.fail .undefinedBehaviour
  | fuel + 1, token :: queue, a =>
    match nextExpression U (token :: queue) false "" with
    | (expression, queue1) =>
      match evaluate U a directive expression sect with
      | .error e => .error e
      | .ok a1 => evaluateData U directive sect fuel queue1 a1

/-- The call `currentSection->writeValue(start, count, value)` under the test
`currentSection->flags[A] == '1'`. -/
def fillSection (a : Assembler) (key : String) (start : Nat) (count value : Int) :
    Except AssemblingException Assembler :=
  match find? key a.sectionTable with
  | none => a.fail .undefinedBehaviour
  | some sec =>
    if sec.flags.getD A '0' = '1' then
      .ok { a with sectionTable := update key (sec.writeValue start count value) a.sectionTable }
    else .ok a

/-- The `case DIRECTIVE` of the second pass (lines 485-561). -/
def secondPassDirective (U : Utils) (a : Assembler) (currentSection : Option String)
    (directive : String) (queue : List String) : Except AssemblingException Assembler :=
  match currentSection with
  | none => a.fail .directiveOutsideSection
  | some key =>
    if directive = ".equ" then .ok a
    else if directive = ".align" then
      let exponent : Int :=
        match queue with
        | [] => 1
        | token :: _ => toInt32 (strtol token)
      match alignCounter a.locationCounter exponent with
      | none => a.fail .undefinedBehaviour
      | some lc =>
        if a.locationCounter % 2 ^ exponent.toNat = 0 then .ok a
        else
          fillSection { a with locationCounter := lc } key a.locationCounter
            ((lc : Int) - a.locationCounter) 0
    else if directive = ".skip" then
      let bytes : Int :=
        match queue with
        | [] => 1
        | token :: _ => toInt32 (strtol token)
      let value : Int :=
        match queue with
        | _ :: fill :: _ => toInt32 (strtol fill)
        | _ => 0
      let lc := toUInt16 (a.locationCounter + bytes)
      fillSection { a with locationCounter := lc } key a.locationCounter
        ((lc : Int) - a.locationCounter) value
    else evaluateData U directive key queue.length queue a

/-- One iteration of the loop of the second pass (lines 422-577) on the tokens of a line. -/
def secondPassLine (U : Utils) (p : Pass) (tokens : List String) :
    Except AssemblingException Pass :=
  let a := { p.asm with line := p.asm.line + 1 }
  match tokens with
  | [] => a.fail .undefinedBehaviour
  | firstToken :: firstQueue =>
    let afterLabel : Option (String × List String) :=
      match (U.getTokenType firstToken).1, firstQueue with
      | .LABEL, [] => none
      | .LABEL, token :: queue => some (token, queue)
      | _, _ => some (firstToken, firstQueue)
    match afterLabel with
    | none => .ok ⟨a, p.labelDefined, p.currentSection⟩
    | some (currentToken, queue) =>
      match U.getTokenType currentToken with
      | (.GLOBAL_EXTERN, _) =>
        match queue with
        | [] => a.fail .directiveWithoutArguments
        | _ :: _ =>
          match secondPassGlobalExtern U currentToken queue a with
          | .error e => .error e
          | .ok a1 => .ok ⟨a1, p.labelDefined, p.currentSection⟩
      | (.SECTION, _) =>
        let a1 := { a with locationCounter := 0 }
        if currentToken = ".section" then
          match queue with
          | [] => a1.fail .undefinedBehaviour
          | name :: _ => .ok ⟨a1, p.labelDefined, if count name a1.sectionTable then some name else none⟩
        else
          .ok ⟨a1, p.labelDefined,
            if count currentToken a1.sectionTable then some currentToken else none⟩
      | (.DIRECTIVE, ms) =>
        match secondPassDirective U a p.currentSection (group ms 0) queue with
        | .error e => .error e
        | .ok a1 => .ok ⟨a1, p.labelDefined, p.currentSection⟩
      | (.INSTRUCTION, _) =>
        match a.instructions, p.currentSection with
        | instruction :: rest, some key =>
          match generateInstructionCode a instruction key with
          | .error e => .error e
          | .ok a1 =>
            .ok ⟨{ a1 with locationCounter := (a1.locationCounter + instruction.size) % 65536,
                           instructions := rest }, p.labelDefined, p.currentSection⟩
        | _, _ => a.fail .undefinedBehaviour
      | _ => a.fail .invalidToken

/-- The method `Assembler::secondPass`. -/
def secondPass (U : Utils) (a : Assembler) : Except AssemblingException Assembler :=
  match passLoop (secondPassLine U) a.assembly ⟨{ a with line := 0 }, false, none⟩ with
  | .error e => .error e
  | .ok p => .ok p.asm

end Assembler

/-! ## A lexer in the words of the specification

The regular expressions of `utils.h` are not available.  The closed examples below run the
assembler with the following lexer, written from sections 4.1 and 6.2 of the specification. -/

namespace Spec

/-- First character of an identifier. -/
def isIdentStart (c : Char) : Bool :=
  (97 ≤ c.toNat && c.toNat ≤ 122) || (65 ≤ c.toNat && c.toNat ≤ 90) || c = '_'

/-- Later character of an identifier. -/
def isIdentChar (c : Char) : Bool :=
  isIdentStart c || (48 ≤ c.toNat && c.toNat ≤ 57)

/-- An identifier: a letter or underscore followed by letters, digits and underscores. -/
def isIdentifier : List Char → Bool
  | [] => false
  | c :: cs => isIdentStart c && cs.all isIdentChar

/-- An unsigned integer literal of base 16 (`0x...`), 8 (`0...`) or 10. -/
def isUnsignedLiteral : List Char → Bool
  | '0' :: 'x' :: c :: cs => (c :: cs).all (isDigitOf 16)
  | '0' :: 'X' :: c :: cs => (c :: cs).all (isDigitOf 16)
  | '0' :: cs => cs.all (isDigitOf 8)
  | c :: cs => (c :: cs).all (isDigitOf 10)
  | [] => false

/-- An integer literal as `strtol` with base 0 accepts it: an optional sign and an unsigned
literal. -/
def isLiteral : List Char → Bool
  | '-' :: cs => isUnsignedLiteral cs
  | '+' :: cs => isUnsignedLiteral cs
  | cs => isUnsignedLiteral cs

/-- Splits `X op Y` at the first `+` or `-` behind the first character. -/
def splitAtOperator : List Char → List Char → Option (List Char × Char × List Char)
  | _, [] => none
  | seen, c :: cs =>
    if (c = '+' ∨ c = '-') ∧ seen ≠ [] then some (seen, c, cs)
    else splitAtOperator (seen ++ [c]) cs

/-- An operand of an expression: an immediate literal or a symbol. -/
def isTerm (cs : List Char) : Bool := isLiteral cs || isIdentifier cs

/-- Modelled from the spec: `Utils::getTokenType` of the absent `utils.h`.  Labels are `name:`,
section directives are `.text`, `.data`, `.bss`, `.rodata` and `.section`, the directives are
`.equ`, `.align`, `.skip`, `.byte` and `.word`, `.global` and `.extern` set the scope, other
dotted identifiers are section names, immediates are integer literals, symbols are identifiers
and an expression is `X op Y` with `X` and `Y` an immediate or a symbol.  Flag strings and
instruction mnemonics, whose syntax the spec leaves open, get the tag `OTHER`. -/
def getTokenType (token : String) : TokenType × List String :=
  if token = ".text" ∨ token = ".data" ∨ token = ".bss" ∨ token = ".rodata" ∨
      token = ".section" then (.SECTION, [token])
  else if token = ".equ" ∨ token = ".align" ∨ token = ".skip" ∨ token = ".byte" ∨
      token = ".word" then (.DIRECTIVE, [token])
  else if token = ".global" ∨ token = ".extern" then (.GLOBAL_EXTERN, [token])
  else if isLiteral token.data then (.OPERAND_IMMED, [token])
  else if isIdentifier token.data then (.SYMBOL, [token])
  else
    match token.data with
    | '.' :: cs => if isIdentifier cs then (.SECTION_NAME, [token]) else (.OTHER, [])
    | cs =>
      if cs.getLast? = some ':' ∧ isIdentifier cs.dropLast then
        (.LABEL, [token, String.mk cs.dropLast])
      else
        match splitAtOperator [] cs with
        | some (x, op, y) =>
          if isTerm x ∧ isTerm y then
            (.EXPRESSION, [token, String.mk x, String.mk [op], String.mk y])
          else (.OTHER, [])
        | none => (.OTHER, [])

/-- Modelled from the spec: `Utils::isExpression` of the absent `utils.h`, the test of the
symbol-precedes scan: the token is an operand (an immediate, a symbol or an expression), not an
operator. -/
def isExpression (token : String) : Bool :=
  match (getTokenType token).1 with
  | .OPERAND_IMMED => true
  | .SYMBOL => true
  | .EXPRESSION => true
  | _ => false

/-- Modelled from the spec: the lexer and parser functions of the absent `utils.h` and
`instruction.h`.  No flag string and no instruction is recognised. -/
def utils : Utils where
  getTokenType := getTokenType
  isExpression := isExpression
  setFlags := fun flags _ => flags
  extract := fun _ _ line => .error ⟨line, .instructionSyntax⟩

end Spec

/-! ## Notions used in the statements -/

/-- The value of a successful run, `d` for a failed one. -/
def okOr {α : Type} (d : α) : Except AssemblingException α → α
  | .ok x => x
  | .error _ => d

/-- The state that the first pass reaches on the given lines with the lexer written from the
specification (the fresh state when the pass fails). -/
def Spec.afterFirstPass (lines : List (List String)) : Assembler :=
  okOr (Assembler.init lines) (Assembler.firstPass Spec.utils (Assembler.init lines))

/-- The bytes of a datum of `.byte` (one byte) or `.word` (two bytes, little-endian). -/
def datumBytes (directive : String) (value : Int) : List Nat :=
  if directive = ".byte" then [lowerByte value] else [lowerByte value, higherByte value]

/-- The width of a datum of `.byte` or `.word`. -/
def datumSize (directive : String) : Nat :=
  if directive = ".byte" then BYTE else WORD

/-- The state in which `evaluate` ends when it has appended `relocations` and written the
literal `value` at the location counter of the section `sec` stored under `sect`. -/
def emitDatum (a : Assembler) (directive sect : String) (sec : Section) (value : Int)
    (relocations : List Relocation) : Assembler :=
  { a with
    relocationTable := a.relocationTable ++ relocations,
    sectionTable :=
      update sect (sec.write a.locationCounter (datumBytes directive value)) a.sectionTable,
    locationCounter := (a.locationCounter + datumSize directive) % 65536 }

/-- The value with which a symbol outside UST enters a literal: its value when it is LOCAL,
else zero. -/
def localValue (s : Symbol) : Int :=
  if s.scope = .LOCAL then s.value else 0

/-- The relocation that a term outside UST with symbol-table entry `s` contributes: none for a
LOCAL CONSTANT, one against its section for another LOCAL symbol, one against its own name for
a GLOBAL symbol. -/
def contribution (name : String) (s : Symbol) (sectName : String) (offset : Nat)
    (type : RelocationType) : List Relocation :=
  if s.scope = .LOCAL then
    if s.type = .CONSTANT then [] else [⟨s.sect, sectName, offset, type⟩]
  else [⟨name, sectName, offset, type⟩]

/-- The subtractive relocation type of a datum: `R_386_SUB_8` for `.byte`, else
`R_386_SUB_16`. -/
def subtractiveType (directive : String) : RelocationType :=
  if directive = ".byte" then .R_386_SUB_8 else .R_386_SUB_16

/-- The symbol-table entry that `addSymbol` creates for an unknown name used as a term. -/
def externEntry (name : String) (index : Nat) : String × Symbol :=
  (name, ⟨name, UNDEFINED, 0, .GLOBAL, .EXTERN, false, index⟩)

/-- The size law of an operand: its type fits its addressing mode and its `size` is the number
of bytes of the mode (descriptor and payload) for instructions of the given operand size. -/
def Operand.sizeLaw (operandSize : Nat) (o : Operand) : Prop :=
  match o.addressing with
  | .IMMED => (o.type = .IMMED_VALUE ∨ o.type = .IMMED_SYMBOL) ∧ o.size = 1 + operandSize
  | .REG_DIR => (o.type = .REGISTER ∨ o.type = .PSW) ∧ o.size = 1
  | .REG_IND => (o.type = .REGISTER ∨ o.type = .PSW) ∧ o.size = 1
  | .REG_IND_8 => o.type = .DISPL_VALUE ∧ o.size = 2
  | .REG_IND_16 =>
    (o.type = .DISPL_VALUE ∨ o.type = .DISPL_SYMBOL ∨ o.type = .PCRELATIVE) ∧ o.size = 3
  | .MEMORY => (o.type = .MEMORY_VALUE ∨ o.type = .MEMORY_SYMBOL) ∧ o.size = 3

/-- The `size` field of an optional operand, zero when the operand is absent. -/
def operandSizeOf : Option Operand → Nat
  | some o => o.size
  | none => 0

/-- The size law of an instruction: the operand size is 1 or 2, every operand obeys the size
law and `size` is one plus the sizes of the operands. -/
def Instruction.sizeLaw (i : Instruction) : Prop :=
  (i.operandSize = 1 ∨ i.operandSize = 2) ∧
  (∀ o, i.destination = some o → o.sizeLaw i.operandSize) ∧
  (∀ o, i.source = some o → o.sizeLaw i.operandSize) ∧
  i.size = 1 + operandSizeOf i.destination + operandSizeOf i.source

/-- The edge relation of the dependency graph of UST: `x` is a key, `y` is named by one of its
dependencies and is itself a key. -/
def dependsOn (UST : List (String × UnresolvedSymbol)) (x y : String) : Prop :=
  ∃ u, find? x UST = some u ∧ y ∈ u.dependencies.map Prod.fst ∧ count y UST = true

/-- The dependency graph of UST contains a directed cycle (a self-loop counts). -/
def hasDirectedCycle (UST : List (String × UnresolvedSymbol)) : Prop :=
  ∃ x, Relation.TransGen (dependsOn UST) x x

/-- The number of entries of UST whose key is not yet marked as visited. -/
def unvisited (UST : List (String × UnresolvedSymbol)) (visited : List String) : Nat :=
  ((UST.map Prod.fst).filter (fun k => decide (k ∉ visited))).length

/-- The invariant of the depth-first search: the recursion stack is part of the visited set,
only keys are visited, and the finished symbols (visited, not on the stack) are closed under
the edge relation and lie on no cycle. -/
structure MarksInv (UST : List (String × UnresolvedSymbol)) (m : Assembler.Marks) : Prop where
  stack_visited : ∀ x, x ∈ m.recursionStack → x ∈ m.visited
  visited_key : ∀ x, x ∈ m.visited → count x UST = true
  closed : ∀ x, x ∈ m.visited → x ∉ m.recursionStack →
    ∀ y, dependsOn UST x y → y ∈ m.visited ∧ y ∉ m.recursionStack
  acyclic : ∀ x, x ∈ m.visited → x ∉ m.recursionStack →
    ¬ Relation.TransGen (dependsOn UST) x x

/-- What a call of `cycle` on `s` that returns `false` has done to the marks. -/
structure CyclePost (UST : List (String × UnresolvedSymbol)) (s : String)
    (m m1 : Assembler.Marks) : Prop where
  inv : MarksInv UST m1
  visited_mono : ∀ x, x ∈ m.visited → x ∈ m1.visited
  stack_same : ∀ x, x ∈ m1.recursionStack ↔ x ∈ m.recursionStack
  visited_self : count s UST = true → s ∈ m1.visited

/-- The contract of a recursive call of `cycle` when fewer than `bound` keys are unvisited: it
returns; the answer `true` is given only when the graph has a cycle, and after the answer
`false` the marks are as `CyclePost` says. -/
def CallSpec (a : Assembler) (call : String → Assembler.Marks → Option (Bool × Assembler.Marks))
    (bound : Nat) : Prop :=
  ∀ s m, MarksInv a.UST m → s ∉ m.recursionStack →
    (count s a.UST = true →
      ∀ x, x ∈ m.recursionStack → Relation.TransGen (dependsOn a.UST) x s) →
    unvisited a.UST m.visited < bound →
    ∃ b m1, call s m = some (b, m1) ∧ (b = true → hasDirectedCycle a.UST) ∧
      (b = false → CyclePost a.UST s m m1)

/-! ## Inputs of the closed examples -/

/-- A data section with one datum written as an operator and an operand:
`.data` / `.word - 5`. -/
def Spec.signedWordLines : List (List String) := [[".data"], [".word", "-", "5"]]

/-- An instruction with two memory operands given by address; `size` is 1 + 3 + 3. -/
def Spec.memoryToMemory : Instruction :=
  ⟨4, 2, 7, some ⟨.MEMORY, .MEMORY_VALUE, "16", "", 3⟩, some ⟨.MEMORY, .MEMORY_VALUE, "32", "", 3⟩⟩

/-- A chain of equivalences whose dependee becomes an alias after its dependent:
`.text` / `.equ A, B` / `.equ B, C` / `C:`. -/
def Spec.chainLines : List (List String) :=
  [[".text"], [".equ", "A", "B"], [".equ", "B", "C"], ["C:"]]

/-- A label `S` at offset 300 of a data section: `.data` / `.skip 300` / `S:`. -/
def Spec.farLabelLines : List (List String) := [[".data"], [".skip", "300"], ["S:"]]

/-- Two constants defined in different sections:
`.text` / `.equ K1, 7` / `.data` / `.equ K2, 2`. -/
def Spec.twoConstantsLines : List (List String) :=
  [[".text"], [".equ", "K1", "7"], [".data"], [".equ", "K2", "2"]]

/-- Two declared externs: `.extern X, Y` / `.data`. -/
def Spec.twoExternsLines : List (List String) := [[".extern", "X", "Y"], [".data"]]

/-- Two labels of one section, four bytes apart: `.data` / `a:` / `.skip 4` / `b:`. -/
def Spec.twoLabelsLines : List (List String) := [[".data"], ["a:"], [".skip", "4"], ["b:"]]

/-- A data section with the sum of two immediates: `.data` / `.word 2 + 3`. -/
def Spec.sumLines : List (List String) := [[".data"], [".word", "2", "+", "3"]]

/-- A LOCAL constant in a text section: `.text` / `.equ K, 5`. -/
def Spec.constantLines : List (List String) := [[".text"], [".equ", "K", "5"]]

/-- A jump with the PC-relative operand `K`; `size` is 1 + 3. -/
def Spec.jumpToConstant : Instruction :=
  ⟨20, 2, 4, some ⟨.REG_IND_16, .PCRELATIVE, "r7", "K", 3⟩, none⟩

/-- The state after the first pass over the single line `.data`. -/
def Spec.dataState : Assembler := Spec.afterFirstPass [[".data"]]

/-- The state after the first pass over the single line `.text`. -/
def Spec.textState : Assembler := Spec.afterFirstPass [[".text"]]

/-- The state after the first pass over `Spec.farLabelLines`. -/
def Spec.farLabelState : Assembler := Spec.afterFirstPass Spec.farLabelLines

/-- The state after the first pass over `Spec.twoConstantsLines`. -/
def Spec.twoConstantsState : Assembler := Spec.afterFirstPass Spec.twoConstantsLines

/-- The state after the first pass over `Spec.twoExternsLines`. -/
def Spec.twoExternsState : Assembler := Spec.afterFirstPass Spec.twoExternsLines

/-- The state after the first pass over `Spec.twoLabelsLines`. -/
def Spec.twoLabelsState : Assembler := Spec.afterFirstPass Spec.twoLabelsLines

/-- The state after the first pass over `Spec.constantLines`. -/
def Spec.constantState : Assembler := Spec.afterFirstPass Spec.constantLines

/-- The record of the section `.data` right after its creation, with the given size. -/
def Spec.dataSection (size : Nat) : Section :=
  ⟨".data", ['1', '1', '0', '0', '0', '0', '0', '0', '0', '0'], size, [], 0, 0⟩

/-! ## Notions and inputs for the scenarios of the specification -/

/-- Scenario S4 inside a section: `.text` / `.equ A, 5` / `.equ B, A + 3` / `.equ C, B - 1`. -/
def Spec.equChainLines : List (List String) :=
  [[".text"], [".equ", "A", "5"], [".equ", "B", "A", "+", "3"], [".equ", "C", "B", "-", "1"]]

/-- Scenario S6 inside a section, for the names `A` and `B`:
`.text` / `.equ A, B` / `.equ B, A`. -/
def Spec.cycleLines (A B : String) : List (List String) :=
  [[".text"], [".equ", A, B], [".equ", B, A]]

/-- An equivalence that names itself: `.text` / `.equ A, A`. -/
def Spec.selfEquLines : List (List String) := [[".text"], [".equ", "A", "A"]]

/-- An equivalence that names itself in a sum: `.text` / `.equ A, A + 1`. -/
def Spec.selfEquPlusLines : List (List String) := [[".text"], [".equ", "A", "A", "+", "1"]]

/-- The sum of two LOCAL constants:
`.text` / `.equ K1, 2` / `.equ K2, 3` / `.equ C, K1 + K2`. -/
def Spec.constantSumLines : List (List String) :=
  [[".text"], [".equ", "K1", "2"], [".equ", "K2", "3"], [".equ", "C", "K1", "+", "K2"]]

/-- Scenario S3: `.global myFunc` / `.text` / `call $myFunc`. -/
def Spec.globalCallLines : List (List String) :=
  [[".global", "myFunc"], [".text"], ["call", "$myFunc"]]

/-- Scenario S3 with `.extern`: `.extern myFunc` / `.text` / `call $myFunc`. -/
def Spec.externCallLines : List (List String) :=
  [[".extern", "myFunc"], [".text"], ["call", "$myFunc"]]

/-- Scenario S2: `.text` / `start: jmp $end` / `end:`. -/
def Spec.forwardLines : List (List String) :=
  [[".text"], ["start:", "jmp", "$end"], ["end:"]]

/-- Scenario S5 up to the datum: `.extern X` / `.data`. -/
def Spec.externLines : List (List String) := [[".extern", "X"], [".data"]]

/-- The state after the first pass over `Spec.externLines`. -/
def Spec.externState : Assembler := Spec.afterFirstPass Spec.externLines

/-- The symbol-table entry of the section `.text` created first. -/
def Spec.textSymbol (index : Nat) : String × Symbol :=
  (".text", ⟨".text", ".text", 0, .LOCAL, .SECTION, true, index⟩)

/-- The section-table entry of `.text` with the given size, bytes and symbol index. -/
def Spec.textSection (size : Nat) (bytes : List Nat) (symbolIndex : Nat) : String × Section :=
  (".text", ⟨".text", ['0', '1', '1', '0', '0', '0', '0', '0', '0', '0'], size, bytes, 0,
    symbolIndex⟩)

/-- An instruction of a word-sized mnemonic with the single operand `$symbol`: the operand is
the destination, immediate, three bytes long; the instruction has four bytes. -/
def Spec.immediateSymbolInstruction (code : Nat) (symbol displacement : String) : Instruction :=
  ⟨code, 2, 4, some ⟨.IMMED, .IMMED_SYMBOL, symbol, displacement, 3⟩, none⟩

/-- Modelled from the spec: the opcode of a mnemonic.  Only `jmp` and `call`, the mnemonics of
the scenarios, are known; the spec gives no opcode numbers and the two used here stand in for
those of the absent `instruction.h`. -/
def Spec.opcode (mnemonic : String) : Option Nat :=
  if mnemonic = "jmp" then some 19
  else if mnemonic = "call" then some 23
  else none

/-- Modelled from the spec: `Utils::getTokenType` with the mnemonics `jmp` and `call` tagged as
instructions; every other token is classified as by `Spec.getTokenType`. -/
def Spec.getTokenTypeWithInstructions (token : String) : TokenType × List String :=
  if (Spec.opcode token).isSome then (.INSTRUCTION, [token, token])
  else Spec.getTokenType token

/-- Modelled from the spec: `Instruction::extract` of the absent `instruction.h` for the
one-operand mnemonics `jmp` and `call` (operand size `w`) with an immediate operand `$literal`
or `$symbol`, which becomes the destination of size `1 + operand_size`. -/
def Spec.extract (queue ms : List String) (line : Nat) :
    Except AssemblingException (Instruction × List String) :=
  match Spec.opcode (group ms 1), queue with
  | some code, operand :: rest =>
    match operand.data with
    | '$' :: cs =>
      if Spec.isLiteral cs then
        .ok (⟨code, 2, 4, some ⟨.IMMED, .IMMED_VALUE, String.mk cs, "", 3⟩, none⟩, rest)
      else if Spec.isIdentifier cs then
        .ok (Spec.immediateSymbolInstruction code (String.mk cs) "", rest)
      else .error ⟨line, .instructionSyntax⟩
    | _ => .error ⟨line, .instructionSyntax⟩
  | _, _ => .error ⟨line, .instructionSyntax⟩

/-- Modelled from the spec: the lexer and parser functions of the absent `utils.h` and
`instruction.h`, with the instructions `jmp` and `call`. -/
def Spec.instructionUtils : Utils where
  getTokenType := Spec.getTokenTypeWithInstructions
  isExpression := fun token =>
    match (Spec.getTokenTypeWithInstructions token).1 with
    | .OPERAND_IMMED => true
    | .SYMBOL => true
    | .EXPRESSION => true
    | _ => false
  setFlags := fun flags _ => flags
  extract := Spec.extract

/-- The state after the first pass over `.text` / `.equ x, y` / `.equ y, x`. -/
def Spec.cycleState (x y : String) : Assembler :=
  { Assembler.init (Spec.cycleLines x y) with
    line := 3,
    symbolTable := [Spec.textSymbol 0, (y, ⟨y, ".text", 0, .LOCAL, .ALIAS, false, 1⟩),
      (x, ⟨x, ".text", 0, .LOCAL, .ALIAS, false, 2⟩)],
    sectionTable := [Spec.textSection 0 [] 0],
    UST := [(x, ⟨x, [(y, "+")], ".text"⟩), (y, ⟨y, [(y, "+")], ".text"⟩)] }

/-- The state after the first pass over `Spec.forwardLines`, when `jmp $end` was parsed into
`Spec.immediateSymbolInstruction code "end" displacement`. -/
def Spec.forwardState (code : Nat) (displacement : String) : Assembler :=
  { Assembler.init Spec.forwardLines with
    line := 3,
    locationCounter := 4,
    instructions := [Spec.immediateSymbolInstruction code "end" displacement],
    symbolTable := [Spec.textSymbol 0,
      ("start", ⟨"start", ".text", 0, .LOCAL, .LABEL, true, 1⟩),
      ("end", ⟨"end", ".text", 4, .LOCAL, .LABEL, true, 2⟩)],
    sectionTable := [Spec.textSection 4 [] 0] }

/-- The state after the first pass over `Spec.externCallLines`, when `call $myFunc` was parsed
into `Spec.immediateSymbolInstruction code "myFunc" displacement`. -/
def Spec.externCallState (code : Nat) (displacement : String) : Assembler :=
  { Assembler.init Spec.externCallLines with
    line := 3,
    locationCounter := 4,
    instructions := [Spec.immediateSymbolInstruction code "myFunc" displacement],
    symbolTable := [externEntry "myFunc" 0, Spec.textSymbol 1],
    sectionTable := [Spec.textSection 4 [] 1] }

/-- The width in bytes of the patch site of a relocation: one for the 8-bit types, two for the
16-bit types. -/
def RelocationType.width : RelocationType → Nat
  | .R_386_8 => 1
  | .R_386_SUB_8 => 1
  | _ => 2

/-- The relocation table of `a1` is that of `a` with relocations appended that all name the
section `sectName` and whose patch sites lie between the offsets `lo` and `hi`. -/
def EmitsWithin (a a1 : Assembler) (sectName : String) (lo hi : Nat) : Prop :=
  ∃ new, a1.relocationTable = a.relocationTable ++ new ∧
    ∀ r ∈ new, r.sect = sectName ∧ lo ≤ r.offset ∧ r.offset + r.type.width ≤ hi

/-- What a step that emits relocations for a datum or operand at `offset` leaves alone. -/
structure Frame (a a1 : Assembler) : Prop where
  locationCounter : a1.locationCounter = a.locationCounter
  sectionTable : a1.sectionTable = a.sectionTable
  instructions : a1.instructions = a.instructions
  line : a1.line = a.line
  assembly : a1.assembly = a.assembly

/-- A section that wraps the 16-bit location counter:
`.data` / `.skip 65534` / `.word X` / `.word X`. -/
def Spec.wrapLines : List (List String) :=
  [[".data"], [".skip", "65534"], [".word", "X"], [".word", "X"]]

/-- A state of the run over `Spec.wrapLines`: the section `.data` has the recorded size 2. -/
def Spec.wrapState (line locationCounter : Nat) (symbols : List (String × Symbol))
    (bytes : List Nat) (relocations : List Relocation) : Assembler :=
  { Assembler.init Spec.wrapLines with
    line := line,
    locationCounter := locationCounter,
    symbolTable := (".data", ⟨".data", ".data", 0, .LOCAL, .SECTION, true, 0⟩) :: symbols,
    sectionTable := [(".data", { Spec.dataSection 2 with bytes := bytes })],
    relocationTable := relocations }

/-- The indices of the entries of a symbol table, in the order of the table (the order of first
insertion). -/
def indices (table : List (String × Symbol)) : List Nat :=
  table.map fun e => e.2.symbolTableEntry

/-- The states reachable through `addSymbol`: a state with an empty symbol table, a successful
call of `addSymbol`, and any step that leaves the symbol table alone. -/
inductive ReachableByAddSymbol : Assembler → Prop
  | empty (a : Assembler) : a.symbolTable = [] → ReachableByAddSymbol a
  | add (a a1 : Assembler) (name sect : String) (value : Int) (scope : ScopeType)
      (type : SymbolType) (defined : Bool) :
      ReachableByAddSymbol a → a.addSymbol name sect value scope type defined = .ok a1 →
      ReachableByAddSymbol a1
  | other (a a1 : Assembler) :
      ReachableByAddSymbol a → a1.symbolTable = a.symbolTable → ReachableByAddSymbol a1

/-! ## Notions for: C21: a datum with a UST symbol -/

/-- The lines of a program that makes `A` an alias of the unseen symbol `X` plus 300. -/
def Spec.farAliasLines : List (List String) :=
  [[".data"], [".equ", "A", "X+300"]]

/-- The state after the first pass over `Spec.farAliasLines`. -/
def Spec.farAliasState : Assembler := Spec.afterFirstPass Spec.farAliasLines

/-- The relocation type of a dependency with operation `op` of a UST symbol that enters a datum
with the sign `operation`: the plain type of the datum when the product of the two signs is
positive, the subtractive type when it is negative. -/
def signedType (directive operation op : String) : RelocationType :=
  if (operation = "-") = (op = "-") then Assembler.baseType directive
  else subtractiveType directive

/-- The literal `k op v` of a datum: the sum for `"+"`, else the difference. -/
def literalOf (k : Int) (operation : String) (v : Int) : Int :=
  if operation = "+" then k + v else k - v

/-! ## Notions for: C23: the directive .skip in the second pass -/

/-- The lines of a program that reserves four bytes in `.bss`. -/
def Spec.bssSkipLines : List (List String) := [[".bss"], [".skip", "4"]]

/-- The state after the first pass over `Spec.bssSkipLines`. -/
def Spec.bssSkipState : Assembler := Spec.afterFirstPass Spec.bssSkipLines

/-! ## Notions for: C24: default section flags -/

/-- The flag positions that the specification sets for a section created without explicit
flags: A and X for `.text`, A and W for `.data`, W for `.bss`, A for `.rodata`, and A, W and X
for every other name. -/
def defaultPositions (name : String) : List Nat :=
  if name = ".text" then [A, X]
  else if name = ".data" then [A, W]
  else if name = ".bss" then [W]
  else if name = ".rodata" then [A]
  else [A, W, X]

/-- The flag string of ten characters with `'1'` exactly at the given positions and `'0'` at
all others. -/
def flagString (positions : List Nat) : List Char :=
  (List.range 10).map fun i => if i ∈ positions then '1' else '0'

/-! ## Notions for: C25: PC-relative operands -/

/-- The lines of a program with a GLOBAL constant `K` and a LOCAL label `L` in `.text`. -/
def Spec.globalConstantLines : List (List String) :=
  [[".text"], [".equ", "K", "5"], [".global", "K"], ["L:"]]

/-- The state after the first pass over `Spec.globalConstantLines`. -/
def Spec.globalConstantState : Assembler := Spec.afterFirstPass Spec.globalConstantLines

/-- An instruction of four bytes whose only operand is PC-relative on `symbol`. -/
def Spec.pcRelativeInstruction (symbol : String) : Instruction :=
  ⟨19, 2, 4, some ⟨.REG_IND_16, .PCRELATIVE, "r7", symbol, 3⟩, none⟩

/-- The relocation table of `a1` is that of `a` with the relocations `new` appended, which all
carry the offset `offset`. -/
def EmitsAt (a a1 : Assembler) (new : List Relocation) (offset : Nat) : Prop :=
  a1.relocationTable = a.relocationTable ++ new ∧ ∀ r ∈ new, r.offset = offset

/-- The first byte of an instruction: opcode and operand size. -/
def opcodeByte (i : Instruction) : Nat :=
  ((i.code <<< CODE_OFFSET) ||| ((i.operandSize - 1) <<< SIZE_OFFSET)) % 256

/-- The state of `Spec.globalConstantState` with the location counter at the last offset below
`2 ^ 16`. -/
def Spec.lastOffsetState : Assembler :=
  { Spec.globalConstantState with locationCounter := 65535 }

/-! ## Notions for: C27: the directive .global in both passes -/

/-- The lines of a program that declares the undefined alias `A` global. -/
def Spec.globalAliasLines : List (List String) :=
  [[".text"], [".equ", "A", "X"], [".global", "A"]]

/-! ## Notions for: C28: the order of the symbol records -/

/-- The values visited by a range-based `for` over an `unordered_map` whose iteration visits
the keys in the order `order`. -/
def iterate {α : Type} (order : List String) (table : List (String × α)) : List α :=
  order.filterMap fun key => find? key table

/-- The records of an object file in the order in which they are serialized; the encoding of a
record (`serialize` of the absent `symbol.h`, `section.h`, `relocation.h`) is left abstract. -/
structure ObjectFile where
  symbols : List Symbol
  sections : List Section
  relocations : List Relocation
  deriving DecidableEq, Repr

/-- The rows of the text listing in the order in which they are printed. -/
structure Listing where
  dumps : List Section
  symbols : List Symbol
  sections : List Section
  relocations : List Relocation
  deriving DecidableEq, Repr

/-- The method `Assembler::writeELF` on a stream that could be opened (lines 591-608): the
three tables are written one after the other, each by a range-based `for` over the table;
`symbolOrder` and `sectionOrder` are the iteration orders of the two hash maps. -/
def Assembler.writeELF (a : Assembler) (symbolOrder sectionOrder : List String) : ObjectFile :=
  { symbols := iterate symbolOrder a.symbolTable,
    sections := iterate sectionOrder a.sectionTable,
    relocations := a.relocationTable }

/-- The first entry with index `i` found by the inner loop of `writeText`. -/
def entryWithIndex {α : Type} (index : α → Nat) (visited : List α) (i : Nat) : Option α :=
  visited.find? fun entry => index entry = i

/-- The method `Assembler::writeText` on a stream that could be opened (lines 617-672): the
byte dumps of the non-empty sections in iteration order, then for `i = 0, 1, ...` the symbol
with index `i`, then likewise the sections, then the relocations. -/
def Assembler.writeText (a : Assembler) (symbolOrder sectionOrder : List String) : Listing :=
  { dumps := (iterate sectionOrder a.sectionTable).filter fun s => !s.bytes.isEmpty,
    symbols := (List.range a.symbolTable.length).filterMap
      (entryWithIndex Symbol.symbolTableEntry (iterate symbolOrder a.symbolTable)),
    sections := (List.range a.sectionTable.length).filterMap
      (entryWithIndex Section.sectionTableEntry (iterate sectionOrder a.sectionTable)),
    relocations := a.relocationTable }

/-! ## Notions for: The invariant of the tables in reachable states -/

/-- The data of one symbol-table entry agree: an EXTERN entry is undefined and GLOBAL, an entry
of type LABEL, SECTION or CONSTANT is defined, and the section of an entry that is not EXTERN
is a key of the symbol table. -/
structure EntryOK (table : List (String × Symbol)) (s : Symbol) : Prop where
  externUndefined : s.type = .EXTERN → s.defined = false
  externGlobal : s.type = .EXTERN → s.scope = .GLOBAL
  defined : s.type = .LABEL ∨ s.type = .SECTION ∨ s.type = .CONSTANT → s.defined = true
  sect : s.type ≠ .EXTERN → count s.sect table = true

/-- The invariant of the tables of the assembler: every entry of the symbol table is in order,
every key of UST has an ALIAS entry in the symbol table, every dependency of a UST entry names
a key of the symbol table, and every section has a symbol. -/
structure WellFormed (a : Assembler) : Prop where
  entries : ∀ k s, find? k a.symbolTable = some s → EntryOK a.symbolTable s
  unresolved : ∀ k u, find? k a.UST = some u →
    (∃ s, find? k a.symbolTable = some s ∧ s.type = .ALIAS) ∧
    ∀ d ∈ u.dependencies, count d.1 a.symbolTable = true
  sections : ∀ k sec, find? k a.sectionTable = some sec → count sec.name a.symbolTable = true

/-- What a step of a pass from a state with the invariant does to the tables: the invariant
holds afterwards, every entry of the symbol table is kept, with the same `defined` flag and
type when the entry is defined or is a key of UST, and the keys of UST are kept. -/
structure Step (a a1 : Assembler) : Prop where
  wf : WellFormed a1
  keep : ∀ k s, find? k a.symbolTable = some s →
    ∃ s1, find? k a1.symbolTable = some s1 ∧
      (s.defined = true ∨ count k a.UST = true → s1.defined = s.defined ∧ s1.type = s.type)
  unresolved : ∀ k, count k a.UST = true → count k a1.UST = true

/-- The data that `addSymbol` may store under `name` without breaking the invariant. -/
structure GoodEntry (a : Assembler) (name sect : String) (scope : ScopeType)
    (type : SymbolType) (defined : Bool) : Prop where
  externUndefined : type = .EXTERN → defined = false
  externGlobal : type = .EXTERN → scope = .GLOBAL
  defined : type = .LABEL ∨ type = .SECTION ∨ type = .CONSTANT → defined = true
  sect : type ≠ .EXTERN → count sect a.symbolTable = true ∨ sect = name

/-- What the loop body of `resolveSymbols` for the UST entry `name` does to the tables from a
state with the invariant: the invariant holds afterwards, every entry of the symbol table is
kept with its type, and every entry but that of `name` is unchanged. -/
structure Resolved (name : String) (a a1 : Assembler) : Prop where
  wf : WellFormed a1
  keep : ∀ k s, find? k a.symbolTable = some s →
    ∃ s1, find? k a1.symbolTable = some s1 ∧ s1.type = s.type ∧ (k ≠ name → s1 = s)

/-- The states of the assembler between the steps of a run, for every program and lexer: the
fresh state; a state after the line counter is reset at the start of a pass; after a line of
the first pass; after a call of `evaluateEQU`; after the size of the last section is stored at
the end of the first pass; after a round of the loop of `resolveSymbols`; after a line of the
second pass. -/
inductive Reachable (U : Utils) : Assembler → Prop
  | start (assembly : List (List String)) : Reachable U (Assembler.init assembly)
  | rewind (a : Assembler) : Reachable U a → Reachable U { a with line := 0 }
  | firstPassLine (p p1 : Assembler.Pass) (tokens : List String) :
      Reachable U p.asm → Assembler.firstPassLine U p tokens = .ok p1 → Reachable U p1.asm
  | evaluateEQU (a a1 : Assembler) (symbol expression sect : String) :
      Reachable U a → Assembler.evaluateEQU U a symbol expression sect = .ok a1 →
      Reachable U a1
  | closeSection (a : Assembler) (currentSection : Option String) :
      Reachable U a → Reachable U (Assembler.closeSection a currentSection)
  | resolveEntry (a a1 : Assembler) (name : String) :
      Reachable U a → Assembler.resolveEntry a name = .ok a1 → Reachable U a1
  | secondPassLine (p p1 : Assembler.Pass) (tokens : List String) :
      Reachable U p.asm → Assembler.secondPassLine U p tokens = .ok p1 → Reachable U p1.asm

/-! ## Notions for: C29: the defined flag -/

/-- The lines of a program that uses `X` in an `.equ` expression before it defines `X` as a
label. -/
def Spec.forwardEquLines : List (List String) :=
  [[".text"], [".equ", "A", "X"], ["X:"]]

/-! ## Notions for: C31: the visiting order of resolveSymbols -/

/-- A chain of equivalences resolved by a label at offset 4:
`.text` / `.equ A, B` / `.equ B, C` / `.skip 4` / `C:`. -/
def Spec.laterLabelLines : List (List String) :=
  [[".text"], [".equ", "A", "B"], [".equ", "B", "C"], [".skip", "4"], ["C:"]]

/-- The state after the first pass over `Spec.laterLabelLines`. -/
def Spec.laterLabelState : Assembler := Spec.afterFirstPass Spec.laterLabelLines

/-- The value and the `defined` flag of the entry of `name` in the symbol table and the
dependency list of `name` in UST. -/
def resolution (a : Assembler) (name : String) :
    Option (Int × Bool) × Option (List (String × String)) :=
  ((find? name a.symbolTable).map fun s => (s.value, s.defined),
   (find? name a.UST).map fun u => u.dependencies)

/-! ## Notions for: C33, C36 and C35: example programs -/

/-- A two-symbol expression whose second term is a UST symbol:
`.text` / `.equ B, X` / `.equ N, Y + B`. -/
def Spec.secondTermAliasLines : List (List String) :=
  [[".text"], [".equ", "B", "X"], [".equ", "N", "Y", "+", "B"]]

/-- The same expression with the terms exchanged: `.text` / `.equ B, X` / `.equ N, B + Y`. -/
def Spec.firstTermAliasLines : List (List String) :=
  [[".text"], [".equ", "B", "X"], [".equ", "N", "B", "+", "Y"]]

/-- An immediate minus a UST symbol: `.text` / `.equ B, X` / `.equ N, 5 - B`. -/
def Spec.immediateMinusAliasLines : List (List String) :=
  [[".text"], [".equ", "B", "X"], [".equ", "N", "5", "-", "B"]]

/-- An immediate plus a UST symbol: `.text` / `.equ B, X` / `.equ N, 5 + B`. -/
def Spec.immediatePlusAliasLines : List (List String) :=
  [[".text"], [".equ", "B", "X"], [".equ", "N", "5", "+", "B"]]

/-- Two label-only lines in a row: `.text` / `L1:` / `L2:`. -/
def Spec.twoLabelLines : List (List String) := [[".text"], ["L1:"], ["L2:"]]

/-- Two label-only lines with a directive between them:
`.text` / `L1:` / `.skip 0` / `L2:`. -/
def Spec.separatedLabelLines : List (List String) :=
  [[".text"], ["L1:"], [".skip", "0"], ["L2:"]]

/-! ## Notions for: C34: the data items of the first pass and the expressions of the second pass -/

/-- The number of expressions that the regrouping loop of the second pass hands to `evaluate`
for the operand tokens of a `.byte`/`.word` directive: the number of rounds of the loop of
`evaluateData` when every call of `evaluate` returns; `fuel` bounds the rounds as there. -/
def groups (U : Utils) : Nat → List String → Nat
  | _, [] => 0
  | 0, _ :: _ => 0
  | fuel + 1, token :: queue =>
    1 + groups U fuel (Assembler.nextExpression U (token :: queue) false "").2

/-! ## Notions for: C32: a round of the loop of resolveSymbols -/

/-- In the words of the specification: the signed sum of the values of the dependencies that
are defined in the symbol table, a value being added for the sign `+` and subtracted
otherwise. -/
def Spec.dependencySum (table : List (String × Symbol)) : List (String × String) → Int
  | [] => 0
  | d :: rest =>
    match find? d.1 table with
    | some s =>
      if s.defined then (if d.2 = "+" then s.value else - s.value) + Spec.dependencySum table rest
      else Spec.dependencySum table rest
    | none => Spec.dependencySum table rest

/-- In the words of the specification: the name of every dependency that is defined in the
symbol table is replaced by the name of its section and the sign is kept; the other
dependencies are left as they are. -/
def Spec.renamedDependencies (table : List (String × Symbol))
    (dependencies : List (String × String)) : List (String × String) :=
  dependencies.map fun d =>
    match find? d.1 table with
    | some s => if s.defined then (s.sect, d.2) else d
    | none => d

/-- In the words of the specification: every dependency is defined in the symbol table. -/
def Spec.allDefined (table : List (String × Symbol))
    (dependencies : List (String × String)) : Bool :=
  dependencies.all fun d =>
    match find? d.1 table with
    | some s => s.defined
    | none => false

/-- In the words of the specification: the state after the visit of the UST entry `u` stored
under `name`, whose symbol is `e`: the value of the symbol grows by the signed sum, modulo
2^16, the symbol is defined if and only if all dependencies are, the dependencies of the entry
are renamed, and nothing else changes. -/
def Spec.visited (a : Assembler) (name : String) (u : UnresolvedSymbol) (e : Symbol) :
    Assembler :=
  { a with
    symbolTable := update name
      { e with
        value := toInt16 (e.value + Spec.dependencySum a.symbolTable u.dependencies),
        defined := Spec.allDefined a.symbolTable u.dependencies } a.symbolTable,
    UST := update name
      { u with dependencies := Spec.renamedDependencies a.symbolTable u.dependencies } a.UST }

/-- The state between two rounds of the loop of `resolveSymbols` in the visiting order `B`,
`A` over `Spec.laterLabelLines`. -/
def Spec.laterLabelMidState : Assembler :=
  okOr Spec.laterLabelState (Assembler.resolveLoop ["B"] Spec.laterLabelState)

/-! ## Notions for: C35: labels on successive lines -/

/-- The state of the loop of the first pass after the single line `.text`. -/
def Spec.openTextPass : Assembler.Pass := ⟨Spec.textState, false, some ".text"⟩

/-- The state of the loop of the first pass after the lines `.text` and `L1:`. -/
def Spec.labelLinePass : Assembler.Pass :=
  okOr Spec.openTextPass (Assembler.firstPassLine Spec.utils Spec.openTextPass ["L1:"])

/-! ## Notions for: C38: directives before the first section -/

/-- Every line of `lines` begins with a token that is no section directive. -/
def noSectionDirective (U : Utils) (lines : List (List String)) : Bool :=
  lines.all fun l =>
    match l with
    | [] => true
    | t :: _ => decide ((U.getTokenType t).1 ≠ .SECTION)

/-- A program that declares `A` and `B` and then defines a word before any section is
opened. -/
def Spec.wordOutsideLines : List (List String) :=
  [[".extern", "A"], [".global", "B"], [".word", "1"], [".text"]]

/-! ## Notions for: C37: a section is opened once -/

/-- The state `a1` differs from `a` in the symbol table and in UST only. -/
def SymbolsOnly (a a1 : Assembler) : Prop :=
  a1 = { a with symbolTable := a1.symbolTable, UST := a1.UST }

/-- Every key of the section table has a defined entry in the symbol table. -/
def SectionsDefined (a : Assembler) : Prop :=
  ∀ k, count k a.sectionTable = true → ∃ s, find? k a.symbolTable = some s ∧ s.defined = true

/-- A program that opens `.text`, then `.data`, then `.text` again. -/
def Spec.reopenedLines : List (List String) := [[".text"], [".data"], [".text"]]

/-- The state of the loop of the first pass after the lines `.text` and `.data`. -/
def Spec.reopenedPass : Assembler.Pass :=
  okOr ⟨Assembler.init Spec.reopenedLines, false, none⟩
    (Assembler.passLoop (Assembler.firstPassLine Spec.utils) [[".text"], [".data"]]
      ⟨Assembler.init Spec.reopenedLines, false, none⟩)

/-! ## Notions for: C19: relocations and section sizes over a run -/

section
open Assembler

/-- What a line does to the location counter, as the second pass reads it from its tokens. -/
inductive LineKind
  | idle
  | opens (name : String)
  | align (exponent : Int)
  | skip (bytes : Int)
  | data (directive : String) (queue : List String)
  | instruction (ms queue : List String)
  | bad
  deriving DecidableEq, Repr

/-- The kind of a section directive: the section named by the token itself, or by the token
that follows `.section`. -/
def sectionKind (token : String) (queue : List String) : LineKind :=
  if token = ".section" then
    match queue with
    | [] => .bad
    | name :: _ => .opens name
  else .opens token

/-- The operand of `.align` or `.skip`: the first token of the queue read as an `int`, 1 when
the queue is empty. -/
def firstOperand (queue : List String) : Int :=
  match queue with
  | [] => 1
  | token :: _ => toInt32 (strtol token)

/-- The kind of the statement that starts with `token` (after an optional label). -/
def kindOf (U : Utils) (token : String) (queue : List String) : LineKind :=
  match U.getTokenType token with
  | (.GLOBAL_EXTERN, _) => .idle
  | (.SECTION, _) => sectionKind token queue
  | (.DIRECTIVE, ms) =>
    if group ms 0 = ".equ" then .idle
    else if group ms 0 = ".align" then .align (firstOperand queue)
    else if group ms 0 = ".skip" then .skip (firstOperand queue)
    else .data (group ms 0) queue
  | (.INSTRUCTION, ms) => .instruction ms queue
  | _ => .bad

/-- The kind of a line: a leading label is skipped, a line that is only a label is idle. -/
def lineKind (U : Utils) : List String → LineKind
  | [] => .bad
  | first :: queue =>
    match (U.getTokenType first).1, queue with
    | .LABEL, [] => .idle
    | .LABEL, token :: rest => kindOf U token rest
    | _, _ => kindOf U first queue

/-- The part of a section table that the second pass leaves alone: keys, names and sizes. -/
def shape (table : List (String × Section)) : List (String × String × Nat) :=
  table.map fun e => (e.1, e.2.name, e.2.size)

/-- What a line of the given kind does in the second pass. -/
def Effect2 (U : Utils) (kind : LineKind) (q q1 : Pass) : Prop :=
  shape q1.asm.sectionTable = shape q.asm.sectionTable ∧
  match kind with
  | .idle =>
    q1.currentSection = q.currentSection ∧
    q1.asm.locationCounter = q.asm.locationCounter ∧
    q1.asm.relocationTable = q.asm.relocationTable ∧
    q1.asm.instructions = q.asm.instructions
  | .opens name =>
    q1.currentSection = (if count name q.asm.sectionTable then some name else none) ∧
    q1.asm.locationCounter = 0 ∧
    q1.asm.relocationTable = q.asm.relocationTable ∧
    q1.asm.instructions = q.asm.instructions
  | .align exponent =>
    q1.currentSection = q.currentSection ∧
    alignCounter q.asm.locationCounter exponent = some q1.asm.locationCounter ∧
    q1.asm.relocationTable = q.asm.relocationTable ∧
    q1.asm.instructions = q.asm.instructions
  | .skip bytes =>
    q1.currentSection = q.currentSection ∧
    q1.asm.locationCounter = toUInt16 (q.asm.locationCounter + bytes) ∧
    q1.asm.relocationTable = q.asm.relocationTable ∧
    q1.asm.instructions = q.asm.instructions
  | .data directive queue =>
    q1.currentSection = q.currentSection ∧
    q1.asm.instructions = q.asm.instructions ∧
    ∃ key, q.currentSection = some key ∧
      (q.asm.locationCounter < 65536 →
        q1.asm.locationCounter =
          (q.asm.locationCounter + groups U queue.length queue * datumSize directive) % 65536 ∧
        ∀ name, (∀ sec, find? key q.asm.sectionTable = some sec → sec.name = name) →
          q.asm.locationCounter + groups U queue.length queue * datumSize directive ≤ 65536 →
          EmitsWithin q.asm q1.asm name q.asm.locationCounter
            (q.asm.locationCounter + groups U queue.length queue * datumSize directive))
  | .instruction _ _ =>
    q1.currentSection = q.currentSection ∧
    ∃ key instruction rest, q.currentSection = some key ∧
      q.asm.instructions = instruction :: rest ∧ q1.asm.instructions = rest ∧
      q1.asm.locationCounter = (q.asm.locationCounter + instruction.size) % 65536 ∧
      (instruction.sizeLaw → q.asm.locationCounter + instruction.size ≤ 65536 →
        ∃ sec, find? key q.asm.sectionTable = some sec ∧
          EmitsWithin q.asm q1.asm sec.name q.asm.locationCounter
            (q.asm.locationCounter + instruction.size))
  | .bad => False

/-- The statement part of `secondPassLine`: the `switch` on the tag of the first token after
an optional label, in the state `a` with the line number advanced. -/
def secondPassStatement (U : Utils) (p : Pass) (a : Assembler) (currentToken : String)
    (queue : List String) : Except AssemblingException Pass :=
  match U.getTokenType currentToken with
  | (.GLOBAL_EXTERN, _) =>
    match queue with
    | [] => a.fail .directiveWithoutArguments
    | _ :: _ =>
      match secondPassGlobalExtern U currentToken queue a with
      | .error e => .error e
      | .ok a1 => .ok ⟨a1, p.labelDefined, p.currentSection⟩
  | (.SECTION, _) =>
    let a1 := { a with locationCounter := 0 }
    if currentToken = ".section" then
      match queue with
      | [] => a1.fail .undefinedBehaviour
      | name :: _ => .ok ⟨a1, p.labelDefined, if count name a1.sectionTable then some name else none⟩
    else
      .ok ⟨a1, p.labelDefined,
        if count currentToken a1.sectionTable then some currentToken else none⟩
  | (.DIRECTIVE, ms) =>
    match secondPassDirective U a p.currentSection (group ms 0) queue with
    | .error e => .error e
    | .ok a1 => .ok ⟨a1, p.labelDefined, p.currentSection⟩
  | (.INSTRUCTION, _) =>
    match a.instructions, p.currentSection with
    | instruction :: rest, some key =>
      match generateInstructionCode a instruction key with
      | .error e => .error e
      | .ok a1 =>
        .ok ⟨{ a1 with locationCounter := (a1.locationCounter + instruction.size) % 65536,
                       instructions := rest }, p.labelDefined, p.currentSection⟩
    | _, _ => a.fail .undefinedBehaviour
  | _ => a.fail .invalidToken

/-- The lexer and parser conditions under which both passes read a line alike: the first match
group of a symbol, a section name or an immediate is the token itself (the first pass reads
`matches[0]` where the second pass reads the token; `matches[0]` of a `regex_match` is the
whole token), and every parsed instruction obeys the size law. -/
structure Faithful (U : Utils) : Prop where
  name : ∀ token type ms, U.getTokenType token = (type, ms) →
    type = .SYMBOL ∨ type = .SECTION ∨ type = .SECTION_NAME ∨ type = .OPERAND_IMMED →
    group ms 0 = token
  sizeLaw : ∀ queue ms line instruction rest,
    U.extract queue ms line = .ok (instruction, rest) → instruction.sizeLaw

/-- The section table after `currentSection->size = locationCounter`. -/
def closeTable (table : List (String × Section)) (currentSection : Option String)
    (locationCounter : Nat) : List (String × Section) :=
  match currentSection with
  | none => table
  | some key =>
    match find? key table with
    | none => table
    | some sec => update key { sec with size := locationCounter } table

/-- What a line of the given kind does in the first pass. -/
def Effect1 (U : Utils) (kind : LineKind) (p p1 : Pass) : Prop :=
  (p1.asm.relocationTable = p.asm.relocationTable ∧ p1.asm.assembly = p.asm.assembly) ∧
  match kind with
  | .idle =>
    p1.currentSection = p.currentSection ∧
    p1.asm.locationCounter = p.asm.locationCounter ∧
    p1.asm.sectionTable = p.asm.sectionTable ∧
    p1.asm.instructions = p.asm.instructions
  | .opens name =>
    p1.currentSection = some name ∧
    p1.asm.locationCounter = 0 ∧
    p1.asm.instructions = p.asm.instructions ∧
    count name p.asm.sectionTable = false ∧
    ∃ sec, sec.name = name ∧
      p1.asm.sectionTable =
        closeTable p.asm.sectionTable p.currentSection p.asm.locationCounter ++ [(name, sec)]
  | .align exponent =>
    p1.currentSection = p.currentSection ∧
    alignCounter p.asm.locationCounter exponent = some p1.asm.locationCounter ∧
    p1.asm.sectionTable = p.asm.sectionTable ∧
    p1.asm.instructions = p.asm.instructions
  | .skip bytes =>
    p1.currentSection = p.currentSection ∧
    p1.asm.locationCounter = toUInt16 (p.asm.locationCounter + bytes) ∧
    p1.asm.sectionTable = p.asm.sectionTable ∧
    p1.asm.instructions = p.asm.instructions
  | .data directive queue =>
    p1.currentSection = p.currentSection ∧
    p1.asm.locationCounter =
      (p.asm.locationCounter + countData U queue true 0 * datumSize directive) % 65536 ∧
    p1.asm.sectionTable = p.asm.sectionTable ∧
    p1.asm.instructions = p.asm.instructions
  | .instruction _ _ =>
    p1.currentSection = p.currentSection ∧
    p1.asm.sectionTable = p.asm.sectionTable ∧
    ∃ instruction, instruction.sizeLaw ∧
      p1.asm.instructions = p.asm.instructions ++ [instruction] ∧
      p1.asm.locationCounter = (p.asm.locationCounter + instruction.size) % 65536
  | .bad => False

/-- Every entry of the section table is stored under its own name. -/
def NamesOK (table : List (String × Section)) : Prop :=
  ∀ k sec, find? k table = some sec → sec.name = k

/-- No line of the second pass over `lines` from the state `q` takes the location counter
around 2^16: a line that does not open a section leaves the counter where it is or moves it
forwards, and every line has fewer than 2^15 tokens, so that its data cannot take the counter
once around. -/
def noWrap (U : Utils) : List (List String) → Pass → Bool
  | [], _ => true
  | tokens :: rest, q =>
    match secondPassLine U q tokens with
    | .error _ => true
    | .ok q1 =>
      decide (tokens.length < 32768) &&
      (match lineKind U tokens with
        | .opens _ => true
        | _ => decide (q.asm.locationCounter ≤ q1.asm.locationCounter)) &&
      noWrap U rest q1

/-- The operand list of every `.byte`/`.word` line starts with an operand. -/
def operandFirst (U : Utils) (lines : List (List String)) : Bool :=
  lines.all fun tokens =>
    match lineKind U tokens with
    | .data _ (token :: _) => U.isExpression token
    | _ => true

/-- The states `p` of the first pass and `q` of the second pass before the same line: the
same current section, which is in the section table, the same location counter inside a
section, the instructions of the first pass not yet consumed by the second, the section sizes
`sizes` in the table of the second pass, and every relocation emitted so far either in the
current section below the location counter or in an earlier section within its size. -/
structure Sim (p q : Pass) (final : List Instruction) (sizes : List (String × String × Nat)) :
    Prop where
  current : q.currentSection = p.currentSection
  counter : ∀ key, p.currentSection = some key →
    q.asm.locationCounter = p.asm.locationCounter ∧ p.asm.locationCounter < 65536 ∧
      count key p.asm.sectionTable = true
  names : NamesOK p.asm.sectionTable
  names2 : NamesOK q.asm.sectionTable
  instructions : final = p.asm.instructions ++ q.asm.instructions
  sizes : shape q.asm.sectionTable = sizes
  relocations : ∀ r ∈ q.asm.relocationTable,
    (p.currentSection = some r.sect ∧ r.offset + r.type.width ≤ q.asm.locationCounter) ∨
    (p.currentSection ≠ some r.sect ∧
      ∃ sec, find? r.sect p.asm.sectionTable = some sec ∧ r.offset + r.type.width ≤ sec.size)

/-- A data section with two words that name the unknown symbol `X`. -/
def Spec.twoWordLines : List (List String) := [[".data"], [".word", "X"], [".word", "X"]]

/-- The state after the first pass over `Spec.twoWordLines`. -/
def Spec.twoWordState : Assembler := Spec.afterFirstPass Spec.twoWordLines

/-- The state after the second pass over `Spec.twoWordLines`. -/
def Spec.twoWordFinal : Assembler :=
  okOr Spec.twoWordState (secondPass Spec.utils Spec.twoWordState)

/-- The state after the first pass over `Spec.forwardLines` with the lexer and parser that
know `jmp`. -/
def Spec.jumpState : Assembler :=
  okOr (init Spec.forwardLines) (firstPass Spec.instructionUtils (init Spec.forwardLines))

/-- The state after the second pass over `Spec.forwardLines`. -/
def Spec.jumpFinal : Assembler :=
  okOr Spec.jumpState (secondPass Spec.instructionUtils Spec.jumpState)

end

open Assembler

/-! ## Bytes of 16-bit values and table lookups -/

theorem toInt16_emod (x : Int) : toInt16 x % 65536 = x % 65536 := by
  unfold toInt16; omega

theorem lowerByte_toInt16 (x : Int) : lowerByte (toInt16 x) = lowerByte x := by
  unfold lowerByte toInt16
  congr 1
  omega

theorem higherByte_toInt16 (x : Int) : higherByte (toInt16 x) = higherByte x := by
  unfold higherByte
  rw [toInt16_emod]

theorem higherByte_pos_iff (x : Int) : 0 < higherByte x ↔ 256 ≤ x % 65536 := by
  unfold higherByte
  omega

theorem toInt16_toInt16_sub (x y : Int) : toInt16 (toInt16 x - y) = toInt16 (x - y) := by
  unfold toInt16; omega

theorem find?_append_none {α : Type} (k : String) (t r : List (String × α))
    (h : find? k t = none) : find? k (t ++ r) = find? k r := by
  induction t with
  | nil => rfl
  | cons e t ih =>
    obtain ⟨k', v⟩ := e
    by_cases hk : k' = k
    · simp [find?, hk] at h
    · simp only [find?, hk, if_false] at h
      simp [find?, hk, ih h]

theorem count_mem_keys {α : Type} (k : String) (t : List (String × α)) (h : count k t = true) :
    k ∈ t.map Prod.fst := by
  induction t with
  | nil => simp [count, find?] at h
  | cons e t ih =>
    obtain ⟨k', v⟩ := e
    by_cases hk : k' = k
    · simp [hk]
    · simp only [count, find?, hk, if_false] at h
      simp only [List.map_cons, List.mem_cons]
      right
      exact ih (by simpa [count] using h)

/-! ## C2: length of an encoded instruction -/

theorem payload_length (a : Assembler) (value : Int) (byteSized : Bool) (bs : List Nat)
    (h : payload a value byteSized = .ok bs) : bs.length = if byteSized then 1 else 2 := by
  unfold payload at h
  cases byteSized
  · simp at h; subst h; rfl
  · simp only [if_true] at h
    split at h
    · simp [Assembler.fail] at h
    · simp at h; subst h; rfl

theorem symbolPayload_length (a a1 : Assembler) (symbol : String) (byteSized : Bool)
    (offset : Nat) (sectName : String) (bs : List Nat)
    (h : symbolPayload a symbol byteSized offset sectName = .ok (a1, bs)) :
    bs.length = if byteSized then 1 else 2 := by
  unfold symbolPayload at h
  split at h
  · split at h
    · split at h
      · simp at h
      · next hp => simp at h; rw [← h.2]; exact payload_length _ _ _ _ hp
    · simp [Assembler.fail] at h
  · split at h
    · split at h
      · split at h
        · simp at h
        · next hp =>
          split at h <;> simp at h <;> rw [← h.2] <;> exact payload_length _ _ _ _ hp
      · split at h
        · simp at h
        · next hp => simp at h; rw [← h.2]; exact payload_length _ _ _ _ hp
    · split at h
      · simp at h
      · split at h
        · simp at h
        · next hp => simp at h; rw [← h.2]; exact payload_length _ _ _ _ hp

theorem pcRelativePayload_length (a a1 : Assembler) (symbol : String) (offset : Int)
    (size : Nat) (sectName : String) (bs : List Nat)
    (h : pcRelativePayload a symbol offset size sectName = .ok (a1, bs)) : bs.length = 2 := by
  unfold pcRelativePayload at h
  simp only at h
  split at h
  · split at h
    · simp at h; rw [← h.2]; rfl
    · simp [Assembler.fail] at h
  · split at h
    · split at h
      · simp [Assembler.fail] at h
      · split at h
        · simp [Assembler.fail] at h
        · simp at h; rw [← h.2]; rfl
    · split at h
      · simp at h
      · simp at h; rw [← h.2]; rfl

theorem operandCode_length (a a1 : Assembler) (i : Instruction) (o : Operand) (offset : Int)
    (sectName : String) (bs : List Nat)
    (hsize : i.operandSize = 1 ∨ i.operandSize = 2)
    (hlaw : o.sizeLaw i.operandSize)
    (h : operandCode a i o offset sectName = .ok (a1, bs)) : bs.length = o.size := by
  unfold Operand.sizeLaw at hlaw
  unfold operandCode at h
  cases hadd : o.addressing <;> rw [hadd] at hlaw h <;> simp only at hlaw h <;>
    obtain ⟨htype, hsz⟩ := hlaw
  · -- IMMED
    rcases htype with ht | ht <;> rw [ht] at h <;> simp only at h
    · split at h
      · simp at h
      · next hp =>
        simp at h
        have := payload_length _ _ _ _ hp
        rw [← h.2, hsz]
        rcases hsize with hs | hs <;> simp [hs, BYTE] at this ⊢ <;> omega
    · split at h
      · simp at h
      · next hp =>
        simp at h
        have := symbolPayload_length _ _ _ _ _ _ _ hp
        rw [← h.2, hsz]
        rcases hsize with hs | hs <;> simp [hs, BYTE] at this ⊢ <;> omega
  · -- REG_DIR
    rcases htype with ht | ht <;> rw [ht] at h <;> simp at h <;> rw [← h.2, hsz] <;> rfl
  · -- REG_IND
    rcases htype with ht | ht <;> rw [ht] at h <;> simp at h <;> rw [← h.2, hsz] <;> rfl
  · -- REG_IND_8
    rw [htype] at h
    simp at h
    rw [← h.2, hsz]; rfl
  · -- REG_IND_16
    rcases htype with ht | ht | ht <;> rw [ht] at h <;> simp only at h
    · simp at h
      rw [← h.2, hsz]; rfl
    · split at h
      · simp at h
      · next hp =>
        simp at h
        have := symbolPayload_length _ _ _ _ _ _ _ hp
        rw [← h.2, hsz]; simp at this ⊢; omega
    · split at h
      · simp at h
      · next hp =>
        simp at h
        have := pcRelativePayload_length _ _ _ _ _ _ _ hp
        rw [← h.2, hsz]; simp at this ⊢; omega
  · -- MEMORY
    rcases htype with ht | ht <;> rw [ht] at h <;> simp only at h
    · simp at h
      rw [← h.2, hsz]; rfl
    · split at h
      · simp at h
      · next hp =>
        simp at h
        have := symbolPayload_length _ _ _ _ _ _ _ hp
        rw [← h.2, hsz]; simp at this ⊢; omega

theorem addSymbol_locationCounter (a a1 : Assembler) (name sect : String) (value : Int)
    (scope : ScopeType) (type : SymbolType) (defined : Bool)
    (h : a.addSymbol name sect value scope type defined = .ok a1) :
    a1.locationCounter = a.locationCounter ∧ a1.sectionTable = a.sectionTable := by
  unfold addSymbol at h
  split at h
  · split at h
    · simp [Assembler.fail] at h
    · simp at h; subst h; exact ⟨rfl, rfl⟩
  · split at h
    · simp [Assembler.fail] at h
    · simp at h; subst h; exact ⟨rfl, rfl⟩

theorem symbolPayload_locationCounter (a a1 : Assembler) (symbol : String) (byteSized : Bool)
    (offset : Nat) (sectName : String) (bs : List Nat)
    (h : symbolPayload a symbol byteSized offset sectName = .ok (a1, bs)) :
    a1.locationCounter = a.locationCounter := by
  unfold symbolPayload at h
  split at h
  · split at h
    · split at h
      · simp at h
      · simp at h; rw [← h.1]; rfl
    · simp [Assembler.fail] at h
  · split at h
    · split at h
      · split at h
        · simp at h
        · split at h <;> simp at h <;> rw [← h.1] <;> rfl
      · split at h
        · simp at h
        · simp at h; rw [← h.1]; rfl
    · split at h
      · simp at h
      · next ha =>
        split at h
        · simp at h
        · simp at h; rw [← h.1]; exact (addSymbol_locationCounter _ _ _ _ _ _ _ _ ha).1

theorem pcRelativePayload_locationCounter (a a1 : Assembler) (symbol : String) (offset : Int)
    (size : Nat) (sectName : String) (bs : List Nat)
    (h : pcRelativePayload a symbol offset size sectName = .ok (a1, bs)) :
    a1.locationCounter = a.locationCounter := by
  unfold pcRelativePayload at h
  simp only at h
  split at h
  · split at h
    · simp at h; rw [← h.1]; rfl
    · simp [Assembler.fail] at h
  · split at h
    · split at h
      · simp [Assembler.fail] at h
      · split at h
        · simp [Assembler.fail] at h
        · simp at h; rw [← h.1]; rfl
    · split at h
      · simp at h
      · next ha =>
        simp at h; rw [← h.1]; exact (addSymbol_locationCounter _ _ _ _ _ _ _ _ ha).1

theorem operandCode_locationCounter (a a1 : Assembler) (i : Instruction) (o : Operand)
    (offset : Int) (sectName : String) (bs : List Nat)
    (h : operandCode a i o offset sectName = .ok (a1, bs)) :
    a1.locationCounter = a.locationCounter := by
  unfold operandCode at h
  cases hadd : o.addressing <;> rw [hadd] at h <;> simp only at h <;>
    cases htype : o.type <;> rw [htype] at h <;> simp only [Assembler.fail] at h <;>
    first
      | (simp at h; done)
      | (simp at h; rw [← h.1]; done)
      | (split at h
         · simp at h
         · next hp =>
           simp at h
           rw [← h.1]
           first
             | rfl
             | exact symbolPayload_locationCounter _ _ _ _ _ _ _ hp
             | exact pcRelativePayload_locationCounter _ _ _ _ _ _ _ hp)
      | (split at h <;> simp at h <;> rw [← h.1])

theorem operand_sizeLaw_bounds (n : Nat) (o : Operand) (hn : n = 1 ∨ n = 2)
    (h : o.sizeLaw n) : 1 ≤ o.size ∧ o.size ≤ 3 := by
  unfold Operand.sizeLaw at h
  cases hadd : o.addressing <;> rw [hadd] at h <;> simp only at h <;> omega

theorem instructionBytes_length (a a1 : Assembler) (i : Instruction) (sectName : String)
    (bs : List Nat) (hlaw : i.sizeLaw) (h : instructionBytes a i sectName = .ok (a1, bs)) :
    bs.length = i.size ∧ a1.locationCounter = a.locationCounter := by
  obtain ⟨hsize, hd, hs, hsum⟩ := hlaw
  unfold instructionBytes at h
  simp only at h
  cases hdest : i.destination with
  | none =>
    rw [hdest] at h hsum
    simp only at h
    cases hsrc : i.source with
    | none =>
      rw [hsrc] at h hsum
      simp at h
      rw [← h.2, ← h.1, hsum]
      simp [operandSizeOf]
    | some s =>
      rw [hsrc] at h hsum
      simp only at h
      split at h
      · simp at h
      · next a2 bs2 hp =>
        simp at h
        have hl := operandCode_length _ _ _ _ _ _ _ hsize (hs s hsrc) hp
        have hc := operandCode_locationCounter _ _ _ _ _ _ _ hp
        rw [← h.2, ← h.1, hsum]
        simp [operandSizeOf, hl, hc]
        omega
  | some d =>
    rw [hdest] at h hsum
    simp only at h
    split at h
    · simp at h
    · next a1' bs1 hp1 =>
      have hl1 := operandCode_length _ _ _ _ _ _ _ hsize (hd d hdest) hp1
      have hc1 := operandCode_locationCounter _ _ _ _ _ _ _ hp1
      cases hsrc : i.source with
      | none =>
        rw [hsrc] at h hsum
        simp at h
        rw [← h.2, ← h.1, hsum]
        simp [operandSizeOf, hl1, hc1]
        omega
      | some s =>
        rw [hsrc] at h hsum
        simp only at h
        split at h
        · simp at h
        · next a2 bs2 hp2 =>
          simp at h
          have hl2 := operandCode_length _ _ _ _ _ _ _ hsize (hs s hsrc) hp2
          have hc2 := operandCode_locationCounter _ _ _ _ _ _ _ hp2
          rw [← h.2, ← h.1, hsum]
          simp [operandSizeOf, hl1, hl2, hc1, hc2]
          omega

theorem instruction_sizeLaw_bounds (i : Instruction) (hlaw : i.sizeLaw) :
    1 ≤ i.size ∧ i.size ≤ 7 := by
  obtain ⟨hsize, hd, hs, hsum⟩ := hlaw
  have h1 : operandSizeOf i.destination ≤ 3 := by
    cases hdest : i.destination with
    | none => simp [operandSizeOf]
    | some d => exact (operand_sizeLaw_bounds _ d hsize (hd d hdest)).2
  have h2 : operandSizeOf i.source ≤ 3 := by
    cases hsrc : i.source with
    | none => simp [operandSizeOf]
    | some d => exact (operand_sizeLaw_bounds _ d hsize (hs d hsrc)).2
  omega

/-- C2, amended: for every instruction that obeys the size law (operand size 1 or 2, operand
types that fit their addressing modes, `size` equal to one plus the operand sizes), whenever
`generateInstructionCode` succeeds, the bytes it writes to the section at the location counter
are the vector built by `instructionBytes`, their number equals `instruction.size`, and that
size lies between 1 and 7. -/
theorem generateInstructionCode_length (a a2 : Assembler) (i : Instruction) (sect : String)
    (hlaw : i.sizeLaw) (h : generateInstructionCode a i sect = .ok a2) :
    ∃ sec a1 bs, find? sect a.sectionTable = some sec ∧
      instructionBytes a i sec.name = .ok (a1, bs) ∧
      a2 = { a1 with sectionTable := update sect (sec.write a.locationCounter bs) a1.sectionTable } ∧
      bs.length = i.size ∧ 1 ≤ i.size ∧ i.size ≤ 7 := by
  unfold generateInstructionCode at h
  split at h
  · simp [Assembler.fail] at h
  · next sec hsec =>
    split at h
    · simp at h
    · next a1 bs hb =>
      simp at h
      obtain ⟨hlen, hlc⟩ := instructionBytes_length _ _ _ _ _ hlaw hb
      refine ⟨sec, a1, bs, hsec, hb, ?_, hlen, instruction_sizeLaw_bounds i hlaw⟩
      rw [← h, ← hlc]
      rfl

/-! ## C3: the cycle check -/

theorem filter_unvisited_le (l : List String) (v v' : List String)
    (h : ∀ x, x ∈ v → x ∈ v') :
    (l.filter (fun k => decide (k ∉ v'))).length ≤
      (l.filter (fun k => decide (k ∉ v))).length := by
  induction l with
  | nil => simp
  | cons k l ih =>
    by_cases hk' : k ∈ v'
    · by_cases hk : k ∈ v
      · simp [List.filter, hk, hk'] at ih ⊢; exact ih
      · simp [List.filter, hk, hk'] at ih ⊢; omega
    · have hk : k ∉ v := fun hk => hk' (h k hk)
      simp [List.filter, hk, hk'] at ih ⊢; exact ih

theorem filter_unvisited_lt (l : List String) (v : List String) (s : String)
    (hs : s ∈ l) (hv : s ∉ v) :
    (l.filter (fun k => decide (k ∉ s :: v))).length <
      (l.filter (fun k => decide (k ∉ v))).length := by
  induction l with
  | nil => simp at hs
  | cons k l ih =>
    have hle := filter_unvisited_le l v (s :: v) (fun x hx => List.mem_cons_of_mem _ hx)
    by_cases hks : k = s
    · subst hks
      simp [List.filter, hv] at hle ⊢
      omega
    · have hs' : s ∈ l := by
        rcases List.mem_cons.mp hs with h | h
        · exact absurd h.symm hks
        · exact h
      have := ih hs'
      by_cases hk : k ∈ v
      · simp [List.filter, hk, hks] at this ⊢; exact this
      · simp [List.filter, hk, hks] at this ⊢; exact this

theorem unvisited_mono (T : List (String × UnresolvedSymbol)) (v v' : List String)
    (h : ∀ x, x ∈ v → x ∈ v') : unvisited T v' ≤ unvisited T v :=
  filter_unvisited_le _ v v' h

theorem unvisited_cons_lt (T : List (String × UnresolvedSymbol)) (v : List String) (s : String)
    (hk : count s T = true) (hs : s ∉ v) : unvisited T (s :: v) < unvisited T v :=
  filter_unvisited_lt _ v s (count_mem_keys s T hk) hs


theorem cycleLoop_spec (a : Assembler) (call : String → Marks → Option (Bool × Marks))
    (bound : Nat) (hcall : CallSpec a call bound) (d : String) (u : UnresolvedSymbol)
    (hd : find? d a.UST = some u) :
    ∀ (l : List (String × String)) (m : Marks),
      (∀ e, e ∈ l → e ∈ u.dependencies) → MarksInv a.UST m → d ∈ m.recursionStack →
      (∀ x, x ∈ m.recursionStack → Relation.ReflTransGen (dependsOn a.UST) x d) →
      unvisited a.UST m.visited < bound →
      ∃ b m1, cycleLoop call l m = some (b, m1) ∧ (b = true → hasDirectedCycle a.UST) ∧
        (b = false → MarksInv a.UST m1 ∧ (∀ x, x ∈ m.visited → x ∈ m1.visited) ∧
          (∀ x, x ∈ m1.recursionStack ↔ x ∈ m.recursionStack) ∧
          ∀ e, e ∈ l → count e.1 a.UST = true →
            e.1 ∈ m1.visited ∧ e.1 ∉ m1.recursionStack) := by
  intro l
  induction l with
  | nil =>
    intro m _ hinv _ _ _
    exact ⟨false, m, rfl, by simp, fun _ => ⟨hinv, fun _ h => h, fun _ => Iff.rfl, by simp⟩⟩
  | cons y rest ih =>
    intro m hsub hinv hdr hpath hlt
    have hyu : y ∈ u.dependencies := hsub y (List.mem_cons_self _ _)
    have hrest : ∀ e, e ∈ rest → e ∈ u.dependencies :=
      fun e he => hsub e (List.mem_cons_of_mem _ he)
    have hedge : count y.1 a.UST = true → dependsOn a.UST d y.1 :=
      fun hk => ⟨u, hd, List.mem_map_of_mem _ hyu, hk⟩
    by_cases hyv : y.1 ∈ m.visited
    · by_cases hyr : y.1 ∈ m.recursionStack
      · refine ⟨true, m, ?_, ?_, by simp⟩
        · simp [cycleLoop, hyv, hyr]
        · intro _
          have hk := hinv.visited_key _ hyv
          exact ⟨d, Relation.TransGen.head' (hedge hk) (hpath _ hyr)⟩
      · obtain ⟨b, m1, hrun, ht, hf⟩ := ih m hrest hinv hdr hpath hlt
        refine ⟨b, m1, ?_, ht, ?_⟩
        · simp [cycleLoop, hyv, hyr, hrun]
        · intro hb
          obtain ⟨hinv1, hmono, hsame, hblack⟩ := hf hb
          refine ⟨hinv1, hmono, hsame, ?_⟩
          intro e he hk
          rcases List.mem_cons.mp he with h | h
          · subst h
            exact ⟨hmono _ hyv, fun hr => hyr ((hsame _).mp hr)⟩
          · exact hblack e h hk
    · have hyr : y.1 ∉ m.recursionStack := fun h => hyv (hinv.stack_visited _ h)
      have hQ : count y.1 a.UST = true →
          ∀ x, x ∈ m.recursionStack → Relation.TransGen (dependsOn a.UST) x y.1 :=
        fun hk x hx => Relation.TransGen.tail' (hpath x hx) (hedge hk)
      obtain ⟨b, m1, hc, ht, hf⟩ := hcall y.1 m hinv hyr hQ hlt
      cases b with
      | true =>
        refine ⟨true, m1, ?_, ht, by simp⟩
        simp [cycleLoop, hyv, hc]
      | false =>
        have hpost := hf rfl
        have hyr1 : y.1 ∉ m1.recursionStack := fun h => hyr ((hpost.stack_same _).mp h)
        have hlt1 : unvisited a.UST m1.visited < bound :=
          Nat.lt_of_le_of_lt (unvisited_mono _ _ _ hpost.visited_mono) hlt
        obtain ⟨b2, m2, hrun, ht2, hf2⟩ := ih m1 hrest hpost.inv
          ((hpost.stack_same _).mpr hdr)
          (fun x hx => hpath x ((hpost.stack_same _).mp hx)) hlt1
        refine ⟨b2, m2, ?_, ht2, ?_⟩
        · simp [cycleLoop, hyv, hc, hyr1, hrun]
        · intro hb
          obtain ⟨hinv2, hmono2, hsame2, hblack2⟩ := hf2 hb
          refine ⟨hinv2, fun x hx => hmono2 _ (hpost.visited_mono _ hx),
            fun x => (hsame2 x).trans (hpost.stack_same x), ?_⟩
          intro e he hk
          rcases List.mem_cons.mp he with h | h
          · subst h
            exact ⟨hmono2 _ (hpost.visited_self hk),
              fun hr => hyr1 ((hsame2 _).mp hr)⟩
          · exact hblack2 e h hk


theorem finished_reach (T : List (String × UnresolvedSymbol)) (m : Marks)
    (hclosed : ∀ x, x ∈ m.visited → x ∉ m.recursionStack →
      ∀ y, dependsOn T x y → y ∈ m.visited ∧ y ∉ m.recursionStack)
    (x z : String) (hx : x ∈ m.visited ∧ x ∉ m.recursionStack)
    (h : Relation.ReflTransGen (dependsOn T) x z) :
    z ∈ m.visited ∧ z ∉ m.recursionStack := by
  induction h with
  | refl => exact hx
  | tail _ hyz ih => exact hclosed _ ih.1 ih.2 _ hyz

theorem cycle_spec (a : Assembler) : ∀ fuel, CallSpec a (cycle a fuel) fuel := by
  intro fuel
  induction fuel with
  | zero => intro s m _ _ _ hlt; exact absurd hlt (Nat.not_lt_zero _)
  | succ fuel ih =>
    intro s m hinv hsr hQ hlt
    cases hfind : find? s a.UST with
    | none =>
      have hk : ¬ count s a.UST = true := by simp [count, hfind]
      refine ⟨false, m, by simp [cycle, hfind], by simp, fun _ => ?_⟩
      exact ⟨hinv, fun _ h => h, fun _ => Iff.rfl, fun h => absurd h hk⟩
    | some u =>
      have hk : count s a.UST = true := by simp [count, hfind]
      by_cases hsv : s ∈ m.visited
      · refine ⟨false, { m with recursionStack := m.recursionStack.filter (· ≠ s) }, ?_,
          by simp, fun _ => ?_⟩
        · simp [cycle, hfind, hsv]
        · have hsame : ∀ x, x ∈ m.recursionStack.filter (· ≠ s) ↔ x ∈ m.recursionStack := by
            intro x
            simp only [List.mem_filter, ne_eq, decide_not, Bool.not_eq_true',
              decide_eq_false_iff_not]
            constructor
            · exact fun h => h.1
            · exact fun h => ⟨h, fun hxs => hsr (hxs ▸ h)⟩
          refine ⟨⟨?_, hinv.visited_key, ?_, ?_⟩, fun _ h => h, hsame, fun _ => hsv⟩
          · intro x hx; exact hinv.stack_visited x ((hsame x).mp hx)
          · intro x hx hxr y hxy
            have := hinv.closed x hx (fun h => hxr ((hsame x).mpr h)) y hxy
            exact ⟨this.1, fun h => this.2 ((hsame y).mp h)⟩
          · intro x hx hxr
            exact hinv.acyclic x hx (fun h => hxr ((hsame x).mpr h))
      · -- the symbol is marked and its dependencies are searched
        have hinv' : MarksInv a.UST ⟨s :: m.visited, s :: m.recursionStack⟩ := by
          refine ⟨?_, ?_, ?_, ?_⟩
          · intro x hx
            rcases List.mem_cons.mp hx with h | h
            · exact h ▸ List.mem_cons_self _ _
            · exact List.mem_cons_of_mem _ (hinv.stack_visited x h)
          · intro x hx
            rcases List.mem_cons.mp hx with h | h
            · exact h ▸ hk
            · exact hinv.visited_key x h
          · intro x hx hxr y hxy
            have hxs : x ≠ s := fun h => hxr (h ▸ List.mem_cons_self _ _)
            have hx' : x ∈ m.visited := by
              rcases List.mem_cons.mp hx with h | h
              · exact absurd h hxs
              · exact h
            have hxr' : x ∉ m.recursionStack := fun h => hxr (List.mem_cons_of_mem _ h)
            have := hinv.closed x hx' hxr' y hxy
            refine ⟨List.mem_cons_of_mem _ this.1, fun h => ?_⟩
            rcases List.mem_cons.mp h with h | h
            · exact hsv (h ▸ this.1)
            · exact this.2 h
          · intro x hx hxr
            have hxs : x ≠ s := fun h => hxr (h ▸ List.mem_cons_self _ _)
            have hx' : x ∈ m.visited := by
              rcases List.mem_cons.mp hx with h | h
              · exact absurd h hxs
              · exact h
            exact hinv.acyclic x hx' (fun h => hxr (List.mem_cons_of_mem _ h))
        have hpath : ∀ x, x ∈ s :: m.recursionStack →
            Relation.ReflTransGen (dependsOn a.UST) x s := by
          intro x hx
          rcases List.mem_cons.mp hx with h | h
          · exact h ▸ Relation.ReflTransGen.refl
          · exact (hQ hk x h).to_reflTransGen
        have hlt' : unvisited a.UST (s :: m.visited) < fuel := by
          have := unvisited_cons_lt a.UST m.visited s hk hsv
          omega
        obtain ⟨b, m1, hrun, ht, hf⟩ := cycleLoop_spec a (cycle a fuel) fuel ih s u hfind
          u.dependencies ⟨s :: m.visited, s :: m.recursionStack⟩ (fun _ h => h) hinv'
          (List.mem_cons_self _ _) hpath hlt'
        cases b with
        | true =>
          exact ⟨true, m1, by simp [cycle, hfind, hsv, hrun], ht, by simp⟩
        | false =>
          obtain ⟨hinv1, hmono, hsame, hblack⟩ := hf rfl
          refine ⟨false, { m1 with recursionStack := m1.recursionStack.filter (· ≠ s) },
            by simp [cycle, hfind, hsv, hrun], by simp, fun _ => ?_⟩
          have hmem : ∀ x, x ∈ m1.recursionStack.filter (· ≠ s) ↔
              x ∈ m1.recursionStack ∧ x ≠ s := by
            intro x
            simp only [List.mem_filter, ne_eq, decide_not, Bool.not_eq_true',
              decide_eq_false_iff_not]
          have hs1 : s ∈ m1.recursionStack := (hsame s).mpr (List.mem_cons_self _ _)
          have hsv1 : s ∈ m1.visited := hmono s (List.mem_cons_self _ _)
          have hsucc : ∀ y, dependsOn a.UST s y → y ∈ m1.visited ∧ y ∉ m1.recursionStack := by
            intro y hsy
            obtain ⟨u', hu', hy, hky⟩ := hsy
            rw [hfind] at hu'
            cases hu'
            obtain ⟨e, he, rfl⟩ := List.mem_map.mp hy
            exact hblack e he hky
          refine ⟨⟨?_, hinv1.visited_key, ?_, ?_⟩, ?_, ?_, fun _ => hsv1⟩
          · intro x hx
            exact hinv1.stack_visited x ((hmem x).mp hx).1
          · intro x hx hxr y hxy
            by_cases hxs : x = s
            · subst hxs
              have := hsucc y hxy
              exact ⟨this.1, fun h => this.2 ((hmem y).mp h).1⟩
            · have hxr1 : x ∉ m1.recursionStack := fun h => hxr ((hmem x).mpr ⟨h, hxs⟩)
              have := hinv1.closed x hx hxr1 y hxy
              exact ⟨this.1, fun h => this.2 ((hmem y).mp h).1⟩
          · intro x hx hxr
            by_cases hxs : x = s
            · subst hxs
              intro hcyc
              obtain ⟨y, hxy, hyx⟩ := Relation.TransGen.head'_iff.mp hcyc
              have hy := hsucc y hxy
              have := finished_reach a.UST m1 hinv1.closed y x hy hyx
              exact this.2 hs1
            · exact hinv1.acyclic x hx (fun h => hxr ((hmem x).mpr ⟨h, hxs⟩))
          · intro x hx
            exact hmono x (List.mem_cons_of_mem _ hx)
          · intro x
            rw [hmem, hsame]
            constructor
            · rintro ⟨h, hxs⟩
              rcases List.mem_cons.mp h with h | h
              · exact absurd h hxs
              · exact h
            · intro h
              exact ⟨List.mem_cons_of_mem _ h, fun hxs => hsr (hxs ▸ h)⟩


theorem unvisited_le_length (T : List (String × UnresolvedSymbol)) (v : List String) :
    unvisited T v ≤ T.length := by
  unfold unvisited
  exact (List.length_filter_le _ _).trans (by simp)

theorem hasCycleLoop_spec (a : Assembler) (fuel : Nat) (hfuel : a.UST.length < fuel) :
    ∀ (l : List (String × UnresolvedSymbol)) (m : Marks),
      MarksInv a.UST m → (∀ x, x ∉ m.recursionStack) →
      ∃ b, hasCycleLoop a fuel l m = some b ∧ (b = true → hasDirectedCycle a.UST) ∧
        (b = false → ∀ e, e ∈ l → count e.1 a.UST = true →
          ¬ Relation.TransGen (dependsOn a.UST) e.1 e.1) := by
  intro l
  induction l with
  | nil => intro m _ _; exact ⟨false, rfl, by simp, by simp⟩
  | cons e rest ih =>
    intro m hinv hr
    obtain ⟨b, m1, hc, ht, hf⟩ := cycle_spec a fuel e.1 m hinv (hr e.1)
      (fun _ x hx => absurd hx (hr x))
      (Nat.lt_of_le_of_lt (unvisited_le_length _ _) hfuel)
    cases b with
    | true => exact ⟨true, by simp [hasCycleLoop, hc], ht, by simp⟩
    | false =>
      have hpost := hf rfl
      have hr1 : ∀ x, x ∉ m1.recursionStack := fun x h => hr x ((hpost.stack_same x).mp h)
      obtain ⟨b2, hrun, ht2, hf2⟩ := ih m1 hpost.inv hr1
      refine ⟨b2, by simp [hasCycleLoop, hc, hrun], ht2, ?_⟩
      intro hb e' he' hk
      rcases List.mem_cons.mp he' with h | h
      · subst h
        exact hpost.inv.acyclic _ (hpost.visited_self hk) (hr1 _)
      · exact hf2 hb e' h hk

/-- C3: for every UST, `hasCycle` returns (the bound on the recursion depth is never hit), and
it returns `true` if and only if the graph whose nodes are the keys of UST and whose edges go
from a key to each of its dependency names that is itself a key contains a directed cycle,
self-loops included; names absent from UST are leaves. -/
theorem hasCycle_correct (a : Assembler) :
    ∃ b, a.hasCycle a.UST = some b ∧ (b = true ↔ hasDirectedCycle a.UST) := by
  have hinv : MarksInv a.UST ⟨[], []⟩ :=
    ⟨by simp, by simp, by simp, by simp⟩
  obtain ⟨b, hrun, ht, hf⟩ := hasCycleLoop_spec a (a.UST.length + 1) (Nat.lt_succ_self _)
    a.UST ⟨[], []⟩ hinv (by simp)
  refine ⟨b, hrun, ht, ?_⟩
  rintro ⟨x, hx⟩
  cases b with
  | true => rfl
  | false =>
    exfalso
    obtain ⟨y, hxy, _⟩ := Relation.TransGen.head'_iff.mp hx
    obtain ⟨u, hu, _, _⟩ := hxy
    have hk : count x a.UST = true := by simp [count, hu]
    obtain ⟨e, he, rfl⟩ := List.mem_map.mp (count_mem_keys x a.UST hk)
    exact hf rfl e he hk hx

/-! ## C1: the two passes and the location counter -/

/-- C1: on the lines `.data` / `.word - 5` the first pass, the resolver and the second pass all
succeed; the first pass records size 0 for `.data` (its scan counts no datum when the operand
list starts with an operator), while the second pass evaluates the regrouped expression `-5`,
writes two bytes and ends the section with location counter 2. -/
theorem firstPass_secondPass_counter_mismatch :
    ∃ a1 a2 a3 sec, firstPass Spec.utils (init Spec.signedWordLines) = .ok a1 ∧
      resolveSymbols a1 [] = .ok a2 ∧ secondPass Spec.utils a2 = .ok a3 ∧
      find? ".data" a3.sectionTable = some sec ∧
      sec.size = 0 ∧ sec.bytes = [251, 255] ∧ a3.locationCounter = 2 := by
  refine ⟨_, _, _, _, rfl, rfl, rfl, rfl, ?_, ?_, ?_⟩ <;> decide

/-! ## C2: closed examples -/

theorem memoryToMemory_sizeLaw : Spec.memoryToMemory.sizeLaw := by
  refine ⟨Or.inr rfl, ?_, ?_, rfl⟩
  · intro o h
    cases h
    exact ⟨Or.inl rfl, rfl⟩
  · intro o h
    cases h
    exact ⟨Or.inl rfl, rfl⟩

/-- C2, counterexample: the instruction with two memory operands obeys the size law,
`generateInstructionCode` succeeds on it and writes seven bytes, which is its `size`; the size
is not between 1 and 5. -/
theorem generateInstructionCode_seven_bytes :
    Spec.memoryToMemory.sizeLaw ∧
    ∃ a2 sec, generateInstructionCode Spec.textState Spec.memoryToMemory
        ".text" = .ok a2 ∧
      find? ".text" a2.sectionTable = some sec ∧ sec.bytes.length = 7 ∧
      Spec.memoryToMemory.size = 7 ∧ ¬ Spec.memoryToMemory.size ≤ 5 := by
  refine ⟨memoryToMemory_sizeLaw, _, _, rfl, rfl, ?_, ?_, ?_⟩ <;> decide

/-- C2, witness: the amended statement at the instruction with two memory operands. -/
theorem generateInstructionCode_length_witness :
    ∃ sec a1 bs, find? ".text" Spec.textState.sectionTable = some sec ∧
      instructionBytes Spec.textState Spec.memoryToMemory sec.name =
        .ok (a1, bs) ∧
      okOr (init []) (generateInstructionCode Spec.textState
          Spec.memoryToMemory ".text") =
        { a1 with
          sectionTable :=
            update ".text" (sec.write Spec.textState.locationCounter bs) a1.sectionTable } ∧
      bs.length = Spec.memoryToMemory.size ∧ 1 ≤ Spec.memoryToMemory.size ∧
      Spec.memoryToMemory.size ≤ 7 :=
  generateInstructionCode_length Spec.textState _ Spec.memoryToMemory ".text"
    memoryToMemory_sizeLaw (by decide)

/-! ## C4: the resolver -/

/-- C4: on the lines `.text` / `.equ A, B` / `.equ B, C` / `C:` the first pass succeeds and
leaves the UST entries `A` (depending on `B`) and `B` (depending on `C`).  When the resolver
visits `A` before `B`, it succeeds and leaves `A` undefined with the single dependency `B`,
although `B` is defined afterwards: `A` neither is defined nor has an undefined dependency. -/
theorem resolveSymbols_leaves_stale_entry :
    ∃ a1 a2 sA sB, firstPass Spec.utils (init Spec.chainLines) = .ok a1 ∧
      a1.UST.map Prod.fst = ["A", "B"] ∧
      resolveSymbols a1 ["A", "B"] = .ok a2 ∧
      find? "A" a2.UST = some ⟨"A", [("B", "+")], ".text"⟩ ∧
      find? "A" a2.symbolTable = some sA ∧ sA.defined = false ∧
      find? "B" a2.symbolTable = some sB ∧ sB.defined = true := by
  refine ⟨_, _, _, _, rfl, ?_, rfl, ?_, rfl, ?_, rfl, ?_⟩ <;> decide

/-! ## C5: a datum that is a single symbol -/

/-- C5, counterexample: the label `S` stands at offset 300 of `.data`, is LOCAL and not in UST;
`evaluate` with `.byte` and the datum `S` fails with the byte-overflow error, so no literal
`S.value` is written. -/
theorem evaluate_byte_of_far_label :
    find? "S" Spec.farLabelState.symbolTable =
      some ⟨"S", ".data", 300, .LOCAL, .LABEL, true, 1⟩ ∧
    count "S" Spec.farLabelState.UST = false ∧
    Spec.utils.getTokenType "S" = (.SYMBOL, ["S"]) ∧
    evaluate Spec.utils Spec.farLabelState ".byte" "S" ".data" =
      .error ⟨3, .byteOverflow⟩ := by
  refine ⟨?_, ?_, ?_, ?_⟩ <;> decide

/-- C5, amended: for a `.byte`/`.word` datum that is a single symbol `S` not in UST, `evaluate`
behaves as follows.  If `S` is in the symbol table and LOCAL and, for `.byte`, the higher byte
of its value is zero, the literal written is `S.value`, with no relocation when `S` is a
CONSTANT and otherwise exactly one `R_386_8` (`.byte`) or `R_386_16` (`.word`) relocation at
the location counter against the section of `S`.  If `S` is in the table and GLOBAL, the
literal is 0, the table is unchanged and exactly one such relocation is emitted against `S`
itself.  If `S` is not in the table, it is added as an undefined GLOBAL EXTERN symbol, the
literal is 0 and exactly one such relocation is emitted against `S` itself. -/
theorem evaluate_single_symbol (U : Utils) (a : Assembler) (directive S sect : String)
    (ms : List String) (sec : Section)
    (hsec : find? sect a.sectionTable = some sec)
    (hdir : directive = ".byte" ∨ directive = ".word")
    (hlex : U.getTokenType S = (.SYMBOL, ms))
    (hust : count S a.UST = false) :
    (∀ s, find? S a.symbolTable = some s → s.scope = .LOCAL →
      (directive = ".byte" → higherByte s.value = 0) →
      evaluate U a directive S sect = .ok (emitDatum a directive sect sec s.value
        (if s.type = .CONSTANT then []
         else [⟨s.sect, sec.name, a.locationCounter, baseType directive⟩]))) ∧
    (∀ s, find? S a.symbolTable = some s → s.scope = .GLOBAL →
      evaluate U a directive S sect = .ok (emitDatum a directive sect sec 0
        [⟨S, sec.name, a.locationCounter, baseType directive⟩])) ∧
    (find? S a.symbolTable = none →
      evaluate U a directive S sect = .ok (emitDatum
        { a with symbolTable := a.symbolTable ++ [externEntry S a.symbolTable.length] }
        directive sect sec 0 [⟨S, sec.name, a.locationCounter, baseType directive⟩])) := by
  refine ⟨?_, ?_, ?_⟩
  · intro s hs hloc hfit
    rcases hdir with rfl | rfl
    · have h0 := hfit rfl
      by_cases hc : s.type = .CONSTANT <;>
        simp [evaluate, evaluateValue, hsec, hlex, evaluateTerm, hust, evaluateKnown, hs, hloc,
          hc, applyOperation, lowerByte_toInt16, higherByte_toInt16, h0, emitDatum, datumBytes,
          datumSize, writeSection, pushRelocations]
    · by_cases hc : s.type = .CONSTANT <;>
        simp [evaluate, evaluateValue, hsec, hlex, evaluateTerm, hust, evaluateKnown, hs, hloc,
          hc, applyOperation, lowerByte_toInt16, higherByte_toInt16, emitDatum, datumBytes,
          datumSize, writeSection, pushRelocations]
  · intro s hs hglob
    rcases hdir with rfl | rfl <;>
      simp [evaluate, evaluateValue, hsec, hlex, evaluateTerm, hust, evaluateKnown, hs, hglob,
        emitDatum, datumBytes, datumSize, writeSection, pushRelocations, lowerByte, higherByte]
  · intro hs
    have hust' : find? S a.UST = none := by
      simpa [count] using hust
    rcases hdir with rfl | rfl <;>
      simp [evaluate, evaluateValue, hsec, hlex, evaluateTerm, hust, evaluateKnown, hs,
        addSymbol, emitDatum, datumBytes, datumSize, writeSection, pushRelocations, lowerByte,
        higherByte, externEntry, count, hust']

/-- C5, witness: the amended statement at the datum `S` of `.word`, for the LOCAL label `S`
at offset 300 of `.data`. -/
theorem evaluate_single_symbol_witness :
    evaluate Spec.utils Spec.farLabelState ".word" "S" ".data" =
      .ok (emitDatum Spec.farLabelState ".word" ".data"
        (Spec.dataSection 300) 300
        [⟨".data", ".data", 300, .R_386_16⟩]) :=
  (evaluate_single_symbol Spec.utils Spec.farLabelState ".word" "S"
    ".data" ["S"] (Spec.dataSection 300)
    (by decide) (Or.inr rfl) (by decide) (by decide)).1
    ⟨"S", ".data", 300, .LOCAL, .LABEL, true, 1⟩ (by decide) rfl (by decide)

/-! ## C6: the difference of two symbols -/

/-- C6, counterexample: `K1` is a LOCAL constant of `.text` and `K2` a LOCAL constant of
`.data`; the datum `K1 - K2` of `.word` becomes the pure literal 5 and no relocation is
appended, although the symbols belong to different sections. -/
theorem evaluate_difference_of_constants :
    ∃ s1 s2 a1 sec, find? "K1" Spec.twoConstantsState.symbolTable = some s1 ∧
      find? "K2" Spec.twoConstantsState.symbolTable = some s2 ∧
      s1.sect = ".text" ∧ s2.sect = ".data" ∧ s1.scope = .LOCAL ∧ s2.scope = .LOCAL ∧
      evaluate Spec.utils Spec.twoConstantsState ".word" "K1-K2" ".data" =
        .ok a1 ∧
      a1.relocationTable = [] ∧ find? ".data" a1.sectionTable = some sec ∧
      sec.bytes = [5, 0] := by
  refine ⟨_, _, _, _, rfl, rfl, ?_, ?_, ?_, ?_, rfl, ?_, rfl, ?_⟩ <;> decide

/-- The declared externs `X` and `Y` both carry the section `UNDEFINED`; the datum `X - Y` of
`.word` is folded to the literal 0 and no relocation is appended. -/
theorem evaluate_difference_of_declared_externs :
    ∃ s1 s2 a1 sec, find? "X" Spec.twoExternsState.symbolTable = some s1 ∧
      find? "Y" Spec.twoExternsState.symbolTable = some s2 ∧
      s1.type = .EXTERN ∧ s2.type = .EXTERN ∧ s1.defined = false ∧ s2.defined = false ∧
      evaluate Spec.utils Spec.twoExternsState ".word" "X-Y" ".data" =
        .ok a1 ∧
      a1.relocationTable = [] ∧ find? ".data" a1.sectionTable = some sec ∧
      sec.bytes = [0, 0] := by
  refine ⟨_, _, _, _, rfl, rfl, ?_, ?_, ?_, ?_, rfl, ?_, rfl, ?_⟩ <;> decide

/-- C6, amended: in `evaluate`, for a datum `S1 - S2` of `.byte` or `.word` whose symbols are
not in UST and whose literal, for `.byte`, has a zero higher byte: when both are LOCAL symbols
of the same section, the datum is the pure literal `S1.value - S2.value` and no relocation is
appended; when both are in the symbol table with different sections, every symbol that is not
a LOCAL CONSTANT contributes exactly one relocation (against its section when it is LOCAL,
against its own name otherwise; of the plain type for `S1` and the subtractive type for `S2`)
and a LOCAL CONSTANT contributes none; and when `S1` and `S2` are distinct names that are not
in the symbol table, both are added as undefined GLOBAL EXTERN symbols and exactly one plain
relocation against `S1` and one subtractive relocation against `S2` are appended
(`R_386_16` and `R_386_SUB_16` for `.word`). -/
theorem evaluate_symbol_difference (U : Utils) (a : Assembler)
    (directive expression x y sect : String) (ms : List String) (sec : Section)
    (hsec : find? sect a.sectionTable = some sec)
    (hdir : directive = ".byte" ∨ directive = ".word")
    (hlex : U.getTokenType expression = (.EXPRESSION, ms))
    (h1 : group ms 1 = x) (h2 : group ms 2 = "-") (h3 : group ms 3 = y)
    (hx : (U.getTokenType x).1 = .SYMBOL) (hy : (U.getTokenType y).1 = .SYMBOL)
    (hux : count x a.UST = false) (huy : count y a.UST = false) :
    (∀ sx sy, find? x a.symbolTable = some sx → find? y a.symbolTable = some sy →
      sx.scope = .LOCAL → sy.scope = .LOCAL → sx.sect = sy.sect →
      (directive = ".byte" → higherByte (sx.value - sy.value) = 0) →
      evaluate U a directive expression sect =
        .ok (emitDatum a directive sect sec (sx.value - sy.value) [])) ∧
    (∀ sx sy, find? x a.symbolTable = some sx → find? y a.symbolTable = some sy →
      sx.sect ≠ sy.sect →
      (directive = ".byte" → higherByte (localValue sx - localValue sy) = 0) →
      evaluate U a directive expression sect =
        .ok (emitDatum a directive sect sec (localValue sx - localValue sy)
          (contribution x sx sec.name a.locationCounter (baseType directive) ++
           contribution y sy sec.name a.locationCounter (subtractiveType directive)))) ∧
    (x ≠ y → find? x a.symbolTable = none → find? y a.symbolTable = none →
      evaluate U a directive expression sect =
        .ok (emitDatum
          { a with symbolTable := a.symbolTable ++
              [externEntry x a.symbolTable.length, externEntry y (a.symbolTable.length + 1)] }
          directive sect sec 0
          [⟨x, sec.name, a.locationCounter, baseType directive⟩,
           ⟨y, sec.name, a.locationCounter, subtractiveType directive⟩])) := by
  have hux' : find? x a.UST = none := by simpa [count] using hux
  have huy' : find? y a.UST = none := by simpa [count] using huy
  refine ⟨?_, ?_, ?_⟩
  · intro sx sy hsx hsy _ _ hsame hfit
    have hfold : foldable a x "-" y = some (sx, sy) := by
      simp [foldable, hsx, hsy, hux, huy, hsame]
    rcases hdir with rfl | rfl
    · have h0 := hfit rfl
      simp [evaluate, evaluateValue, hsec, hlex, h1, h2, h3, hx, hy, hfold, writeSection, BYTE,
        emitDatum, datumBytes, datumSize, lowerByte_toInt16, higherByte_toInt16, h0]
    · simp [evaluate, evaluateValue, hsec, hlex, h1, h2, h3, hx, hy, hfold, writeSection, WORD,
        emitDatum, datumBytes, datumSize, lowerByte_toInt16, higherByte_toInt16]
  · intro sx sy hsx hsy hne hfit
    have hfold : foldable a x "-" y = none := by
      simp [foldable, hsx, hsy, hux, huy, hne]
    rcases hdir with rfl | rfl
    · have h0 := hfit rfl
      by_cases hlx : sx.scope = .LOCAL <;> by_cases hcx : sx.type = .CONSTANT <;>
        by_cases hly : sy.scope = .LOCAL <;> by_cases hcy : sy.type = .CONSTANT <;>
        simp [localValue, hlx, hly] at h0 <;>
        simp [evaluate, evaluateValue, hsec, hlex, h1, h2, h3, hx, hy, hfold, writeSection,
          BYTE, emitDatum, datumBytes, datumSize, lowerByte_toInt16, higherByte_toInt16,
          evaluateTerm, evaluateKnown, hux, huy, hsx, hsy, hlx, hcx, hly, hcy, applyOperation,
          localValue, contribution, pushRelocations, baseType, secondType, count, hux', huy',
          toInt16_toInt16_sub, subtractiveType, h0]
    · by_cases hlx : sx.scope = .LOCAL <;> by_cases hcx : sx.type = .CONSTANT <;>
        by_cases hly : sy.scope = .LOCAL <;> by_cases hcy : sy.type = .CONSTANT <;>
        simp [evaluate, evaluateValue, hsec, hlex, h1, h2, h3, hx, hy, hfold, writeSection,
          WORD, emitDatum, datumBytes, datumSize, lowerByte_toInt16, higherByte_toInt16,
          evaluateTerm, evaluateKnown, hux, huy, hsx, hsy, hlx, hcx, hly, hcy, applyOperation,
          localValue, contribution, pushRelocations, baseType, secondType, count, hux', huy',
          toInt16_toInt16_sub, subtractiveType]
  · intro hne hsx hsy
    have hfold : foldable a x "-" y = none := by
      simp [foldable, hsx, hsy]
    have hsy' : ∀ v : Symbol, find? y (a.symbolTable ++ [(x, v)]) = none := by
      intro v
      rw [find?_append_none _ _ _ hsy]
      simp [find?, hne]
    rcases hdir with rfl | rfl <;>
      simp [evaluate, evaluateValue, hsec, hlex, h1, h2, h3, hx, hy, hfold, writeSection, WORD,
        BYTE, emitDatum, datumBytes, datumSize, evaluateTerm,
        evaluateKnown, hux, huy, hsx, hsy, applyOperation,
        pushRelocations, baseType, secondType, count, addSymbol, hux', huy', externEntry,
        lowerByte, higherByte, hsy', subtractiveType]

/-- C6, witness: the amended statement at the datum `X - Y` of `.word` in a fresh `.data`
section, for the unknown names `X` and `Y`. -/
theorem evaluate_symbol_difference_witness :
    evaluate Spec.utils Spec.dataState ".word" "X-Y" ".data" =
      .ok (emitDatum
        { Spec.dataState with
          symbolTable := Spec.dataState.symbolTable ++
            [externEntry "X" Spec.dataState.symbolTable.length,
             externEntry "Y" (Spec.dataState.symbolTable.length + 1)] }
        ".word" ".data" (Spec.dataSection 0) 0
        [⟨"X", (Spec.dataSection 0).name, Spec.dataState.locationCounter, baseType ".word"⟩,
         ⟨"Y", (Spec.dataSection 0).name, Spec.dataState.locationCounter,
           subtractiveType ".word"⟩]) :=
  (evaluate_symbol_difference Spec.utils Spec.dataState ".word" "X-Y" "X" "Y" ".data"
    ["X-Y", "X", "-", "Y"] (Spec.dataSection 0)
    (by decide) (Or.inr rfl) (by decide) (by decide) (by decide) (by decide) (by decide)
    (by decide) (by decide) (by decide)).2.2 (by decide) (by decide) (by decide)

/-! ## C7: the difference of two labels of one section -/

/-- C7: for every two LOCAL labels `x` and `y` defined in the same section, neither in UST,
`evaluate` with `.word` and the datum `x - y` writes the two bytes of
`(x.value - y.value) mod 2^16`, lower byte first, at the location counter, appends no
relocation (the tables of symbols and relocations are unchanged) and advances the 16-bit
location counter by 2. -/
theorem evaluate_word_difference_same_section (U : Utils) (a : Assembler)
    (expression x y sect : String) (ms : List String) (sec : Section) (sx sy : Symbol)
    (hsec : find? sect a.sectionTable = some sec)
    (hlex : U.getTokenType expression = (.EXPRESSION, ms))
    (h1 : group ms 1 = x) (h2 : group ms 2 = "-") (h3 : group ms 3 = y)
    (hx : (U.getTokenType x).1 = .SYMBOL) (hy : (U.getTokenType y).1 = .SYMBOL)
    (hsx : find? x a.symbolTable = some sx) (hsy : find? y a.symbolTable = some sy)
    (_hlx : sx.scope = .LOCAL ∧ sx.type = .LABEL) (_hly : sy.scope = .LOCAL ∧ sy.type = .LABEL)
    (hsame : sx.sect = sy.sect)
    (hux : count x a.UST = false) (huy : count y a.UST = false) :
    evaluate U a ".word" expression sect =
      .ok { a with
            sectionTable := update sect (sec.write a.locationCounter
              [((sx.value - sy.value) % 65536 % 256).toNat,
               ((sx.value - sy.value) % 65536 / 256).toNat]) a.sectionTable,
            locationCounter := (a.locationCounter + 2) % 65536 } := by
  have hfold : foldable a x "-" y = some (sx, sy) := by
    simp [foldable, hsx, hsy, hux, huy, hsame]
  have hlo : lowerByte (toInt16 (sx.value - sy.value))
      = ((sx.value - sy.value) % 65536 % 256).toNat := by
    rw [lowerByte_toInt16]; unfold lowerByte; congr 1; omega
  have hhi : higherByte (toInt16 (sx.value - sy.value))
      = ((sx.value - sy.value) % 65536 / 256).toNat := by
    rw [higherByte_toInt16]; rfl
  simp [evaluate, evaluateValue, hsec, hlex, h1, h2, h3, hx, hy, hfold, writeSection, WORD,
    hlo, hhi]

/-- C7, witness: the statement at the datum `a - b` for the labels `a` (offset 0) and `b`
(offset 4) of `.data`; the literal is `-4 mod 2^16`, bytes 252 and 255. -/
theorem evaluate_word_difference_same_section_witness :
    evaluate Spec.utils Spec.twoLabelsState ".word" "a-b" ".data" =
      .ok { Spec.twoLabelsState with
            sectionTable := update ".data"
              (Section.write
                (Spec.dataSection 4)
                Spec.twoLabelsState.locationCounter
                [(((0 : Int) - 4) % 65536 % 256).toNat, (((0 : Int) - 4) % 65536 / 256).toNat])
              Spec.twoLabelsState.sectionTable,
            locationCounter :=
              (Spec.twoLabelsState.locationCounter + 2) % 65536 } :=
  evaluate_word_difference_same_section Spec.utils Spec.twoLabelsState
    "a-b" "a" "b" ".data" ["a-b", "a", "-", "b"]
    (Spec.dataSection 4)
    ⟨"a", ".data", 0, .LOCAL, .LABEL, true, 1⟩ ⟨"b", ".data", 4, .LOCAL, .LABEL, true, 2⟩
    (by decide) (by decide) (by decide) (by decide) (by decide) (by decide) (by decide)
    (by decide) (by decide) (by decide) (by decide) (by decide) (by decide) (by decide)

/-! ## C8: the sum of two immediates -/

/-- C8: on the lines `.data` / `.word 2 + 3` both passes succeed; the datum written is the
literal 2 (not 5), the name `3` has been added to the symbol table as an undefined GLOBAL
EXTERN symbol and one `R_386_16` relocation against `3` has been appended: the case of two
immediates falls through into the case of an immediate and a symbol. -/
theorem evaluate_sum_of_immediates_falls_through :
    ∃ a1 a2 a3 sec, firstPass Spec.utils (init Spec.sumLines) = .ok a1 ∧
      resolveSymbols a1 [] = .ok a2 ∧ secondPass Spec.utils a2 = .ok a3 ∧
      find? ".data" a3.sectionTable = some sec ∧ sec.bytes = [2, 0] ∧
      find? "3" a3.symbolTable = some ⟨"3", UNDEFINED, 0, .GLOBAL, .EXTERN, false, 1⟩ ∧
      a3.relocationTable = [⟨"3", ".data", 0, .R_386_16⟩] := by
  refine ⟨_, _, _, _, rfl, rfl, rfl, rfl, ?_, ?_, ?_⟩ <;> decide

/-! ## C9: PC-relative addressing of a constant -/

/-- C9: `K` is a LOCAL CONSTANT of `.text` (from `.equ K, 5`) and not in UST;
`generateInstructionCode` succeeds on an instruction whose destination is the PC-relative
operand `K`, and on one whose source is: the test for a constant looks at the section symbol
that has replaced `K`, the payload holds the value of `K` and a `R_386_PC16` relocation
against `.text` is appended. -/
theorem generateInstructionCode_pcrelative_local_constant :
    find? "K" Spec.constantState.symbolTable =
      some ⟨"K", ".text", 5, .LOCAL, .CONSTANT, true, 1⟩ ∧
    count "K" Spec.constantState.UST = false ∧
    (∃ a1 sec, generateInstructionCode Spec.constantState
        Spec.jumpToConstant ".text" = .ok a1 ∧
      a1.relocationTable = [⟨".text", ".text", 2, .R_386_PC16⟩] ∧
      find? ".text" a1.sectionTable = some sec ∧ sec.bytes = [164, 142, 3, 0]) ∧
    (∃ a1, generateInstructionCode Spec.constantState
        ⟨4, 2, 5, some ⟨.REG_DIR, .REGISTER, "r1", "", 1⟩,
          some ⟨.REG_IND_16, .PCRELATIVE, "r7", "K", 3⟩⟩ ".text" = .ok a1 ∧
      a1.relocationTable = [⟨".text", ".text", 3, .R_386_PC16⟩]) := by
  refine ⟨?_, ?_, ⟨_, _, rfl, ?_, rfl, ?_⟩, ⟨_, rfl, ?_⟩⟩ <;> decide

/-! ## C10: byte overflow of an immediate -/

/-- C10, counterexample: the immediate 65536 is at least 256, yet `evaluate` with `.byte`
succeeds on it and writes the byte 0: only the lower 16 bits of the literal are kept. -/
theorem evaluate_byte_65536 :
    ∃ a1 sec, Spec.utils.getTokenType "65536" = (.OPERAND_IMMED, ["65536"]) ∧
      256 ≤ strtol "65536" ∧
      evaluate Spec.utils Spec.dataState ".byte" "65536" ".data" = .ok a1 ∧
      find? ".data" a1.sectionTable = some sec ∧ sec.bytes = [0] := by
  refine ⟨_, _, ?_, ?_, rfl, rfl, ?_⟩ <;> decide

/-- C10, amended: for every immediate literal whose value modulo `2^16` is at least 256 (in
particular every value from 256 to 65535), `evaluate` with `.byte` fails with the
byte-overflow error; the exception is raised before the section is written, and the switch
before it has left the state as it was. -/
theorem evaluate_byte_overflow (U : Utils) (a : Assembler) (expression sect : String)
    (ms : List String) (sec : Section)
    (hsec : find? sect a.sectionTable = some sec)
    (hlex : U.getTokenType expression = (.OPERAND_IMMED, ms))
    (hv : 256 ≤ strtol expression % 65536) :
    evaluateValue U a ".byte" expression sec.name = .ok (a, toInt16 (strtol expression)) ∧
    evaluate U a ".byte" expression sect = .error ⟨a.line, .byteOverflow⟩ := by
  have hhi : 0 < higherByte (toInt16 (strtol expression)) := by
    rw [higherByte_toInt16, higherByte_pos_iff]; exact hv
  constructor
  · simp [evaluateValue, hlex]
  · simp [evaluate, evaluateValue, hsec, hlex, hhi, Assembler.fail]

/-- C10, witness: the amended statement at the literal 300 in a fresh `.data` section. -/
theorem evaluate_byte_overflow_witness :
    evaluateValue Spec.utils Spec.dataState ".byte" "300" ".data" =
      .ok (Spec.dataState, toInt16 (strtol "300")) ∧
    evaluate Spec.utils Spec.dataState ".byte" "300" ".data" =
      .error ⟨Spec.dataState.line, .byteOverflow⟩ :=
  evaluate_byte_overflow Spec.utils Spec.dataState "300" ".data" ["300"]
    (Spec.dataSection 0)
    (by decide) (by decide) (by decide)

/-! ## C11: the chain of equivalences of scenario S4 -/

/-- C11: on the lines `.text` / `.equ A, 5` / `.equ B, A + 3` / `.equ C, B - 1` the first pass
and the resolver succeed, `A`, `B` and `C` are CONSTANT symbols, UST and the relocation table
are empty, `A` is 5 and `B` is 8, but `C` is 6 and not 7: for `symbol - immediate` the code
adds the bitwise complement of the immediate (`~1 = -2`) instead of its negation. -/
theorem equ_chain_values :
    ∃ a1 a2 sA sB sC, firstPass Spec.utils (init Spec.equChainLines) = .ok a1 ∧
      resolveSymbols a1 [] = .ok a2 ∧ a2.UST = [] ∧ a2.relocationTable = [] ∧
      find? "A" a2.symbolTable = some sA ∧ sA.type = .CONSTANT ∧ sA.value = 5 ∧
      find? "B" a2.symbolTable = some sB ∧ sB.type = .CONSTANT ∧ sB.value = 8 ∧
      find? "C" a2.symbolTable = some sC ∧ sC.type = .CONSTANT ∧ sC.value = 6 := by
  refine ⟨_, _, _, _, _, rfl, rfl, ?_, ?_, rfl, ?_, ?_, rfl, ?_, ?_, rfl, ?_, ?_⟩ <;> decide

/-! ## C13: an equivalence that names itself -/

/-- C13: on the lines `.text` / `.equ A, A` the first pass succeeds and leaves `A` in UST with
an empty dependency list (the test `UST.count(source)` runs after `A` itself was inserted, so
`A` inherits its own, still empty, list); the resolver finds no cycle, succeeds and marks `A`
defined with value 0.  Likewise `.equ A, A + 1` leaves `A` defined with value 1. -/
theorem equ_self_reference_accepted :
    (∃ a1 a2 sA, firstPass Spec.utils (init Spec.selfEquLines) = .ok a1 ∧
      a1.UST = [("A", ⟨"A", [], ".text"⟩)] ∧ a1.hasCycle a1.UST = some false ∧
      resolveSymbols a1 ["A"] = .ok a2 ∧
      find? "A" a2.symbolTable = some sA ∧ sA.defined = true ∧ sA.value = 0) ∧
    (∃ a1 a2 sA, firstPass Spec.utils (init Spec.selfEquPlusLines) = .ok a1 ∧
      a1.UST = [("A", ⟨"A", [], ".text"⟩)] ∧ a1.hasCycle a1.UST = some false ∧
      resolveSymbols a1 ["A"] = .ok a2 ∧
      find? "A" a2.symbolTable = some sA ∧ sA.defined = true ∧ sA.value = 1) := by
  refine ⟨⟨_, _, _, rfl, ?_, ?_, rfl, rfl, ?_, ?_⟩, ⟨_, _, _, rfl, ?_, ?_, rfl, rfl, ?_, ?_⟩⟩ <;>
    decide

/-! ## C16: scenario S5, an immediate minus an extern -/

/-- C16: for an undefined extern symbol `X` (in the symbol table as GLOBAL EXTERN, not in UST)
and an immediate `k`, `evaluate` with `.word` and the datum `k - X` writes the literal `k` as
two little-endian bytes at the location counter and appends exactly one relocation, of type
`R_386_SUB_16`, against `X`, at the location counter, the offset of that datum; for `k = 10`
the bytes are 10 and 0. -/
theorem evaluate_immediate_minus_extern (U : Utils) (a : Assembler)
    (expression k X sect : String) (ms : List String) (sec : Section) (s : Symbol)
    (hsec : find? sect a.sectionTable = some sec)
    (hlex : U.getTokenType expression = (.EXPRESSION, ms))
    (h1 : group ms 1 = k) (h2 : group ms 2 = "-") (h3 : group ms 3 = X)
    (hk : (U.getTokenType k).1 = .OPERAND_IMMED) (hX : (U.getTokenType X).1 = .SYMBOL)
    (hs : find? X a.symbolTable = some s)
    (hdeclared : s.scope = .GLOBAL ∧ s.type = .EXTERN ∧ s.defined = false)
    (hust : count X a.UST = false) :
    evaluate U a ".word" expression sect =
      .ok { a with
            relocationTable :=
              a.relocationTable ++ [⟨X, sec.name, a.locationCounter, .R_386_SUB_16⟩],
            sectionTable := update sect (sec.write a.locationCounter
              [(strtol k % 65536 % 256).toNat, (strtol k % 65536 / 256).toNat]) a.sectionTable,
            locationCounter := (a.locationCounter + 2) % 65536 } := by
  have hlo : lowerByte (toInt16 (strtol k)) = (strtol k % 65536 % 256).toNat := by
    rw [lowerByte_toInt16]; unfold lowerByte; congr 1; omega
  have hhi : higherByte (toInt16 (strtol k)) = (strtol k % 65536 / 256).toNat := by
    rw [higherByte_toInt16]; rfl
  simp [evaluate, evaluateValue, hsec, hlex, h1, h2, h3, hk, hX, evaluateImmedSymbol,
    evaluateTerm, evaluateKnown, hust, hs, hdeclared.1, secondType, baseType, pushRelocations,
    writeSection, WORD, hlo, hhi]

/-- C16, witness: the statement at the datum `10 - X` after `.extern X` / `.data`; the bytes
written are 10 and 0. -/
theorem evaluate_immediate_minus_extern_witness :
    evaluate Spec.utils Spec.externState ".word" "10-X" ".data" =
      .ok { Spec.externState with
            relocationTable :=
              Spec.externState.relocationTable ++
                [⟨"X", Section.name ⟨".data", ['1', '1', '0', '0', '0', '0', '0', '0', '0', '0'],
                    0, [], 0, 1⟩, Spec.externState.locationCounter, .R_386_SUB_16⟩],
            sectionTable := update ".data"
              (Section.write ⟨".data", ['1', '1', '0', '0', '0', '0', '0', '0', '0', '0'],
                  0, [], 0, 1⟩ Spec.externState.locationCounter
                [(strtol "10" % 65536 % 256).toNat, (strtol "10" % 65536 / 256).toNat])
              Spec.externState.sectionTable,
            locationCounter := (Spec.externState.locationCounter + 2) % 65536 } :=
  evaluate_immediate_minus_extern Spec.utils Spec.externState "10-X" "10" "X" ".data"
    ["10-X", "10", "-", "X"]
    ⟨".data", ['1', '1', '0', '0', '0', '0', '0', '0', '0', '0'], 0, [], 0, 1⟩
    ⟨"X", UNDEFINED, 0, .GLOBAL, .EXTERN, false, 0⟩
    (by decide) (by decide) (by decide) (by decide) (by decide) (by decide) (by decide)
    (by decide) (by decide) (by decide)

/-! ## C17 and C18: `addSymbol` -/

theorem find?_update_ne {α : Type} (k other : String) (v : α) (t : List (String × α))
    (h : other ≠ k) : find? other (update k v t) = find? other t := by
  induction t with
  | nil => rfl
  | cons e t ih =>
    obtain ⟨k', w⟩ := e
    by_cases hk : k' = k
    · subst hk
      have hne : ¬ k' = other := fun h' => h h'.symm
      simp [update, find?, hne]
    · by_cases hko : k' = other
      · subst hko
        simp [update, find?, hk]
      · simp [update, find?, hk, hko, ih]

theorem find?_update_self {α : Type} (k : String) (v w : α) (t : List (String × α))
    (h : find? k t = some w) : find? k (update k v t) = some v := by
  induction t with
  | nil => simp [find?] at h
  | cons e t ih =>
    obtain ⟨k', u⟩ := e
    by_cases hk : k' = k
    · simp [update, find?, hk]
    · simp only [find?, hk, if_false] at h
      simp [update, find?, hk, ih h]

theorem find?_append_singleton_ne {α : Type} (k other : String) (v : α)
    (t : List (String × α)) (h : other ≠ k) : find? other (t ++ [(k, v)]) = find? other t := by
  induction t with
  | nil =>
    have hne : ¬ k = other := fun h' => h h'.symm
    simp [find?, hne]
  | cons e t ih =>
    obtain ⟨k', w⟩ := e
    by_cases hko : k' = other
    · simp [find?, hko]
    · simp [find?, hko, ih]

/-- C17: `addSymbol(name, ...)` fails, and then with the symbol-already-defined error, if and
only if `name` is in the symbol table with `defined = true` or `name` is a key of UST; a
failing call yields the exception alone, the guard being its first statement, so that nothing
was changed; a successful call leaves UST as it was, maps `name` to the given section, value,
scope, type and `defined` flag, and leaves the entry of every other name unchanged. -/
theorem addSymbol_spec (a : Assembler) (name sect : String) (value : Int) (scope : ScopeType)
    (type : SymbolType) (defined : Bool) :
    ((∃ e, a.addSymbol name sect value scope type defined = .error e) ↔
      ((∃ s, find? name a.symbolTable = some s ∧ s.defined = true) ∨
        count name a.UST = true)) ∧
    (∀ e, a.addSymbol name sect value scope type defined = .error e →
      e = ⟨a.line, .symbolAlreadyDefined⟩) ∧
    (∀ a1, a.addSymbol name sect value scope type defined = .ok a1 →
      a1.UST = a.UST ∧
      (∃ s, find? name a1.symbolTable = some s ∧ s.sect = sect ∧ s.value = value ∧
        s.scope = scope ∧ s.type = type ∧ s.defined = defined) ∧
      ∀ other, other ≠ name → find? other a1.symbolTable = find? other a.symbolTable) := by
  unfold addSymbol
  cases hfind : find? name a.symbolTable with
  | none =>
    by_cases hu : count name a.UST = true
    · simp [hu, Assembler.fail]
    · simp only [hu, Bool.false_eq_true, if_false]
      refine ⟨by simp [hu], by simp, ?_⟩
      intro a1 h
      simp at h
      subst h
      refine ⟨rfl, ⟨⟨name, sect, value, scope, type, defined, a.symbolTable.length⟩, ?_,
        rfl, rfl, rfl, rfl, rfl⟩, ?_⟩
      · simp [find?_append_none _ _ _ hfind, find?]
      · intro other hne
        exact find?_append_singleton_ne _ _ _ _ hne
  | some s =>
    by_cases hc : s.defined = true ∨ count name a.UST = true
    · simp only [hc, if_true]
      refine ⟨by simp [Assembler.fail] ; exact hc, by simp [Assembler.fail], by simp [Assembler.fail]⟩
    · simp only [hc, if_false]
      refine ⟨by simpa using hc, by simp, ?_⟩
      intro a1 h
      simp at h
      subst h
      refine ⟨rfl, ⟨s.setData sect value scope type defined,
        find?_update_self _ _ _ _ hfind, rfl, rfl, rfl, rfl, rfl⟩, ?_⟩
      intro other hne
      exact find?_update_ne _ _ _ _ hne

theorem indices_update (k : String) (v s : Symbol) (t : List (String × Symbol))
    (h : find? k t = some s) (hv : v.symbolTableEntry = s.symbolTableEntry) :
    indices (update k v t) = indices t := by
  induction t with
  | nil => rfl
  | cons e t ih =>
    obtain ⟨k', w⟩ := e
    by_cases hk : k' = k
    · simp only [find?, hk, if_true, Option.some.injEq] at h
      subst h
      simp [update, hk, indices, hv]
    · simp only [find?, hk, if_false] at h
      have := ih h
      simp only [indices] at this
      simp [update, hk, indices, this]

theorem length_update {α : Type} (k : String) (v : α) (t : List (String × α)) :
    (update k v t).length = t.length := by
  induction t with
  | nil => rfl
  | cons e t ih =>
    obtain ⟨k', w⟩ := e
    by_cases hk : k' = k
    · simp [update, hk]
    · simp [update, hk, ih]

theorem addSymbol_indices (a a1 : Assembler) (name sect : String) (value : Int)
    (scope : ScopeType) (type : SymbolType) (defined : Bool)
    (hinv : indices a.symbolTable = List.range a.symbolTable.length)
    (h : a.addSymbol name sect value scope type defined = .ok a1) :
    indices a1.symbolTable = List.range a1.symbolTable.length := by
  unfold addSymbol at h
  split at h
  · next s hs =>
    split at h
    · simp [Assembler.fail] at h
    · simp at h
      subst h
      simp only [length_update]
      rw [indices_update name (s.setData sect value scope type defined) s _ hs rfl]
      exact hinv
  · split at h
    · simp [Assembler.fail] at h
    · simp at h
      subst h
      simp only [indices] at hinv
      simp [indices, List.range_succ, hinv]

/-- C18: in every state reachable through `addSymbol`, the indices of the symbol-table
entries, taken in the order of first insertion, are `0, 1, ..., n - 1` for the number `n` of
entries; and a successful `addSymbol` on a name that is already in the table keeps the index
of that entry and the number of entries, while one on a new name appends one entry. -/
theorem addSymbol_index_rank :
    (∀ a, ReachableByAddSymbol a → indices a.symbolTable = List.range a.symbolTable.length) ∧
    (∀ (a a1 : Assembler) (name sect : String) (value : Int) (scope : ScopeType)
        (type : SymbolType) (defined : Bool),
      a.addSymbol name sect value scope type defined = .ok a1 →
      (∀ s, find? name a.symbolTable = some s →
        a1.symbolTable.length = a.symbolTable.length ∧
        ∃ s1, find? name a1.symbolTable = some s1 ∧
          s1.symbolTableEntry = s.symbolTableEntry) ∧
      (find? name a.symbolTable = none →
        a1.symbolTable.length = a.symbolTable.length + 1)) := by
  constructor
  · intro a hr
    induction hr with
    | empty a h => simp [h, indices]
    | add a a1 name sect value scope type defined _ h ih =>
      exact addSymbol_indices a a1 name sect value scope type defined ih h
    | other a a1 _ h ih => rw [h]; exact ih
  · intro a a1 name sect value scope type defined h
    unfold addSymbol at h
    constructor
    · intro s hs
      rw [hs] at h
      simp only at h
      split at h
      · simp [Assembler.fail] at h
      · simp at h
        subst h
        exact ⟨length_update _ _ _, _, find?_update_self _ _ _ _ hs, rfl⟩
    · intro hs
      rw [hs] at h
      simp only at h
      split at h
      · simp [Assembler.fail] at h
      · simp at h
        subst h
        simp

/-! ## C20: the type of a symbol defined by `.equ` -/

/-- C20: on the lines `.text` / `.equ K1, 2` / `.equ K2, 3` / `.equ C, K1 + K2`, with `K1` and
`K2` LOCAL CONSTANT symbols, the first pass succeeds and `C` has the value 5 but the type
ALIAS, and UST holds an entry for `C` whose dependency list is empty: the two-symbol case
never defines a CONSTANT unless the operation is `-` and the sections agree. -/
theorem equ_sum_of_constants_is_alias :
    ∃ a1 s1 s2 sC, firstPass Spec.utils (init Spec.constantSumLines) = .ok a1 ∧
      find? "K1" a1.symbolTable = some s1 ∧ s1.type = .CONSTANT ∧ s1.scope = .LOCAL ∧
      find? "K2" a1.symbolTable = some s2 ∧ s2.type = .CONSTANT ∧ s2.scope = .LOCAL ∧
      find? "C" a1.symbolTable = some sC ∧ sC.type = .ALIAS ∧ sC.value = 5 ∧
      find? "C" a1.UST = some ⟨"C", [], ".text"⟩ := by
  refine ⟨_, _, _, _, rfl, rfl, ?_, ?_, rfl, ?_, ?_, rfl, ?_, ?_, ?_⟩ <;> decide

/-! ## Scenario S6: a cycle of two equivalences -/

theorem join_singleton (s : String) : String.join [s] = s := by
  simp [String.join]

theorem firstPass_cycleLines (U : Utils) (x y : String) (msx msy : List String)
    (hne : x ≠ y)
    (htext : U.getTokenType ".text" = (.SECTION, [".text"]))
    (hequ : U.getTokenType ".equ" = (.DIRECTIVE, [".equ"]))
    (hx : U.getTokenType x = (.SYMBOL, msx)) (hy : U.getTokenType y = (.SYMBOL, msy)) :
    firstPass U (init (Spec.cycleLines x y)) = .ok (Spec.cycleState x y) := by
  have hxt : ¬ ".text" = x := by
    intro h; rw [← h, htext] at hx; simp at hx
  have hyt : ¬ ".text" = y := by
    intro h; rw [← h, htext] at hy; simp at hy
  have hyx : ¬ y = x := fun h => hne h.symm
  have h1 : firstPassLine U ⟨{ init (Spec.cycleLines x y) with line := 0 }, false, none⟩ [".text"] =
      .ok ⟨{ init (Spec.cycleLines x y) with
             line := 1, symbolTable := [Spec.textSymbol 0],
             sectionTable := [Spec.textSection 0 [] 0] }, false, some ".text"⟩ := by
    simp [firstPassLine, firstPassSwitch, firstPassSection, sectionHeader, closeSection,
      addSymbol, addSection, htext, init, find?, count, group, defaultFlags, noFlags, update,
      A, W, X, Assembler.fail, Spec.textSymbol, Spec.textSection]
  have h2 : firstPassLine U ⟨{ init (Spec.cycleLines x y) with
             line := 1, symbolTable := [Spec.textSymbol 0],
             sectionTable := [Spec.textSection 0 [] 0] }, false, some ".text"⟩ [".equ", x, y] =
      .ok ⟨{ init (Spec.cycleLines x y) with
             line := 2,
             symbolTable := [Spec.textSymbol 0, externEntry y 1,
               (x, ⟨x, ".text", 0, .LOCAL, .ALIAS, false, 2⟩)],
             sectionTable := [Spec.textSection 0 [] 0],
             UST := [(x, ⟨x, [(y, "+")], ".text"⟩)] }, false, some ".text"⟩ := by
    simp [firstPassLine, firstPassSwitch, firstPassDirective, evaluateEQU, equAlias, equTerm,
      insertUnresolved, inheritOrPush, addSymbol, hequ, hx, hy, init, find?, count, group,
      update, Assembler.fail, Spec.textSymbol, Spec.textSection, externEntry, join_singleton,
      hne, hxt, hyt, hyx, applyOperation, UNDEFINED]
  have h3 : firstPassLine U ⟨{ init (Spec.cycleLines x y) with
             line := 2,
             symbolTable := [Spec.textSymbol 0, externEntry y 1,
               (x, ⟨x, ".text", 0, .LOCAL, .ALIAS, false, 2⟩)],
             sectionTable := [Spec.textSection 0 [] 0],
             UST := [(x, ⟨x, [(y, "+")], ".text"⟩)] }, false, some ".text"⟩ [".equ", y, x] =
      .ok ⟨Spec.cycleState x y, false, some ".text"⟩ := by
    simp [firstPassLine, firstPassSwitch, firstPassDirective, evaluateEQU, equAlias, equTerm,
      insertUnresolved, inheritOrPush, addSymbol, hequ, hx, hy, init, find?, count, group,
      update, Assembler.fail, Spec.textSymbol, Spec.textSection, externEntry, join_singleton,
      hne, hxt, hyt, hyx, applyOperation, UNDEFINED, Spec.cycleState, Symbol.setData, toInt16]
  have hclose : closeSection (Spec.cycleState x y) (some ".text") = Spec.cycleState x y := by
    simp [closeSection, Spec.cycleState, find?, Spec.textSection, update, init]
  simp only [firstPass, Spec.cycleLines, init, passLoop]
  simp only [Spec.cycleLines, init] at h1 h2 h3
  rw [h1]; simp only []
  rw [h2]; simp only []
  rw [h3]; simp only [hclose]


/-- C12 (scenario S6): for two distinct names `x` and `y` that the lexer tags as symbols, the
lines `.text` / `.equ x, y` / `.equ y, x` pass `firstPass`, and `resolveSymbols` then fails with
the cyclic-equivalence error, whatever the order of its loop. -/
theorem equ_cycle_rejected (U : Utils) (x y : String) (msx msy : List String)
    (hne : x ≠ y)
    (htext : U.getTokenType ".text" = (.SECTION, [".text"]))
    (hequ : U.getTokenType ".equ" = (.DIRECTIVE, [".equ"]))
    (hx : U.getTokenType x = (.SYMBOL, msx)) (hy : U.getTokenType y = (.SYMBOL, msy)) :
    ∃ a1, firstPass U (init (Spec.cycleLines x y)) = .ok a1 ∧
      ∀ order, resolveSymbols a1 order = .error ⟨3, .cyclicEquivalence⟩ := by
  refine ⟨_, firstPass_cycleLines U x y msx msy hne htext hequ hx hy, fun order => ?_⟩
  have hyx : ¬ y = x := fun h => hne h.symm
  simp [resolveSymbols, hasCycle, hasCycleLoop, cycle, cycleLoop, Spec.cycleState, find?, hne,
    hyx, Assembler.fail, init]

theorem equ_cycle_rejected_witness :
    ∃ a1, firstPass Spec.utils (init (Spec.cycleLines "A" "B")) = .ok a1 ∧
      ∀ order, resolveSymbols a1 order = .error ⟨3, .cyclicEquivalence⟩ :=
  equ_cycle_rejected Spec.utils "A" "B" ["A"] ["B"] (by decide) (by decide) (by decide)
    (by decide) (by decide)

/-! ## Scenario S2: a forward reference to a label -/

theorem firstPass_forwardLines (U : Utils) (ms : List String) (code : Nat)
    (displacement : String)
    (htext : U.getTokenType ".text" = (.SECTION, [".text"]))
    (hstart : U.getTokenType "start:" = (.LABEL, ["start:", "start"]))
    (hend : U.getTokenType "end:" = (.LABEL, ["end:", "end"]))
    (hjmp : U.getTokenType "jmp" = (.INSTRUCTION, ms))
    (hextract : U.extract ["$end"] ms 2 =
      .ok (Spec.immediateSymbolInstruction code "end" displacement, [])) :
    firstPass U (init Spec.forwardLines) = .ok (Spec.forwardState code displacement) := by
  have h1 : firstPassLine U ⟨{ init Spec.forwardLines with line := 0 }, false, none⟩ [".text"] =
      .ok ⟨{ init Spec.forwardLines with
             line := 1, symbolTable := [Spec.textSymbol 0],
             sectionTable := [Spec.textSection 0 [] 0] }, false, some ".text"⟩ := by
    simp [firstPassLine, firstPassSwitch, firstPassSection, sectionHeader, closeSection,
      addSymbol, addSection, htext, init, find?, count, group, defaultFlags, noFlags, update,
      A, W, X, Assembler.fail, Spec.textSymbol, Spec.textSection]
  have h2 : firstPassLine U ⟨{ init Spec.forwardLines with
             line := 1, symbolTable := [Spec.textSymbol 0],
             sectionTable := [Spec.textSection 0 [] 0] }, false, some ".text"⟩
          ["start:", "jmp", "$end"] =
      .ok ⟨{ init Spec.forwardLines with
             line := 2, locationCounter := 4,
             instructions := [Spec.immediateSymbolInstruction code "end" displacement],
             symbolTable := [Spec.textSymbol 0,
               ("start", ⟨"start", ".text", 0, .LOCAL, .LABEL, true, 1⟩)],
             sectionTable := [Spec.textSection 0 [] 0] }, false, some ".text"⟩ := by
    simp [firstPassLine, firstPassSwitch, firstPassInstruction, addSymbol, hstart, hjmp,
      hextract, init, find?, count, group, update, Assembler.fail, Spec.textSymbol,
      Spec.textSection, X, Spec.immediateSymbolInstruction, show toInt16 0 = 0 by decide]
  have q : toInt16 4 = 4 := by decide
  have h3 : firstPassLine U ⟨{ init Spec.forwardLines with
             line := 2, locationCounter := 4,
             instructions := [Spec.immediateSymbolInstruction code "end" displacement],
             symbolTable := [Spec.textSymbol 0,
               ("start", ⟨"start", ".text", 0, .LOCAL, .LABEL, true, 1⟩)],
             sectionTable := [Spec.textSection 0 [] 0] }, false, some ".text"⟩ ["end:"] =
      .ok ⟨{ init Spec.forwardLines with
             line := 3, locationCounter := 4,
             instructions := [Spec.immediateSymbolInstruction code "end" displacement],
             symbolTable := [Spec.textSymbol 0,
               ("start", ⟨"start", ".text", 0, .LOCAL, .LABEL, true, 1⟩),
               ("end", ⟨"end", ".text", 4, .LOCAL, .LABEL, true, 2⟩)],
             sectionTable := [Spec.textSection 0 [] 0] }, true, some ".text"⟩ := by
    simp [firstPassLine, firstPassSwitch, addSymbol, hend, init, find?, count, group, update,
      Assembler.fail, Spec.textSymbol, Spec.textSection, q]
  have hclose : closeSection { init Spec.forwardLines with
             line := 3, locationCounter := 4,
             instructions := [Spec.immediateSymbolInstruction code "end" displacement],
             symbolTable := [Spec.textSymbol 0,
               ("start", ⟨"start", ".text", 0, .LOCAL, .LABEL, true, 1⟩),
               ("end", ⟨"end", ".text", 4, .LOCAL, .LABEL, true, 2⟩)],
             sectionTable := [Spec.textSection 0 [] 0] } (some ".text") =
        Spec.forwardState code displacement := by
    simp [closeSection, Spec.forwardState, find?, Spec.textSection, update, init]
  simp only [firstPass, Spec.forwardLines, init, passLoop]
  simp only [Spec.forwardLines, init] at h1 h2 h3
  rw [h1]; simp only []
  rw [h2]; simp only []
  rw [h3]; simp only []
  simp only [Spec.forwardLines, init] at hclose
  rw [hclose]

theorem passLoop_cons_ok (step : Pass → List String → Except AssemblingException Pass)
    (tokens : List String) (rest : List (List String)) (p p1 : Pass)
    (r : Except AssemblingException Pass) (h : step p tokens = .ok p1)
    (hr : passLoop step rest p1 = r) : passLoop step (tokens :: rest) p = r := by
  simp [passLoop, h, hr]

theorem secondPass_of_passLoop (U : Utils) (a : Assembler) (p : Pass)
    (h : passLoop (secondPassLine U) a.assembly ⟨{ a with line := 0 }, false, none⟩ = .ok p) :
    secondPass U a = .ok p.asm := by
  simp [secondPass, h]

theorem firstPass_of_passLoop (U : Utils) (a : Assembler) (p : Pass)
    (h : passLoop (firstPassLine U) a.assembly ⟨{ a with line := 0 }, false, none⟩ = .ok p) :
    firstPass U a = .ok (closeSection p.asm p.currentSection) := by
  simp [firstPass, h]

theorem secondPass_forwardState (U : Utils) (ms : List String) (code : Nat)
    (displacement : String)
    (htext : U.getTokenType ".text" = (.SECTION, [".text"]))
    (hstart : U.getTokenType "start:" = (.LABEL, ["start:", "start"]))
    (hend : U.getTokenType "end:" = (.LABEL, ["end:", "end"]))
    (hjmp : U.getTokenType "jmp" = (.INSTRUCTION, ms)) :
    secondPass U (Spec.forwardState code displacement) =
      .ok { Spec.forwardState code displacement with
            instructions := [],
            sectionTable := [Spec.textSection 4
              [((code <<< CODE_OFFSET) ||| (1 <<< SIZE_OFFSET)) % 256, descriptor .IMMED 0 0,
                4, 0] 0],
            relocationTable := [⟨".text", ".text", 2, .R_386_16⟩] } := by
  have h1 : secondPassLine U ⟨{ Spec.forwardState code displacement with line := 0 }, false,
        none⟩ [".text"] =
      .ok ⟨{ Spec.forwardState code displacement with line := 1, locationCounter := 0 }, false,
        some ".text"⟩ := by
    simp [secondPassLine, htext, Spec.forwardState, count, find?, Spec.textSection, init]
  have h2 : secondPassLine U
        ⟨{ Spec.forwardState code displacement with line := 1, locationCounter := 0 }, false,
          some ".text"⟩ ["start:", "jmp", "$end"] =
      .ok ⟨{ Spec.forwardState code displacement with
             line := 2,
             instructions := [],
             sectionTable := [Spec.textSection 4
               [((code <<< CODE_OFFSET) ||| (1 <<< SIZE_OFFSET)) % 256, descriptor .IMMED 0 0,
                 4, 0] 0],
             relocationTable := [⟨".text", ".text", 2, .R_386_16⟩] }, false, some ".text"⟩ := by
    have q1 : lowerByte 4 = 4 := by decide
    have q2 : higherByte 4 = 0 := by decide
    have q3 : toUInt16 (toInt16 2) = 2 := by decide
    simp [secondPassLine, hstart, hjmp, Spec.forwardState, count, find?, Spec.textSection, init,
      generateInstructionCode, instructionBytes, operandCode, symbolPayload, payload, plainType,
      pushRelocations, writeSection, Section.write, writeAt, overwrite, update,
      Spec.immediateSymbolInstruction, Spec.textSymbol, BYTE, q1, q2, q3]
  have h3 : secondPassLine U
        ⟨{ Spec.forwardState code displacement with
             line := 2,
             instructions := [],
             sectionTable := [Spec.textSection 4
               [((code <<< CODE_OFFSET) ||| (1 <<< SIZE_OFFSET)) % 256, descriptor .IMMED 0 0,
                 4, 0] 0],
             relocationTable := [⟨".text", ".text", 2, .R_386_16⟩] }, false, some ".text"⟩
          ["end:"] =
      .ok ⟨{ Spec.forwardState code displacement with
             instructions := [],
             sectionTable := [Spec.textSection 4
               [((code <<< CODE_OFFSET) ||| (1 <<< SIZE_OFFSET)) % 256, descriptor .IMMED 0 0,
                 4, 0] 0],
             relocationTable := [⟨".text", ".text", 2, .R_386_16⟩] }, false, some ".text"⟩ := by
    simp [secondPassLine, hend, Spec.forwardState]
  exact secondPass_of_passLoop U (Spec.forwardState code displacement) _
    (passLoop_cons_ok _ _ _ _ _ _ h1 (passLoop_cons_ok _ _ _ _ _ _ h2
      (passLoop_cons_ok _ _ [] _ _ _ h3 rfl)))

/-- C15 (scenario S2): with a lexer that tags `.text` as a section, `start:` and `end:` as
labels and `jmp` as an instruction, and a parser that reads `jmp $end` as a four-byte instruction
with the immediate symbol operand `end`, the lines `.text` / `start: jmp $end` / `end:` pass
`firstPass`, `resolveSymbols` and `secondPass`; `end` is a LOCAL LABEL of `.text` with value 4,
the size of the section and the number of its bytes; the two payload bytes are 4 and 0; and the
relocation table holds exactly `R_386_16` against `.text` in `.text` at offset 2. -/
theorem forward_label_payload_and_relocation (U : Utils) (ms : List String) (code : Nat)
    (displacement : String)
    (htext : U.getTokenType ".text" = (.SECTION, [".text"]))
    (hstart : U.getTokenType "start:" = (.LABEL, ["start:", "start"]))
    (hend : U.getTokenType "end:" = (.LABEL, ["end:", "end"]))
    (hjmp : U.getTokenType "jmp" = (.INSTRUCTION, ms))
    (hextract : U.extract ["$end"] ms 2 =
      .ok (Spec.immediateSymbolInstruction code "end" displacement, [])) :
    ∃ a1 a2 a3 e sec b0 b1, firstPass U (init Spec.forwardLines) = .ok a1 ∧
      resolveSymbols a1 [] = .ok a2 ∧ secondPass U a2 = .ok a3 ∧
      find? "end" a3.symbolTable = some e ∧ e.sect = ".text" ∧ e.scope = .LOCAL ∧
      e.type = .LABEL ∧ e.defined = true ∧ e.value = 4 ∧
      find? ".text" a3.sectionTable = some sec ∧ sec.size = 4 ∧
      sec.bytes = [b0, b1, lowerByte e.value, higherByte e.value] ∧
      a3.relocationTable = [⟨".text", ".text", 2, .R_386_16⟩] := by
  refine ⟨_, _, _, ⟨"end", ".text", 4, .LOCAL, .LABEL, true, 2⟩,
    (Spec.textSection 4 [((code <<< CODE_OFFSET) ||| (1 <<< SIZE_OFFSET)) % 256,
      descriptor .IMMED 0 0, 4, 0] 0).2, ((code <<< CODE_OFFSET) ||| (1 <<< SIZE_OFFSET)) % 256,
    descriptor .IMMED 0 0,
    firstPass_forwardLines U ms code displacement htext hstart hend hjmp hextract, ?_,
    secondPass_forwardState U ms code displacement htext hstart hend hjmp, ?_, rfl, rfl, rfl,
    rfl, rfl, ?_, rfl, ?_, rfl⟩
  · simp [resolveSymbols, hasCycle, hasCycleLoop, resolveLoop, Spec.forwardState, init]
  · simp [Spec.forwardState, find?, Spec.textSymbol]
  · simp [find?, Spec.textSection]
  · simp [Spec.textSection, show lowerByte 4 = 4 by decide, show higherByte 4 = 0 by decide]

theorem forward_label_payload_and_relocation_witness :
    ∃ a1 a2 a3 e sec b0 b1,
      firstPass Spec.instructionUtils (init Spec.forwardLines) = .ok a1 ∧
      resolveSymbols a1 [] = .ok a2 ∧ secondPass Spec.instructionUtils a2 = .ok a3 ∧
      find? "end" a3.symbolTable = some e ∧ e.sect = ".text" ∧ e.scope = .LOCAL ∧
      e.type = .LABEL ∧ e.defined = true ∧ e.value = 4 ∧
      find? ".text" a3.sectionTable = some sec ∧ sec.size = 4 ∧
      sec.bytes = [b0, b1, lowerByte e.value, higherByte e.value] ∧
      a3.relocationTable = [⟨".text", ".text", 2, .R_386_16⟩] :=
  forward_label_payload_and_relocation Spec.instructionUtils ["jmp", "jmp"] 19 "" (by decide)
    (by decide) (by decide) (by decide) (by decide)

/-! ## Scenario S3: a call of a symbol declared global or extern -/

theorem firstPass_externCallLines (U : Utils) (m0 m1 ms : List String) (code : Nat)
    (displacement : String)
    (hdeclared : U.getTokenType ".extern" = (.GLOBAL_EXTERN, m0))
    (hsymbol : U.getTokenType "myFunc" = (.SYMBOL, m1))
    (htext : U.getTokenType ".text" = (.SECTION, [".text"]))
    (hcall : U.getTokenType "call" = (.INSTRUCTION, ms))
    (hextract : U.extract ["$myFunc"] ms 3 =
      .ok (Spec.immediateSymbolInstruction code "myFunc" displacement, [])) :
    firstPass U (init Spec.externCallLines) = .ok (Spec.externCallState code displacement) := by
  have h1 : firstPassLine U ⟨{ init Spec.externCallLines with line := 0 }, false, none⟩
        [".extern", "myFunc"] =
      .ok ⟨{ init Spec.externCallLines with
             line := 1, symbolTable := [externEntry "myFunc" 0] }, false, none⟩ := by
    simp [firstPassLine, firstPassSwitch, firstPassGlobalExtern, addSymbol, hdeclared, hsymbol,
      init, find?, count, Assembler.fail, externEntry, UNDEFINED]
  have h2 : firstPassLine U ⟨{ init Spec.externCallLines with
             line := 1, symbolTable := [externEntry "myFunc" 0] }, false, none⟩ [".text"] =
      .ok ⟨{ init Spec.externCallLines with
             line := 2, symbolTable := [externEntry "myFunc" 0, Spec.textSymbol 1],
             sectionTable := [Spec.textSection 0 [] 1] }, false, some ".text"⟩ := by
    simp [firstPassLine, firstPassSwitch, firstPassSection, sectionHeader, closeSection,
      addSymbol, addSection, htext, init, find?, count, group, defaultFlags, noFlags, update,
      A, W, X, Assembler.fail, Spec.textSymbol, Spec.textSection, externEntry]
  have h3 : firstPassLine U ⟨{ init Spec.externCallLines with
             line := 2, symbolTable := [externEntry "myFunc" 0, Spec.textSymbol 1],
             sectionTable := [Spec.textSection 0 [] 1] }, false, some ".text"⟩
          ["call", "$myFunc"] =
      .ok ⟨{ Spec.externCallState code displacement with
             sectionTable := [Spec.textSection 0 [] 1] }, false, some ".text"⟩ := by
    simp [firstPassLine, firstPassSwitch, firstPassInstruction, hcall, hextract, init, find?,
      Assembler.fail, Spec.textSection, X, Spec.immediateSymbolInstruction,
      Spec.externCallState]
  have hclose : closeSection { Spec.externCallState code displacement with
      sectionTable := [Spec.textSection 0 [] 1] } (some ".text") =
        Spec.externCallState code displacement := by
    simp [closeSection, Spec.externCallState, find?, Spec.textSection, update, init]
  have hp := firstPass_of_passLoop U (init Spec.externCallLines) _
    (passLoop_cons_ok _ _ _ _ _ _ h1 (passLoop_cons_ok _ _ _ _ _ _ h2
      (passLoop_cons_ok _ _ [] _ _ _ h3 rfl)))
  rw [hp]
  exact congrArg Except.ok hclose

theorem secondPass_externCallState (U : Utils) (m0 m1 ms : List String) (code : Nat)
    (displacement : String)
    (hdeclared : U.getTokenType ".extern" = (.GLOBAL_EXTERN, m0))
    (hsymbol : U.getTokenType "myFunc" = (.SYMBOL, m1))
    (htext : U.getTokenType ".text" = (.SECTION, [".text"]))
    (hcall : U.getTokenType "call" = (.INSTRUCTION, ms)) :
    secondPass U (Spec.externCallState code displacement) =
      .ok { Spec.externCallState code displacement with
            instructions := [],
            sectionTable := [Spec.textSection 4
              [((code <<< CODE_OFFSET) ||| (1 <<< SIZE_OFFSET)) % 256, descriptor .IMMED 0 0,
                0, 0] 1],
            relocationTable := [⟨"myFunc", ".text", 2, .R_386_16⟩] } := by
  have h1 : secondPassLine U ⟨{ Spec.externCallState code displacement with line := 0 }, false,
        none⟩ [".extern", "myFunc"] =
      .ok ⟨{ Spec.externCallState code displacement with line := 1 }, false, none⟩ := by
    simp [secondPassLine, secondPassGlobalExtern, hdeclared, hsymbol, Spec.externCallState,
      addSymbol, Symbol.setData, find?, count, update, externEntry, init, UNDEFINED,
      Spec.textSymbol]
  have h2 : secondPassLine U ⟨{ Spec.externCallState code displacement with line := 1 }, false,
        none⟩ [".text"] =
      .ok ⟨{ Spec.externCallState code displacement with line := 2, locationCounter := 0 }, false,
        some ".text"⟩ := by
    simp [secondPassLine, htext, Spec.externCallState, count, find?, Spec.textSection, init]
  have h3 : secondPassLine U
        ⟨{ Spec.externCallState code displacement with line := 2, locationCounter := 0 }, false,
          some ".text"⟩ ["call", "$myFunc"] =
      .ok ⟨{ Spec.externCallState code displacement with
             instructions := [],
             sectionTable := [Spec.textSection 4
               [((code <<< CODE_OFFSET) ||| (1 <<< SIZE_OFFSET)) % 256, descriptor .IMMED 0 0,
                 0, 0] 1],
             relocationTable := [⟨"myFunc", ".text", 2, .R_386_16⟩] }, false, some ".text"⟩ := by
    have q1 : lowerByte 0 = 0 := by decide
    have q2 : higherByte 0 = 0 := by decide
    have q3 : toUInt16 (toInt16 2) = 2 := by decide
    simp [secondPassLine, hcall, Spec.externCallState, count, find?, Spec.textSection, init,
      generateInstructionCode, instructionBytes, operandCode, symbolPayload, payload, plainType,
      pushRelocations, writeSection, Section.write, writeAt, overwrite, update,
      Spec.immediateSymbolInstruction, Spec.textSymbol, externEntry, BYTE, q1, q2, q3]
  exact secondPass_of_passLoop U (Spec.externCallState code displacement) _
    (passLoop_cons_ok _ _ _ _ _ _ h1 (passLoop_cons_ok _ _ _ _ _ _ h2
      (passLoop_cons_ok _ _ [] _ _ _ h3 rfl)))

/-- C14, counterexample (scenario S3 as written): with `.global myFunc` the first pass and
`resolveSymbols` succeed, leaving `myFunc` in the symbol table as an undefined GLOBAL EXTERN
symbol, but `secondPass` fails on line 1 because `myFunc` is flagged global and not defined. -/
theorem global_call_rejected_by_secondPass :
    ∃ a1 s, firstPass Spec.instructionUtils (init Spec.globalCallLines) = .ok a1 ∧
      resolveSymbols a1 [] = .ok a1 ∧
      find? "myFunc" a1.symbolTable = some s ∧ s.scope = .GLOBAL ∧ s.type = .EXTERN ∧
      s.defined = false ∧
      secondPass Spec.instructionUtils a1 = .error ⟨1, .globalButUndefined⟩ := by
  refine ⟨_, _, rfl, ?_, rfl, ?_, ?_, ?_, ?_⟩ <;> decide

/-- C14, amended (scenario S3 with `.extern`): with a lexer that tags `.extern` as a
global/extern directive, `myFunc` as a symbol, `.text` as a section and `call` as an
instruction, and a parser that reads `call $myFunc` as a four-byte instruction with the immediate
symbol operand `myFunc`, the lines `.extern myFunc` / `.text` / `call $myFunc` pass `firstPass`,
`resolveSymbols` and `secondPass`; afterwards `myFunc` is an undefined GLOBAL EXTERN symbol and
the relocation table holds exactly `R_386_16` against `myFunc` in `.text` at offset 2, the offset
of the two payload bytes, which are zero. -/
theorem extern_call_relocation (U : Utils) (m0 m1 ms : List String) (code : Nat)
    (displacement : String)
    (hdeclared : U.getTokenType ".extern" = (.GLOBAL_EXTERN, m0))
    (hsymbol : U.getTokenType "myFunc" = (.SYMBOL, m1))
    (htext : U.getTokenType ".text" = (.SECTION, [".text"]))
    (hcall : U.getTokenType "call" = (.INSTRUCTION, ms))
    (hextract : U.extract ["$myFunc"] ms 3 =
      .ok (Spec.immediateSymbolInstruction code "myFunc" displacement, [])) :
    ∃ a1 a2 a3 s sec b0 b1, firstPass U (init Spec.externCallLines) = .ok a1 ∧
      resolveSymbols a1 [] = .ok a2 ∧ secondPass U a2 = .ok a3 ∧
      find? "myFunc" a3.symbolTable = some s ∧ s.scope = .GLOBAL ∧ s.type = .EXTERN ∧
      s.defined = false ∧
      find? ".text" a3.sectionTable = some sec ∧ sec.bytes = [b0, b1, 0, 0] ∧
      a3.relocationTable = [⟨"myFunc", ".text", 2, .R_386_16⟩] := by
  refine ⟨_, _, _, (externEntry "myFunc" 0).2,
    (Spec.textSection 4 [((code <<< CODE_OFFSET) ||| (1 <<< SIZE_OFFSET)) % 256,
      descriptor .IMMED 0 0, 0, 0] 1).2, ((code <<< CODE_OFFSET) ||| (1 <<< SIZE_OFFSET)) % 256,
    descriptor .IMMED 0 0,
    firstPass_externCallLines U m0 m1 ms code displacement hdeclared hsymbol htext hcall hextract,
    ?_, secondPass_externCallState U m0 m1 ms code displacement hdeclared hsymbol htext hcall,
    ?_, rfl, rfl, rfl, ?_, rfl, rfl⟩
  · simp [resolveSymbols, hasCycle, hasCycleLoop, resolveLoop, Spec.externCallState, init]
  · simp [Spec.externCallState, find?, externEntry]
  · simp [find?, Spec.textSection]

theorem extern_call_relocation_witness :
    ∃ a1 a2 a3 s sec b0 b1,
      firstPass Spec.instructionUtils (init Spec.externCallLines) = .ok a1 ∧
      resolveSymbols a1 [] = .ok a2 ∧ secondPass Spec.instructionUtils a2 = .ok a3 ∧
      find? "myFunc" a3.symbolTable = some s ∧ s.scope = .GLOBAL ∧ s.type = .EXTERN ∧
      s.defined = false ∧
      find? ".text" a3.sectionTable = some sec ∧ sec.bytes = [b0, b1, 0, 0] ∧
      a3.relocationTable = [⟨"myFunc", ".text", 2, .R_386_16⟩] :=
  extern_call_relocation Spec.instructionUtils [".extern"] ["myFunc"] ["call", "call"] 23 ""
    (by decide) (by decide) (by decide) (by decide) (by decide)

/-! ## Relocations and the bytes they patch -/

theorem addSymbol_frame (a a1 : Assembler) (name sect : String) (value : Int)
    (scope : ScopeType) (type : SymbolType) (defined : Bool)
    (h : a.addSymbol name sect value scope type defined = .ok a1) :
    a1 = { a with symbolTable := a1.symbolTable } := by
  unfold addSymbol at h
  split at h
  · split at h
    · simp [Assembler.fail] at h
    · simp at h; subst h; rfl
  · split at h
    · simp [Assembler.fail] at h
    · simp at h; subst h; rfl

theorem emitsWithin_refl (a : Assembler) (sectName : String) (lo hi : Nat) :
    EmitsWithin a a sectName lo hi :=
  ⟨[], by simp, by simp⟩

theorem emitsWithin_trans (a a1 a2 : Assembler) (sectName : String) (lo hi : Nat)
    (h1 : EmitsWithin a a1 sectName lo hi) (h2 : EmitsWithin a1 a2 sectName lo hi) :
    EmitsWithin a a2 sectName lo hi := by
  obtain ⟨n1, e1, p1⟩ := h1
  obtain ⟨n2, e2, p2⟩ := h2
  refine ⟨n1 ++ n2, by rw [e2, e1, List.append_assoc], ?_⟩
  intro r hr
  rcases List.mem_append.1 hr with h | h
  · exact p1 r h
  · exact p2 r h

theorem emitsWithin_of_eq (a a1 a2 : Assembler) (sectName : String) (lo hi : Nat)
    (h : EmitsWithin a a1 sectName lo hi) (he : a2.relocationTable = a1.relocationTable) :
    EmitsWithin a a2 sectName lo hi := by
  obtain ⟨n1, e1, p1⟩ := h
  exact ⟨n1, by rw [he, e1], p1⟩

theorem emitsWithin_mono (a a1 : Assembler) (sectName : String) (lo hi lo1 hi1 : Nat)
    (h : EmitsWithin a a1 sectName lo hi) (hlo : lo1 ≤ lo) (hhi : hi ≤ hi1) :
    EmitsWithin a a1 sectName lo1 hi1 := by
  obtain ⟨n1, e1, p1⟩ := h
  refine ⟨n1, e1, fun r hr => ?_⟩
  obtain ⟨h1, h2, h3⟩ := p1 r hr
  exact ⟨h1, by omega, by omega⟩

theorem emitsWithin_push (a : Assembler) (rs : List Relocation) (sectName : String)
    (lo hi : Nat)
    (h : ∀ r ∈ rs, r.sect = sectName ∧ lo ≤ r.offset ∧ r.offset + r.type.width ≤ hi) :
    EmitsWithin a (a.pushRelocations rs) sectName lo hi :=
  ⟨rs, rfl, h⟩

theorem emitsWithin_dependencies (a : Assembler) (deps : List (String × String))
    (sectName : String) (offset w : Nat) (typeOf : String → RelocationType)
    (hw : ∀ op, (typeOf op).width = w) :
    EmitsWithin a (a.pushRelocations (dependencyRelocations deps sectName offset typeOf))
      sectName offset (offset + w) := by
  apply emitsWithin_push
  intro r hr
  simp only [dependencyRelocations, List.mem_map] at hr
  obtain ⟨d, _, rfl⟩ := hr
  exact ⟨rfl, le_refl _, by simp [hw]⟩

theorem evaluateTerm_emits (a a1 : Assembler) (symbol : String) (known : Option Symbol)
    (value v : Int) (operation sectName : String) (relocationType : RelocationType)
    (typeOf : String → RelocationType) (w : Nat)
    (hw : relocationType.width = w) (hws : ∀ op, (typeOf op).width = w)
    (h : evaluateTerm a symbol known value operation sectName relocationType typeOf =
      .ok (a1, v)) :
    EmitsWithin a a1 sectName a.locationCounter (a.locationCounter + w) ∧ Frame a a1 := by
  unfold evaluateTerm at h
  split at h
  · unfold evaluateUnresolved at h
    split at h
    · simp at h
      obtain ⟨rfl, -⟩ := h
      exact ⟨emitsWithin_dependencies _ _ _ _ _ _ hws, ⟨rfl, rfl, rfl, rfl, rfl⟩⟩
    · simp [Assembler.fail] at h
  · unfold evaluateKnown at h
    split at h
    · split at h
      · split at h
        · simp at h
          obtain ⟨rfl, -⟩ := h
          exact ⟨emitsWithin_refl _ _ _ _, ⟨rfl, rfl, rfl, rfl, rfl⟩⟩
        · simp at h
          obtain ⟨rfl, -⟩ := h
          exact ⟨emitsWithin_push _ _ _ _ _ (by simp [hw]), ⟨rfl, rfl, rfl, rfl, rfl⟩⟩
      · simp at h
        obtain ⟨rfl, -⟩ := h
        exact ⟨emitsWithin_push _ _ _ _ _ (by simp [hw]), ⟨rfl, rfl, rfl, rfl, rfl⟩⟩
    · split at h
      · simp at h
      · rename_i a0 h0
        simp at h
        obtain ⟨rfl, -⟩ := h
        have hf := addSymbol_frame _ _ _ _ _ _ _ _ h0
        refine ⟨?_, ?_⟩
        · refine ⟨[⟨symbol, sectName, a0.locationCounter, relocationType⟩], ?_, ?_⟩
          · rw [hf]; rfl
          · intro r hr
            simp at hr
            subst hr
            rw [hf]
            simp [hw]
        · rw [hf]; exact ⟨rfl, rfl, rfl, rfl, rfl⟩

theorem width_baseType (directive : String) :
    (baseType directive).width = datumSize directive := by
  unfold baseType datumSize
  split <;> simp [RelocationType.width, BYTE, WORD]

theorem width_secondType (directive operation : String) :
    (secondType directive operation (baseType directive)).width = datumSize directive := by
  unfold secondType baseType datumSize
  by_cases hd : directive = ".byte" <;> by_cases ho : operation = "-" <;>
    simp [hd, ho, RelocationType.width, BYTE, WORD]

theorem width_firstDependencyType (directive op : String) :
    (firstDependencyType (baseType directive) op).width = datumSize directive := by
  unfold firstDependencyType baseType datumSize
  by_cases hd : directive = ".byte" <;> by_cases ho : op = "-" <;>
    simp [hd, ho, RelocationType.width, RelocationType.next, BYTE, WORD]

theorem width_secondDependencyType (directive operation op : String) :
    (secondDependencyType operation (secondType directive operation (baseType directive))
      op).width = datumSize directive := by
  unfold secondDependencyType secondType baseType datumSize
  by_cases hd : directive = ".byte" <;> by_cases ho : operation = "-" <;>
    by_cases hp : operation = "+" <;> by_cases hq : op = "-" <;>
    simp_all [RelocationType.width, RelocationType.next, RelocationType.prev, BYTE, WORD]

theorem evaluateImmedSymbol_emits (a a1 : Assembler)
    (directive first operation second sectName : String) (v : Int)
    (h : evaluateImmedSymbol a directive first operation second sectName = .ok (a1, v)) :
    EmitsWithin a a1 sectName a.locationCounter (a.locationCounter + datumSize directive) ∧
      Frame a a1 :=
  evaluateTerm_emits _ _ _ _ _ _ _ _ _ _ _ (width_secondType directive operation)
    (width_secondDependencyType directive operation) h

theorem evaluateValue_emits (U : Utils) (a a1 : Assembler)
    (directive expression sectName : String) (v : Int)
    (h : evaluateValue U a directive expression sectName = .ok (a1, v)) :
    EmitsWithin a a1 sectName a.locationCounter (a.locationCounter + datumSize directive) ∧
      Frame a a1 := by
  unfold evaluateValue at h
  split at h
  · simp at h
    obtain ⟨rfl, -⟩ := h
    exact ⟨emitsWithin_refl _ _ _ _, ⟨rfl, rfl, rfl, rfl, rfl⟩⟩
  · exact evaluateTerm_emits _ _ _ _ _ _ _ _ _ _ _ (width_baseType directive)
      (width_firstDependencyType directive) h
  · simp only at h
    split at h
    · split at h
      · exact evaluateImmedSymbol_emits _ _ _ _ _ _ _ _ h
      · simp [Assembler.fail] at h
    · exact evaluateImmedSymbol_emits _ _ _ _ _ _ _ _ h
    · simp [Assembler.fail] at h
    · exact evaluateTerm_emits _ _ _ _ _ _ _ _ _ _ _ (width_baseType directive)
        (width_firstDependencyType directive) h
    · split at h
      · simp at h
        obtain ⟨rfl, -⟩ := h
        exact ⟨emitsWithin_refl _ _ _ _, ⟨rfl, rfl, rfl, rfl, rfl⟩⟩
      · split at h
        · simp at h
        · rename_i a0 v0 h0
          obtain ⟨e1, f1⟩ := evaluateTerm_emits _ _ _ _ _ _ _ _ _ _ _ (width_baseType directive)
            (width_firstDependencyType directive) h0
          obtain ⟨e2, f2⟩ := evaluateTerm_emits _ _ _ _ _ _ _ _ _ _ _
            (width_secondType directive _) (width_secondDependencyType directive _) h
          rw [f1.locationCounter] at e2
          exact ⟨emitsWithin_trans _ _ _ _ _ _ e1 e2,
            ⟨f2.locationCounter.trans f1.locationCounter,
             f2.sectionTable.trans f1.sectionTable,
             f2.instructions.trans f1.instructions, f2.line.trans f1.line,
             f2.assembly.trans f1.assembly⟩⟩
    · simp [Assembler.fail] at h
    · simp [Assembler.fail] at h
  · simp [Assembler.fail] at h

theorem evaluate_emits (U : Utils) (a a1 : Assembler) (directive expression sect : String)
    (h : evaluate U a directive expression sect = .ok a1) :
    ∃ sec, find? sect a.sectionTable = some sec ∧
      EmitsWithin a a1 sec.name a.locationCounter (a.locationCounter + datumSize directive) ∧
      a1.locationCounter = (a.locationCounter + datumSize directive) % 65536 ∧
      a1.instructions = a.instructions ∧ a1.line = a.line ∧ a1.assembly = a.assembly ∧
      ∃ bs, bs.length = datumSize directive ∧
        a1.sectionTable = update sect (sec.write a.locationCounter bs) a.sectionTable := by
  unfold evaluate at h
  split at h
  · simp [Assembler.fail] at h
  · rename_i sec hsec
    refine ⟨sec, hsec, ?_⟩
    split at h
    · simp at h
    · rename_i a0 v0 h0
      obtain ⟨e, f⟩ := evaluateValue_emits _ _ _ _ _ _ _ h0
      simp only at h
      split at h
      · rename_i hd
        split at h
        · simp [Assembler.fail] at h
        · simp at h
          subst h
          simp [writeSection, datumSize, hd, f.locationCounter, f.sectionTable, f.instructions,
            f.line, f.assembly]
          refine ⟨?_, [lowerByte v0], by simp [BYTE], rfl⟩
          simpa [datumSize, hd] using emitsWithin_of_eq _ _ _ _ _ _ e rfl
      · rename_i hd
        split at h
        · simp at h
          subst h
          simp [writeSection, datumSize, hd, f.locationCounter, f.sectionTable, f.instructions,
            f.line, f.assembly]
          refine ⟨?_, [lowerByte v0, higherByte v0], by simp [WORD], rfl⟩
          simpa [datumSize, hd] using emitsWithin_of_eq _ _ _ _ _ _ e rfl
        · simp [Assembler.fail] at h

theorem toUInt16_toInt16_nat (n : Nat) (h : n < 65536) : toUInt16 (toInt16 (n : Int)) = n := by
  unfold toUInt16
  rw [toInt16_emod]
  omega

theorem width_plainType (byteSized : Bool) :
    (plainType byteSized).width = if byteSized then 1 else 2 := by
  cases byteSized <;> rfl

theorem width_operandDependencyType (byteSized : Bool) (op : String) :
    (operandDependencyType byteSized op).width = if byteSized then 1 else 2 := by
  unfold operandDependencyType
  cases byteSized <;> by_cases ho : op = "+" <;> simp [ho, RelocationType.width]

theorem symbolPayload_emits (a a1 : Assembler) (symbol : String) (byteSized : Bool)
    (offset : Nat) (sectName : String) (bs : List Nat)
    (h : symbolPayload a symbol byteSized offset sectName = .ok (a1, bs)) :
    EmitsWithin a a1 sectName offset (offset + bs.length) ∧ Frame a a1 := by
  have hl := symbolPayload_length _ _ _ _ _ _ _ h
  rw [hl]
  unfold symbolPayload at h
  split at h
  · split at h
    · split at h
      · simp at h
      · simp at h
        obtain ⟨rfl, -⟩ := h
        exact ⟨emitsWithin_dependencies _ _ _ _ _ _ (width_operandDependencyType byteSized),
          ⟨rfl, rfl, rfl, rfl, rfl⟩⟩
    · simp [Assembler.fail] at h
  · split at h
    · split at h
      · split at h
        · simp at h
        · split at h
          · simp at h
            obtain ⟨rfl, -⟩ := h
            exact ⟨emitsWithin_refl _ _ _ _, ⟨rfl, rfl, rfl, rfl, rfl⟩⟩
          · simp at h
            obtain ⟨rfl, -⟩ := h
            exact ⟨emitsWithin_push _ _ _ _ _ (by simp [width_plainType]),
              ⟨rfl, rfl, rfl, rfl, rfl⟩⟩
      · split at h
        · simp at h
        · simp at h
          obtain ⟨rfl, -⟩ := h
          exact ⟨emitsWithin_push _ _ _ _ _ (by simp [width_plainType]),
            ⟨rfl, rfl, rfl, rfl, rfl⟩⟩
    · split at h
      · simp at h
      · rename_i a0 h0
        have hf := addSymbol_frame _ _ _ _ _ _ _ _ h0
        split at h
        · simp at h
        · simp at h
          obtain ⟨rfl, -⟩ := h
          refine ⟨⟨[⟨symbol, sectName, offset, plainType byteSized⟩], ?_, ?_⟩, ?_⟩
          · rw [hf]; rfl
          · intro r hr
            simp at hr
            subst hr
            simp [width_plainType]
          · rw [hf]; exact ⟨rfl, rfl, rfl, rfl, rfl⟩

theorem pcRelativePayload_emits (a a1 : Assembler) (symbol : String) (offset : Int)
    (size : Nat) (sectName : String) (bs : List Nat)
    (h : pcRelativePayload a symbol offset size sectName = .ok (a1, bs)) :
    EmitsWithin a a1 sectName (toUInt16 offset) (toUInt16 offset + bs.length) ∧
      Frame a a1 := by
  have hl := pcRelativePayload_length _ _ _ _ _ _ _ h
  rw [hl]
  unfold pcRelativePayload at h
  simp only at h
  split at h
  · split at h
    · simp at h
      obtain ⟨rfl, -⟩ := h
      refine ⟨emitsWithin_push _ _ _ _ _ ?_, ⟨rfl, rfl, rfl, rfl, rfl⟩⟩
      intro r hr
      rename_i s u _ _
      unfold pcDependencyRelocations at hr
      split at hr
      · simp at hr
      · rcases List.mem_cons.1 hr with rfl | hr
        · refine ⟨rfl, le_refl _, ?_⟩
          simp only
          split <;> simp [RelocationType.width]
        · simp only [dependencyRelocations, List.mem_map] at hr
          obtain ⟨d, _, rfl⟩ := hr
          refine ⟨rfl, le_refl _, ?_⟩
          have := width_operandDependencyType false d.2
          simp at this ⊢
          omega
    · simp [Assembler.fail] at h
  · split at h
    · split at h
      · simp [Assembler.fail] at h
      · split at h
        · simp [Assembler.fail] at h
        · simp at h
          obtain ⟨rfl, -⟩ := h
          exact ⟨emitsWithin_push _ _ _ _ _ (by simp [RelocationType.width]),
            ⟨rfl, rfl, rfl, rfl, rfl⟩⟩
    · split at h
      · simp at h
      · rename_i a0 h0
        have hf := addSymbol_frame _ _ _ _ _ _ _ _ h0
        simp at h
        obtain ⟨rfl, -⟩ := h
        refine ⟨⟨[⟨symbol, sectName, toUInt16 offset, .R_386_PC16⟩], ?_, ?_⟩, ?_⟩
        · rw [hf]; rfl
        · intro r hr
          simp at hr
          subst hr
          simp [RelocationType.width]
        · rw [hf]; exact ⟨rfl, rfl, rfl, rfl, rfl⟩

theorem operandCode_emits (a a1 : Assembler) (i : Instruction) (o : Operand) (offset : Int)
    (sectName : String) (bs : List Nat)
    (h : operandCode a i o offset sectName = .ok (a1, bs)) :
    EmitsWithin a a1 sectName (toUInt16 offset) (toUInt16 offset + (bs.length - 1)) ∧
      Frame a a1 := by
  have none_ok : ∀ (l : List Nat), (a, l) = (a1, bs) →
      EmitsWithin a a1 sectName (toUInt16 offset) (toUInt16 offset + (bs.length - 1)) ∧
        Frame a a1 := by
    intro l hl
    simp at hl
    obtain ⟨rfl, -⟩ := hl
    exact ⟨emitsWithin_refl _ _ _ _, ⟨rfl, rfl, rfl, rfl, rfl⟩⟩
  have symbol_ok : ∀ (symbol : String) (byteSized : Bool) (a0 : Assembler) (b : Nat)
      (bs0 : List Nat),
      symbolPayload a symbol byteSized (toUInt16 offset) sectName = .ok (a0, bs0) →
      (a0, b :: bs0) = (a1, bs) →
      EmitsWithin a a1 sectName (toUInt16 offset) (toUInt16 offset + (bs.length - 1)) ∧
        Frame a a1 := by
    intro symbol byteSized a0 b bs0 h0 hl
    simp at hl
    obtain ⟨rfl, rfl⟩ := hl
    simpa using symbolPayload_emits _ _ _ _ _ _ _ h0
  unfold operandCode at h
  simp only at h
  split at h
  · split at h
    · split at h
      · simp at h
      · simp at h
        exact none_ok _ (by simpa using h)
    · split at h
      · simp at h
      · rename_i a0 bs0 h0
        simp only [Except.ok.injEq] at h
        exact symbol_ok _ _ _ _ _ h0 h
    · simp [Assembler.fail] at h
  · split at h
    · simp only [Except.ok.injEq] at h; exact none_ok _ h
    · simp only [Except.ok.injEq] at h; exact none_ok _ h
    · simp [Assembler.fail] at h
  · split at h
    · simp only [Except.ok.injEq] at h; exact none_ok _ h
    · simp only [Except.ok.injEq] at h; exact none_ok _ h
    · simp [Assembler.fail] at h
  · split at h
    · simp only [Except.ok.injEq] at h; exact none_ok _ h
    · split at h
      · simp at h
      · rename_i a0 bs0 h0
        simp only [Except.ok.injEq] at h
        exact symbol_ok _ _ _ _ _ h0 h
    · simp [Assembler.fail] at h
  · split at h
    · split at h
      · simp only [Except.ok.injEq] at h; exact none_ok _ h
      · simp only [Except.ok.injEq] at h; exact none_ok _ h
    · split at h
      · simp at h
      · rename_i a0 bs0 h0
        simp only [Except.ok.injEq] at h
        exact symbol_ok _ _ _ _ _ h0 h
    · split at h
      · simp at h
      · rename_i a0 bs0 h0
        simp only [Except.ok.injEq] at h
        simp at h
        obtain ⟨rfl, rfl⟩ := h
        simpa using pcRelativePayload_emits _ _ _ _ _ _ _ h0
    · simp [Assembler.fail] at h

theorem width_pos (t : RelocationType) : 1 ≤ t.width := by
  cases t <;> simp [RelocationType.width]

theorem width_le_two (t : RelocationType) : t.width ≤ 2 := by
  cases t <;> simp [RelocationType.width]

/-- Relocations emitted for an operand whose payload starts at the unwrapped offset `n` lie in
any range that contains the payload. -/
theorem emitsWithin_operand (a a1 : Assembler) (sectName : String) (n k lo hi : Nat)
    (h : EmitsWithin a a1 sectName (toUInt16 (toInt16 (n : Int)))
      (toUInt16 (toInt16 (n : Int)) + k))
    (hlo : lo ≤ n) (hhi : n + k ≤ hi) (hwrap : hi ≤ 65536) :
    EmitsWithin a a1 sectName lo hi := by
  obtain ⟨new, e, p⟩ := h
  refine ⟨new, e, fun r hr => ?_⟩
  obtain ⟨h1, h2, h3⟩ := p r hr
  have hw := width_pos r.type
  have hk : 1 ≤ k := by omega
  have hn : n < 65536 := by omega
  rw [toUInt16_toInt16_nat n hn] at h2 h3
  exact ⟨h1, by omega, by omega⟩

theorem frame_trans (a a1 a2 : Assembler) (f1 : Frame a a1) (f2 : Frame a1 a2) :
    Frame a a2 :=
  ⟨f2.locationCounter.trans f1.locationCounter, f2.sectionTable.trans f1.sectionTable,
    f2.instructions.trans f1.instructions, f2.line.trans f1.line,
    f2.assembly.trans f1.assembly⟩

theorem instructionBytes_emits (a a1 : Assembler) (i : Instruction) (sectName : String)
    (bs : List Nat) (hlaw : i.sizeLaw) (hwrap : a.locationCounter + i.size ≤ 65536)
    (h : instructionBytes a i sectName = .ok (a1, bs)) :
    EmitsWithin a a1 sectName a.locationCounter (a.locationCounter + i.size) ∧
      Frame a a1 := by
  obtain ⟨hsize, hd, hs, hsum⟩ := hlaw
  unfold instructionBytes at h
  simp only at h
  cases hdest : i.destination with
  | none =>
    rw [hdest] at h hsum
    simp only at h
    cases hsrc : i.source with
    | none =>
      rw [hsrc] at h
      simp at h
      obtain ⟨rfl, -⟩ := h
      exact ⟨emitsWithin_refl _ _ _ _, ⟨rfl, rfl, rfl, rfl, rfl⟩⟩
    | some s =>
      rw [hsrc] at h hsum
      simp only at h
      split at h
      · simp at h
      · next a2 bs2 hp =>
        simp at h
        obtain ⟨rfl, -⟩ := h
        have hl := operandCode_length _ _ _ _ _ _ _ hsize (hs s hsrc) hp
        have hb := (operand_sizeLaw_bounds _ s hsize (hs s hsrc)).1
        obtain ⟨e, f⟩ := operandCode_emits _ _ _ _ _ _ _ hp
        simp only [operandSizeOf] at hsum
        refine ⟨emitsWithin_operand _ _ _ (a.locationCounter + 2) (bs2.length - 1) _ _ ?_
          (by omega) (by omega) hwrap, f⟩
        simpa [BYTE] using e
  | some d =>
    rw [hdest] at h hsum
    simp only at h
    split at h
    · simp at h
    · next a1' bs1 hp1 =>
      have hl1 := operandCode_length _ _ _ _ _ _ _ hsize (hd d hdest) hp1
      obtain ⟨e1, f1⟩ := operandCode_emits _ _ _ _ _ _ _ hp1
      have hb1 := (operand_sizeLaw_bounds _ d hsize (hd d hdest)).1
      have e1' : EmitsWithin a a1' sectName a.locationCounter
          (a.locationCounter + i.size) := by
        simp only [operandSizeOf] at hsum
        refine emitsWithin_operand _ _ _ (a.locationCounter + 2) (bs1.length - 1) _ _ ?_
          (by omega) (by omega) hwrap
        simpa [BYTE] using e1
      cases hsrc : i.source with
      | none =>
        rw [hsrc] at h
        simp at h
        obtain ⟨rfl, -⟩ := h
        exact ⟨e1', f1⟩
      | some s =>
        rw [hsrc] at h hsum
        simp only at h
        split at h
        · simp at h
        · next a2 bs2 hp2 =>
          simp at h
          obtain ⟨rfl, -⟩ := h
          have hl2 := operandCode_length _ _ _ _ _ _ _ hsize (hs s hsrc) hp2
          have hb2 := (operand_sizeLaw_bounds _ s hsize (hs s hsrc)).1
          obtain ⟨e2, f2⟩ := operandCode_emits _ _ _ _ _ _ _ hp2
          simp only [operandSizeOf] at hsum
          refine ⟨emitsWithin_trans _ _ _ _ _ _ e1' ?_, frame_trans _ _ _ f1 f2⟩
          refine emitsWithin_operand _ _ _ (a.locationCounter + 2 + d.size) (bs2.length - 1)
            _ _ ?_ (by omega) (by omega) hwrap
          rw [f1.locationCounter] at e2
          simpa [BYTE] using e2

theorem generateInstructionCode_emits (a a2 : Assembler) (i : Instruction) (sect : String)
    (hlaw : i.sizeLaw) (hwrap : a.locationCounter + i.size ≤ 65536)
    (h : generateInstructionCode a i sect = .ok a2) :
    ∃ sec, find? sect a.sectionTable = some sec ∧
      EmitsWithin a a2 sec.name a.locationCounter (a.locationCounter + i.size) ∧
      a2.locationCounter = a.locationCounter ∧
      a2.instructions = a.instructions ∧ a2.line = a.line ∧ a2.assembly = a.assembly ∧
      ∃ bs, bs.length = i.size ∧
        a2.sectionTable = update sect (sec.write a.locationCounter bs) a.sectionTable := by
  unfold generateInstructionCode at h
  split at h
  · simp [Assembler.fail] at h
  · next sec hsec =>
    refine ⟨sec, hsec, ?_⟩
    split at h
    · simp at h
    · next a1 bs hb =>
      simp at h
      subst h
      obtain ⟨e, f⟩ := instructionBytes_emits _ _ _ _ _ hlaw hwrap hb
      obtain ⟨hlen, -⟩ := instructionBytes_length _ _ _ _ _ hlaw hb
      refine ⟨emitsWithin_of_eq _ _ _ _ _ _ e rfl, ?_, ?_, ?_, ?_, bs, hlen, ?_⟩
      · simp [writeSection, f.locationCounter]
      · simp [writeSection, f.instructions]
      · simp [writeSection, f.line]
      · simp [writeSection, f.assembly]
      · simp [writeSection, f.locationCounter, f.sectionTable]

theorem immediateSymbolInstruction_sizeLaw (code : Nat) (symbol displacement : String) :
    (Spec.immediateSymbolInstruction code symbol displacement).sizeLaw := by
  simp [Instruction.sizeLaw, Spec.immediateSymbolInstruction, Operand.sizeLaw, operandSizeOf]

theorem firstPass_wrapLines :
    firstPass Spec.utils (init Spec.wrapLines) = .ok (Spec.wrapState 4 2 [] [] []) := by
  decide

theorem resolveSymbols_wrapState :
    resolveSymbols (Spec.wrapState 4 2 [] [] []) [] = .ok (Spec.wrapState 4 2 [] [] []) := by
  decide

theorem secondPass_wrapState :
    secondPass Spec.utils (Spec.wrapState 4 2 [] [] []) =
      .ok (Spec.wrapState 4 2 [externEntry "X" 1]
        (writeAt 0 (writeAt 65534 (writeAt 0 [] (List.replicate 65534 0)) [0, 0]) [0, 0])
        [⟨"X", ".data", 65534, .R_386_16⟩, ⟨"X", ".data", 0, .R_386_16⟩]) := by
  have hdata : Spec.utils.getTokenType ".data" = (.SECTION, [".data"]) := by decide
  have hskip : Spec.utils.getTokenType ".skip" = (.DIRECTIVE, [".skip"]) := by decide
  have hword : Spec.utils.getTokenType ".word" = (.DIRECTIVE, [".word"]) := by decide
  have hX : Spec.utils.getTokenType "X" = (.SYMBOL, ["X"]) := by decide
  have hXe : Spec.utils.isExpression "X" = true := by decide
  have hcat : ("" : String) ++ "X" = "X" := by decide
  have q1 : toUInt16 (toInt32 (strtol "65534")) = 65534 := by decide
  have q2 : lowerByte 0 = 0 := by decide
  have q3 : higherByte 0 = 0 := by decide
  have h1 : secondPassLine Spec.utils ⟨Spec.wrapState 0 2 [] [] [], false, none⟩ [".data"] =
      .ok ⟨Spec.wrapState 1 0 [] [] [], false, some ".data"⟩ := by
    simp [secondPassLine, hdata, Spec.wrapState, count, find?, init]
  have h2 : secondPassLine Spec.utils ⟨Spec.wrapState 1 0 [] [] [], false, some ".data"⟩
        [".skip", "65534"] =
      .ok ⟨Spec.wrapState 2 65534 [] (writeAt 0 [] (List.replicate 65534 0)) [], false,
        some ".data"⟩ := by
    simp [-List.reduceReplicate, secondPassLine, secondPassDirective, fillSection, hskip,
      Spec.wrapState, count,
      find?, init, group, update, Spec.dataSection, A, q1, q2, Section.writeValue,
      Section.write]
  have h3 : ∀ n bs, secondPassLine Spec.utils ⟨Spec.wrapState 2 n [] bs [], false,
        some ".data"⟩ [".word", "X"] =
      .ok ⟨Spec.wrapState 3 ((n + 2) % 65536) [externEntry "X" 1] (writeAt n bs [0, 0])
        [⟨"X", ".data", n, .R_386_16⟩], false, some ".data"⟩ := by
    intro n bs
    simp [secondPassLine, secondPassDirective, evaluateData, nextExpression, evaluate,
      evaluateValue, evaluateTerm, evaluateKnown, addSymbol, pushRelocations, writeSection,
      Section.write, baseType, hword, hX, hXe, hcat, Spec.wrapState, count, find?, init, group,
      update, Spec.dataSection, externEntry, UNDEFINED, WORD, q2, q3]
  have h4 : ∀ n m bs, secondPassLine Spec.utils ⟨Spec.wrapState 3 n [externEntry "X" 1] bs
        [⟨"X", ".data", m, .R_386_16⟩], false, some ".data"⟩ [".word", "X"] =
      .ok ⟨Spec.wrapState 4 ((n + 2) % 65536) [externEntry "X" 1] (writeAt n bs [0, 0])
        [⟨"X", ".data", m, .R_386_16⟩, ⟨"X", ".data", n, .R_386_16⟩], false,
        some ".data"⟩ := by
    intro n m bs
    simp [secondPassLine, secondPassDirective, evaluateData, nextExpression, evaluate,
      evaluateValue, evaluateTerm, evaluateKnown, addSymbol, pushRelocations, writeSection,
      Section.write, baseType, hword, hX, hXe, hcat, Spec.wrapState, count, find?, init, group,
      update, Spec.dataSection, externEntry, UNDEFINED, WORD, q2, q3]
  have h3' := h3 65534 (writeAt 0 [] (List.replicate 65534 0))
  have h4' := h4 0 65534 (writeAt 65534 (writeAt 0 [] (List.replicate 65534 0)) [0, 0])
  rw [show (65534 + 2) % 65536 = 0 from rfl] at h3'
  rw [show (0 + 2) % 65536 = 2 from rfl] at h4'
  exact secondPass_of_passLoop Spec.utils (Spec.wrapState 4 2 [] [] []) _
    (passLoop_cons_ok _ _ _ _ _ _ h1 (passLoop_cons_ok _ _ _ _ _ _ h2
      (passLoop_cons_ok _ _ _ _ _ _ h3' (passLoop_cons_ok _ _ [] _ _ _ h4' rfl))))

/-- C19, counterexample: the lines `.data` / `.skip 65534` / `.word X` / `.word X` pass
`firstPass`, `resolveSymbols` and `secondPass`.  The location counter wraps from 65534 to 0 at
the first datum, so the first pass records the size 2 for `.data`, while the relocation of the
first datum sits at offset 65534: its patch site ends at 65536, outside the section. -/
theorem relocation_outside_section_after_wrap :
    ∃ a1 a2 a3 r sec, firstPass Spec.utils (init Spec.wrapLines) = .ok a1 ∧
      resolveSymbols a1 [] = .ok a2 ∧ secondPass Spec.utils a2 = .ok a3 ∧
      r ∈ a3.relocationTable ∧ find? r.sect a3.sectionTable = some sec ∧
      sec.size = 2 ∧ r.offset = 65534 ∧ r.type.width = 2 ∧
      ¬ r.offset + r.type.width ≤ sec.size := by
  refine ⟨_, _, _, ⟨"X", ".data", 65534, .R_386_16⟩,
    { Spec.dataSection 2 with
      bytes := writeAt 0 (writeAt 65534 (writeAt 0 [] (List.replicate 65534 0)) [0, 0])
        [0, 0] },
    firstPass_wrapLines, resolveSymbols_wrapState, secondPass_wrapState, ?_, ?_, rfl, rfl, rfl,
    ?_⟩
  · simp [-List.reduceReplicate, Spec.wrapState]
  · simp [-List.reduceReplicate, Spec.wrapState, find?]
  · simp [Spec.dataSection, RelocationType.width]

/-! ## C21: a datum with a UST symbol -/

theorem lowerByte_toInt16_add (x y : Int) :
    lowerByte (toInt16 (toInt16 x + y)) = lowerByte (x + y) := by
  unfold lowerByte toInt16
  congr 1
  omega

theorem lowerByte_toInt16_sub (x y : Int) :
    lowerByte (toInt16 (toInt16 x - y)) = lowerByte (x - y) := by
  unfold lowerByte toInt16
  congr 1
  omega

theorem higherByte_toInt16_add (x y : Int) :
    higherByte (toInt16 (toInt16 x + y)) = higherByte (x + y) := by
  unfold higherByte toInt16
  congr 2
  omega

theorem higherByte_toInt16_sub (x y : Int) :
    higherByte (toInt16 (toInt16 x - y)) = higherByte (x - y) := by
  unfold higherByte toInt16
  congr 2
  omega

/-- C21, counterexample: `A` is a UST symbol with value 300 and the dependency list
`[(X, +)]`; the datum `A` of `.byte` is rejected with the byte-overflow error, so no literal is
written, while the same datum of `.word` is accepted. -/
theorem evaluate_byte_of_far_alias :
    (∃ s, find? "A" Spec.farAliasState.symbolTable = some s ∧ s.value = 300) ∧
    find? "A" Spec.farAliasState.UST = some ⟨"A", [("X", "+")], ".data"⟩ ∧
    evaluate Spec.utils Spec.farAliasState ".byte" "A" ".data" =
      .error ⟨2, .byteOverflow⟩ ∧
    evaluate Spec.utils Spec.farAliasState ".word" "A" ".data" =
      .ok (emitDatum Spec.farAliasState ".word" ".data"
        ⟨".data", defaultFlags ".data", 0, [], 0, 0⟩ 300 [⟨"X", ".data", 0, .R_386_16⟩]) := by
  refine ⟨⟨_, rfl, ?_⟩, ?_, ?_, ?_⟩ <;> decide

/-- C21, amended: let `S` be a key of UST with symbol-table entry `s` and dependency list `D`,
and let the datum of `.byte` or `.word` be the bare symbol `S` or `k op S` with an immediate
`k` and `op` one of `+` and `-`.  If, for `.byte`, the higher byte of the literal is zero,
`evaluate` writes the literal `S.value` (bare `S`) or `k op S.value` at the location counter
and appends exactly one relocation per element `(d, s)` of `D`, in order, against `d` at the
location counter, of the plain type `R_386_8`/`R_386_16` when the product of the signs `op` and
`s` is positive and of the subtractive type when it is negative. -/
theorem evaluate_unresolved_symbol (U : Utils) (a : Assembler) (directive S sect : String)
    (sec : Section) (s : Symbol) (u : UnresolvedSymbol)
    (hsec : find? sect a.sectionTable = some sec)
    (hdir : directive = ".byte" ∨ directive = ".word")
    (hs : find? S a.symbolTable = some s)
    (hu : find? S a.UST = some u) :
    (∀ ms, U.getTokenType S = (.SYMBOL, ms) →
      (directive = ".byte" → higherByte s.value = 0) →
      evaluate U a directive S sect = .ok (emitDatum a directive sect sec s.value
        (u.dependencies.map fun d =>
          ⟨d.1, sec.name, a.locationCounter, signedType directive "+" d.2⟩))) ∧
    (∀ expression ms k op, U.getTokenType expression = (.EXPRESSION, ms) →
      group ms 1 = k → group ms 2 = op → group ms 3 = S →
      (U.getTokenType k).1 = .OPERAND_IMMED → (U.getTokenType S).1 = .SYMBOL →
      op = "+" ∨ op = "-" →
      (directive = ".byte" → higherByte (literalOf (strtol k) op s.value) = 0) →
      evaluate U a directive expression sect =
        .ok (emitDatum a directive sect sec (literalOf (strtol k) op s.value)
          (u.dependencies.map fun d =>
            ⟨d.1, sec.name, a.locationCounter, signedType directive op d.2⟩))) := by
  have hc : count S a.UST = true := by simp [count, hu]
  have hmap1 : ∀ D : List (String × String),
      dependencyRelocations D sec.name a.locationCounter
          (firstDependencyType (baseType directive)) =
        D.map fun d => ⟨d.1, sec.name, a.locationCounter, signedType directive "+" d.2⟩ := by
    intro D
    unfold dependencyRelocations
    apply List.map_congr_left
    intro d _
    rcases hdir with rfl | rfl <;> by_cases h : d.2 = "-" <;>
      simp [firstDependencyType, signedType, baseType, subtractiveType, RelocationType.next, h]
  have hmap2 : ∀ (op : String) (D : List (String × String)), op = "+" ∨ op = "-" →
      dependencyRelocations D sec.name a.locationCounter
          (secondDependencyType op (secondType directive op (baseType directive))) =
        D.map fun d => ⟨d.1, sec.name, a.locationCounter, signedType directive op d.2⟩ := by
    intro op D hop
    unfold dependencyRelocations
    apply List.map_congr_left
    intro d _
    rcases hdir with rfl | rfl <;> rcases hop with rfl | rfl <;> by_cases h : d.2 = "-" <;>
      simp [secondDependencyType, secondType, signedType, baseType, subtractiveType,
        RelocationType.next, RelocationType.prev, h]
  refine ⟨?_, ?_⟩
  · intro ms hlex hfit
    rcases hdir with rfl | rfl
    · have h0 := hfit rfl
      simp [evaluate, evaluateValue, hsec, hlex, evaluateTerm, hc, evaluateUnresolved, hs, hu,
        applyOperation, lowerByte_toInt16, higherByte_toInt16, h0, emitDatum, datumBytes,
        datumSize, writeSection, pushRelocations, hmap1]
    · simp [evaluate, evaluateValue, hsec, hlex, evaluateTerm, hc, evaluateUnresolved, hs, hu,
        applyOperation, lowerByte_toInt16, higherByte_toInt16, emitDatum, datumBytes,
        datumSize, writeSection, pushRelocations, hmap1]
  · intro expression ms k op hlex h1 h2 h3 hk hS hop hfit
    have hkS : (U.getTokenType (group ms 3)).1 = .SYMBOL := by rw [h3]; exact hS
    have hk1 : (U.getTokenType (group ms 1)).1 = .OPERAND_IMMED := by rw [h1]; exact hk
    subst h1 h2
    rcases hdir with rfl | rfl
    · have h0 := hfit rfl
      rcases hop with hop | hop
      · have m := hmap2 (group ms 2) u.dependencies (Or.inl hop)
        simp only [hop] at m h0 ⊢
        simp [literalOf] at h0
        simp [evaluate, evaluateValue, hsec, hlex, hk1, hkS, hS, evaluateImmedSymbol, h3,
          evaluateTerm, hc, evaluateUnresolved, hs, hu, hop,
          applyOperation, lowerByte_toInt16_add, higherByte_toInt16_add, h0, emitDatum, datumBytes,
          datumSize, writeSection, pushRelocations, m, literalOf]
      · have m := hmap2 (group ms 2) u.dependencies (Or.inr hop)
        simp only [hop] at m h0 ⊢
        simp [literalOf] at h0
        simp [evaluate, evaluateValue, hsec, hlex, hk1, hkS, hS, evaluateImmedSymbol, h3,
          evaluateTerm, hc, evaluateUnresolved, hs, hu, hop,
          applyOperation, lowerByte_toInt16_sub, higherByte_toInt16_sub, h0, emitDatum, datumBytes,
          datumSize, writeSection, pushRelocations, m, literalOf]
    · rcases hop with hop | hop
      · have m := hmap2 (group ms 2) u.dependencies (Or.inl hop)
        simp only [hop] at m ⊢
        simp [evaluate, evaluateValue, hsec, hlex, hk1, hkS, hS, evaluateImmedSymbol, h3,
          evaluateTerm, hc, evaluateUnresolved, hs, hu, hop,
          applyOperation, lowerByte_toInt16_add, higherByte_toInt16_add, emitDatum, datumBytes,
          datumSize, writeSection, pushRelocations, m, literalOf]
      · have m := hmap2 (group ms 2) u.dependencies (Or.inr hop)
        simp only [hop] at m ⊢
        simp [evaluate, evaluateValue, hsec, hlex, hk1, hkS, hS, evaluateImmedSymbol, h3,
          evaluateTerm, hc, evaluateUnresolved, hs, hu, hop,
          applyOperation, lowerByte_toInt16_sub, higherByte_toInt16_sub, emitDatum, datumBytes,
          datumSize, writeSection, pushRelocations, m, literalOf]

/-- C21, witness: the amended statement at the datum `2-A` of `.word`, where `A` has the value
300 and the dependency list `[(X, +)]`: the literal is `2 - 300` and the single relocation
against `X` is of the subtractive type. -/
theorem evaluate_unresolved_symbol_witness :
    evaluate Spec.utils Spec.farAliasState ".word" "2-A" ".data" =
      .ok (emitDatum Spec.farAliasState ".word" ".data"
        ⟨".data", defaultFlags ".data", 0, [], 0, 0⟩ (literalOf (strtol "2") "-" 300)
        [⟨"X", ".data", 0, .R_386_SUB_16⟩]) :=
  (evaluate_unresolved_symbol Spec.utils Spec.farAliasState ".word" "A" ".data"
    ⟨".data", defaultFlags ".data", 0, [], 0, 0⟩
    ⟨"A", ".data", 300, .LOCAL, .ALIAS, false, 2⟩ ⟨"A", [("X", "+")], ".data"⟩
    (by decide) (Or.inr rfl) (by decide) (by decide)).2
    "2-A" ["2-A", "2", "-", "A"] "2" "-" (by decide) rfl rfl rfl (by decide) (by decide)
    (Or.inr rfl) (by decide)

/-! ## C22: the directive .align -/

theorem toInt32_small (n : Nat) (h : n ≤ 15) : toInt32 (n : Int) = n := by
  unfold toInt32; omega

/-- The value of `alignCounter` for an exponent `n ≤ 15`, when some multiple of `2 ^ n` from the
counter on is below `2 ^ 16`: the least multiple of `2 ^ n` that is not below the counter. -/
theorem alignCounter_least (lc n : Nat) (hn : n ≤ 15)
    (hlt : ∃ m, 2 ^ n ∣ m ∧ lc ≤ m ∧ m < 65536) :
    ∃ r, alignCounter lc n = some r ∧ 2 ^ n ∣ r ∧ lc ≤ r ∧
      (∀ k, 2 ^ n ∣ k → lc ≤ k → r ≤ k) ∧ (lc % 2 ^ n = 0 ↔ r = lc) := by
  obtain ⟨m, ⟨q, rfl⟩, hle, hm⟩ := hlt
  have hpos : 0 < 2 ^ n := Nat.pow_pos (by decide)
  have h30 : (0 : Int) ≤ (n : Int) ∧ (n : Int) ≤ 30 := by omega
  by_cases h : lc % 2 ^ n = 0
  · refine ⟨lc, ?_, Nat.dvd_of_mod_eq_zero h, le_refl _, fun k _ hk => hk, by simp [h]⟩
    simp [alignCounter, h30, h]
  · have hdiv : lc / 2 ^ n < q := by
      by_contra hq
      have hq1 : q ≤ lc / 2 ^ n := by omega
      have h1 : 2 ^ n * q ≤ 2 ^ n * (lc / 2 ^ n) := Nat.mul_le_mul_left _ hq1
      have h2 := Nat.div_add_mod lc (2 ^ n)
      have h3 : 2 ^ n * q = lc := by omega
      apply h
      rw [← h3]
      exact Nat.mul_mod_right _ _
    have hr : lc / 2 ^ n * 2 ^ n + 2 ^ n ≤ 2 ^ n * q := by
      have : (lc / 2 ^ n + 1) * 2 ^ n ≤ q * 2 ^ n := Nat.mul_le_mul_right _ hdiv
      rw [Nat.mul_comm (2 ^ n) q]
      rw [Nat.add_mul] at this
      omega
    have hmod : (lc / 2 ^ n * 2 ^ n + 2 ^ n) % 65536 = lc / 2 ^ n * 2 ^ n + 2 ^ n :=
      Nat.mod_eq_of_lt (by omega)
    have hlow : lc < lc / 2 ^ n * 2 ^ n + 2 ^ n := by
      have h2 := Nat.div_add_mod lc (2 ^ n)
      have h3 := Nat.mod_lt lc hpos
      rw [Nat.mul_comm] at h2
      omega
    refine ⟨lc / 2 ^ n * 2 ^ n + 2 ^ n, ?_, ?_, le_of_lt hlow, ?_, ?_⟩
    · simp [alignCounter, h30, h, hmod]
    · exact Dvd.intro_left (lc / 2 ^ n + 1) (by rw [Nat.add_mul]; omega)
    · rintro k ⟨j, rfl⟩ hk
      have hj : lc / 2 ^ n < j := by
        by_contra hq
        have hq1 : j ≤ lc / 2 ^ n := by omega
        have h1 : 2 ^ n * j ≤ 2 ^ n * (lc / 2 ^ n) := Nat.mul_le_mul_left _ hq1
        have h2 := Nat.div_add_mod lc (2 ^ n)
        have h3 : 2 ^ n * j = lc := by omega
        apply h
        rw [← h3]
        exact Nat.mul_mod_right _ _
      have : (lc / 2 ^ n + 1) * 2 ^ n ≤ j * 2 ^ n := Nat.mul_le_mul_right _ hj
      rw [Nat.mul_comm (2 ^ n) j]
      rw [Nat.add_mul] at this
      omega
    · constructor
      · intro h0; exact absurd h0 h
      · intro h0; omega

/-- The call of `writeValue` under the flag test returns and keeps the location counter. -/
theorem fillSection_counter (a : Assembler) (key : String) (start : Nat) (n value : Int)
    (sec : Section) (hsec : find? key a.sectionTable = some sec) :
    ∃ a1, fillSection a key start n value = .ok a1 ∧
      a1.locationCounter = a.locationCounter := by
  by_cases hA : sec.flags.getD A '0' = '1'
  · exact ⟨{ a with sectionTable := update key (sec.writeValue start n value) a.sectionTable },
      by simp only [fillSection, hsec, hA, if_true], rfl⟩
  · exact ⟨a, by simp only [fillSection, hsec, hA, if_false], rfl⟩

/-- C22: for a location counter `LC` and an operand `N` with `0 ≤ N ≤ 15` such that a multiple
of `2 ^ N` from `LC` on lies below `2 ^ 16`, the line `.align N` sets the location counter, in
the first pass and in the second pass alike, to the least multiple of `2 ^ N` that is not below
`LC`; it leaves the counter unchanged exactly when `LC` is a multiple of `2 ^ N`, in
particular for `N = 0`. -/
theorem align_least_multiple (U : Utils) (a : Assembler) (key token : String)
    (ms : List String) (N : Nat) (hN : N ≤ 15)
    (hlt : ∃ m, 2 ^ N ∣ m ∧ a.locationCounter ≤ m ∧ m < 65536)
    (hlex : U.getTokenType token = (.OPERAND_IMMED, ms))
    (hfirst : strtol (group ms 0) = N) (hsecond : strtol token = N)
    (hkey : count key a.sectionTable = true) :
    ∃ r a1, firstPassDirective U a (some key) ".align" [token] =
        .ok ({ a with locationCounter := r }, []) ∧
      secondPassDirective U a (some key) ".align" [token] = .ok a1 ∧
      a1.locationCounter = r ∧
      2 ^ N ∣ r ∧ a.locationCounter ≤ r ∧ (∀ k, 2 ^ N ∣ k → a.locationCounter ≤ k → r ≤ k) ∧
      (a.locationCounter % 2 ^ N = 0 ↔ r = a.locationCounter) ∧
      (N = 0 → r = a.locationCounter) := by
  obtain ⟨r, hr, hdvd, hle, hleast, hiff⟩ := alignCounter_least a.locationCounter N hN hlt
  obtain ⟨sec, hsec⟩ : ∃ sec, find? key a.sectionTable = some sec := by
    simpa [count, Option.isSome_iff_exists] using hkey
  have h32 := toInt32_small N hN
  have hzero : N = 0 → r = a.locationCounter := by
    intro h0
    apply hiff.1
    simp [h0, Nat.mod_one]
  have hsnd : ∃ a1, secondPassDirective U a (some key) ".align" [token] = .ok a1 ∧
      a1.locationCounter = r := by
    by_cases h : a.locationCounter % 2 ^ N = 0
    · exact ⟨a, by simp [secondPassDirective, hsecond, h32, hr, h], (hiff.1 h).symm⟩
    · obtain ⟨a1, h1, h2⟩ := fillSection_counter { a with locationCounter := r } key
        a.locationCounter ((r : Int) - a.locationCounter) 0 sec hsec
      exact ⟨a1, by simp [secondPassDirective, hsecond, h32, hr, h, h1], h2⟩
  obtain ⟨a1, h1, h2⟩ := hsnd
  exact ⟨r, a1, by simp [firstPassDirective, hlex, hfirst, h32, hr], h1, h2, hdvd, hle, hleast,
    hiff, hzero⟩

/-- C22, witness: `.align 2` at the location counter 5 of `.data` sets the counter to 8 in both
passes. -/
theorem align_least_multiple_witness :
    ∃ r a1, firstPassDirective Spec.utils { Spec.farLabelState with locationCounter := 5 }
        (some ".data") ".align" ["2"] =
        .ok ({ { Spec.farLabelState with locationCounter := 5 } with locationCounter := r }, []) ∧
      secondPassDirective Spec.utils { Spec.farLabelState with locationCounter := 5 }
        (some ".data") ".align" ["2"] = .ok a1 ∧
      a1.locationCounter = r ∧
      2 ^ 2 ∣ r ∧ 5 ≤ r ∧ (∀ k, 2 ^ 2 ∣ k → 5 ≤ k → r ≤ k) ∧
      (5 % 2 ^ 2 = 0 ↔ r = 5) ∧ (2 = 0 → r = 5) :=
  align_least_multiple Spec.utils { Spec.farLabelState with locationCounter := 5 } ".data" "2"
    ["2"] 2 (by decide) ⟨8, by decide, by decide, by decide⟩ (by decide) (by decide) (by decide)
    (by decide)

/-! ## C23: the directive .skip in the second pass -/

theorem overwrite_getElem? (bs buf : List Nat) (i : Nat) :
    (overwrite buf bs)[i]? = if i < bs.length then bs[i]? else buf[i]? := by
  induction bs generalizing buf i with
  | nil => cases buf <;> simp [overwrite]
  | cons b bs ih =>
    cases buf with
    | nil =>
      cases i with
      | zero => simp [overwrite]
      | succ i => simp [overwrite, ih]
    | cons x buf =>
      cases i with
      | zero => simp [overwrite]
      | succ i => simp [overwrite, ih]

theorem writeAt_getElem?_inside (n : Nat) (buf bs : List Nat) (i : Nat) (h : i < bs.length) :
    (writeAt n buf bs)[n + i]? = bs[i]? := by
  induction n generalizing buf with
  | zero => simp [writeAt, overwrite_getElem?, h]
  | succ n ih =>
    cases buf with
    | nil => simp [writeAt, Nat.add_right_comm n 1 i, ih]
    | cons x buf => simp [writeAt, Nat.add_right_comm n 1 i, ih]

theorem writeAt_getD_outside (n : Nat) (buf bs : List Nat) (i : Nat)
    (h : i < n ∨ n + bs.length ≤ i) :
    (writeAt n buf bs).getD i 0 = buf.getD i 0 := by
  induction n generalizing buf i with
  | zero =>
    have hi : ¬ i < bs.length := by omega
    simp [writeAt, List.getD, overwrite_getElem?, hi]
  | succ n ih =>
    cases buf with
    | nil =>
      cases i with
      | zero => simp [writeAt]
      | succ i =>
        have := ih [] i (by omega)
        simpa [writeAt] using this
    | cons x buf =>
      cases i with
      | zero => simp [writeAt]
      | succ i =>
        have := ih buf i (by omega)
        simpa [writeAt] using this

/-- C23, counterexample: the section `.bss` is not allocatable; in the second pass the line
`.skip 4` advances the location counter by 4 and writes nothing, so the byte buffer of `.bss`
stays empty. -/
theorem skip_in_bss_writes_nothing :
    ∃ a2 sec, secondPass Spec.utils Spec.bssSkipState = .ok a2 ∧
      find? ".bss" a2.sectionTable = some sec ∧ sec.flags.getD A '0' = '0' ∧
      sec.bytes = [] ∧ a2.locationCounter = 4 := by
  refine ⟨Spec.bssSkipState, ⟨".bss", defaultFlags ".bss", 4, [], 0, 0⟩, ?_, ?_, ?_, ?_, ?_⟩ <;>
    decide

/-- C23, amended: in the second pass, let the current section `sec` be stored under `key`, and
let `.skip N` have no fill value, with `0 ≤ N` and `LC + N < 2 ^ 16`.  The location counter
advances by `N`.  When the flag A of `sec` is set, the section is replaced by
`sec.writeValue LC N 0`, whose byte buffer holds zero at every offset of `[LC, LC + N)` and
agrees with the old buffer at every other offset (an offset beyond the end of a buffer reads
as zero); when the flag is not set, nothing is written. -/
theorem skip_zero_fill (U : Utils) (a : Assembler) (key token : String) (sec : Section)
    (N : Nat) (hsec : find? key a.sectionTable = some sec)
    (hN : toInt32 (strtol token) = N) (hlt : a.locationCounter + N < 65536) :
    (sec.flags.getD A '0' = '1' →
      secondPassDirective U a (some key) ".skip" [token] =
        .ok { a with
          locationCounter := a.locationCounter + N,
          sectionTable := update key (sec.writeValue a.locationCounter N 0) a.sectionTable } ∧
      (∀ i, a.locationCounter ≤ i → i < a.locationCounter + N →
        (sec.writeValue a.locationCounter N 0).bytes[i]? = some 0) ∧
      (∀ i, i < a.locationCounter ∨ a.locationCounter + N ≤ i →
        (sec.writeValue a.locationCounter N 0).bytes.getD i 0 = sec.bytes.getD i 0)) ∧
    (sec.flags.getD A '0' ≠ '1' →
      secondPassDirective U a (some key) ".skip" [token] =
        .ok { a with locationCounter := a.locationCounter + N }) := by
  have hlc : toUInt16 ((a.locationCounter : Int) + N) = a.locationCounter + N := by
    unfold toUInt16; omega
  have hcount : ((a.locationCounter + N : Nat) : Int) - a.locationCounter = N := by
    omega
  refine ⟨fun hA => ⟨?_, ?_, ?_⟩, fun hA => ?_⟩
  · simp only [secondPassDirective, hN, hlc, fillSection, hsec, hA, hcount]
    simp
  · intro i h1 h2
    obtain ⟨j, rfl⟩ : ∃ j, i = a.locationCounter + j := ⟨i - a.locationCounter, by omega⟩
    have hj : j < N := by omega
    simp only [Section.writeValue, Section.write, Int.toNat_ofNat]
    rw [writeAt_getElem?_inside _ _ _ _ (by simpa using hj)]
    simp [hj, lowerByte]
  · intro i h
    simp only [Section.writeValue, Section.write, Int.toNat_ofNat]
    exact writeAt_getD_outside _ _ _ _ (by simpa using h)
  · have hA' : ¬ sec.flags.getD A '0' = '1' := hA
    simp only [secondPassDirective, hN, hlc, fillSection, hsec, hcount, hA', if_false]
    simp

/-- C23, witness: the amended statement for `.skip 3` at the location counter 300 of the
allocatable section `.data`. -/
theorem skip_zero_fill_witness :
    secondPassDirective Spec.utils Spec.farLabelState (some ".data") ".skip" ["3"] =
      .ok { Spec.farLabelState with
        locationCounter := Spec.farLabelState.locationCounter + 3,
        sectionTable := update ".data"
          ((Spec.dataSection 300).writeValue Spec.farLabelState.locationCounter (3 : Nat) 0)
          Spec.farLabelState.sectionTable } :=
  ((skip_zero_fill Spec.utils Spec.farLabelState ".data" "3" (Spec.dataSection 300) 3
    (by decide) (by decide) (by decide)).1 (by decide)).1

/-! ## C24: default section flags -/

theorem defaultFlags_eq (name : String) :
    defaultFlags name = flagString (defaultPositions name) := by
  unfold defaultFlags defaultPositions
  split
  · decide
  · split
    · decide
    · split
      · decide
      · split <;> decide

/-- The header of a section directive without a flags argument yields the default flags of
the section name. -/
theorem sectionHeader_default (U : Utils) (a : Assembler) (name : String)
    (queue queue1 : List String) (name1 : String) (flags : List Char)
    (h : sectionHeader U a name queue = .ok (name1, flags, queue1))
    (hq : name ≠ ".section" ∨ ∃ t, queue = [t]) :
    flags = defaultFlags name1 ∧ (name ≠ ".section" → name1 = name) ∧
      (∀ t, name = ".section" → queue = [t] → name1 = group (U.getTokenType t).2 0) := by
  unfold sectionHeader at h
  by_cases hs : name = ".section"
  · rcases hq with hq | ⟨t, rfl⟩
    · exact absurd hs hq
    · simp only [hs, if_true] at h
      split at h
      · simp [Assembler.fail] at h
      · next hty =>
        simp at h
        obtain ⟨rfl, rfl, rfl⟩ := h
        refine ⟨rfl, fun hne => absurd hs hne, ?_⟩
        intro t' _ ht
        simp at ht
        subst ht
        rfl
  · simp only [hs, if_false] at h
    simp at h
    obtain ⟨rfl, rfl, rfl⟩ := h
    exact ⟨rfl, fun _ => rfl, fun _ h1 => absurd h1 hs⟩

/-- C24: when the first pass creates a section by a bare directive or by `.section NAME` with no
flags argument, the section entered in the section table under its name `n` (the directive for a
bare directive, `NAME` for `.section NAME`) becomes the current section and carries the flag
string of ten characters with `'1'` exactly at A and X for `.text`, A and W for `.data`, W for
`.bss`, A for `.rodata`, and A, W and X for every other name, and `'0'` everywhere else. -/
theorem section_default_flags (U : Utils) (a a2 : Assembler)
    (currentSection cs2 : Option String)
    (name : String) (queue queue1 : List String)
    (h : firstPassSection U a currentSection name queue = .ok (a2, cs2, queue1))
    (hq : name ≠ ".section" ∨ ∃ t, queue = [t]) :
    ∃ n sec, cs2 = some n ∧ find? n a2.sectionTable = some sec ∧ sec.name = n ∧
      (name ≠ ".section" → n = name) ∧
      (∀ t, name = ".section" → queue = [t] → n = group (U.getTokenType t).2 0) ∧
      sec.flags = flagString (defaultPositions n) := by
  unfold firstPassSection at h
  simp only at h
  split at h
  · simp at h
  · next name1 flags queue0 hh =>
    obtain ⟨hf, hn1, hn2⟩ := sectionHeader_default U _ _ _ _ _ _ hh hq
    split at h
    · simp at h
    · next a1 h1 =>
      split at h
      · simp [Assembler.fail] at h
      · next s hs =>
        split at h
        · simp at h
        · next a3 h3 =>
          simp at h
          obtain ⟨rfl, rfl, rfl⟩ := h
          unfold addSection at h3
          split at h3
          · simp [Assembler.fail] at h3
          · next hc =>
            simp at h3
            subst h3
            have hnone : find? name1 a1.sectionTable = none := by
              simpa [count] using hc
            refine ⟨name1, ⟨name1, flags, 0, [], a1.sectionTable.length, s.symbolTableEntry⟩,
              rfl, ?_, rfl, hn1, hn2, ?_⟩
            · simp only
              rw [find?_append_none _ _ _ hnone]
              simp [find?]
            · simp only
              rw [hf, defaultFlags_eq]

/-- C24, witness: the bare directive `.bss` in the fresh state creates the section `.bss` with
the flag W only. -/
theorem section_default_flags_witness :
    ∃ n sec, some ".bss" = some n ∧
      find? n (okOr (init [], none, [])
        (firstPassSection Spec.utils (init []) none ".bss" [])).1.sectionTable = some sec ∧
      sec.name = n ∧ (".bss" ≠ ".section" → n = ".bss") ∧
      (∀ t, ".bss" = ".section" → ([] : List String) = [t] →
        n = group (Spec.utils.getTokenType t).2 0) ∧
      sec.flags = flagString (defaultPositions n) :=
  section_default_flags Spec.utils (init []) _ none (some ".bss") ".bss" [] []
    (by decide) (Or.inl (by decide))

/-! ## C25: PC-relative operands -/

theorem emitsAt_none (a : Assembler) (offset : Nat) : EmitsAt a a [] offset :=
  ⟨by simp, by simp⟩

theorem emitsAt_push (a : Assembler) (rs : List Relocation) (offset : Nat)
    (h : ∀ r ∈ rs, r.offset = offset) : EmitsAt a (a.pushRelocations rs) rs offset :=
  ⟨rfl, h⟩

theorem dependencyRelocations_offset (deps : List (String × String)) (sectName : String)
    (offset : Nat) (typeOf : String → RelocationType) :
    ∀ r ∈ dependencyRelocations deps sectName offset typeOf, r.offset = offset := by
  intro r hr
  simp only [dependencyRelocations, List.mem_map] at hr
  obtain ⟨d, _, rfl⟩ := hr
  rfl

theorem symbolPayload_emitsAt (a a1 : Assembler) (symbol : String) (byteSized : Bool)
    (offset : Nat) (sectName : String) (bs : List Nat)
    (h : symbolPayload a symbol byteSized offset sectName = .ok (a1, bs)) :
    ∃ new, EmitsAt a a1 new offset := by
  unfold symbolPayload at h
  split at h
  · split at h
    · split at h
      · simp at h
      · simp at h
        obtain ⟨rfl, -⟩ := h
        exact ⟨_, emitsAt_push _ _ _ (dependencyRelocations_offset _ _ _ _)⟩
    · simp [Assembler.fail] at h
  · split at h
    · split at h
      · split at h
        · simp at h
        · split at h
          · simp at h
            obtain ⟨rfl, -⟩ := h
            exact ⟨_, emitsAt_none _ _⟩
          · simp at h
            obtain ⟨rfl, -⟩ := h
            exact ⟨_, emitsAt_push _ _ _ (by simp)⟩
      · split at h
        · simp at h
        · simp at h
          obtain ⟨rfl, -⟩ := h
          exact ⟨_, emitsAt_push _ _ _ (by simp)⟩
    · split at h
      · simp at h
      · rename_i a0 h0
        have hf := addSymbol_frame _ _ _ _ _ _ _ _ h0
        split at h
        · simp at h
        · simp at h
          obtain ⟨rfl, -⟩ := h
          refine ⟨[⟨symbol, sectName, offset, plainType byteSized⟩], ?_, by simp⟩
          rw [hf]; rfl

theorem pcRelativePayload_emitsAt (a a1 : Assembler) (symbol : String) (offset : Int)
    (size : Nat) (sectName : String) (bs : List Nat)
    (h : pcRelativePayload a symbol offset size sectName = .ok (a1, bs)) :
    ∃ new, EmitsAt a a1 new (toUInt16 offset) := by
  unfold pcRelativePayload at h
  simp only at h
  split at h
  · split at h
    · simp at h
      obtain ⟨rfl, -⟩ := h
      refine ⟨_, emitsAt_push _ _ _ ?_⟩
      intro r hr
      unfold pcDependencyRelocations at hr
      split at hr
      · simp at hr
      · rcases List.mem_cons.1 hr with rfl | hr
        · rfl
        · exact dependencyRelocations_offset _ _ _ _ r hr
    · simp [Assembler.fail] at h
  · split at h
    · split at h
      · simp [Assembler.fail] at h
      · split at h
        · simp [Assembler.fail] at h
        · simp at h
          obtain ⟨rfl, -⟩ := h
          exact ⟨_, emitsAt_push _ _ _ (by simp)⟩
    · split at h
      · simp at h
      · rename_i a0 h0
        have hf := addSymbol_frame _ _ _ _ _ _ _ _ h0
        simp at h
        obtain ⟨rfl, -⟩ := h
        refine ⟨[⟨symbol, sectName, toUInt16 offset, .R_386_PC16⟩], ?_, by simp⟩
        rw [hf]; rfl

theorem operandCode_emitsAt (a a1 : Assembler) (i : Instruction) (o : Operand) (offset : Int)
    (sectName : String) (bs : List Nat)
    (h : operandCode a i o offset sectName = .ok (a1, bs)) :
    ∃ new, EmitsAt a a1 new (toUInt16 offset) := by
  have none_ok : ∀ (l : List Nat), (a, l) = (a1, bs) →
      ∃ new, EmitsAt a a1 new (toUInt16 offset) := by
    intro l hl
    simp at hl
    obtain ⟨rfl, -⟩ := hl
    exact ⟨_, emitsAt_none _ _⟩
  have symbol_ok : ∀ (symbol : String) (byteSized : Bool) (a0 : Assembler) (b : Nat)
      (bs0 : List Nat),
      symbolPayload a symbol byteSized (toUInt16 offset) sectName = .ok (a0, bs0) →
      (a0, b :: bs0) = (a1, bs) →
      ∃ new, EmitsAt a a1 new (toUInt16 offset) := by
    intro symbol byteSized a0 b bs0 h0 hl
    simp at hl
    obtain ⟨rfl, rfl⟩ := hl
    exact symbolPayload_emitsAt _ _ _ _ _ _ _ h0
  unfold operandCode at h
  simp only at h
  split at h
  · split at h
    · split at h
      · simp at h
      · simp at h
        exact none_ok _ (by simpa using h)
    · split at h
      · simp at h
      · rename_i a0 bs0 h0
        simp only [Except.ok.injEq] at h
        exact symbol_ok _ _ _ _ _ h0 h
    · simp [Assembler.fail] at h
  · split at h
    · simp only [Except.ok.injEq] at h; exact none_ok _ h
    · simp only [Except.ok.injEq] at h; exact none_ok _ h
    · simp [Assembler.fail] at h
  · split at h
    · simp only [Except.ok.injEq] at h; exact none_ok _ h
    · simp only [Except.ok.injEq] at h; exact none_ok _ h
    · simp [Assembler.fail] at h
  · split at h
    · simp only [Except.ok.injEq] at h; exact none_ok _ h
    · split at h
      · simp at h
      · rename_i a0 bs0 h0
        simp only [Except.ok.injEq] at h
        exact symbol_ok _ _ _ _ _ h0 h
    · simp [Assembler.fail] at h
  · split at h
    · split at h
      · simp only [Except.ok.injEq] at h; exact none_ok _ h
      · simp only [Except.ok.injEq] at h; exact none_ok _ h
    · split at h
      · simp at h
      · rename_i a0 bs0 h0
        simp only [Except.ok.injEq] at h
        exact symbol_ok _ _ _ _ _ h0 h
    · split at h
      · simp at h
      · rename_i a0 bs0 h0
        simp only [Except.ok.injEq] at h
        simp at h
        obtain ⟨rfl, rfl⟩ := h
        exact pcRelativePayload_emitsAt _ _ _ _ _ _ _ h0
    · simp [Assembler.fail] at h

theorem toUInt16_toInt16_mod (n : Nat) : toUInt16 (toInt16 (n : Int)) = n % 65536 := by
  unfold toUInt16 toInt16; omega

/-- The decomposition of the bytes and relocations of an instruction into the parts of its
operands, with the offsets of the relocations. -/
theorem instructionBytes_offsets (a a2 : Assembler) (i : Instruction) (sectName : String)
    (bytes : List Nat) (h : instructionBytes a i sectName = .ok (a2, bytes)) :
    ∃ a1 rd rs bd bs, bytes = opcodeByte i :: (bd ++ bs) ∧
      EmitsAt a a1 rd ((a.locationCounter + 2) % 65536) ∧
      EmitsAt a1 a2 rs ((a.locationCounter + 2 + operandSizeOf i.destination) % 65536) ∧
      Frame a a2 ∧
      (∀ d, i.destination = some d →
        operandCode a i d (toInt16 ((a.locationCounter + 2 : Nat) : Int)) sectName =
          .ok (a1, bd)) ∧
      (i.destination = none → a1 = a ∧ bd = [] ∧ rd = []) ∧
      (∀ s, i.source = some s →
        operandCode a1 i s
          (toInt16 ((a.locationCounter + 2 + operandSizeOf i.destination : Nat) : Int))
          sectName = .ok (a2, bs)) ∧
      (i.source = none → a2 = a1 ∧ bs = [] ∧ rs = []) := by
  unfold instructionBytes at h
  simp only at h
  cases hdest : i.destination with
  | none =>
    rw [hdest] at h
    simp only at h
    cases hsrc : i.source with
    | none =>
      rw [hsrc] at h
      simp at h
      obtain ⟨rfl, rfl⟩ := h
      exact ⟨a, [], [], [], [], by simp [opcodeByte], emitsAt_none _ _, emitsAt_none _ _,
        ⟨rfl, rfl, rfl, rfl, rfl⟩, by simp, by simp, by simp, by simp⟩
    | some s =>
      rw [hsrc] at h
      simp only at h
      split at h
      · simp at h
      · next a3 bs2 hp =>
        simp at h
        obtain ⟨rfl, rfl⟩ := h
        obtain ⟨rs, hrs⟩ := operandCode_emitsAt _ _ _ _ _ _ _ hp
        obtain ⟨-, f⟩ := operandCode_emits _ _ _ _ _ _ _ hp
        have e : toInt16 ((a.locationCounter : Int) + (BYTE : Int) * 2 + 0) =
            toInt16 ((a.locationCounter + 2 + 0 : Nat) : Int) := by
          simp [BYTE]
        rw [e] at hp hrs
        rw [toUInt16_toInt16_mod] at hrs
        refine ⟨a, [], rs, [], bs2, by simp [opcodeByte], emitsAt_none _ _, ?_, f, by simp,
          by simp, ?_, by simp⟩
        · simpa [operandSizeOf] using hrs
        · intro s' hs'
          simp at hs'
          subst hs'
          simpa [operandSizeOf] using hp
  | some d =>
    rw [hdest] at h
    simp only at h
    split at h
    · simp at h
    · next a1 bs1 hp1 =>
      obtain ⟨rd, hrd⟩ := operandCode_emitsAt _ _ _ _ _ _ _ hp1
      obtain ⟨-, f1⟩ := operandCode_emits _ _ _ _ _ _ _ hp1
      have e1 : toInt16 ((a.locationCounter : Int) + (BYTE : Int) * 2) =
          toInt16 ((a.locationCounter + 2 : Nat) : Int) := by
        simp [BYTE]
      rw [e1] at hp1 hrd
      rw [toUInt16_toInt16_mod] at hrd
      cases hsrc : i.source with
      | none =>
        rw [hsrc] at h
        simp at h
        obtain ⟨rfl, rfl⟩ := h
        exact ⟨a1, rd, [], bs1, [], by simp [opcodeByte], hrd, emitsAt_none _ _, f1,
          by simpa using hp1, by simp, by simp, by simp⟩
      | some s =>
        rw [hsrc] at h
        simp only at h
        split at h
        · simp at h
        · next a3 bs2 hp2 =>
          simp at h
          obtain ⟨rfl, rfl⟩ := h
          obtain ⟨rs, hrs⟩ := operandCode_emitsAt _ _ _ _ _ _ _ hp2
          obtain ⟨-, f2⟩ := operandCode_emits _ _ _ _ _ _ _ hp2
          have e2 : toInt16 ((a1.locationCounter : Int) + (BYTE : Int) * 2 + (d.size : Int)) =
              toInt16 ((a.locationCounter + 2 + d.size : Nat) : Int) := by
            simp [BYTE, f1.locationCounter]
          rw [e2] at hp2 hrs
          rw [toUInt16_toInt16_mod] at hrs
          refine ⟨a1, rd, rs, bs1, bs2, by simp [opcodeByte], hrd, ?_, frame_trans _ _ _ f1 f2,
            by simpa using hp1, by simp, ?_, by simp⟩
          · simpa [operandSizeOf] using hrs
          · intro s' hs'
            simp at hs'
            subst hs'
            simpa [operandSizeOf] using hp2

/-- C26, counterexample: for an instruction at the location counter 65535 with a PC-relative
destination operand on the LOCAL label `L`, the relocation emitted for the operand has the
offset 1, not `LC + 2 = 65537`: the offset is computed in 16 bits. -/
theorem relocation_offset_wraps :
    ∃ a2 r, generateInstructionCode Spec.lastOffsetState (Spec.pcRelativeInstruction "L")
        ".text" = .ok a2 ∧
      Spec.lastOffsetState.locationCounter = 65535 ∧
      a2.relocationTable = Spec.lastOffsetState.relocationTable ++ [r] ∧ r.offset = 1 := by
  have hsec : find? ".text" Spec.lastOffsetState.sectionTable =
      some ⟨".text", defaultFlags ".text", 0, [], 0, 0⟩ := by decide
  have hb : instructionBytes Spec.lastOffsetState (Spec.pcRelativeInstruction "L") ".text" =
      .ok (Spec.lastOffsetState.pushRelocations [⟨".text", ".text", 1, .R_386_PC16⟩],
        [156, 142, 254, 255]) := by decide
  refine ⟨(Spec.lastOffsetState.pushRelocations [⟨".text", ".text", 1, .R_386_PC16⟩]).writeSection
    ".text" ⟨".text", defaultFlags ".text", 0, [], 0, 0⟩ [156, 142, 254, 255],
    ⟨".text", ".text", 1, .R_386_PC16⟩, ?_, by decide, rfl, rfl⟩
  simp only [generateInstructionCode, hsec, hb]

/-- C26, amended: when `generateInstructionCode` succeeds on an instruction at the location
counter `LC`, the bytes written at `LC` are the opcode byte, the bytes `bd` of the destination
operand and the bytes `bs` of the source operand, and the relocations appended are those of
the destination followed by those of the source.  Every relocation of the destination has the
offset `(LC + 2) mod 2^16` and every relocation of the source the offset
`(LC + 2 + k) mod 2^16`, where `k` is the `size` field of the destination operand (0 without
destination); for an instruction that obeys the size law, `k` is the number of bytes emitted
for the destination operand. -/
theorem relocation_offsets_of_operands (a a2 : Assembler) (i : Instruction) (sect : String)
    (h : generateInstructionCode a i sect = .ok a2) :
    ∃ sec a1 a3 rd rs bd bs, find? sect a.sectionTable = some sec ∧
      (∀ d, i.destination = some d →
        operandCode a i d (toInt16 ((a.locationCounter + 2 : Nat) : Int)) sec.name =
          .ok (a1, bd)) ∧
      (i.destination = none → a1 = a ∧ bd = [] ∧ rd = []) ∧
      (∀ s, i.source = some s →
        operandCode a1 i s
          (toInt16 ((a.locationCounter + 2 + operandSizeOf i.destination : Nat) : Int))
          sec.name = .ok (a3, bs)) ∧
      (i.source = none → a3 = a1 ∧ bs = [] ∧ rs = []) ∧
      a1.relocationTable = a.relocationTable ++ rd ∧
      a2.relocationTable = a1.relocationTable ++ rs ∧
      a2.sectionTable =
        update sect (sec.write a.locationCounter (opcodeByte i :: (bd ++ bs))) a.sectionTable ∧
      (∀ r ∈ rd, r.offset = (a.locationCounter + 2) % 65536) ∧
      (∀ r ∈ rs, r.offset = (a.locationCounter + 2 + operandSizeOf i.destination) % 65536) ∧
      (i.sizeLaw → bd.length = operandSizeOf i.destination) := by
  unfold generateInstructionCode at h
  split at h
  · simp [Assembler.fail] at h
  · next sec hsec =>
    split at h
    · simp at h
    · next a3 bytes hb =>
      simp at h
      subst h
      obtain ⟨a1, rd, rs, bd, bs, rfl, hd, hs, f, h1, h2, h3, h4⟩ :=
        instructionBytes_offsets _ _ _ _ _ hb
      refine ⟨sec, a1, a3, rd, rs, bd, bs, hsec, h1, h2, h3, h4, hd.1, hs.1, ?_, hd.2, hs.2, ?_⟩
      · simp [writeSection, f.locationCounter, f.sectionTable]
      · intro hlaw
        cases hdest : i.destination with
        | none =>
          obtain ⟨-, rfl, -⟩ := h2 hdest
          rfl
        | some d =>
          exact operandCode_length _ _ _ _ _ _ _ hlaw.1 (hlaw.2.1 d hdest) (h1 d hdest)

/-- C26, witness: the amended statement for an instruction of four bytes at the location
counter 0 of `.text` whose destination operand is PC-relative on the label `L`. -/
theorem relocation_offsets_of_operands_witness :
    ∃ sec a1 a3 rd rs bd bs, find? ".text" Spec.globalConstantState.sectionTable = some sec ∧
      (∀ d, (Spec.pcRelativeInstruction "L").destination = some d →
        operandCode Spec.globalConstantState (Spec.pcRelativeInstruction "L") d
          (toInt16 ((Spec.globalConstantState.locationCounter + 2 : Nat) : Int)) sec.name =
          .ok (a1, bd)) ∧
      ((Spec.pcRelativeInstruction "L").destination = none →
        a1 = Spec.globalConstantState ∧ bd = [] ∧ rd = []) ∧
      (∀ s, (Spec.pcRelativeInstruction "L").source = some s →
        operandCode a1 (Spec.pcRelativeInstruction "L") s
          (toInt16 ((Spec.globalConstantState.locationCounter + 2 +
            operandSizeOf (Spec.pcRelativeInstruction "L").destination : Nat) : Int))
          sec.name = .ok (a3, bs)) ∧
      ((Spec.pcRelativeInstruction "L").source = none → a3 = a1 ∧ bs = [] ∧ rs = []) ∧
      a1.relocationTable = Spec.globalConstantState.relocationTable ++ rd ∧
      (okOr Spec.globalConstantState (generateInstructionCode Spec.globalConstantState
        (Spec.pcRelativeInstruction "L") ".text")).relocationTable = a1.relocationTable ++ rs ∧
      (okOr Spec.globalConstantState (generateInstructionCode Spec.globalConstantState
        (Spec.pcRelativeInstruction "L") ".text")).sectionTable =
        update ".text" (sec.write Spec.globalConstantState.locationCounter
          (opcodeByte (Spec.pcRelativeInstruction "L") :: (bd ++ bs)))
          Spec.globalConstantState.sectionTable ∧
      (∀ r ∈ rd, r.offset = (Spec.globalConstantState.locationCounter + 2) % 65536) ∧
      (∀ r ∈ rs, r.offset = (Spec.globalConstantState.locationCounter + 2 +
        operandSizeOf (Spec.pcRelativeInstruction "L").destination) % 65536) ∧
      ((Spec.pcRelativeInstruction "L").sizeLaw →
        bd.length = operandSizeOf (Spec.pcRelativeInstruction "L").destination) :=
  relocation_offsets_of_operands Spec.globalConstantState _ (Spec.pcRelativeInstruction "L")
    ".text" (by decide)

/-! ## C27: the directive .global in both passes -/

/-- What a successful call of `addSymbol` has checked and done: the name is no key of UST and
had no defined entry; afterwards it has an entry with the given data, and all other entries are
as before. -/
theorem addSymbol_lookup (a a1 : Assembler) (name sect : String) (value : Int)
    (scope : ScopeType) (type : SymbolType) (defined : Bool)
    (h : a.addSymbol name sect value scope type defined = .ok a1) :
    count name a.UST = false ∧
    (∀ e, find? name a.symbolTable = some e → e.defined = false) ∧
    (∃ e, find? name a1.symbolTable = some e ∧ e.sect = sect ∧ e.value = value ∧
      e.scope = scope ∧ e.type = type ∧ e.defined = defined) ∧
    (∀ other, other ≠ name → find? other a1.symbolTable = find? other a.symbolTable) := by
  unfold addSymbol at h
  split at h
  · next s hs =>
    split at h
    · simp [Assembler.fail] at h
    · next hc =>
      simp at h
      subst h
      simp only [not_or, Bool.not_eq_true] at hc
      refine ⟨hc.2, ?_, ?_, ?_⟩
      · intro e he
        rw [hs] at he
        simp at he
        subst he
        exact hc.1
      · exact ⟨s.setData sect value scope type defined, find?_update_self _ _ _ _ hs, rfl, rfl,
          rfl, rfl, rfl⟩
      · intro other ho
        exact find?_update_ne _ _ _ _ ho
  · next hs =>
    split at h
    · simp [Assembler.fail] at h
    · next hc =>
      simp at h
      subst h
      simp only [Bool.not_eq_true] at hc
      refine ⟨hc, ?_, ?_, ?_⟩
      · intro e he
        rw [hs] at he
        simp at he
      · refine ⟨⟨name, sect, value, scope, type, defined, a.symbolTable.length⟩, ?_, rfl, rfl,
          rfl, rfl, rfl⟩
        simp only
        rw [find?_append_none _ _ _ hs]
        simp [find?]
      · intro other ho
        exact find?_append_singleton_ne _ _ _ _ ho

/-- The call of `addSymbol` succeeds for a name that is no key of UST and has no defined
entry. -/
theorem addSymbol_succeeds (a : Assembler) (name sect : String) (value : Int)
    (scope : ScopeType) (type : SymbolType) (defined : Bool)
    (hu : count name a.UST = false)
    (hd : ∀ e, find? name a.symbolTable = some e → e.defined = false) :
    ∃ a1, a.addSymbol name sect value scope type defined = .ok a1 := by
  unfold addSymbol
  cases hs : find? name a.symbolTable with
  | none => simp [hu]
  | some s => simp [hu, hd s hs]

/-- The call of `addSymbol` fails for a key of UST. -/
theorem addSymbol_unresolved (a : Assembler) (name sect : String) (value : Int)
    (scope : ScopeType) (type : SymbolType) (defined : Bool)
    (hu : count name a.UST = true) :
    a.addSymbol name sect value scope type defined = .error ⟨a.line, .symbolAlreadyDefined⟩ := by
  unfold addSymbol
  cases hs : find? name a.symbolTable with
  | none => simp [hu, Assembler.fail]
  | some s => simp [hu, Assembler.fail]

/-- C27, counterexample: after `.equ A, X` the alias `A` has an undefined entry and is a key of
UST; the first pass rejects the line `.global A` with the error for a symbol that is already
defined. -/
theorem global_of_undefined_alias_rejected :
    (∃ e, find? "A" (Spec.afterFirstPass [[".text"], [".equ", "A", "X"]]).symbolTable = some e ∧
      e.defined = false) ∧
    firstPass Spec.utils (init Spec.globalAliasLines) = .error ⟨3, .symbolAlreadyDefined⟩ := by
  refine ⟨⟨_, rfl, ?_⟩, ?_⟩ <;> decide

/-- C27, amended: let `.global` be lexed as a `.global`/`.extern` directive and `s` as a symbol.
In the second pass the line `.global s` fails with the global-but-undefined error if and only
if `s` has no symbol-table entry or an undefined one.  In the first pass, for such an `s`, the
line is accepted when `s` is no key of UST, and `s` then has an undefined GLOBAL EXTERN entry
while all other entries are as before; when `s` is a key of UST the line fails with the error
for a symbol that is already defined. -/
theorem global_directive (U : Utils) (p : Pass) (s : String)
    (hg : (U.getTokenType ".global").1 = .GLOBAL_EXTERN)
    (hs : (U.getTokenType s).1 = .SYMBOL) :
    (secondPassLine U p [".global", s] = .error ⟨p.asm.line + 1, .globalButUndefined⟩ ↔
      ∀ e, find? s p.asm.symbolTable = some e → e.defined = false) ∧
    ((∀ e, find? s p.asm.symbolTable = some e → e.defined = false) →
      count s p.asm.UST = false →
      ∃ a1 e, firstPassLine U p [".global", s] = .ok ⟨a1, false, p.currentSection⟩ ∧
        find? s a1.symbolTable = some e ∧ e.sect = UNDEFINED ∧ e.value = 0 ∧
        e.scope = .GLOBAL ∧ e.type = .EXTERN ∧ e.defined = false ∧
        ∀ other, other ≠ s → find? other a1.symbolTable = find? other p.asm.symbolTable) ∧
    ((∀ e, find? s p.asm.symbolTable = some e → e.defined = false) →
      count s p.asm.UST = true →
      firstPassLine U p [".global", s] = .error ⟨p.asm.line + 1, .symbolAlreadyDefined⟩) := by
  obtain ⟨ms, hgt⟩ : ∃ ms, U.getTokenType ".global" = (.GLOBAL_EXTERN, ms) :=
    ⟨(U.getTokenType ".global").2, by rw [← hg]⟩
  have hs' : ¬ (U.getTokenType s).1 ≠ .SYMBOL := by simp [hs]
  refine ⟨?_, ?_, ?_⟩
  · cases hf : find? s p.asm.symbolTable with
    | none =>
      simp [secondPassLine, hgt, secondPassGlobalExtern, hs, hf, Assembler.fail]
    | some e =>
      by_cases hd : e.defined
      · simp [secondPassLine, hgt, secondPassGlobalExtern, hs, hf, hd, Assembler.fail]
      · simp [secondPassLine, hgt, secondPassGlobalExtern, hs, hf, hd, Assembler.fail]
  · intro hund hust
    obtain ⟨a1, h1⟩ := addSymbol_succeeds { p.asm with line := p.asm.line + 1 } s UNDEFINED 0
      .GLOBAL .EXTERN false hust hund
    obtain ⟨-, -, ⟨e, he, e1, e2, e3, e4, e5⟩, hother⟩ := addSymbol_lookup _ _ _ _ _ _ _ _ h1
    refine ⟨a1, e, ?_, he, e1, e2, e3, e4, e5, hother⟩
    cases hf : find? s p.asm.symbolTable with
    | none =>
      simp [firstPassLine, hgt, firstPassSwitch, firstPassGlobalExtern, hs, hf, h1]
    | some e0 =>
      have hd := hund e0 hf
      simp [firstPassLine, hgt, firstPassSwitch, firstPassGlobalExtern, hs, hf, hd, h1]
  · intro hund hust
    have h1 := addSymbol_unresolved { p.asm with line := p.asm.line + 1 } s UNDEFINED 0
      .GLOBAL .EXTERN false hust
    cases hf : find? s p.asm.symbolTable with
    | none =>
      simp [firstPassLine, hgt, firstPassSwitch, firstPassGlobalExtern, hs, hf, h1]
    | some e0 =>
      have hd := hund e0 hf
      simp [firstPassLine, hgt, firstPassSwitch, firstPassGlobalExtern, hs, hf, hd, h1]

/-- C27, witness: the amended statement for the symbol `Z`, which has no entry after the first
pass over `Spec.globalConstantLines`: the second pass rejects `.global Z`. -/
theorem global_directive_witness :
    secondPassLine Spec.utils ⟨Spec.globalConstantState, false, some ".text"⟩ [".global", "Z"] =
      .error ⟨Spec.globalConstantState.line + 1, .globalButUndefined⟩ :=
  (global_directive Spec.utils ⟨Spec.globalConstantState, false, some ".text"⟩ "Z"
    (by decide) (by decide)).1.2 (by decide)

/-! ## C28: the order of the symbol records -/

/-- C28: `writeELF` serializes the symbol records in the iteration order of the hash map, not
by index.  For the symbol table with `.text` (index 0), `K` (index 1) and `L` (index 2), an
iteration that visits `L`, `K`, `.text` makes `writeELF` write the records with the indices
2, 1, 0, while an iteration in the order `.text`, `K`, `L` gives 0, 1, 2; `writeText` lists the
symbols with the indices 0, 1, 2 for both iteration orders. -/
theorem writeELF_follows_iteration_order :
    (List.map Prod.fst Spec.globalConstantState.symbolTable = [".text", "K", "L"]) ∧
    ((writeELF Spec.globalConstantState ["L", "K", ".text"] [".text"]).symbols.map
      Symbol.symbolTableEntry = [2, 1, 0]) ∧
    ((writeELF Spec.globalConstantState [".text", "K", "L"] [".text"]).symbols.map
      Symbol.symbolTableEntry = [0, 1, 2]) ∧
    ((writeText Spec.globalConstantState ["L", "K", ".text"] [".text"]).symbols.map
      Symbol.symbolTableEntry = [0, 1, 2]) ∧
    ((writeText Spec.globalConstantState [".text", "K", "L"] [".text"]).symbols.map
      Symbol.symbolTableEntry = [0, 1, 2]) := by
  refine ⟨?_, ?_, ?_, ?_, ?_⟩ <;> decide

/-! ## The invariant of the tables in reachable states -/

theorem count_iff {α : Type} (k : String) (t : List (String × α)) :
    count k t = true ↔ ∃ v, find? k t = some v := by
  simp [count, Option.isSome_iff_exists]

theorem count_eq_false {α : Type} (k : String) (t : List (String × α)) :
    count k t = false ↔ find? k t = none := by
  simp [count]

theorem find?_append_left {α : Type} (k : String) (v : α) (t r : List (String × α))
    (h : find? k t = some v) : find? k (t ++ r) = some v := by
  induction t with
  | nil => simp [find?] at h
  | cons e t ih =>
    obtain ⟨k', w⟩ := e
    by_cases hk : k' = k
    · simpa [find?, hk] using h
    · simp only [find?, hk, if_false, List.cons_append] at h ⊢
      exact ih h

theorem count_update {α : Type} (k key : String) (v : α) (t : List (String × α)) :
    count k (update key v t) = count k t := by
  unfold count
  induction t with
  | nil => rfl
  | cons e t ih =>
    obtain ⟨k', w⟩ := e
    simp only [update]
    split <;> simp only [find?] <;> split <;> simp_all

theorem count_append_left {α : Type} (k : String) (t r : List (String × α))
    (h : count k t = true) : count k (t ++ r) = true := by
  obtain ⟨v, hv⟩ := (count_iff k t).1 h
  exact (count_iff _ _).2 ⟨v, find?_append_left _ _ _ _ hv⟩

theorem entryOK_mono (t t1 : List (String × Symbol)) (s : Symbol)
    (hmono : ∀ k, count k t = true → count k t1 = true) (h : EntryOK t s) : EntryOK t1 s :=
  ⟨h.externUndefined, h.externGlobal, h.defined, fun hne => hmono _ (h.sect hne)⟩

theorem step_refl (a : Assembler) (hwf : WellFormed a) : Step a a :=
  ⟨hwf, fun _ s hs => ⟨s, hs, fun _ => ⟨rfl, rfl⟩⟩, fun _ h => h⟩

theorem step_trans (a a1 a2 : Assembler) (h1 : Step a a1) (h2 : Step a1 a2) : Step a a2 := by
  refine ⟨h2.wf, ?_, fun k h => h2.unresolved k (h1.unresolved k h)⟩
  intro k s hs
  obtain ⟨s1, hs1, k1⟩ := h1.keep k s hs
  obtain ⟨s2, hs2, k2⟩ := h2.keep k s1 hs1
  refine ⟨s2, hs2, fun hc => ?_⟩
  obtain ⟨e1, e2⟩ := k1 hc
  have hc1 : s1.defined = true ∨ count k a1.UST = true := by
    rcases hc with hc | hc
    · exact Or.inl (by rw [e1, hc])
    · exact Or.inr (h1.unresolved k hc)
  obtain ⟨e3, e4⟩ := k2 hc1
  exact ⟨e3.trans e1, e4.trans e2⟩

/-- The keys of the symbol table are kept by a step. -/
theorem step_count (a a1 : Assembler) (h : Step a a1) (k : String)
    (hk : count k a.symbolTable = true) : count k a1.symbolTable = true := by
  obtain ⟨s, hs⟩ := (count_iff _ _).1 hk
  obtain ⟨s1, hs1, -⟩ := h.keep k s hs
  exact (count_iff _ _).2 ⟨s1, hs1⟩

/-- A step that leaves the three tables alone. -/
theorem step_of_eq (a a1 : Assembler) (hwf : WellFormed a)
    (h1 : a1.symbolTable = a.symbolTable)
    (h2 : a1.UST = a.UST) (h3 : a1.sectionTable = a.sectionTable) : Step a a1 := by
  refine ⟨⟨?_, ?_, ?_⟩, ?_, ?_⟩
  · rw [h1]; exact hwf.entries
  · rw [h1, h2]; exact hwf.unresolved
  · rw [h1, h3]; exact hwf.sections
  · intro k s hs
    exact ⟨s, by rw [h1]; exact hs, fun _ => ⟨rfl, rfl⟩⟩
  · intro k h
    rw [h2]; exact h

/-- A successful call of `addSymbol` with data that are in order is a step. -/
theorem step_addSymbol (a a1 : Assembler) (name sect : String) (value : Int)
    (scope : ScopeType) (type : SymbolType) (defined : Bool) (hwf : WellFormed a)
    (h : a.addSymbol name sect value scope type defined = .ok a1)
    (g : GoodEntry a name sect scope type defined) : Step a a1 := by
  obtain ⟨hu, hd, ⟨e, he, e1, -, e3, e4, e5⟩, hother⟩ := addSymbol_lookup _ _ _ _ _ _ _ _ h
  have hf := addSymbol_frame _ _ _ _ _ _ _ _ h
  have hust : a1.UST = a.UST := by rw [hf]
  have hsec : a1.sectionTable = a.sectionTable := by rw [hf]
  have hmono : ∀ k, count k a.symbolTable = true → count k a1.symbolTable = true := by
    intro k hk
    by_cases hkn : k = name
    · subst hkn
      exact (count_iff _ _).2 ⟨e, he⟩
    · rw [count, hother k hkn]
      exact hk
  refine ⟨⟨?_, ?_, ?_⟩, ?_, ?_⟩
  · intro k s hs
    by_cases hkn : k = name
    · subst hkn
      rw [he] at hs
      simp at hs
      subst hs
      refine ⟨?_, ?_, ?_, ?_⟩
      · rw [e4, e5]; exact g.externUndefined
      · rw [e4, e3]; exact g.externGlobal
      · rw [e4, e5]; exact g.defined
      · rw [e4, e1]
        intro hne
        rcases g.sect hne with hc | hc
        · exact hmono _ hc
        · rw [hc]
          exact (count_iff _ _).2 ⟨_, he⟩
    · rw [hother k hkn] at hs
      exact entryOK_mono _ _ _ hmono (hwf.entries k s hs)
  · intro k u hk
    rw [hust] at hk
    obtain ⟨⟨s, hs, hty⟩, hdeps⟩ := hwf.unresolved k u hk
    have hkn : k ≠ name := by
      intro hkn
      subst hkn
      have : count k a.UST = true := (count_iff _ _).2 ⟨u, hk⟩
      rw [hu] at this
      exact Bool.noConfusion this
    exact ⟨⟨s, by rw [hother k hkn]; exact hs, hty⟩, fun d hd => hmono _ (hdeps d hd)⟩
  · intro k sec hk
    rw [hsec] at hk
    exact hmono _ (hwf.sections k sec hk)
  · intro k s hs
    by_cases hkn : k = name
    · subst hkn
      refine ⟨e, he, fun hc => ?_⟩
      rcases hc with hc | hc
      · rw [hd s hs] at hc
        exact Bool.noConfusion hc
      · rw [hu] at hc
        exact Bool.noConfusion hc
    · exact ⟨s, by rw [hother k hkn]; exact hs, fun _ => ⟨rfl, rfl⟩⟩
  · intro k hk
    rw [hust]; exact hk

/-- The entry of an unknown name used as a term is in order. -/
theorem goodEntry_undefined (a : Assembler) (name : String) :
    GoodEntry a name UNDEFINED .GLOBAL .EXTERN false :=
  ⟨fun _ => rfl, fun _ => rfl, by simp, by simp⟩

/-- Replacing an entry of the symbol table by one with the same type and section, whose flag
fits the type, keeps the invariant. -/
theorem wf_updateSymbol (a : Assembler) (k : String) (s s1 : Symbol) (hwf : WellFormed a)
    (hs : find? k a.symbolTable = some s) (hty : s1.type = s.type) (hsect : s1.sect = s.sect)
    (hscope : s1.type = .EXTERN → s1.scope = .GLOBAL)
    (hdef : s.type ≠ .ALIAS → s1.defined = s.defined) :
    WellFormed { a with symbolTable := update k s1 a.symbolTable } := by
  have hmono : ∀ x, count x a.symbolTable = true →
      count x (update k s1 a.symbolTable) = true := by
    intro x hx
    rw [count_update]; exact hx
  refine ⟨?_, ?_, ?_⟩
  · intro x e he
    simp only at he ⊢
    by_cases hx : x = k
    · subst hx
      rw [find?_update_self _ _ _ _ hs] at he
      simp at he
      subst he
      have ok := hwf.entries _ _ hs
      refine ⟨?_, hscope, ?_, ?_⟩
      · intro h
        rw [hdef (by rw [← hty, h]; decide)]
        exact ok.externUndefined (by rw [← hty, h])
      · intro h
        rw [hty] at h
        rw [hdef (by rcases h with h | h | h <;> rw [h] <;> decide)]
        exact ok.defined h
      · intro h
        rw [hsect]
        exact hmono _ (ok.sect (by rw [← hty]; exact h))
    · rw [find?_update_ne _ _ _ _ hx] at he
      exact entryOK_mono _ _ _ hmono (hwf.entries x e he)
  · intro x u hx
    simp only at hx ⊢
    obtain ⟨⟨e, he, hety⟩, hdeps⟩ := hwf.unresolved x u hx
    refine ⟨?_, fun d hd => hmono _ (hdeps d hd)⟩
    by_cases hxk : x = k
    · subst hxk
      rw [hs] at he
      simp at he
      subst he
      exact ⟨s1, find?_update_self _ _ _ _ hs, by rw [hty, hety]⟩
    · exact ⟨e, by rw [find?_update_ne _ _ _ _ hxk]; exact he, hety⟩
  · intro x sec hx
    exact hmono _ (hwf.sections x sec hx)

/-- Making a defined entry GLOBAL is a step. -/
theorem step_scope (a : Assembler) (k : String) (s : Symbol) (hwf : WellFormed a)
    (hs : find? k a.symbolTable = some s) :
    Step a { a with symbolTable := update k { s with scope := .GLOBAL } a.symbolTable } := by
  refine ⟨wf_updateSymbol a k s _ hwf hs rfl rfl (fun _ => rfl) (fun _ => rfl), ?_,
    fun _ h => h⟩
  intro x e he
  by_cases hx : x = k
  · subst hx
    rw [hs] at he
    simp at he
    subst he
    exact ⟨_, find?_update_self _ _ _ _ hs, fun _ => ⟨rfl, rfl⟩⟩
  · exact ⟨e, by simp only; rw [find?_update_ne _ _ _ _ hx]; exact he, fun _ => ⟨rfl, rfl⟩⟩

/-- Replacing UST by a table with the old keys whose keys have ALIAS entries and whose
dependencies name keys of the symbol table is a step. -/
theorem step_unresolved (a : Assembler) (table : List (String × UnresolvedSymbol))
    (hwf : WellFormed a)
    (hnew : ∀ k u, find? k table = some u →
      (∃ s, find? k a.symbolTable = some s ∧ s.type = .ALIAS) ∧
      ∀ d ∈ u.dependencies, count d.1 a.symbolTable = true)
    (hkeys : ∀ k, count k a.UST = true → count k table = true) :
    Step a { a with UST := table } :=
  ⟨⟨hwf.entries, hnew, hwf.sections⟩, fun _ s hs => ⟨s, hs, fun _ => ⟨rfl, rfl⟩⟩, hkeys⟩

/-- Replacing the section table by one whose sections have symbols is a step. -/
theorem step_sections (a : Assembler) (table : List (String × Section)) (hwf : WellFormed a)
    (hnew : ∀ k sec, find? k table = some sec → count sec.name a.symbolTable = true) :
    Step a { a with sectionTable := table } :=
  ⟨⟨hwf.entries, hwf.unresolved, hnew⟩, fun _ s hs => ⟨s, hs, fun _ => ⟨rfl, rfl⟩⟩,
    fun _ h => h⟩

theorem find?_update_cases {α : Type} (k key : String) (v u : α) (t : List (String × α))
    (h : find? k (update key v t) = some u) : (k = key ∧ u = v) ∨ find? k t = some u := by
  by_cases hk : k = key
  · subst hk
    cases ht : find? k t with
    | none =>
      have : count k (update k v t) = true := (count_iff _ _).2 ⟨u, h⟩
      rw [count_update, count, ht] at this
      exact Bool.noConfusion this
    | some w =>
      rw [find?_update_self _ _ _ _ ht] at h
      simp at h
      exact Or.inl ⟨rfl, h.symm⟩
  · rw [find?_update_ne _ _ _ _ hk] at h
    exact Or.inr h

theorem find?_append_cases {α : Type} (k key : String) (v u : α) (t : List (String × α))
    (h : find? k (t ++ [(key, v)]) = some u) : find? k t = some u ∨ (k = key ∧ u = v) := by
  cases ht : find? k t with
  | some w =>
    rw [find?_append_left _ _ _ _ ht] at h
    exact Or.inl h
  | none =>
    rw [find?_append_none _ _ _ ht] at h
    by_cases hk : key = k
    · simp [find?, hk] at h
      exact Or.inr ⟨hk.symm, h.symm⟩
    · simp [find?, hk] at h

/-- Entering an ALIAS symbol in UST is a step. -/
theorem step_insertUnresolved (a : Assembler) (symbol sect : String) (hwf : WellFormed a)
    (hs : ∃ s, find? symbol a.symbolTable = some s ∧ s.type = .ALIAS) :
    Step a (a.insertUnresolved symbol sect) := by
  unfold insertUnresolved
  split
  · exact step_refl a hwf
  · refine step_unresolved a _ hwf ?_ (fun k hk => count_append_left _ _ _ hk)
    intro k u hk
    rcases find?_append_cases _ _ _ _ _ hk with h | ⟨rfl, rfl⟩
    · exact hwf.unresolved k u h
    · exact ⟨hs, by simp⟩

/-- The statement that records a term in the dependencies of an alias is a step when the term
is a key of the symbol table. -/
theorem step_inheritOrPush (a a1 : Assembler) (symbol term operation : String)
    (constant : Bool) (hwf : WellFormed a)
    (h : inheritOrPush a symbol term operation constant = .ok a1)
    (hterm : constant = false → count term a.symbolTable = true) : Step a a1 := by
  unfold inheritOrPush at h
  split at h
  · simp [Assembler.fail] at h
  · next u hu =>
    have hkeys : ∀ (v : UnresolvedSymbol) (k : String), count k a.UST = true →
        count k (update symbol v a.UST) = true := by
      intro v k hk
      rw [count_update]; exact hk
    split at h
    · next t ht =>
      simp at h
      subst h
      refine step_unresolved a _ hwf ?_ (hkeys _)
      intro k w hk
      rcases find?_update_cases _ _ _ _ _ hk with ⟨rfl, rfl⟩ | hk
      · exact ⟨(hwf.unresolved _ _ hu).1, (hwf.unresolved _ _ ht).2⟩
      · exact hwf.unresolved k w hk
    · split at h
      · simp at h
        subst h
        exact step_refl a hwf
      · next hc =>
        simp at h
        subst h
        refine step_unresolved a _ hwf ?_ (hkeys _)
        intro k w hk
        rcases find?_update_cases _ _ _ _ _ hk with ⟨rfl, rfl⟩ | hk
        · refine ⟨(hwf.unresolved _ _ hu).1, ?_⟩
          intro d hd
          simp only [List.mem_append, List.mem_singleton] at hd
          rcases hd with hd | rfl
          · exact (hwf.unresolved _ _ hu).2 d hd
          · exact hterm (by simpa using hc)
        · exact hwf.unresolved k w hk

/-- The section of a LOCAL entry is a key of the symbol table. -/
theorem local_sect (a : Assembler) (hwf : WellFormed a) (k : String) (s : Symbol)
    (hs : find? k a.symbolTable = some s) (hloc : s.scope = .LOCAL) :
    count s.sect a.symbolTable = true := by
  have ok := hwf.entries k s hs
  apply ok.sect
  intro hty
  have := ok.externGlobal hty
  rw [hloc] at this
  exact ScopeType.noConfusion this

/-- The section of a defined entry is a key of the symbol table. -/
theorem defined_sect (a : Assembler) (hwf : WellFormed a) (k : String) (s : Symbol)
    (hs : find? k a.symbolTable = some s) (hdef : s.defined = true) :
    count s.sect a.symbolTable = true := by
  have ok := hwf.entries k s hs
  apply ok.sect
  intro hty
  have := ok.externUndefined hty
  rw [hdef] at this
  exact Bool.noConfusion this

theorem count_addSymbol (a a1 : Assembler) (name sect : String) (value : Int)
    (scope : ScopeType) (type : SymbolType) (defined : Bool)
    (h : a.addSymbol name sect value scope type defined = .ok a1) :
    count name a1.symbolTable = true := by
  obtain ⟨-, -, ⟨e, he, -⟩, -⟩ := addSymbol_lookup _ _ _ _ _ _ _ _ h
  exact (count_iff _ _).2 ⟨e, he⟩

theorem step_equTerm (a a1 : Assembler) (symbol term sectName : String) (value : Int)
    (operation : String) (r : Option (Int × Bool × String)) (hwf : WellFormed a)
    (hsn : count sectName a.symbolTable = true)
    (h : equTerm a symbol term sectName value operation = .ok (a1, r)) :
    Step a a1 ∧ ∀ v d name, r = some (v, d, name) → count name a1.symbolTable = true := by
  unfold equTerm at h
  split at h
  · split at h
    · simp [Assembler.fail] at h
    · next s hs =>
      simp at h
      obtain ⟨rfl, rfl⟩ := h
      refine ⟨step_refl a hwf, ?_⟩
      intro v d name hr
      simp at hr
      rw [← hr.2.2]
      exact (count_iff _ _).2 ⟨s, hs⟩
  · split at h
    · next s hs =>
      split at h
      · next hloc =>
        split at h
        · split at h
          · simp at h
          · next a2 h2 =>
            simp at h
            obtain ⟨rfl, rfl⟩ := h
            refine ⟨step_addSymbol _ _ _ _ _ _ _ _ hwf h2
              ⟨by simp, by simp, fun _ => rfl, fun _ => Or.inl hsn⟩, ?_⟩
            intro v d name hr
            simp at hr
        · simp at h
          obtain ⟨rfl, rfl⟩ := h
          refine ⟨step_refl a hwf, ?_⟩
          intro v d name hr
          simp at hr
          rw [← hr.2.2]
          exact local_sect a hwf term s hs hloc
      · simp at h
        obtain ⟨rfl, rfl⟩ := h
        refine ⟨step_refl a hwf, ?_⟩
        intro v d name hr
        simp at hr
        rw [← hr.2.2]
        exact (count_iff _ _).2 ⟨s, hs⟩
    · split at h
      · simp at h
      · next a2 h2 =>
        simp at h
        obtain ⟨rfl, rfl⟩ := h
        refine ⟨step_addSymbol _ _ _ _ _ _ _ _ hwf h2 (goodEntry_undefined _ _), ?_⟩
        intro v d name hr
        simp at hr
        rw [← hr.2.2]
        exact count_addSymbol _ _ _ _ _ _ _ _ h2

theorem goodEntry_alias (a : Assembler) (name sect : String) (defined : Bool)
    (hsn : count sect a.symbolTable = true) : GoodEntry a name sect .LOCAL .ALIAS defined :=
  ⟨by simp, by simp, by simp, fun _ => Or.inl hsn⟩

theorem goodEntry_constant (a : Assembler) (name sect : String)
    (hsn : count sect a.symbolTable = true) : GoodEntry a name sect .LOCAL .CONSTANT true :=
  ⟨by simp, by simp, fun _ => rfl, fun _ => Or.inl hsn⟩

/-- Adding an alias to the symbol table and to UST is a step. -/
theorem step_addAlias (a a1 : Assembler) (symbol sectName sect : String) (value : Int)
    (defined : Bool) (hwf : WellFormed a) (hsn : count sectName a.symbolTable = true)
    (h : a.addSymbol symbol sectName value .LOCAL .ALIAS defined = .ok a1) :
    Step a (a1.insertUnresolved symbol sect) := by
  have s1 := step_addSymbol _ _ _ _ _ _ _ _ hwf h (goodEntry_alias _ _ _ _ hsn)
  obtain ⟨-, -, ⟨e, he, -, -, -, e4, -⟩, -⟩ := addSymbol_lookup _ _ _ _ _ _ _ _ h
  exact step_trans _ _ _ s1 (step_insertUnresolved _ _ _ s1.wf ⟨e, he, e4⟩)

theorem insertUnresolved_symbolTable (a : Assembler) (symbol sect : String) :
    (a.insertUnresolved symbol sect).symbolTable = a.symbolTable := by
  unfold insertUnresolved
  split <;> rfl

theorem step_equAlias (a a1 : Assembler) (symbol term sectName sect : String) (value : Int)
    (operation edge : String) (hwf : WellFormed a)
    (hsn : count sectName a.symbolTable = true)
    (h : equAlias a symbol term sectName sect value operation edge = .ok a1) : Step a a1 := by
  unfold equAlias at h
  split at h
  · simp at h
  · next a2 h2 =>
    simp at h
    subst h
    exact (step_equTerm _ _ _ _ _ _ _ _ hwf hsn h2).1
  · next a2 value1 defined name h2 =>
    obtain ⟨s2, hname⟩ := step_equTerm _ _ _ _ _ _ _ _ hwf hsn h2
    split at h
    · simp at h
    · next a3 h3 =>
      have s3 := step_addAlias _ _ _ _ sect _ _ s2.wf (step_count _ _ s2 _ hsn) h3
      have s23 := step_trans _ _ _ s2 s3
      refine step_trans _ _ _ s23 (step_inheritOrPush _ _ _ _ _ _ s3.wf h ?_)
      intro _
      exact step_count _ _ s3 _ (hname _ _ _ rfl)

theorem step_equFirst (a a1 : Assembler) (first : String) (value : Int)
    (defined constant : Bool) (name : String) (hwf : WellFormed a)
    (h : equFirst a first (find? first a.symbolTable) = .ok (a1, value, defined, constant, name)) :
    Step a a1 ∧ (constant = false → count name a1.symbolTable = true) := by
  unfold equFirst at h
  split at h
  · next s hs =>
    split at h
    · simp at h
      obtain ⟨rfl, -, -, -, rfl⟩ := h
      exact ⟨step_refl a hwf, fun _ => (count_iff _ _).2 ⟨s, hs⟩⟩
    · split at h
      · next hloc =>
        simp at h
        obtain ⟨rfl, -, -, -, rfl⟩ := h
        exact ⟨step_refl a hwf, fun _ => local_sect a hwf first s hs hloc⟩
      · simp at h
        obtain ⟨rfl, -, -, -, rfl⟩ := h
        exact ⟨step_refl a hwf, fun _ => (count_iff _ _).2 ⟨s, hs⟩⟩
  · split at h
    · simp at h
    · next a2 h2 =>
      simp at h
      obtain ⟨rfl, -, -, -, rfl⟩ := h
      exact ⟨step_addSymbol _ _ _ _ _ _ _ _ hwf h2 (goodEntry_undefined _ _),
        fun _ => count_addSymbol _ _ _ _ _ _ _ _ h2⟩

theorem step_equSecond (a a1 : Assembler) (second operation : String)
    (symbol2 : Option Symbol) (value0 : Int) (defined0 : Bool) (value : Int)
    (defined constant : Bool) (name : String) (hwf : WellFormed a)
    (hs : ∀ s, symbol2 = some s →
      count second a.symbolTable = true ∧ (s.scope = .LOCAL → count s.sect a.symbolTable = true))
    (h : equSecond a second operation symbol2 value0 defined0 =
      .ok (a1, value, defined, constant, name)) :
    Step a a1 ∧ (constant = false → count name a1.symbolTable = true) := by
  unfold equSecond at h
  split at h
  · next s =>
    obtain ⟨h1, h2⟩ := hs s rfl
    split at h
    · simp at h
      obtain ⟨rfl, -, -, -, rfl⟩ := h
      exact ⟨step_refl a hwf, fun _ => h1⟩
    · split at h
      · next hloc =>
        simp at h
        obtain ⟨rfl, -, -, -, rfl⟩ := h
        exact ⟨step_refl a hwf, fun _ => h2 hloc⟩
      · simp at h
        obtain ⟨rfl, -, -, -, rfl⟩ := h
        exact ⟨step_refl a hwf, fun _ => h1⟩
  · split at h
    · simp at h
    · next a2 h2 =>
      simp at h
      obtain ⟨rfl, -, -, -, rfl⟩ := h
      exact ⟨step_addSymbol _ _ _ _ _ _ _ _ hwf h2 (goodEntry_undefined _ _),
        fun _ => count_addSymbol _ _ _ _ _ _ _ _ h2⟩

theorem step_equTwoSymbols (a a1 : Assembler)
    (symbol first operation second sectName sect : String) (hwf : WellFormed a)
    (hsn : count sectName a.symbolTable = true)
    (h : equTwoSymbols a symbol first operation second sectName sect = .ok a1) :
    Step a a1 := by
  unfold equTwoSymbols at h
  simp only at h
  split at h
  · simp at h
  · next a2 value1 defined1 constant1 name1 h1 =>
    obtain ⟨s1, hn1⟩ := step_equFirst _ _ _ _ _ _ _ hwf h1
    split at h
    · simp at h
    · next a3 value2 defined2 constant2 name2 h2 =>
      obtain ⟨s2, hn2⟩ := step_equSecond _ _ _ _ _ _ _ _ _ _ _ s1.wf (by
        intro s hs
        exact ⟨step_count _ _ s1 _ ((count_iff _ _).2 ⟨s, hs⟩),
          fun hloc => step_count _ _ s1 _ (local_sect a hwf second s hs hloc)⟩) h2
      have s12 := step_trans _ _ _ s1 s2
      split at h
      · simp at h
      · next a4 h4 =>
        have s3 := step_addAlias _ _ _ _ sect _ _ s2.wf (step_count _ _ s12 _ hsn) h4
        have s123 := step_trans _ _ _ s12 s3
        split at h
        · simp at h
        · next a5 h5 =>
          have s4 := step_inheritOrPush _ _ _ _ _ _ s3.wf h5
            (fun hc => step_count _ _ s3 _ (step_count _ _ s2 _ (hn1 hc)))
          have s1234 := step_trans _ _ _ s123 s4
          refine step_trans _ _ _ s1234 (step_inheritOrPush _ _ _ _ _ _ s4.wf h ?_)
          intro hc
          exact step_count _ _ s4 _ (step_count _ _ s3 _ (hn2 hc))

theorem step_evaluateEQU (U : Utils) (a a1 : Assembler) (symbol expression sect : String)
    (hwf : WellFormed a) (h : evaluateEQU U a symbol expression sect = .ok a1) :
    Step a a1 := by
  unfold evaluateEQU at h
  split at h
  · simp [Assembler.fail] at h
  · next sec hsec =>
    have hsn := hwf.sections _ _ hsec
    have hconst : ∀ value, a.addSymbol symbol sec.name value .LOCAL .CONSTANT true = .ok a1 →
        Step a a1 := fun value hc =>
      step_addSymbol _ _ _ _ _ _ _ _ hwf hc (goodEntry_constant _ _ _ hsn)
    split at h
    · exact hconst _ h
    · exact step_equAlias _ _ _ _ _ _ _ _ _ hwf hsn h
    · simp only at h
      split at h
      · exact hconst _ h
      · exact step_equAlias _ _ _ _ _ _ _ _ _ hwf hsn h
      · simp [Assembler.fail] at h
      · exact step_equAlias _ _ _ _ _ _ _ _ _ hwf hsn h
      · split at h
        · exact hconst _ h
        · exact step_equTwoSymbols _ _ _ _ _ _ _ _ hwf hsn h
      · simp [Assembler.fail] at h
      · simp [Assembler.fail] at h
    · simp [Assembler.fail] at h

theorem step_firstPassGlobalExtern (U : Utils) (directive : String) (queue : List String) :
    ∀ (a a1 : Assembler), WellFormed a →
      firstPassGlobalExtern U directive queue a = .ok a1 → Step a a1 := by
  induction queue with
  | nil =>
    intro a a1 hwf h
    simp [firstPassGlobalExtern] at h
    subst h
    exact step_refl a hwf
  | cons token queue ih =>
    intro a a1 hwf h
    unfold firstPassGlobalExtern at h
    split at h
    · simp [Assembler.fail] at h
    · split at h
      · next s hs =>
        split at h
        · split at h
          · simp [Assembler.fail] at h
          · have s1 := step_scope a token s hwf hs
            exact step_trans _ _ _ s1 (ih _ _ s1.wf h)
        · split at h
          · simp at h
          · next a2 h2 =>
            have s1 := step_addSymbol _ _ _ _ _ _ _ _ hwf h2 (goodEntry_undefined _ _)
            exact step_trans _ _ _ s1 (ih _ _ s1.wf h)
      · split at h
        · simp at h
        · next a2 h2 =>
          have s1 := step_addSymbol _ _ _ _ _ _ _ _ hwf h2 (goodEntry_undefined _ _)
          exact step_trans _ _ _ s1 (ih _ _ s1.wf h)

theorem step_closeSection (a : Assembler) (currentSection : Option String)
    (hwf : WellFormed a) : Step a (closeSection a currentSection) := by
  unfold closeSection
  split
  · exact step_refl a hwf
  · split
    · exact step_refl a hwf
    · next key sec hsec =>
      refine step_sections a _ hwf ?_
      intro k sec1 hk
      rcases find?_update_cases _ _ _ _ _ hk with ⟨rfl, rfl⟩ | hk
      · exact hwf.sections _ sec hsec
      · exact hwf.sections _ _ hk

theorem step_firstPassSection (U : Utils) (a a2 : Assembler)
    (currentSection cs2 : Option String) (name : String) (queue queue1 : List String)
    (hwf : WellFormed a)
    (h : firstPassSection U a currentSection name queue = .ok (a2, cs2, queue1)) :
    Step a a2 := by
  unfold firstPassSection at h
  simp only at h
  have s0 := step_closeSection a currentSection hwf
  have s0' : Step (closeSection a currentSection)
      { closeSection a currentSection with locationCounter := 0 } :=
    step_of_eq _ _ s0.wf rfl rfl rfl
  have s00 := step_trans _ _ _ s0 s0'
  split at h
  · simp at h
  · next name1 flags queue0 hh =>
    split at h
    · simp at h
    · next a1 h1 =>
      have s1 := step_addSymbol _ _ _ _ _ _ _ _ s0'.wf h1
        ⟨by simp, by simp, fun _ => rfl, fun _ => Or.inr rfl⟩
      have hc := count_addSymbol _ _ _ _ _ _ _ _ h1
      split at h
      · simp [Assembler.fail] at h
      · next s hs =>
        split at h
        · simp at h
        · next a3 h3 =>
          simp at h
          obtain ⟨rfl, -, -⟩ := h
          unfold addSection at h3
          split at h3
          · simp [Assembler.fail] at h3
          · simp at h3
            subst h3
            refine step_trans _ _ _ (step_trans _ _ _ s00 s1) (step_sections a1 _ s1.wf ?_)
            intro k sec hk
            rcases find?_append_cases _ _ _ _ _ hk with hk | ⟨-, rfl⟩
            · exact s1.wf.sections _ _ hk
            · exact hc

theorem step_firstPassDirective (U : Utils) (a a1 : Assembler)
    (currentSection : Option String) (directive : String) (queue queue1 : List String)
    (hwf : WellFormed a)
    (h : firstPassDirective U a currentSection directive queue = .ok (a1, queue1)) :
    Step a a1 := by
  have counter : ∀ (lc : Nat) (q : List String),
      (({ a with locationCounter := lc } : Assembler), q) = (a1, queue1) → Step a a1 := by
    intro lc q hq
    simp at hq
    obtain ⟨rfl, -⟩ := hq
    exact step_of_eq _ _ hwf rfl rfl rfl
  unfold firstPassDirective at h
  split at h
  · simp [Assembler.fail] at h
  · next key =>
    split at h
    · split at h
      · simp [Assembler.fail] at h
      · split at h
        · simp [Assembler.fail] at h
        · split at h
          · simp [Assembler.fail] at h
          · split at h
            · simp at h
            · next a2 h2 =>
              simp at h
              obtain ⟨rfl, -⟩ := h
              exact step_evaluateEQU _ _ _ _ _ _ hwf h2
    · split at h
      · split at h
        · split at h
          · simp [Assembler.fail] at h
          · simp only [Except.ok.injEq] at h
            exact counter _ _ h
        · split at h
          · split at h
            · simp [Assembler.fail] at h
            · simp only [Except.ok.injEq] at h
              exact counter _ _ h
          · simp [Assembler.fail] at h
      · split at h
        · split at h
          · simp only [Except.ok.injEq] at h
            exact counter _ _ h
          · split at h
            · simp only at h
              split at h
              · simp only [Except.ok.injEq] at h
                exact counter _ _ h
              · split at h
                · simp [Assembler.fail] at h
                · simp only [Except.ok.injEq] at h
                  exact counter _ _ h
            · simp [Assembler.fail] at h
        · split at h
          · simp [Assembler.fail] at h
          · split at h
            · simp [Assembler.fail] at h
            · split at h
              · simp [Assembler.fail] at h
              · simp only at h
                split at h
                · simp only [Except.ok.injEq] at h
                  exact counter _ _ h
                · split at h
                  · simp only [Except.ok.injEq] at h
                    exact counter _ _ h
                  · simp [Assembler.fail] at h

theorem step_firstPassInstruction (U : Utils) (a a1 : Assembler)
    (currentSection : Option String) (ms queue queue1 : List String) (hwf : WellFormed a)
    (h : firstPassInstruction U a currentSection ms queue = .ok (a1, queue1)) :
    Step a a1 := by
  unfold firstPassInstruction at h
  simp only at h
  split at h
  · simp [Assembler.fail] at h
  · split at h
    · simp at h
    · simp at h
      obtain ⟨rfl, -⟩ := h
      exact step_of_eq _ _ hwf rfl rfl rfl

theorem step_firstPassSwitch (U : Utils) (p p1 : Pass) (currentToken : String)
    (type : TokenType) (ms queue : List String) (hwf : WellFormed p.asm)
    (h : firstPassSwitch U p currentToken type ms queue = .ok p1) : Step p.asm p1.asm := by
  unfold firstPassSwitch at h
  simp only at h
  split at h
  · simp at h
  · next a1 cs hstep =>
    simp at h
    subst h
    split at hstep
    · split at hstep
      · simp [Assembler.fail] at hstep
      · split at hstep
        · simp at hstep
        · next a2 h2 =>
          simp at hstep
          obtain ⟨rfl, -⟩ := hstep
          exact step_firstPassGlobalExtern _ _ _ _ _ hwf h2
    · simp [Assembler.fail] at hstep
    · exact step_firstPassSection _ _ _ _ _ _ _ _ hwf hstep
    · split at hstep
      · simp at hstep
      · next a2 q2 h2 =>
        simp at hstep
        obtain ⟨rfl, -, -⟩ := hstep
        exact step_firstPassDirective _ _ _ _ _ _ _ hwf h2
    · split at hstep
      · simp at hstep
      · next a2 q2 h2 =>
        simp at hstep
        obtain ⟨rfl, -, -⟩ := hstep
        exact step_firstPassInstruction _ _ _ _ _ _ _ hwf h2
    · simp [Assembler.fail] at hstep
  · simp [Assembler.fail] at h

/-- Every line of the first pass is a step. -/
theorem step_firstPassLine (U : Utils) (p p1 : Pass) (tokens : List String)
    (hwf : WellFormed p.asm) (h : firstPassLine U p tokens = .ok p1) : Step p.asm p1.asm := by
  unfold firstPassLine at h
  simp only at h
  have s0 : Step p.asm { p.asm with line := p.asm.line + 1 } :=
    step_of_eq _ _ hwf rfl rfl rfl
  split at h
  · simp [Assembler.fail] at h
  · next currentToken queue =>
    split at h
    · next ms hty =>
      split at h
      · simp [Assembler.fail] at h
      · split at h
        · simp [Assembler.fail] at h
        · next key hkey =>
          split at h
          · simp [Assembler.fail] at h
          · next sec hsec =>
            split at h
            · simp at h
            · next a1 h1 =>
              have s1 := step_addSymbol _ _ _ _ _ _ _ _ s0.wf h1
                ⟨by simp, by simp, fun _ => rfl, fun _ => Or.inl (s0.wf.sections _ _ hsec)⟩
              have s01 := step_trans _ _ _ s0 s1
              split at h
              · simp at h
                subst h
                exact s01
              · exact step_trans _ _ _ s01
                  (step_firstPassSwitch U ⟨a1, false, p.currentSection⟩ _ _ _ _ _ s1.wf h)
    · exact step_trans _ _ _ s0
        (step_firstPassSwitch U ⟨_, false, p.currentSection⟩ _ _ _ _ _ s0.wf h)

theorem step_pushRelocations (a : Assembler) (rs : List Relocation) (hwf : WellFormed a) :
    Step a (a.pushRelocations rs) :=
  step_of_eq _ _ hwf rfl rfl rfl

/-- Adding an unknown name as undefined GLOBAL EXTERN symbol and appending relocations is a
step. -/
theorem step_addExtern (a a1 : Assembler) (name : String) (rs : List Relocation)
    (hwf : WellFormed a) (h : a.addSymbol name UNDEFINED 0 .GLOBAL .EXTERN false = .ok a1) :
    Step a (a1.pushRelocations rs) := by
  have s1 := step_addSymbol _ _ _ _ _ _ _ _ hwf h (goodEntry_undefined _ _)
  exact step_trans _ _ _ s1 (step_pushRelocations _ _ s1.wf)

theorem step_evaluateTerm (a a1 : Assembler) (symbol : String) (known : Option Symbol)
    (value : Int) (operation sectName : String) (relocationType : RelocationType)
    (typeOf : String → RelocationType) (value1 : Int) (hwf : WellFormed a)
    (h : evaluateTerm a symbol known value operation sectName relocationType typeOf =
      .ok (a1, value1)) : Step a a1 := by
  unfold evaluateTerm at h
  split at h
  · unfold evaluateUnresolved at h
    split at h
    · simp at h
      obtain ⟨rfl, -⟩ := h
      exact step_pushRelocations _ _ hwf
    · simp [Assembler.fail] at h
  · unfold evaluateKnown at h
    split at h
    · split at h
      · split at h
        · simp at h
          obtain ⟨rfl, -⟩ := h
          exact step_refl a hwf
        · simp at h
          obtain ⟨rfl, -⟩ := h
          exact step_pushRelocations _ _ hwf
      · simp at h
        obtain ⟨rfl, -⟩ := h
        exact step_pushRelocations _ _ hwf
    · split at h
      · simp at h
      · next a2 h2 =>
        simp at h
        obtain ⟨rfl, -⟩ := h
        exact step_addExtern _ _ _ _ hwf h2

theorem step_evaluateImmedSymbol (a a1 : Assembler)
    (directive first operation second sectName : String) (value : Int) (hwf : WellFormed a)
    (h : evaluateImmedSymbol a directive first operation second sectName = .ok (a1, value)) :
    Step a a1 := by
  unfold evaluateImmedSymbol at h
  exact step_evaluateTerm _ _ _ _ _ _ _ _ _ _ hwf h

theorem step_evaluateValue (U : Utils) (a a1 : Assembler)
    (directive expression sectName : String) (value : Int) (hwf : WellFormed a)
    (h : evaluateValue U a directive expression sectName = .ok (a1, value)) : Step a a1 := by
  unfold evaluateValue at h
  split at h
  · simp at h
    obtain ⟨rfl, -⟩ := h
    exact step_refl a hwf
  · exact step_evaluateTerm _ _ _ _ _ _ _ _ _ _ hwf h
  · simp only at h
    split at h
    · split at h
      · exact step_evaluateImmedSymbol _ _ _ _ _ _ _ _ hwf h
      · simp [Assembler.fail] at h
    · exact step_evaluateImmedSymbol _ _ _ _ _ _ _ _ hwf h
    · simp [Assembler.fail] at h
    · exact step_evaluateTerm _ _ _ _ _ _ _ _ _ _ hwf h
    · split at h
      · simp at h
        obtain ⟨rfl, -⟩ := h
        exact step_refl a hwf
      · split at h
        · simp at h
        · next a2 value2 h2 =>
          have s1 := step_evaluateTerm _ _ _ _ _ _ _ _ _ _ hwf h2
          exact step_trans _ _ _ s1 (step_evaluateTerm _ _ _ _ _ _ _ _ _ _ s1.wf h)
    · simp [Assembler.fail] at h
    · simp [Assembler.fail] at h
  · simp [Assembler.fail] at h

/-- Writing bytes into a section of the section table is a step. -/
theorem step_writeSection (a : Assembler) (key : String) (sec sec1 : Section)
    (hwf : WellFormed a) (hsec : find? key a.sectionTable = some sec)
    (hname : sec1.name = sec.name) :
    Step a { a with sectionTable := update key sec1 a.sectionTable } := by
  refine step_sections a _ hwf ?_
  intro k sec2 hk
  rcases find?_update_cases _ _ _ _ _ hk with ⟨rfl, rfl⟩ | hk
  · rw [hname]; exact hwf.sections _ sec hsec
  · exact hwf.sections _ _ hk

theorem step_evaluate (U : Utils) (a a1 : Assembler) (directive expression sect : String)
    (hwf : WellFormed a) (h : evaluate U a directive expression sect = .ok a1) :
    Step a a1 := by
  unfold evaluate at h
  split at h
  · simp [Assembler.fail] at h
  · next sec hsec =>
    split at h
    · simp at h
    · next a2 value h2 =>
      have s1 := step_evaluateValue _ _ _ _ _ _ _ hwf h2
      obtain ⟨-, f⟩ := evaluateValue_emits _ _ _ _ _ _ _ h2
      have hsec2 : find? sect a2.sectionTable = some sec := by
        rw [f.sectionTable]; exact hsec
      have w : ∀ bs lc, Step a
          { (a2.writeSection sect sec bs) with locationCounter := lc } := by
        intro bs lc
        have s2 := step_writeSection a2 sect sec (sec.write a2.locationCounter bs) s1.wf hsec2
          rfl
        exact step_trans _ _ _ (step_trans _ _ _ s1 s2) (step_of_eq _ _ s2.wf rfl rfl rfl)
      simp only at h
      split at h
      · split at h
        · simp [Assembler.fail] at h
        · simp at h
          subst h
          exact w _ _
      · split at h
        · simp at h
          subst h
          exact w _ _
        · simp [Assembler.fail] at h

theorem step_evaluateData (U : Utils) (directive sect : String) (fuel : Nat) :
    ∀ (queue : List String) (a a1 : Assembler), WellFormed a →
      evaluateData U directive sect fuel queue a = .ok a1 → Step a a1 := by
  induction fuel with
  | zero =>
    intro queue a a1 hwf h
    cases queue with
    | nil =>
      simp [evaluateData] at h
      subst h
      exact step_refl a hwf
    | cons token queue => simp [evaluateData, Assembler.fail] at h
  | succ fuel ih =>
    intro queue a a1 hwf h
    cases queue with
    | nil =>
      simp [evaluateData] at h
      subst h
      exact step_refl a hwf
    | cons token queue =>
      unfold evaluateData at h
      split at h
      next expression queue1 _ =>
      split at h
      · simp at h
      · next a2 h2 =>
        have s1 := step_evaluate _ _ _ _ _ _ hwf h2
        exact step_trans _ _ _ s1 (ih _ _ _ s1.wf h)

theorem step_symbolPayload (a a1 : Assembler) (symbol : String) (byteSized : Bool)
    (offset : Nat) (sectName : String) (bs : List Nat) (hwf : WellFormed a)
    (h : symbolPayload a symbol byteSized offset sectName = .ok (a1, bs)) : Step a a1 := by
  unfold symbolPayload at h
  split at h
  · split at h
    · split at h
      · simp at h
      · simp at h
        obtain ⟨rfl, -⟩ := h
        exact step_pushRelocations _ _ hwf
    · simp [Assembler.fail] at h
  · split at h
    · split at h
      · split at h
        · simp at h
        · split at h
          · simp at h
            obtain ⟨rfl, -⟩ := h
            exact step_refl a hwf
          · simp at h
            obtain ⟨rfl, -⟩ := h
            exact step_pushRelocations _ _ hwf
      · split at h
        · simp at h
        · simp at h
          obtain ⟨rfl, -⟩ := h
          exact step_pushRelocations _ _ hwf
    · split at h
      · simp at h
      · next a0 h0 =>
        split at h
        · simp at h
        · simp at h
          obtain ⟨rfl, -⟩ := h
          exact step_addExtern _ _ _ _ hwf h0

theorem step_pcRelativePayload (a a1 : Assembler) (symbol : String) (offset : Int)
    (size : Nat) (sectName : String) (bs : List Nat) (hwf : WellFormed a)
    (h : pcRelativePayload a symbol offset size sectName = .ok (a1, bs)) : Step a a1 := by
  unfold pcRelativePayload at h
  simp only at h
  split at h
  · split at h
    · simp at h
      obtain ⟨rfl, -⟩ := h
      exact step_pushRelocations _ _ hwf
    · simp [Assembler.fail] at h
  · split at h
    · split at h
      · simp [Assembler.fail] at h
      · split at h
        · simp [Assembler.fail] at h
        · simp at h
          obtain ⟨rfl, -⟩ := h
          exact step_pushRelocations _ _ hwf
    · split at h
      · simp at h
      · next a0 h0 =>
        simp at h
        obtain ⟨rfl, -⟩ := h
        exact step_addExtern _ _ _ _ hwf h0

theorem step_operandCode (a a1 : Assembler) (i : Instruction) (o : Operand) (offset : Int)
    (sectName : String) (bs : List Nat) (hwf : WellFormed a)
    (h : operandCode a i o offset sectName = .ok (a1, bs)) : Step a a1 := by
  have none_ok : ∀ (l : List Nat), (a, l) = (a1, bs) → Step a a1 := by
    intro l hl
    simp at hl
    obtain ⟨rfl, -⟩ := hl
    exact step_refl a hwf
  have symbol_ok : ∀ (symbol : String) (byteSized : Bool) (a0 : Assembler) (b : Nat)
      (bs0 : List Nat),
      symbolPayload a symbol byteSized (toUInt16 offset) sectName = .ok (a0, bs0) →
      (a0, b :: bs0) = (a1, bs) → Step a a1 := by
    intro symbol byteSized a0 b bs0 h0 hl
    simp at hl
    obtain ⟨rfl, rfl⟩ := hl
    exact step_symbolPayload _ _ _ _ _ _ _ hwf h0
  unfold operandCode at h
  simp only at h
  split at h
  · split at h
    · split at h
      · simp at h
      · simp at h
        exact none_ok _ (by simpa using h)
    · split at h
      · simp at h
      · rename_i a0 bs0 h0
        simp only [Except.ok.injEq] at h
        exact symbol_ok _ _ _ _ _ h0 h
    · simp [Assembler.fail] at h
  · split at h
    · simp only [Except.ok.injEq] at h; exact none_ok _ h
    · simp only [Except.ok.injEq] at h; exact none_ok _ h
    · simp [Assembler.fail] at h
  · split at h
    · simp only [Except.ok.injEq] at h; exact none_ok _ h
    · simp only [Except.ok.injEq] at h; exact none_ok _ h
    · simp [Assembler.fail] at h
  · split at h
    · simp only [Except.ok.injEq] at h; exact none_ok _ h
    · split at h
      · simp at h
      · rename_i a0 bs0 h0
        simp only [Except.ok.injEq] at h
        exact symbol_ok _ _ _ _ _ h0 h
    · simp [Assembler.fail] at h
  · split at h
    · split at h
      · simp only [Except.ok.injEq] at h; exact none_ok _ h
      · simp only [Except.ok.injEq] at h; exact none_ok _ h
    · split at h
      · simp at h
      · rename_i a0 bs0 h0
        simp only [Except.ok.injEq] at h
        exact symbol_ok _ _ _ _ _ h0 h
    · split at h
      · simp at h
      · rename_i a0 bs0 h0
        simp only [Except.ok.injEq] at h
        simp at h
        obtain ⟨rfl, rfl⟩ := h
        exact step_pcRelativePayload _ _ _ _ _ _ _ hwf h0
    · simp [Assembler.fail] at h

theorem step_instructionBytes (a a1 : Assembler) (i : Instruction) (sectName : String)
    (bs : List Nat) (hwf : WellFormed a)
    (h : instructionBytes a i sectName = .ok (a1, bs)) : Step a a1 := by
  obtain ⟨a0, rd, rs, bd, bs0, -, -, -, -, h1, h2, h3, h4⟩ :=
    instructionBytes_offsets _ _ _ _ _ h
  have s1 : Step a a0 := by
    cases hd : i.destination with
    | none =>
      obtain ⟨e, -, -⟩ := h2 hd
      rw [e]
      exact step_refl a hwf
    | some d => exact step_operandCode _ _ _ _ _ _ _ hwf (h1 d hd)
  cases hs : i.source with
  | none =>
    obtain ⟨e, -, -⟩ := h4 hs
    rw [e]
    exact s1
  | some s => exact step_trans _ _ _ s1 (step_operandCode _ _ _ _ _ _ _ s1.wf (h3 s hs))

theorem step_generateInstructionCode (a a1 : Assembler) (i : Instruction) (sect : String)
    (hwf : WellFormed a) (h : generateInstructionCode a i sect = .ok a1) : Step a a1 := by
  unfold generateInstructionCode at h
  split at h
  · simp [Assembler.fail] at h
  · next sec hsec =>
    split at h
    · simp at h
    · next a2 bs hb =>
      simp at h
      subst h
      have s1 := step_instructionBytes _ _ _ _ _ hwf hb
      obtain ⟨-, -, -, -, -, -, -, -, f, -⟩ := instructionBytes_offsets _ _ _ _ _ hb
      have hsec2 : find? sect a2.sectionTable = some sec := by
        rw [f.sectionTable]; exact hsec
      exact step_trans _ _ _ s1
        (step_writeSection a2 sect sec (sec.write a2.locationCounter bs) s1.wf hsec2 rfl)

theorem step_secondPassGlobalExtern (U : Utils) (directive : String) (queue : List String) :
    ∀ (a a1 : Assembler), WellFormed a →
      secondPassGlobalExtern U directive queue a = .ok a1 → Step a a1 := by
  induction queue with
  | nil =>
    intro a a1 hwf h
    simp [secondPassGlobalExtern] at h
    subst h
    exact step_refl a hwf
  | cons token queue ih =>
    intro a a1 hwf h
    unfold secondPassGlobalExtern at h
    have undefinedCase : (if directive = ".global" then
          (a.fail .globalButUndefined : Except AssemblingException Assembler)
        else
          match a.addSymbol token UNDEFINED 0 .GLOBAL .EXTERN false with
          | .error e => .error e
          | .ok a1 => secondPassGlobalExtern U directive queue a1) = .ok a1 → Step a a1 := by
      intro h
      split at h
      · simp [Assembler.fail] at h
      · split at h
        · simp at h
        · next a2 h2 =>
          have s1 := step_addSymbol _ _ _ _ _ _ _ _ hwf h2 (goodEntry_undefined _ _)
          exact step_trans _ _ _ s1 (ih _ _ s1.wf h)
    split at h
    · simp [Assembler.fail] at h
    · simp only at h
      split at h
      · next s hs =>
        split at h
        · split at h
          · simp [Assembler.fail] at h
          · have s1 := step_scope a token s hwf hs
            exact step_trans _ _ _ s1 (ih _ _ s1.wf h)
        · exact undefinedCase h
      · exact undefinedCase h

theorem step_fillSection (a a1 : Assembler) (key : String) (start : Nat) (n value : Int)
    (hwf : WellFormed a) (h : fillSection a key start n value = .ok a1) : Step a a1 := by
  unfold fillSection at h
  split at h
  · simp [Assembler.fail] at h
  · next sec hsec =>
    split at h
    · simp at h
      subst h
      exact step_writeSection a key sec _ hwf hsec rfl
    · simp at h
      subst h
      exact step_refl a hwf

theorem step_secondPassDirective (U : Utils) (a a1 : Assembler)
    (currentSection : Option String) (directive : String) (queue : List String)
    (hwf : WellFormed a)
    (h : secondPassDirective U a currentSection directive queue = .ok a1) : Step a a1 := by
  have fill : ∀ (lc start : Nat) (n value : Int) (key : String),
      fillSection { a with locationCounter := lc } key start n value = .ok a1 → Step a a1 := by
    intro lc start n value key hf
    have s0 : Step a { a with locationCounter := lc } := step_of_eq _ _ hwf rfl rfl rfl
    exact step_trans _ _ _ s0 (step_fillSection _ _ _ _ _ _ s0.wf hf)
  unfold secondPassDirective at h
  split at h
  · simp [Assembler.fail] at h
  · next key =>
    split at h
    · simp at h
      subst h
      exact step_refl a hwf
    · split at h
      · simp only at h
        split at h
        · simp [Assembler.fail] at h
        · split at h
          · simp at h
            subst h
            exact step_refl a hwf
          · exact fill _ _ _ _ _ h
      · split at h
        · exact fill _ _ _ _ _ h
        · exact step_evaluateData _ _ _ _ _ _ _ hwf h

/-- Every line of the second pass is a step. -/
theorem step_secondPassLine (U : Utils) (p p1 : Pass) (tokens : List String)
    (hwf : WellFormed p.asm) (h : secondPassLine U p tokens = .ok p1) :
    Step p.asm p1.asm := by
  unfold secondPassLine at h
  simp only at h
  have s0 : Step p.asm { p.asm with line := p.asm.line + 1 } :=
    step_of_eq _ _ hwf rfl rfl rfl
  split at h
  · simp [Assembler.fail] at h
  · next firstToken firstQueue =>
    split at h
    · simp at h
      subst h
      exact s0
    · next currentToken queue _ =>
      split at h
      · split at h
        · simp [Assembler.fail] at h
        · split at h
          · simp at h
          · next a2 h2 =>
            simp at h
            subst h
            exact step_trans _ _ _ s0 (step_secondPassGlobalExtern _ _ _ _ _ s0.wf h2)
      · have s1 : Step p.asm { { p.asm with line := p.asm.line + 1 } with locationCounter := 0 } :=
          step_of_eq _ _ hwf rfl rfl rfl
        split at h
        · split at h
          · simp [Assembler.fail] at h
          · simp at h
            subst h
            exact s1
        · simp at h
          subst h
          exact s1
      · split at h
        · simp at h
        · next a2 h2 =>
          simp at h
          subst h
          exact step_trans _ _ _ s0 (step_secondPassDirective _ _ _ _ _ _ s0.wf h2)
      · split at h
        · split at h
          · simp at h
          · next a2 h2 =>
            simp at h
            subst h
            have s1 := step_generateInstructionCode _ _ _ _ s0.wf h2
            exact step_trans _ _ _ (step_trans _ _ _ s0 s1) (step_of_eq _ _ s1.wf rfl rfl rfl)
        · simp [Assembler.fail] at h
      · simp [Assembler.fail] at h

theorem resolveDependencies_spec (name : String) (deps : List (String × String)) :
    ∀ (a a1 : Assembler) (deps1 : List (String × String)) (defined : Bool),
      WellFormed a →
      resolveDependencies name deps a = .ok (a1, deps1, defined) →
      WellFormed a1 ∧ a1.UST = a.UST ∧ a1.sectionTable = a.sectionTable ∧
      (∀ d ∈ deps1, count d.1 a1.symbolTable = true) ∧
      ∀ k s, find? k a.symbolTable = some s →
        ∃ s1, find? k a1.symbolTable = some s1 ∧ s1.type = s.type ∧
          s1.defined = s.defined ∧ (k ≠ name → s1 = s) := by
  induction deps with
  | nil =>
    intro a a1 deps1 defined hwf h
    simp [resolveDependencies] at h
    obtain ⟨rfl, rfl, -⟩ := h
    exact ⟨hwf, rfl, rfl, by simp, fun k s hs => ⟨s, hs, rfl, rfl, fun _ => rfl⟩⟩
  | cons relocation rest ih =>
    intro a a1 deps1 defined hwf h
    unfold resolveDependencies at h
    split at h
    · simp [Assembler.fail] at h
    · next d hd =>
      split at h
      · next hdef =>
        split at h
        · simp [Assembler.fail] at h
        · next e he =>
          simp only at h
          split at h
          · simp at h
          · next a2 rest1 defined1 h2 =>
            simp at h
            obtain ⟨rfl, rfl, rfl⟩ := h
            have hwf1 := wf_updateSymbol a name e
              { e with value := applyOperation relocation.2 e.value d.value } hwf he rfl rfl
              (fun hty => (hwf.entries _ _ he).externGlobal hty) (fun _ => rfl)
            obtain ⟨w, u1, u2, hd1, hk⟩ := ih _ _ _ _ hwf1 h2
            refine ⟨w, u1, u2, ?_, ?_⟩
            · intro x hx
              simp only [List.mem_cons] at hx
              rcases hx with rfl | hx
              · simp only
                have c0 := defined_sect a hwf _ d hd hdef
                have c1 : count d.sect (update name
                    { e with value := applyOperation relocation.2 e.value d.value }
                    a.symbolTable) = true := by
                  rw [count_update]; exact c0
                obtain ⟨v, hv⟩ := (count_iff _ _).1 c1
                obtain ⟨s1, hs1, -⟩ := hk _ v hv
                exact (count_iff _ _).2 ⟨s1, hs1⟩
              · exact hd1 x hx
            · intro k s hs
              by_cases hkn : k = name
              · subst hkn
                rw [he] at hs
                simp at hs
                subst hs
                obtain ⟨s1, hs1, t1, t2, -⟩ := hk k _ (find?_update_self _ _ _ _ he)
                exact ⟨s1, hs1, t1, t2, fun hne => absurd rfl hne⟩
              · obtain ⟨s1, hs1, t1, t2, t3⟩ :=
                  hk k s (by simp only; rw [find?_update_ne _ _ _ _ hkn]; exact hs)
                exact ⟨s1, hs1, t1, t2, t3⟩
      · split at h
        · simp at h
        · next a2 rest1 defined1 h2 =>
          simp at h
          obtain ⟨rfl, rfl, rfl⟩ := h
          obtain ⟨w, u1, u2, hd1, hk⟩ := ih _ _ _ _ hwf h2
          refine ⟨w, u1, u2, ?_, hk⟩
          intro x hx
          simp only [List.mem_cons] at hx
          rcases hx with rfl | hx
          · obtain ⟨s1, hs1, -⟩ := hk _ d hd
            exact (count_iff _ _).2 ⟨s1, hs1⟩
          · exact hd1 x hx

/-- The loop body of `resolveSymbols` keeps the invariant and changes the entry of its UST
key only. -/
theorem resolved_resolveEntry (a a1 : Assembler) (name : String) (hwf : WellFormed a)
    (h : resolveEntry a name = .ok a1) : Resolved name a a1 ∧ count name a.UST = true := by
  unfold resolveEntry at h
  split at h
  · simp [Assembler.fail] at h
  · next u hu =>
    split at h
    · simp at h
    · next a2 deps1 defined h2 =>
      obtain ⟨w, u1, u2, hd1, hk⟩ := resolveDependencies_spec _ _ _ _ _ _ hwf h2
      split at h
      · simp [Assembler.fail] at h
      · next e he =>
        simp at h
        subst h
        have hu2 : find? name a2.UST = some u := by rw [u1]; exact hu
        obtain ⟨⟨e', he', hty⟩, -⟩ := w.unresolved _ _ hu2
        rw [he] at he'
        simp at he'
        subst he'
        have w1 := wf_updateSymbol a2 name e { e with defined := defined } w he rfl rfl
          (fun h0 => by simp only at h0; rw [hty] at h0; exact SymbolType.noConfusion h0)
          (fun h0 => absurd hty h0)
        have s2 := step_unresolved _ (update name { u with dependencies := deps1 } a2.UST) w1
          (by
            intro k v hkv
            simp only
            rcases find?_update_cases _ _ _ _ _ hkv with ⟨rfl, rfl⟩ | hkv
            · refine ⟨⟨_, find?_update_self _ _ _ _ he, hty⟩, ?_⟩
              intro d hd
              rw [count_update]
              exact hd1 d hd
            · obtain ⟨⟨s, hs, hsty⟩, hdeps⟩ := w.unresolved _ _ hkv
              refine ⟨?_, fun d hd => by rw [count_update]; exact hdeps d hd⟩
              by_cases hkn : k = name
              · subst hkn
                exact ⟨_, find?_update_self _ _ _ _ he, hty⟩
              · exact ⟨s, by rw [find?_update_ne _ _ _ _ hkn]; exact hs, hsty⟩)
          (by
            intro k hk0
            rw [count_update]
            exact hk0)
        refine ⟨⟨s2.wf, ?_⟩, (count_iff _ _).2 ⟨u, hu⟩⟩
        intro k s hs
        obtain ⟨s1, hs1, t1, -, t3⟩ := hk k s hs
        by_cases hkn : k = name
        · subst hkn
          rw [he] at hs1
          simp at hs1
          subst hs1
          exact ⟨_, find?_update_self _ _ _ _ he, t1, fun hne => absurd rfl hne⟩
        · exact ⟨s1, by simp only; rw [find?_update_ne _ _ _ _ hkn]; exact hs1, t1, t3⟩

theorem resolveDependencies_returns (name : String) (deps : List (String × String)) :
    ∀ (a : Assembler), (∀ d ∈ deps, count d.1 a.symbolTable = true) →
      count name a.symbolTable = true →
      ∃ r, resolveDependencies name deps a = .ok r := by
  induction deps with
  | nil => intro a _ _; exact ⟨_, rfl⟩
  | cons relocation rest ih =>
    intro a hdeps hname
    obtain ⟨d, hd⟩ := (count_iff _ _).1 (hdeps relocation (by simp))
    obtain ⟨e, he⟩ := (count_iff _ _).1 hname
    unfold resolveDependencies
    simp only [hd, he]
    by_cases hdef : d.defined = true
    · rw [if_pos hdef]
      obtain ⟨r, hr⟩ := ih
        { a with
          symbolTable :=
            update name { e with value := applyOperation relocation.2 e.value d.value }
              a.symbolTable }
        (fun x hx => by
          simp only
          rw [count_update]
          exact hdeps x (by simp [hx]))
        (by simp only; rw [count_update]; exact hname)
      obtain ⟨a1, rest1, defined⟩ := r
      rw [hr]
      exact ⟨_, rfl⟩
    · rw [if_neg hdef]
      obtain ⟨r, hr⟩ := ih a (fun x hx => hdeps x (by simp [hx])) hname
      obtain ⟨a1, rest1, defined⟩ := r
      rw [hr]
      exact ⟨_, rfl⟩

/-- In a state with the invariant the loop body of `resolveSymbols` returns for every key of
UST: none of its symbol-table lookups misses. -/
theorem resolveEntry_returns (a : Assembler) (name : String) (hwf : WellFormed a)
    (hname : count name a.UST = true) : ∃ a1, resolveEntry a name = .ok a1 := by
  obtain ⟨u, hu⟩ := (count_iff _ _).1 hname
  obtain ⟨⟨e, he, -⟩, hdeps⟩ := hwf.unresolved _ _ hu
  have hc : count name a.symbolTable = true := (count_iff _ _).2 ⟨e, he⟩
  obtain ⟨⟨a1, deps1, defined⟩, hr⟩ := resolveDependencies_returns name u.dependencies a hdeps hc
  obtain ⟨-, -, -, -, hk⟩ := resolveDependencies_spec _ _ _ _ _ _ hwf hr
  obtain ⟨e1, he1, -⟩ := hk _ _ he
  unfold resolveEntry
  simp only [hu, hr, he1]
  exact ⟨_, rfl⟩

theorem wellFormed_init (assembly : List (List String)) : WellFormed (init assembly) :=
  ⟨by simp [init, find?], by simp [init, find?], by simp [init, find?]⟩

/-- The invariant holds in every reachable state. -/
theorem reachable_wellFormed (U : Utils) (a : Assembler) (h : Reachable U a) :
    WellFormed a := by
  induction h with
  | start assembly => exact wellFormed_init assembly
  | rewind a _ ih => exact (step_of_eq a { a with line := 0 } ih rfl rfl rfl).wf
  | firstPassLine p p1 tokens _ h ih => exact (step_firstPassLine U p p1 tokens ih h).wf
  | evaluateEQU a a1 symbol expression sect _ h ih =>
    exact (step_evaluateEQU U a a1 symbol expression sect ih h).wf
  | closeSection a cs _ ih => exact (step_closeSection a cs ih).wf
  | resolveEntry a a1 name _ h ih => exact (resolved_resolveEntry a a1 name ih h).1.wf
  | secondPassLine p p1 tokens _ h ih => exact (step_secondPassLine U p p1 tokens ih h).wf

theorem reachable_passLoop (U : Utils)
    (step : Pass → List String → Except AssemblingException Pass)
    (hstep : ∀ p p1 tokens, Reachable U p.asm → step p tokens = .ok p1 → Reachable U p1.asm)
    (lines : List (List String)) :
    ∀ (p p1 : Pass), Reachable U p.asm → passLoop step lines p = .ok p1 →
      Reachable U p1.asm := by
  induction lines with
  | nil =>
    intro p p1 hp h
    simp [passLoop] at h
    subst h
    exact hp
  | cons tokens rest ih =>
    intro p p1 hp h
    unfold passLoop at h
    split at h
    · simp at h
    · next p2 h2 => exact ih _ _ (hstep _ _ _ hp h2) h

/-- The state after a successful first pass is reachable. -/
theorem reachable_firstPass (U : Utils) (a a1 : Assembler) (ha : Reachable U a)
    (h : firstPass U a = .ok a1) : Reachable U a1 := by
  unfold firstPass at h
  split at h
  · simp at h
  · next p hp =>
    simp at h
    subst h
    exact Reachable.closeSection _ _
      (reachable_passLoop U _ (fun p p1 tokens => Reachable.firstPassLine p p1 tokens) _
        ⟨{ a with line := 0 }, false, none⟩ p (Reachable.rewind a ha) hp)

theorem reachable_resolveLoop (U : Utils) (order : List String) :
    ∀ (a a1 : Assembler), Reachable U a → resolveLoop order a = .ok a1 → Reachable U a1 := by
  induction order with
  | nil =>
    intro a a1 ha h
    simp [resolveLoop] at h
    subst h
    exact ha
  | cons name rest ih =>
    intro a a1 ha h
    unfold resolveLoop at h
    split at h
    · simp at h
    · next a2 h2 => exact ih _ _ (Reachable.resolveEntry a a2 name ha h2) h

/-- The state after a successful run of `resolveSymbols` is reachable. -/
theorem reachable_resolveSymbols (U : Utils) (a a1 : Assembler) (order : List String)
    (ha : Reachable U a) (h : resolveSymbols a order = .ok a1) : Reachable U a1 := by
  unfold resolveSymbols at h
  split at h
  · simp [Assembler.fail] at h
  · simp [Assembler.fail] at h
  · exact reachable_resolveLoop U order a a1 ha h

/-- The state after a successful second pass is reachable. -/
theorem reachable_secondPass (U : Utils) (a a1 : Assembler) (ha : Reachable U a)
    (h : secondPass U a = .ok a1) : Reachable U a1 := by
  unfold secondPass at h
  split at h
  · simp at h
  · next p hp =>
    simp at h
    subst h
    exact reachable_passLoop U _ (fun p p1 tokens => Reachable.secondPassLine p p1 tokens) _
      ⟨{ a with line := 0 }, false, none⟩ p (Reachable.rewind a ha) hp

/-! ## C29: the defined flag -/

/-- C29, counterexample: after the line `.equ A, X` the unknown symbol `X` has an undefined
EXTERN entry; the label definition `X:` of the next line, still in the first pass, turns the
same entry into a defined LABEL.  So an entry that is never an ALIAS changes its `defined`
flag, and it does so in the first pass. -/
theorem extern_entry_becomes_defined_label :
    (∃ s, find? "X" (Spec.afterFirstPass (Spec.forwardEquLines.take 2)).symbolTable = some s ∧
      s.type = .EXTERN ∧ s.defined = false ∧ s.symbolTableEntry = 1) ∧
    (∃ s, find? "X" (Spec.afterFirstPass Spec.forwardEquLines).symbolTable = some s ∧
      s.type = .LABEL ∧ s.defined = true ∧ s.symbolTableEntry = 1) ∧
    firstPass Spec.utils (init Spec.forwardEquLines) =
      .ok (Spec.afterFirstPass Spec.forwardEquLines) := by
  refine ⟨⟨_, rfl, ?_, ?_, ?_⟩, ⟨_, rfl, ?_, ?_, ?_⟩, ?_⟩ <;> decide

/-- C29, amended: in every state reachable through the first pass, `resolveSymbols` and the
second pass, every symbol-table entry of type EXTERN is undefined and every entry of type
LABEL, SECTION or CONSTANT is defined.  Through a line of either pass every entry is kept, and
an entry that is defined or is a key of UST keeps its `defined` flag and its type (only an
undefined entry outside UST can change, when `addSymbol` redefines it).  A round of the loop
of `resolveSymbols` keeps every entry with its type and changes the `defined` flag only of
the entry of its UST key, which is an ALIAS.  The states after a successful first pass from
the fresh state, after a successful `resolveSymbols` and after a successful second pass are
reachable. -/
theorem defined_flags_in_reachable_states (U : Utils) :
    (∀ a, Reachable U a → ∀ k s, find? k a.symbolTable = some s →
      (s.type = .EXTERN → s.defined = false) ∧
      (s.type = .LABEL ∨ s.type = .SECTION ∨ s.type = .CONSTANT → s.defined = true)) ∧
    (∀ p p1 tokens, Reachable U p.asm →
      firstPassLine U p tokens = .ok p1 ∨ secondPassLine U p tokens = .ok p1 →
      ∀ k s, find? k p.asm.symbolTable = some s →
        ∃ s1, find? k p1.asm.symbolTable = some s1 ∧
          (s.defined = true ∨ count k p.asm.UST = true →
            s1.defined = s.defined ∧ s1.type = s.type)) ∧
    (∀ a a1 name, Reachable U a → resolveEntry a name = .ok a1 →
      ∀ k s, find? k a.symbolTable = some s →
        ∃ s1, find? k a1.symbolTable = some s1 ∧ s1.type = s.type ∧
          (s1.defined ≠ s.defined → k = name ∧ s.type = .ALIAS ∧ count k a.UST = true)) ∧
    (∀ assembly a1, firstPass U (init assembly) = .ok a1 → Reachable U a1) ∧
    (∀ a a1 order, Reachable U a → resolveSymbols a order = .ok a1 → Reachable U a1) ∧
    (∀ a a1, Reachable U a → secondPass U a = .ok a1 → Reachable U a1) := by
  refine ⟨?_, ?_, ?_, ?_, ?_, ?_⟩
  · intro a ha k s hs
    have ok := (reachable_wellFormed U a ha).entries k s hs
    exact ⟨ok.externUndefined, ok.defined⟩
  · intro p p1 tokens hp h k s hs
    have hwf := reachable_wellFormed U _ hp
    rcases h with h | h
    · exact (step_firstPassLine U p p1 tokens hwf h).keep k s hs
    · exact (step_secondPassLine U p p1 tokens hwf h).keep k s hs
  · intro a a1 name ha h k s hs
    have hwf := reachable_wellFormed U _ ha
    obtain ⟨r, hname⟩ := resolved_resolveEntry a a1 name hwf h
    obtain ⟨s1, hs1, hty, hsame⟩ := r.keep k s hs
    refine ⟨s1, hs1, hty, fun hne => ?_⟩
    have hk : k = name := by
      by_contra hkn
      exact hne (by rw [hsame hkn])
    subst hk
    obtain ⟨u, hu⟩ := (count_iff _ _).1 hname
    obtain ⟨⟨e, he, hety⟩, -⟩ := hwf.unresolved _ _ hu
    rw [hs] at he
    simp at he
    subst he
    exact ⟨rfl, hety, hname⟩
  · intro assembly a1 h
    exact reachable_firstPass U _ _ (Reachable.start assembly) h
  · intro a a1 order ha h
    exact reachable_resolveSymbols U a a1 order ha h
  · intro a a1 ha h
    exact reachable_secondPass U a a1 ha h

/-- C29, witness: the state after the first pass over `Spec.globalConstantLines` is reachable,
and its entry `K` of type CONSTANT is defined. -/
theorem defined_flags_in_reachable_states_witness :
    Reachable Spec.utils Spec.globalConstantState ∧
    (⟨"K", ".text", 5, .GLOBAL, .CONSTANT, true, 1⟩ : Symbol).defined = true :=
  ⟨(defined_flags_in_reachable_states Spec.utils).2.2.2.1 Spec.globalConstantLines
      Spec.globalConstantState (by decide),
   ((defined_flags_in_reachable_states Spec.utils).1 Spec.globalConstantState
    ((defined_flags_in_reachable_states Spec.utils).2.2.2.1 Spec.globalConstantLines
      Spec.globalConstantState (by decide))
    "K" ⟨"K", ".text", 5, .GLOBAL, .CONSTANT, true, 1⟩ (by decide)).2 (Or.inr (Or.inr rfl))⟩

/-! ## C30: the names in UST are keys of the symbol table -/

/-- C30: in every state reachable through the first pass, `resolveSymbols` and the second
pass, every key of UST and every dependency name of every UST entry is a key of the symbol
table.  These states include the state after every successful call of `evaluateEQU` from a
reachable state and the state after every round and every successful run of
`resolveSymbols`.  Hence, in such a state, the loop body of `resolveSymbols` returns for every
key of UST, and the UST branches of `evaluate` and of `generateInstructionCode` find the
entries they look up: for a key of UST, `evaluateUnresolved` and `pcRelativePayload` return,
and `symbolPayload` can only fail because a byte-sized operand does not fit. -/
theorem unresolved_names_are_keys (U : Utils) :
    (∀ a, Reachable U a → ∀ k u, find? k a.UST = some u →
      count k a.symbolTable = true ∧ ∀ d ∈ u.dependencies, count d.1 a.symbolTable = true) ∧
    (∀ a a1 symbol expression sect, Reachable U a →
      evaluateEQU U a symbol expression sect = .ok a1 → Reachable U a1) ∧
    (∀ a a1 name, Reachable U a → resolveEntry a name = .ok a1 → Reachable U a1) ∧
    (∀ assembly a1, firstPass U (init assembly) = .ok a1 → Reachable U a1) ∧
    (∀ a a1 order, Reachable U a → resolveSymbols a order = .ok a1 → Reachable U a1) ∧
    (∀ a name, Reachable U a → count name a.UST = true → ∃ a1, resolveEntry a name = .ok a1) ∧
    (∀ a symbol value operation sectName typeOf, Reachable U a → count symbol a.UST = true →
      ∃ r, evaluateUnresolved a symbol value operation sectName typeOf = .ok r) ∧
    (∀ a symbol offset size sectName, Reachable U a → count symbol a.UST = true →
      ∃ r, pcRelativePayload a symbol offset size sectName = .ok r) ∧
    (∀ a symbol byteSized offset sectName e, Reachable U a → count symbol a.UST = true →
      symbolPayload a symbol byteSized offset sectName = .error e →
      e.kind = .byteOperandExpected) := by
  have both : ∀ a symbol, Reachable U a → count symbol a.UST = true →
      ∃ s u, find? symbol a.symbolTable = some s ∧ find? symbol a.UST = some u := by
    intro a symbol ha hc
    obtain ⟨u, hu⟩ := (count_iff _ _).1 hc
    obtain ⟨⟨s, hs, -⟩, -⟩ := (reachable_wellFormed U a ha).unresolved _ _ hu
    exact ⟨s, u, hs, hu⟩
  refine ⟨?_, ?_, ?_, ?_, ?_, ?_, ?_, ?_, ?_⟩
  · intro a ha k u hu
    obtain ⟨⟨s, hs, -⟩, hdeps⟩ := (reachable_wellFormed U a ha).unresolved k u hu
    exact ⟨(count_iff _ _).2 ⟨s, hs⟩, hdeps⟩
  · intro a a1 symbol expression sect ha h
    exact Reachable.evaluateEQU a a1 symbol expression sect ha h
  · intro a a1 name ha h
    exact Reachable.resolveEntry a a1 name ha h
  · intro assembly a1 h
    exact reachable_firstPass U _ _ (Reachable.start assembly) h
  · intro a a1 order ha h
    exact reachable_resolveSymbols U a a1 order ha h
  · intro a name ha hc
    exact resolveEntry_returns a name (reachable_wellFormed U a ha) hc
  · intro a symbol value operation sectName typeOf ha hc
    obtain ⟨s, u, hs, hu⟩ := both a symbol ha hc
    simp only [evaluateUnresolved, hs, hu]
    exact ⟨_, rfl⟩
  · intro a symbol offset size sectName ha hc
    obtain ⟨s, u, hs, hu⟩ := both a symbol ha hc
    simp only [pcRelativePayload, hc, if_true, hs, hu]
    exact ⟨_, rfl⟩
  · intro a symbol byteSized offset sectName e ha hc h
    obtain ⟨s, u, hs, hu⟩ := both a symbol ha hc
    simp only [symbolPayload, hc, if_true, hs, hu, payload] at h
    by_cases hb : byteSized = true
    · by_cases hv : higherByte s.value > 0
      · simp [hb, hv, Assembler.fail] at h
        rw [← h]
      · simp [hb, hv] at h
    · simp [hb] at h

/-- C30, witness: in the state after the first pass over `Spec.farAliasLines`, which is
reachable, the UST key `A` and its dependency `X` are keys of the symbol table. -/
theorem unresolved_names_are_keys_witness :
    count "A" Spec.farAliasState.symbolTable = true ∧
    ∀ d ∈ (⟨"A", [("X", "+")], ".data"⟩ : UnresolvedSymbol).dependencies,
      count d.1 Spec.farAliasState.symbolTable = true :=
  (unresolved_names_are_keys Spec.utils).1 Spec.farAliasState
    ((unresolved_names_are_keys Spec.utils).2.2.2.1 Spec.farAliasLines Spec.farAliasState
      (by decide))
    "A" ⟨"A", [("X", "+")], ".data"⟩ (by decide)

/-! ## C31: the visiting order of resolveSymbols -/

/-- C31: the first pass over `.text` / `.equ A, B` / `.equ B, C` / `.skip 4` / `C:` succeeds
and leaves the UST entries `A` (depending on `B`) and `B` (depending on `C`), where the label
`C` has the value 4.  `resolveSymbols` succeeds for both visiting orders of the two entries,
with different results: when `B` is visited first, `A` ends up defined with the value 4 and
the dependency `(.text, +)`; when `A` is visited first, `A` stays undefined with the value 0
and the dependency `(B, +)`.  `B` is defined with the value 4 in both cases. -/
theorem resolveSymbols_depends_on_order :
    firstPass Spec.utils (init Spec.laterLabelLines) = .ok Spec.laterLabelState ∧
    Spec.laterLabelState.UST.map Prod.fst = ["A", "B"] ∧
    resolution Spec.laterLabelState "C" = (some (4, true), none) ∧
    (∃ a2, resolveSymbols Spec.laterLabelState ["B", "A"] = .ok a2 ∧
      resolution a2 "A" = (some (4, true), some [(".text", "+")]) ∧
      resolution a2 "B" = (some (4, true), some [(".text", "+")])) ∧
    (∃ a2, resolveSymbols Spec.laterLabelState ["A", "B"] = .ok a2 ∧
      resolution a2 "A" = (some (0, false), some [("B", "+")]) ∧
      resolution a2 "B" = (some (4, true), some [(".text", "+")])) := by
  refine ⟨?_, ?_, ?_, ⟨okOr Spec.laterLabelState
      (resolveSymbols Spec.laterLabelState ["B", "A"]), ?_, ?_, ?_⟩,
    ⟨okOr Spec.laterLabelState (resolveSymbols Spec.laterLabelState ["A", "B"]), ?_, ?_, ?_⟩⟩ <;>
    decide

/-! ## C33 and C36: dependency lists of two-term expressions -/

/-- The statement `if (UST.count(term)) UST[symbol]->dependencies = UST[term]->dependencies;`
of `evaluateEQU`: when the term is a key of UST, the dependency list of the symbol becomes the
list of the term, whatever the list held before and whatever the operation is. -/
theorem inheritOrPush_inherits (a : Assembler) (symbol term operation : String)
    (constant : Bool) (u t : UnresolvedSymbol) (hu : find? symbol a.UST = some u)
    (ht : find? term a.UST = some t) :
    inheritOrPush a symbol term operation constant =
      .ok { a with UST := update symbol { u with dependencies := t.dependencies } a.UST } := by
  simp [inheritOrPush, hu, ht]

/-- C33: on `.text` / `.equ B, X` / `.equ N, Y + B` the first pass succeeds; `B` is a UST
symbol with the dependency list `[(X, +)]` and `Y` is an unknown symbol, so the contributions
of the two terms are `[(Y, +)]` and `[(X, +)]`.  The dependency list recorded for `N` is
`[(X, +)]`: the edge of the first term is lost.  With the terms exchanged (`B + Y`) the list
is `[(X, +), (Y, +)]`.  In general the statement that records a term which is a key of UST
replaces the dependency list of the symbol by the list of the term. -/
theorem equ_second_term_replaces_dependencies :
    (∃ a, firstPass Spec.utils (init Spec.secondTermAliasLines) = .ok a ∧
      find? "B" a.UST = some ⟨"B", [("X", "+")], ".text"⟩ ∧
      count "Y" a.UST = false ∧
      (find? "Y" a.symbolTable).map Symbol.type = some .EXTERN ∧
      find? "N" a.UST = some ⟨"N", [("X", "+")], ".text"⟩) ∧
    (∃ a, firstPass Spec.utils (init Spec.firstTermAliasLines) = .ok a ∧
      find? "N" a.UST = some ⟨"N", [("X", "+"), ("Y", "+")], ".text"⟩) ∧
    (∀ (a : Assembler) (symbol term operation : String) (constant : Bool)
      (u t : UnresolvedSymbol), find? symbol a.UST = some u → find? term a.UST = some t →
      inheritOrPush a symbol term operation constant =
        .ok { a with UST := update symbol { u with dependencies := t.dependencies } a.UST }) := by
  refine ⟨⟨Spec.afterFirstPass Spec.secondTermAliasLines, ?_, ?_, ?_, ?_, ?_⟩,
    ⟨Spec.afterFirstPass Spec.firstTermAliasLines, ?_, ?_⟩, ?_⟩
  all_goals first
    | decide
    | exact fun a symbol term operation constant u t hu ht =>
        inheritOrPush_inherits a symbol term operation constant u t hu ht

/-- C36: on `.text` / `.equ B, X` / `.equ N, 5 - B` the first pass succeeds; `B` is a UST
symbol with value 0 and the dependency list `[(X, +)]`.  `N` is recorded with the value 5 and
the dependency list `[(X, +)]`, the list of `B` with its signs kept, which denotes `5 + X`;
the line `.equ N, 5 + B` records the same value and the same list.  In general the statement
that records a term which is a key of UST copies the list of the term for every operation:
the results for `-` and for `+` are equal. -/
theorem equ_immediate_minus_alias_keeps_signs :
    (∃ a, firstPass Spec.utils (init Spec.immediateMinusAliasLines) = .ok a ∧
      find? "B" a.UST = some ⟨"B", [("X", "+")], ".text"⟩ ∧
      (find? "B" a.symbolTable).map Symbol.value = some 0 ∧
      (find? "N" a.symbolTable).map Symbol.value = some 5 ∧
      find? "N" a.UST = some ⟨"N", [("X", "+")], ".text"⟩) ∧
    (∃ a, firstPass Spec.utils (init Spec.immediatePlusAliasLines) = .ok a ∧
      (find? "N" a.symbolTable).map Symbol.value = some 5 ∧
      find? "N" a.UST = some ⟨"N", [("X", "+")], ".text"⟩) ∧
    (∀ (a : Assembler) (symbol term : String) (constant : Bool),
      count symbol a.UST = true → count term a.UST = true →
      inheritOrPush a symbol term "-" constant = inheritOrPush a symbol term "+" constant) := by
  refine ⟨⟨Spec.afterFirstPass Spec.immediateMinusAliasLines, ?_, ?_, ?_, ?_, ?_⟩,
    ⟨Spec.afterFirstPass Spec.immediatePlusAliasLines, ?_, ?_, ?_⟩, ?_⟩
  all_goals first
    | decide
    | skip
  intro a symbol term constant hs ht
  obtain ⟨u, hu⟩ : ∃ u, find? symbol a.UST = some u := by
    simpa [count, Option.isSome_iff_exists] using hs
  obtain ⟨t, ht'⟩ : ∃ t, find? term a.UST = some t := by
    simpa [count, Option.isSome_iff_exists] using ht
  rw [inheritOrPush_inherits a symbol term "-" constant u t hu ht',
    inheritOrPush_inherits a symbol term "+" constant u t hu ht']

/-! ## C34: the data items of the first pass and the expressions of the second pass -/

theorem countData_add (U : Utils) (queue : List String) (sp : Bool) (n k : Nat) :
    countData U queue sp (n + k) = countData U queue sp n + k := by
  induction queue generalizing sp n with
  | nil => simp [countData]
  | cons t queue ih =>
    unfold countData
    split
    · split
      · rw [show n + k + 1 = (n + 1) + k by omega]
        exact ih _ _
      · exact ih _ _
    · exact ih _ _

theorem countData_nextExpression (U : Utils) (queue : List String) (sp : Bool) (e : String)
    (n : Nat) :
    countData U queue sp n = countData U (nextExpression U queue sp e).2 true n := by
  induction queue generalizing sp e with
  | nil => simp [nextExpression, countData]
  | cons t queue ih =>
    unfold nextExpression
    by_cases ht : U.isExpression t = true
    · cases sp with
      | true => simp [ht]
      | false =>
        simp only [ht, if_true, Bool.false_eq_true, if_false]
        rw [← ih true (e ++ t)]
        simp [countData, ht]
    · simp only [ht, Bool.false_eq_true, if_false]
      rw [← ih false (e ++ t)]
      simp [countData, ht]

theorem nextExpression_head (U : Utils) (queue : List String) (sp : Bool) (e : String) :
    (nextExpression U queue sp e).2 = [] ∨
      ∃ t rest, (nextExpression U queue sp e).2 = t :: rest ∧ U.isExpression t = true := by
  induction queue generalizing sp e with
  | nil => left; simp [nextExpression]
  | cons t queue ih =>
    unfold nextExpression
    by_cases ht : U.isExpression t = true
    · cases sp with
      | true => right; exact ⟨t, queue, by simp [ht], ht⟩
      | false =>
        simp only [ht, if_true, Bool.false_eq_true, if_false]
        exact ih _ _
    · simp only [ht, Bool.false_eq_true, if_false]
      exact ih _ _

theorem nextExpression_length (U : Utils) (queue : List String) (sp : Bool) (e : String) :
    (nextExpression U queue sp e).2.length ≤ queue.length := by
  induction queue generalizing sp e with
  | nil => simp [nextExpression]
  | cons t queue ih =>
    unfold nextExpression
    split
    · split
      · simp
      · exact Nat.le_succ_of_le (ih _ _)
    · exact Nat.le_succ_of_le (ih _ _)

theorem nextExpression_length_lt (U : Utils) (t : String) (queue : List String) (e : String) :
    (nextExpression U (t :: queue) false e).2.length ≤ queue.length := by
  unfold nextExpression
  split
  · simp only [Bool.false_eq_true, if_false]
    exact nextExpression_length _ _ _ _
  · exact nextExpression_length _ _ _ _

/-- The scan of the first pass and the regrouping of the second pass agree on an operand list
that is empty or starts with an operand. -/
theorem countData_eq_groups (U : Utils) (fuel : Nat) (queue : List String)
    (hf : queue.length ≤ fuel)
    (hq : queue = [] ∨ ∃ t rest, queue = t :: rest ∧ U.isExpression t = true) :
    countData U queue true 0 = groups U fuel queue := by
  induction fuel generalizing queue with
  | zero =>
    cases queue with
    | nil => simp [countData, groups]
    | cons t queue => simp at hf
  | succ fuel ih =>
    rcases hq with rfl | ⟨t, rest, rfl, ht⟩
    · simp [countData, groups]
    · have h1 : countData U (t :: rest) true 0 = countData U rest true 0 + 1 := by
        have := countData_add U rest true 0 1
        simp only [Nat.zero_add] at this
        simp [countData, ht, this]
      have h2 : countData U rest true 0 =
          countData U (nextExpression U (t :: rest) false "").2 true 0 := by
        rw [← countData_nextExpression U (t :: rest) false "" 0]
        simp [countData, ht]
      have hlen : (nextExpression U (t :: rest) false "").2.length ≤ fuel :=
        le_trans (nextExpression_length_lt _ _ _ _) (by simpa using hf)
      rw [h1, h2, ih _ hlen (nextExpression_head _ _ _ _)]
      simp only [groups]
      omega

/-- On an operand list whose first token is no operand the regrouping of the second pass
forms one expression more than the scan of the first pass counts. -/
theorem countData_lt_groups (U : Utils) (fuel : Nat) (t : String) (rest : List String)
    (hf : (t :: rest).length ≤ fuel) (ht : U.isExpression t = false) :
    countData U (t :: rest) true 0 + 1 = groups U fuel (t :: rest) := by
  cases fuel with
  | zero => simp at hf
  | succ fuel =>
    have h2 : countData U (t :: rest) true 0 =
        countData U (nextExpression U (t :: rest) false "").2 true 0 := by
      rw [← countData_nextExpression U (t :: rest) false "" 0]
      simp [countData, ht]
    have hlen : (nextExpression U (t :: rest) false "").2.length ≤ fuel :=
      le_trans (nextExpression_length_lt _ _ _ _) (by simpa using hf)
    rw [h2, countData_eq_groups U fuel _ hlen (nextExpression_head _ _ _ _)]
    simp only [groups]
    omega

/-- The loop of `evaluateData` advances the location counter by one datum per expression. -/
theorem evaluateData_counter (U : Utils) (directive key : String) (fuel : Nat) :
    ∀ (queue : List String) (a a1 : Assembler),
      evaluateData U directive key fuel queue a = .ok a1 → queue.length ≤ fuel →
      a1.locationCounter =
        (a.locationCounter + groups U fuel queue * datumSize directive) % 65536 ∨
      (queue = [] ∧ a1 = a) := by
  induction fuel with
  | zero =>
    intro queue a a1 h hf
    cases queue with
    | nil =>
      simp [evaluateData] at h
      exact Or.inr ⟨rfl, h.symm⟩
    | cons t queue => simp at hf
  | succ fuel ih =>
    intro queue a a1 h hf
    cases queue with
    | nil =>
      simp [evaluateData] at h
      exact Or.inr ⟨rfl, h.symm⟩
    | cons t queue =>
      left
      unfold evaluateData at h
      split at h
      next expression queue1 hq =>
      split at h
      · simp at h
      · next a0 h0 =>
        obtain ⟨sec, -, -, hlc0, -⟩ := evaluate_emits _ _ _ _ _ _ h0
        have hq2 : queue1 = (nextExpression U (t :: queue) false "").2 := by rw [hq]
        have hlen : queue1.length ≤ fuel := by
          rw [hq2]
          exact le_trans (nextExpression_length_lt _ _ _ _) (by simpa using hf)
        simp only [groups]
        rw [← hq2]
        rcases ih _ _ _ h hlen with l1 | ⟨rfl, rfl⟩
        · rw [l1, hlc0, Nat.mod_add_mod]
          congr 1
          ring
        · rw [hlc0]
          simp [groups]

/-- C34: on the operand list `- 5` of `.word - 5` the scan of the first pass counts no datum,
while the regrouping loop of the second pass forms the one expression `-5` and hands it to
`evaluate`.  In general, on a list whose first token is no operand the second pass forms one
expression more than the first pass counts; the two numbers agree when the first token is an
operand; and a returning loop of the second pass advances the location counter by one datum
per expression it forms. -/
theorem countData_misses_leading_operator :
    Spec.utils.isExpression "-" = false ∧
    countData Spec.utils ["-", "5"] true 0 = 0 ∧
    nextExpression Spec.utils ["-", "5"] false "" = ("-5", []) ∧
    groups Spec.utils 2 ["-", "5"] = 1 ∧
    (∀ (U : Utils) (fuel : Nat) (t : String) (rest : List String),
      (t :: rest).length ≤ fuel → U.isExpression t = false →
      countData U (t :: rest) true 0 + 1 = groups U fuel (t :: rest)) ∧
    (∀ (U : Utils) (fuel : Nat) (t : String) (rest : List String),
      (t :: rest).length ≤ fuel → U.isExpression t = true →
      countData U (t :: rest) true 0 = groups U fuel (t :: rest)) ∧
    (∀ (U : Utils) (directive key : String) (fuel : Nat) (t : String) (rest : List String)
      (a a1 : Assembler), (t :: rest).length ≤ fuel →
      evaluateData U directive key fuel (t :: rest) a = .ok a1 →
      a1.locationCounter =
        (a.locationCounter + groups U fuel (t :: rest) * datumSize directive) % 65536) := by
  refine ⟨by decide, by decide, by decide, by decide, ?_, ?_, ?_⟩
  · intro U fuel t rest hf ht
    exact countData_lt_groups U fuel t rest hf ht
  · intro U fuel t rest hf ht
    exact countData_eq_groups U fuel _ hf (Or.inr ⟨t, rest, rfl, ht⟩)
  · intro U directive key fuel t rest a a1 hf h
    rcases evaluateData_counter U directive key fuel _ a a1 h hf with h1 | ⟨h1, -⟩
    · exact h1
    · cases h1

/-! ## C32: a round of the loop of resolveSymbols -/

theorem update_update {α : Type} (k : String) (v w : α) (t : List (String × α)) :
    update k v (update k w t) = update k v t := by
  induction t with
  | nil => rfl
  | cons e t ih =>
    obtain ⟨k', x⟩ := e
    by_cases hk : k' = k
    · simp [update, hk]
    · simp [update, hk, ih]

theorem update_eq_self {α : Type} (k : String) (v : α) (t : List (String × α))
    (h : find? k t = some v) : update k v t = t := by
  induction t with
  | nil => rfl
  | cons e t ih =>
    obtain ⟨k', x⟩ := e
    by_cases hk : k' = k
    · simp [find?, hk] at h
      simp [update, hk, h]
    · simp [find?, hk] at h
      simp [update, hk, ih h]

theorem dependencySum_congr (t t1 : List (String × Symbol)) (deps : List (String × String))
    (h : ∀ d ∈ deps, find? d.1 t1 = find? d.1 t) :
    Spec.dependencySum t1 deps = Spec.dependencySum t deps := by
  induction deps with
  | nil => rfl
  | cons d rest ih =>
    have h1 := h d (by simp)
    have h2 := ih (fun x hx => h x (by simp [hx]))
    simp only [Spec.dependencySum, h1, h2]

theorem renamedDependencies_congr (t t1 : List (String × Symbol))
    (deps : List (String × String)) (h : ∀ d ∈ deps, find? d.1 t1 = find? d.1 t) :
    Spec.renamedDependencies t1 deps = Spec.renamedDependencies t deps := by
  unfold Spec.renamedDependencies
  apply List.map_congr_left
  intro d hd
  rw [h d hd]

theorem allDefined_congr (t t1 : List (String × Symbol)) (deps : List (String × String))
    (h : ∀ d ∈ deps, find? d.1 t1 = find? d.1 t) :
    Spec.allDefined t1 deps = Spec.allDefined t deps := by
  induction deps with
  | nil => rfl
  | cons d rest ih =>
    have h1 := h d (by simp)
    have h2 := ih (fun x hx => h x (by simp [hx]))
    simp only [Spec.allDefined, List.all_cons] at h2 ⊢
    rw [h1, h2]

theorem toInt16_idem (x : Int) : toInt16 (toInt16 x) = toInt16 x := by
  unfold toInt16; omega

theorem toInt16_add_left (x y : Int) : toInt16 (toInt16 x + y) = toInt16 (x + y) := by
  unfold toInt16; omega

/-- The inner loop of `resolveSymbols` in closed form, for an entry that does not depend on
itself and whose dependencies are keys of the symbol table. -/
theorem resolveDependencies_eq (name : String) (deps : List (String × String)) :
    ∀ (a : Assembler) (e : Symbol), find? name a.symbolTable = some e →
      toInt16 e.value = e.value →
      (∀ d ∈ deps, d.1 ≠ name) → (∀ d ∈ deps, count d.1 a.symbolTable = true) →
      resolveDependencies name deps a =
        .ok ({ a with
                symbolTable := update name
                  { e with
                    value := toInt16 (e.value + Spec.dependencySum a.symbolTable deps) }
                  a.symbolTable },
             Spec.renamedDependencies a.symbolTable deps,
             Spec.allDefined a.symbolTable deps) := by
  induction deps with
  | nil =>
    intro a e he hv _ _
    have : ({ e with value := toInt16 (e.value + 0) } : Symbol) = e := by
      rw [Int.add_zero, hv]
    simp only [resolveDependencies, Spec.dependencySum, Spec.renamedDependencies,
      Spec.allDefined, List.map_nil, List.all_nil, this, update_eq_self _ _ _ he]
  | cons d rest ih =>
    intro a e he hv hne hkeys
    obtain ⟨s, hs⟩ := (count_iff _ _).1 (hkeys d (by simp))
    have hdne : d.1 ≠ name := hne d (by simp)
    have hne1 : ∀ x ∈ rest, x.1 ≠ name := fun x hx => hne x (by simp [hx])
    have hkeys1 : ∀ x ∈ rest, count x.1 a.symbolTable = true :=
      fun x hx => hkeys x (by simp [hx])
    unfold resolveDependencies
    simp only [hs, he]
    by_cases hdef : s.defined = true
    · simp only [hdef, if_true]
      have hfind : ∀ x ∈ rest, find? x.1
          (update name { e with value := applyOperation d.2 e.value s.value } a.symbolTable) =
          find? x.1 a.symbolTable :=
        fun x hx => find?_update_ne _ _ _ _ (hne1 x hx)
      have hkeys2 : ∀ x ∈ rest, count x.1
          (update name { e with value := applyOperation d.2 e.value s.value } a.symbolTable) =
          true := fun x hx => by rw [count_update]; exact hkeys1 x hx
      have hv1 : toInt16 (applyOperation d.2 e.value s.value) =
          applyOperation d.2 e.value s.value := by
        unfold applyOperation
        split <;> exact toInt16_idem _
      rw [ih
          { a with
            symbolTable :=
              update name { e with value := applyOperation d.2 e.value s.value } a.symbolTable }
          { e with value := applyOperation d.2 e.value s.value }
          (find?_update_self _ _ _ _ he) hv1 hne1 hkeys2]
      simp only [update_update, dependencySum_congr _ _ _ hfind,
        renamedDependencies_congr _ _ _ hfind, allDefined_congr _ _ _ hfind]
      have hval : toInt16 (applyOperation d.2 e.value s.value +
          Spec.dependencySum a.symbolTable rest) =
          toInt16 (e.value + Spec.dependencySum a.symbolTable (d :: rest)) := by
        simp only [Spec.dependencySum, hs, hdef, if_true]
        unfold applyOperation
        split
        · rw [toInt16_add_left]; congr 1; ring
        · rw [toInt16_add_left]; congr 1; ring
      rw [hval]
      simp [Spec.renamedDependencies, Spec.allDefined, hs, hdef]
    · simp only [hdef, Bool.false_eq_true, if_false]
      rw [ih a e he hv hne1 hkeys1]
      simp [Spec.dependencySum, Spec.renamedDependencies, Spec.allDefined, hs, hdef]

/-- The loop body of `resolveSymbols` in closed form. -/
theorem resolveEntry_eq (a : Assembler) (name : String) (u : UnresolvedSymbol) (e : Symbol)
    (hu : find? name a.UST = some u) (he : find? name a.symbolTable = some e)
    (hv : toInt16 e.value = e.value)
    (hne : ∀ d ∈ u.dependencies, d.1 ≠ name)
    (hkeys : ∀ d ∈ u.dependencies, count d.1 a.symbolTable = true) :
    resolveEntry a name = .ok (Spec.visited a name u e) := by
  unfold resolveEntry
  simp only [hu, resolveDependencies_eq name u.dependencies a e he hv hne hkeys,
    find?_update_self _ _ _ _ he, update_update]
  rfl

/-- A round of the loop of `resolveSymbols` for another entry leaves a UST entry as it is. -/
theorem resolveEntry_unresolved (a a1 : Assembler) (k name : String) (hwf : WellFormed a)
    (h : resolveEntry a k = .ok a1) (hk : name ≠ k) :
    find? name a1.UST = find? name a.UST := by
  unfold resolveEntry at h
  split at h
  · simp [Assembler.fail] at h
  · next u hu =>
    split at h
    · simp at h
    · next a2 deps1 defined h2 =>
      obtain ⟨-, u1, -, -, -⟩ := resolveDependencies_spec _ _ _ _ _ _ hwf h2
      split at h
      · simp [Assembler.fail] at h
      · simp at h
        subst h
        simp only
        rw [find?_update_ne _ _ _ _ hk, u1]

theorem resolveLoop_unresolved (pre : List String) :
    ∀ (a a0 : Assembler) (name : String), WellFormed a → resolveLoop pre a = .ok a0 →
      name ∉ pre → WellFormed a0 ∧ find? name a0.UST = find? name a.UST := by
  induction pre with
  | nil =>
    intro a a0 name hwf h _
    simp [resolveLoop] at h
    subst h
    exact ⟨hwf, rfl⟩
  | cons k rest ih =>
    intro a a0 name hwf h hn
    unfold resolveLoop at h
    split at h
    · simp at h
    · next a1 h1 =>
      have hk : name ≠ k := fun e => hn (by simp [e])
      obtain ⟨w, e0⟩ := ih a1 a0 name (resolved_resolveEntry _ _ _ hwf h1).1.wf h
        (fun hm => hn (by simp [hm]))
      exact ⟨w, e0.trans (resolveEntry_unresolved _ _ _ _ hwf h1 hk)⟩

theorem find?_mem {α : Type} (k : String) (v : α) (t : List (String × α))
    (h : find? k t = some v) : (k, v) ∈ t := by
  induction t with
  | nil => simp [find?] at h
  | cons e t ih =>
    obtain ⟨k', x⟩ := e
    by_cases hk : k' = k
    · simp [find?, hk] at h
      simp [hk, h]
    · simp [find?, hk] at h
      simp [ih h]

/-- When `hasCycle` answers no, no UST entry names its own key among its dependencies. -/
theorem hasCycle_no_self_dependency (a : Assembler) (name : String) (u : UnresolvedSymbol)
    (hc : a.hasCycle a.UST = some false) (hu : find? name a.UST = some u) :
    ∀ d ∈ u.dependencies, d.1 ≠ name := by
  intro d hd hname
  have hinv : MarksInv a.UST ⟨[], []⟩ := ⟨by simp, by simp, by simp, by simp⟩
  obtain ⟨b, hrun, -, hf⟩ := hasCycleLoop_spec a (a.UST.length + 1) (Nat.lt_succ_self _)
    a.UST ⟨[], []⟩ hinv (by simp)
  have hb : b = false := by
    unfold hasCycle at hc
    rw [hrun] at hc
    simpa using hc
  have hkey : count name a.UST = true := (count_iff _ _).2 ⟨u, hu⟩
  refine hf hb (name, u) (find?_mem _ _ _ hu) hkey (Relation.TransGen.single ?_)
  exact ⟨u, hu, List.mem_map.2 ⟨d, hd, hname⟩, hkey⟩

theorem resolveLoop_append (pre : List String) (name : String) :
    ∀ (a a0 : Assembler), resolveLoop pre a = .ok a0 →
      resolveLoop (pre ++ [name]) a = resolveEntry a0 name := by
  induction pre with
  | nil =>
    intro a a0 h
    simp [resolveLoop] at h
    subst h
    simp only [List.nil_append, resolveLoop]
    cases resolveEntry a name <;> rfl
  | cons k rest ih =>
    intro a a0 h
    unfold resolveLoop at h
    split at h
    · simp at h
    · next a1 h1 =>
      simp only [List.cons_append, resolveLoop, h1]
      exact ih a1 a0 h

/-- C32: in a state `a` with the invariant of the tables in which `hasCycle` answers no, let
the loop of `resolveSymbols` have visited the entries `pre` and reached the state `a0`, and
let `name` be a key of UST not visited yet, with entry `u` and symbol `e` (an `int16_t`
value).  Then the visit of `name` returns, and the state after it is `Spec.visited`: the value
of the symbol is the value before plus the signed sum, modulo 2^16, of the values of the
dependencies defined in `a0`; those dependencies are renamed to their sections with the sign
kept and the others are left; the symbol is defined if and only if all dependencies are;
every other entry of the symbol table and every other field of the symbol are as before. -/
theorem resolveSymbols_visit (a a0 : Assembler) (pre : List String) (name : String)
    (u : UnresolvedSymbol) (e : Symbol)
    (hwf : WellFormed a) (hc : a.hasCycle a.UST = some false)
    (hpre : resolveLoop pre a = .ok a0) (hn : name ∉ pre)
    (hu : find? name a0.UST = some u) (he : find? name a0.symbolTable = some e)
    (hv : toInt16 e.value = e.value) :
    resolveEntry a0 name = .ok (Spec.visited a0 name u e) ∧
    resolveLoop (pre ++ [name]) a = .ok (Spec.visited a0 name u e) ∧
    find? name (Spec.visited a0 name u e).symbolTable = some
      { e with
        value := toInt16 (e.value + Spec.dependencySum a0.symbolTable u.dependencies),
        defined := Spec.allDefined a0.symbolTable u.dependencies } ∧
    find? name (Spec.visited a0 name u e).UST = some
      { u with dependencies := Spec.renamedDependencies a0.symbolTable u.dependencies } ∧
    ∀ k, k ≠ name →
      find? k (Spec.visited a0 name u e).symbolTable = find? k a0.symbolTable ∧
      find? k (Spec.visited a0 name u e).UST = find? k a0.UST := by
  obtain ⟨hwf0, hu0⟩ := resolveLoop_unresolved pre a a0 name hwf hpre hn
  have hne : ∀ d ∈ u.dependencies, d.1 ≠ name :=
    hasCycle_no_self_dependency a name u hc (hu0 ▸ hu)
  have hkeys : ∀ d ∈ u.dependencies, count d.1 a0.symbolTable = true :=
    (hwf0.unresolved name u hu).2
  have h1 := resolveEntry_eq a0 name u e hu he hv hne hkeys
  refine ⟨h1, ?_, ?_, ?_, ?_⟩
  · rw [resolveLoop_append pre name a a0 hpre, h1]
  · exact find?_update_self _ _ _ _ he
  · exact find?_update_self _ _ _ _ hu
  · intro k hk
    exact ⟨find?_update_ne _ _ _ _ hk, find?_update_ne _ _ _ _ hk⟩

/-- C32, witness: over `Spec.laterLabelLines` with the visiting order `B`, `A`, the visit of
`A` finds its dependency `B` defined with value 4: `A` gets the value 0 + 4, is defined, and
its dependency is renamed to `.text`. -/
theorem resolveSymbols_visit_witness :
    resolveEntry Spec.laterLabelMidState "A" =
      .ok (Spec.visited Spec.laterLabelMidState "A" ⟨"A", [("B", "+")], ".text"⟩
        ⟨"A", ".text", 0, .LOCAL, .ALIAS, false, 2⟩) ∧
    resolution (Spec.visited Spec.laterLabelMidState "A" ⟨"A", [("B", "+")], ".text"⟩
        ⟨"A", ".text", 0, .LOCAL, .ALIAS, false, 2⟩) "A" =
      (some (4, true), some [(".text", "+")]) :=
  ⟨(resolveSymbols_visit Spec.laterLabelState Spec.laterLabelMidState ["B"] "A"
      ⟨"A", [("B", "+")], ".text"⟩ ⟨"A", ".text", 0, .LOCAL, .ALIAS, false, 2⟩
      (reachable_wellFormed Spec.utils _
        (reachable_firstPass Spec.utils (init Spec.laterLabelLines) _ (Reachable.start _)
          (show firstPass Spec.utils (init Spec.laterLabelLines) = .ok Spec.laterLabelState
            by decide)))
      (by decide) (by decide) (by decide) (by decide) (by decide) (by decide)).1,
   by decide⟩

/-! ## C35: labels on successive lines -/

/-- C35, counterexample: inside the section `.text`, the label-only line `L1:` followed by the
line `L2:` is rejected by the first pass with the double-label error on the second label
line; the two label lines are accepted, with the same location counter, when another line
stands between them. -/
theorem label_after_label_line_rejected :
    firstPass Spec.utils (init Spec.twoLabelLines) = .error ⟨3, .doubleLabel⟩ ∧
    ∃ a s1 s2, firstPass Spec.utils (init Spec.separatedLabelLines) = .ok a ∧
      find? "L1" a.symbolTable = some s1 ∧ find? "L2" a.symbolTable = some s2 ∧
      s1.value = s2.value ∧ s1.type = .LABEL ∧ s2.type = .LABEL ∧
      s1.scope = .LOCAL ∧ s2.scope = .LOCAL := by
  refine ⟨by decide, Spec.afterFirstPass Spec.separatedLabelLines,
    ⟨"L1", ".text", 0, .LOCAL, .LABEL, true, 1⟩, ⟨"L2", ".text", 0, .LOCAL, .LABEL, true, 2⟩,
    by decide, by decide, by decide, by decide, by decide, by decide, by decide, by decide⟩

/-- C35, amended: for every lexer, when the first pass accepts a line that consists of a label
only, the label is entered as a defined LOCAL symbol of type LABEL whose value is the location
counter, the location counter and the current section stay, and the flag `labelDefined` stays
set: the next line, when it begins with a label, is rejected with the double-label error,
whatever follows the label. -/
theorem label_line_then_label_line (U : Utils) (p p1 : Pass) (token token2 : String)
    (queue2 : List String) (hlabel : (U.getTokenType token).1 = .LABEL)
    (h : firstPassLine U p [token] = .ok p1)
    (hlabel2 : (U.getTokenType token2).1 = .LABEL) :
    firstPassLine U p1 (token2 :: queue2) = .error ⟨p1.asm.line + 1, .doubleLabel⟩ ∧
    p1.labelDefined = true ∧ p1.currentSection = p.currentSection ∧
    p1.asm.line = p.asm.line + 1 ∧ p1.asm.locationCounter = p.asm.locationCounter ∧
    ∃ key sec s, p.currentSection = some key ∧ find? key p.asm.sectionTable = some sec ∧
      find? (group (U.getTokenType token).2 1) p1.asm.symbolTable = some s ∧
      s.sect = sec.name ∧ s.value = toInt16 p.asm.locationCounter ∧ s.scope = .LOCAL ∧
      s.type = .LABEL ∧ s.defined = true := by
  obtain ⟨ms, hms⟩ : ∃ ms, U.getTokenType token = (.LABEL, ms) :=
    ⟨(U.getTokenType token).2, by rw [← hlabel]⟩
  obtain ⟨ms2, hms2⟩ : ∃ ms2, U.getTokenType token2 = (.LABEL, ms2) :=
    ⟨(U.getTokenType token2).2, by rw [← hlabel2]⟩
  simp only [firstPassLine, hms] at h
  split at h
  · simp [Assembler.fail] at h
  · split at h
    · simp [Assembler.fail] at h
    · next key hkey =>
      split at h
      · simp [Assembler.fail] at h
      · next sec hsec =>
        split at h
        · simp at h
        · next a1 h1 =>
          simp at h
          subst h
          obtain ⟨-, -, ⟨s, hs, e1, e2, e3, e4, e5⟩, -⟩ := addSymbol_lookup _ _ _ _ _ _ _ _ h1
          have hf := addSymbol_frame _ _ _ _ _ _ _ _ h1
          have hlc := (addSymbol_locationCounter _ _ _ _ _ _ _ _ h1).1
          have hline : a1.line = p.asm.line + 1 := by rw [hf]
          refine ⟨?_, rfl, rfl, hline, hlc, key, sec, s, hkey, hsec, ?_, e1, e2, e3, e4, e5⟩
          · simp [firstPassLine, hms2, Assembler.fail]
          · rw [hms]; exact hs

/-- C35, witness: after `.text` the lexer written from the specification accepts the line
`L1:`, and the line `L2:` after it is rejected with the double-label error. -/
theorem label_line_then_label_line_witness :
    firstPassLine Spec.utils Spec.labelLinePass ["L2:"] = .error ⟨3, .doubleLabel⟩ ∧
    (find? "L1" Spec.labelLinePass.asm.symbolTable).map Symbol.value = some 0 :=
  ⟨(label_line_then_label_line Spec.utils Spec.openTextPass Spec.labelLinePass "L1:" "L2:" []
      (by decide) (by decide) (by decide)).1, by decide⟩

/-! ## C38: directives before the first section -/

theorem firstPassGlobalExtern_line (U : Utils) (directive : String) (queue : List String) :
    ∀ (a a1 : Assembler), firstPassGlobalExtern U directive queue a = .ok a1 →
      a1.line = a.line := by
  induction queue with
  | nil =>
    intro a a1 h
    simp [firstPassGlobalExtern] at h
    rw [← h]
  | cons t queue ih =>
    intro a a1 h
    unfold firstPassGlobalExtern at h
    split at h
    · simp [Assembler.fail] at h
    · split at h
      · split at h
        · split at h
          · simp [Assembler.fail] at h
          · have h3 := ih _ _ h
            exact h3
        · split at h
          · simp at h
          · next a2 h2 =>
            rw [ih _ _ h, addSymbol_frame _ _ _ _ _ _ _ _ h2]
      · split at h
        · simp at h
        · next a2 h2 =>
          rw [ih _ _ h, addSymbol_frame _ _ _ _ _ _ _ _ h2]

/-- Outside a section a line whose first token is a directive is rejected. -/
theorem firstPassLine_directive_outside (U : Utils) (p : Pass) (token : String)
    (queue : List String) (hsec : p.currentSection = none)
    (hdir : (U.getTokenType token).1 = .DIRECTIVE) :
    firstPassLine U p (token :: queue) =
      Assembler.fail { p.asm with line := p.asm.line + 1 } .directiveOutsideSection := by
  obtain ⟨ms, hms⟩ : ∃ ms, U.getTokenType token = (.DIRECTIVE, ms) :=
    ⟨(U.getTokenType token).2, by rw [← hdir]⟩
  simp [firstPassLine, hms, firstPassSwitch, firstPassDirective, hsec, Assembler.fail]

/-- Outside a section the first pass accepts only lines that begin with `.global`/`.extern`
or with a section directive; after a line of the first kind no section is open and the line
counter has advanced by one. -/
theorem firstPassLine_outside (U : Utils) (p p1 : Pass) (tokens : List String)
    (hsec : p.currentSection = none) (h : firstPassLine U p tokens = .ok p1) :
    ∃ token queue, tokens = token :: queue ∧
      (((U.getTokenType token).1 = .GLOBAL_EXTERN ∧ p1.currentSection = none ∧
          p1.asm.line = p.asm.line + 1 ∧ p1.labelDefined = false) ∨
        (U.getTokenType token).1 = .SECTION) := by
  unfold firstPassLine at h
  simp only at h
  split at h
  · simp [Assembler.fail] at h
  · next token queue =>
    refine ⟨token, queue, rfl, ?_⟩
    split at h
    · next ms hms =>
      split at h
      · simp [Assembler.fail] at h
      · simp [hsec, Assembler.fail] at h
    · next type ms hne hms =>
      unfold firstPassSwitch at h
      simp only [hsec] at h
      cases type with
      | GLOBAL_EXTERN =>
        left
        simp only at h
        split at h
        · simp at h
        · next a1 cs heq =>
          split at heq
          · simp [Assembler.fail] at heq
          · split at heq
            · simp at heq
            · next a2 h2 =>
              simp at heq h
              obtain ⟨e1, e2⟩ := heq
              subst h
              refine ⟨by rw [hms], e2.symm, ?_, rfl⟩
              rw [← e1, firstPassGlobalExtern_line _ _ _ _ _ h2]
        · next a1 cs t q heq =>
          split at heq
          · simp [Assembler.fail] at heq
          · split at heq
            · simp at heq
            · simp at heq
      | SECTION => right; rw [hms]
      | LABEL => exact absurd rfl hne
      | DIRECTIVE => simp [firstPassDirective, Assembler.fail] at h
      | INSTRUCTION => simp [firstPassInstruction, Assembler.fail] at h
      | _ => simp [Assembler.fail] at h

theorem passLoop_append_error (step : Pass → List String → Except AssemblingException Pass)
    (pre : List (List String)) (line : List String) (post : List (List String)) :
    ∀ (p0 p : Pass) (e : AssemblingException), passLoop step pre p0 = .ok p →
      step p line = .error e → passLoop step (pre ++ line :: post) p0 = .error e := by
  induction pre with
  | nil =>
    intro p0 p e h he
    simp [passLoop] at h
    subst h
    simp [passLoop, he]
  | cons l pre ih =>
    intro p0 p e h he
    unfold passLoop at h
    split at h
    · simp at h
    · next p1 h1 =>
      simp only [List.cons_append, passLoop, h1]
      exact ih p1 p e h he

theorem passLoop_prefix_error (step : Pass → List String → Except AssemblingException Pass)
    (pre : List (List String)) (rest : List (List String)) :
    ∀ (p0 : Pass) (e : AssemblingException), passLoop step pre p0 = .error e →
      passLoop step (pre ++ rest) p0 = .error e := by
  induction pre with
  | nil => intro p0 e h; simp [passLoop] at h
  | cons l pre ih =>
    intro p0 e h
    unfold passLoop at h
    split at h
    · next e1 h1 =>
      simp at h
      subst h
      simp [passLoop, h1]
    · next p1 h1 =>
      simp only [List.cons_append, passLoop, h1]
      exact ih p1 e h

/-- Before the first section directive no section is open and the line counter counts the
lines. -/
theorem passLoop_outside (U : Utils) (pre : List (List String)) :
    ∀ (p0 p : Pass), p0.currentSection = none → noSectionDirective U pre = true →
      passLoop (firstPassLine U) pre p0 = .ok p →
      p.currentSection = none ∧ p.asm.line = p0.asm.line + pre.length := by
  induction pre with
  | nil =>
    intro p0 p hsec _ h
    simp [passLoop] at h
    subst h
    exact ⟨hsec, rfl⟩
  | cons l pre ih =>
    intro p0 p hsec hpre h
    unfold passLoop at h
    split at h
    · simp at h
    · next p1 h1 =>
      obtain ⟨token, queue, hl, hcase⟩ := firstPassLine_outside U p0 p1 l hsec h1
      subst hl
      simp only [noSectionDirective, List.all_cons, Bool.and_eq_true, decide_eq_true_eq] at hpre
      rcases hcase with ⟨-, hs1, hline1, -⟩ | hsection
      · obtain ⟨r1, r2⟩ := ih p1 p hs1 hpre.2 h
        refine ⟨r1, ?_⟩
        rw [r2, hline1, List.length_cons]
        omega
      · exact absurd hsection hpre.1

/-- C38: let the lines `pre` before a line that begins with a directive (`.equ`, `.align`,
`.skip`, `.byte`, `.word`) hold no section directive.  Then the first pass fails.  When it
accepts the lines `pre`, no section is open after them and it fails on the directive line,
whatever the operands are: the exception with the kind "directives are only allowed inside a
section" is raised from the state reached before the line with the line counter advanced, so
before any table is touched.  Outside a section the first pass accepts no line but those that
begin with `.global`/`.extern` or with a section directive. -/
theorem directive_before_first_section (U : Utils) (a : Assembler)
    (pre post : List (List String)) (token : String) (queue : List String)
    (hlines : a.assembly = pre ++ (token :: queue) :: post)
    (hpre : noSectionDirective U pre = true)
    (hdir : (U.getTokenType token).1 = .DIRECTIVE) :
    (∃ e, firstPass U a = .error e) ∧
    (∀ p, passLoop (firstPassLine U) pre ⟨{ a with line := 0 }, false, none⟩ = .ok p →
      p.currentSection = none ∧ p.asm.line = pre.length ∧
      firstPassLine U p (token :: queue) =
        Assembler.fail { p.asm with line := pre.length + 1 } .directiveOutsideSection ∧
      firstPass U a = .error ⟨pre.length + 1, .directiveOutsideSection⟩) ∧
    (∀ (p p1 : Pass) (tokens : List String), p.currentSection = none →
      firstPassLine U p tokens = .ok p1 →
      ∃ t q, tokens = t :: q ∧
        ((U.getTokenType t).1 = .GLOBAL_EXTERN ∨ (U.getTokenType t).1 = .SECTION)) := by
  have hrun : ∀ p, passLoop (firstPassLine U) pre ⟨{ a with line := 0 }, false, none⟩ = .ok p →
      p.currentSection = none ∧ p.asm.line = pre.length ∧
      firstPassLine U p (token :: queue) =
        Assembler.fail { p.asm with line := pre.length + 1 } .directiveOutsideSection ∧
      firstPass U a = .error ⟨pre.length + 1, .directiveOutsideSection⟩ := by
    intro p hp
    obtain ⟨hs, hline⟩ := passLoop_outside U pre _ p rfl hpre hp
    have hline1 : p.asm.line = pre.length := by simpa using hline
    have hfail := firstPassLine_directive_outside U p token queue hs hdir
    rw [hline1] at hfail
    refine ⟨hs, hline1, hfail, ?_⟩
    have hall := passLoop_append_error (firstPassLine U) pre (token :: queue) post _ p
      ⟨pre.length + 1, .directiveOutsideSection⟩ hp hfail
    rw [← hlines] at hall
    simp only [firstPass, hall]
  refine ⟨?_, hrun, ?_⟩
  · cases hp : passLoop (firstPassLine U) pre ⟨{ a with line := 0 }, false, none⟩ with
    | ok p => exact ⟨_, (hrun p hp).2.2.2⟩
    | error e =>
      refine ⟨e, ?_⟩
      have hall := passLoop_prefix_error (firstPassLine U) pre ((token :: queue) :: post) _ e hp
      rw [← hlines] at hall
      simp only [firstPass, hall]
  · intro p p1 tokens hs h
    obtain ⟨t, q, e, hcase⟩ := firstPassLine_outside U p p1 tokens hs h
    refine ⟨t, q, e, ?_⟩
    rcases hcase with ⟨h1, -⟩ | h2
    · exact Or.inl h1
    · exact Or.inr h2

/-- C38, witness: with the lexer written from the specification the lines `.extern A` and
`.global B` are accepted before any section is opened, and the line `.word 1` after them makes
the first pass fail on line 3; each of the five directives fails as the first line of a
program. -/
theorem directive_before_first_section_witness :
    firstPass Spec.utils (init Spec.wordOutsideLines) =
      .error ⟨3, .directiveOutsideSection⟩ ∧
    (∃ p, passLoop (firstPassLine Spec.utils) [[".extern", "A"], [".global", "B"]]
      ⟨init Spec.wordOutsideLines, false, none⟩ = .ok p) ∧
    firstPass Spec.utils (init [[".equ", "A", "1"]]) = .error ⟨1, .directiveOutsideSection⟩ ∧
    firstPass Spec.utils (init [[".align", "2"]]) = .error ⟨1, .directiveOutsideSection⟩ ∧
    firstPass Spec.utils (init [[".skip", "4"]]) = .error ⟨1, .directiveOutsideSection⟩ ∧
    firstPass Spec.utils (init [[".byte", "1"]]) = .error ⟨1, .directiveOutsideSection⟩ ∧
    firstPass Spec.utils (init [[".word", "1"]]) = .error ⟨1, .directiveOutsideSection⟩ :=
  ⟨((directive_before_first_section Spec.utils (init Spec.wordOutsideLines)
      [[".extern", "A"], [".global", "B"]] [[".text"]] ".word" ["1"]
      (by decide) (by decide) (by decide)).2.1
      (okOr ⟨init Spec.wordOutsideLines, false, none⟩
        (passLoop (firstPassLine Spec.utils) [[".extern", "A"], [".global", "B"]]
          ⟨init Spec.wordOutsideLines, false, none⟩))
      (by decide)).2.2.2,
   ⟨okOr ⟨init Spec.wordOutsideLines, false, none⟩
      (passLoop (firstPassLine Spec.utils) [[".extern", "A"], [".global", "B"]]
        ⟨init Spec.wordOutsideLines, false, none⟩), by decide⟩,
   by decide, by decide, by decide, by decide, by decide⟩

/-! ## C37: a section is opened once -/

theorem symbolsOnly_refl (a : Assembler) : SymbolsOnly a a := rfl

theorem symbolsOnly_trans (a a1 a2 : Assembler) (h1 : SymbolsOnly a a1)
    (h2 : SymbolsOnly a1 a2) : SymbolsOnly a a2 := by
  unfold SymbolsOnly at *
  rw [h2, h1]

theorem symbolsOnly_addSymbol (a a1 : Assembler) (name sect : String) (value : Int)
    (scope : ScopeType) (type : SymbolType) (defined : Bool)
    (h : a.addSymbol name sect value scope type defined = .ok a1) : SymbolsOnly a a1 := by
  have := addSymbol_frame _ _ _ _ _ _ _ _ h
  unfold SymbolsOnly
  rw [this]

theorem symbolsOnly_of_eq (a a1 : Assembler)
    (h : a1 = { a with symbolTable := a1.symbolTable, UST := a1.UST }) : SymbolsOnly a a1 := h

theorem symbolsOnly_insertUnresolved (a : Assembler) (symbol sect : String) :
    SymbolsOnly a (a.insertUnresolved symbol sect) := by
  unfold insertUnresolved SymbolsOnly
  split <;> rfl

theorem symbolsOnly_inheritOrPush (a a1 : Assembler) (symbol term operation : String)
    (constant : Bool) (h : inheritOrPush a symbol term operation constant = .ok a1) :
    SymbolsOnly a a1 := by
  unfold inheritOrPush at h
  unfold SymbolsOnly
  split at h
  · simp [Assembler.fail] at h
  · split at h
    · simp at h; subst h; rfl
    · split at h
      · simp at h; subst h; rfl
      · simp at h; subst h; rfl

theorem symbolsOnly_equTerm (a a1 : Assembler) (symbol term sectName : String) (value : Int)
    (operation : String) (r : Option (Int × Bool × String))
    (h : equTerm a symbol term sectName value operation = .ok (a1, r)) : SymbolsOnly a a1 := by
  unfold equTerm at h
  split at h
  · split at h
    · simp [Assembler.fail] at h
    · simp at h; obtain ⟨rfl, -⟩ := h; exact symbolsOnly_refl _
  · split at h
    · split at h
      · split at h
        · split at h
          · simp at h
          · next a0 h0 =>
            simp at h; obtain ⟨rfl, -⟩ := h
            exact symbolsOnly_addSymbol _ _ _ _ _ _ _ _ h0
        · simp at h; obtain ⟨rfl, -⟩ := h; exact symbolsOnly_refl _
      · simp at h; obtain ⟨rfl, -⟩ := h; exact symbolsOnly_refl _
    · split at h
      · simp at h
      · next a0 h0 =>
        simp at h; obtain ⟨rfl, -⟩ := h
        exact symbolsOnly_addSymbol _ _ _ _ _ _ _ _ h0

theorem symbolsOnly_equAlias (a a1 : Assembler) (symbol term sectName sect : String)
    (value : Int) (operation edge : String)
    (h : equAlias a symbol term sectName sect value operation edge = .ok a1) :
    SymbolsOnly a a1 := by
  unfold equAlias at h
  split at h
  · simp at h
  · next a0 h0 =>
    simp at h; subst h
    exact symbolsOnly_equTerm _ _ _ _ _ _ _ _ h0
  · next a0 value1 defined name h0 =>
    have s0 := symbolsOnly_equTerm _ _ _ _ _ _ _ _ h0
    split at h
    · simp at h
    · next a2 h2 =>
      have s2 := symbolsOnly_addSymbol _ _ _ _ _ _ _ _ h2
      have s3 := symbolsOnly_insertUnresolved a2 symbol sect
      have s4 := symbolsOnly_inheritOrPush _ _ _ _ _ _ h
      exact symbolsOnly_trans _ _ _ s0 (symbolsOnly_trans _ _ _ s2
        (symbolsOnly_trans _ _ _ s3 s4))

theorem symbolsOnly_equFirst (a a1 : Assembler) (first : String) (symbol1 : Option Symbol)
    (r : Int × Bool × Bool × String) (h : equFirst a first symbol1 = .ok (a1, r)) :
    SymbolsOnly a a1 := by
  unfold equFirst at h
  split at h
  · split at h
    · simp at h; obtain ⟨rfl, -⟩ := h; exact symbolsOnly_refl _
    · split at h
      · simp at h; obtain ⟨rfl, -⟩ := h; exact symbolsOnly_refl _
      · simp at h; obtain ⟨rfl, -⟩ := h; exact symbolsOnly_refl _
  · split at h
    · simp at h
    · next a0 h0 =>
      simp at h; obtain ⟨rfl, -⟩ := h
      exact symbolsOnly_addSymbol _ _ _ _ _ _ _ _ h0

theorem symbolsOnly_equSecond (a a1 : Assembler) (second operation : String)
    (symbol2 : Option Symbol) (value : Int) (defined : Bool) (r : Int × Bool × Bool × String)
    (h : equSecond a second operation symbol2 value defined = .ok (a1, r)) :
    SymbolsOnly a a1 := by
  unfold equSecond at h
  split at h
  · split at h
    · simp at h; obtain ⟨rfl, -⟩ := h; exact symbolsOnly_refl _
    · split at h
      · simp at h; obtain ⟨rfl, -⟩ := h; exact symbolsOnly_refl _
      · simp at h; obtain ⟨rfl, -⟩ := h; exact symbolsOnly_refl _
  · split at h
    · simp at h
    · next a0 h0 =>
      simp at h; obtain ⟨rfl, -⟩ := h
      exact symbolsOnly_addSymbol _ _ _ _ _ _ _ _ h0

theorem symbolsOnly_equTwoSymbols (a a1 : Assembler)
    (symbol first operation second sectName sect : String)
    (h : equTwoSymbols a symbol first operation second sectName sect = .ok a1) :
    SymbolsOnly a a1 := by
  unfold equTwoSymbols at h
  simp only at h
  split at h
  · simp at h
  · next b1 v1 d1 c1 n1 h1 =>
    have s1 := symbolsOnly_equFirst _ _ _ _ _ h1
    split at h
    · simp at h
    · next b2 v2 d2 c2 n2 h2 =>
      have s2 := symbolsOnly_equSecond _ _ _ _ _ _ _ _ h2
      split at h
      · simp at h
      · next b3 h3 =>
        have s3 := symbolsOnly_addSymbol _ _ _ _ _ _ _ _ h3
        split at h
        · simp at h
        · next b4 h4 =>
          have s4 := symbolsOnly_inheritOrPush _ _ _ _ _ _ h4
          have s5 := symbolsOnly_inheritOrPush _ _ _ _ _ _ h
          exact symbolsOnly_trans _ _ _ s1 (symbolsOnly_trans _ _ _ s2
            (symbolsOnly_trans _ _ _ s3 (symbolsOnly_trans _ _ _
              (symbolsOnly_insertUnresolved b3 symbol sect)
              (symbolsOnly_trans _ _ _ s4 s5))))

theorem symbolsOnly_evaluateEQU (U : Utils) (a a1 : Assembler)
    (symbol expression sect : String) (h : evaluateEQU U a symbol expression sect = .ok a1) :
    SymbolsOnly a a1 := by
  unfold evaluateEQU at h
  split at h
  · simp [Assembler.fail] at h
  · split at h
    · exact symbolsOnly_addSymbol _ _ _ _ _ _ _ _ h
    · exact symbolsOnly_equAlias _ _ _ _ _ _ _ _ _ h
    · simp only at h
      split at h
      · exact symbolsOnly_addSymbol _ _ _ _ _ _ _ _ h
      · exact symbolsOnly_equAlias _ _ _ _ _ _ _ _ _ h
      · simp [Assembler.fail] at h
      · exact symbolsOnly_equAlias _ _ _ _ _ _ _ _ _ h
      · split at h
        · exact symbolsOnly_addSymbol _ _ _ _ _ _ _ _ h
        · exact symbolsOnly_equTwoSymbols _ _ _ _ _ _ _ _ h
      · simp [Assembler.fail] at h
      · simp [Assembler.fail] at h
    · simp [Assembler.fail] at h

theorem symbolsOnly_firstPassGlobalExtern (U : Utils) (directive : String)
    (queue : List String) (a a1 : Assembler)
    (h : firstPassGlobalExtern U directive queue a = .ok a1) : SymbolsOnly a a1 := by
  induction queue generalizing a with
  | nil =>
    simp [firstPassGlobalExtern] at h
    subst h
    exact symbolsOnly_refl _
  | cons t queue ih =>
    unfold firstPassGlobalExtern at h
    split at h
    · simp [Assembler.fail] at h
    · split at h
      · split at h
        · split at h
          · simp [Assembler.fail] at h
          · exact symbolsOnly_trans _ _ _ (by unfold SymbolsOnly; rfl) (ih _ h)
        · split at h
          · simp at h
          · next a0 h0 =>
            exact symbolsOnly_trans _ _ _ (symbolsOnly_addSymbol _ _ _ _ _ _ _ _ h0) (ih _ h)
      · split at h
        · simp at h
        · next a0 h0 =>
          exact symbolsOnly_trans _ _ _ (symbolsOnly_addSymbol _ _ _ _ _ _ _ _ h0) (ih _ h)

theorem symbolsOnly_sectionTable (a a1 : Assembler) (h : SymbolsOnly a a1) :
    a1.sectionTable = a.sectionTable ∧ a1.line = a.line := by
  unfold SymbolsOnly at h
  exact ⟨(congrArg Assembler.sectionTable h).trans rfl, (congrArg Assembler.line h).trans rfl⟩

theorem firstPassDirective_sectionTable (U : Utils) (a a1 : Assembler)
    (currentSection : Option String) (directive : String) (queue queue1 : List String)
    (h : firstPassDirective U a currentSection directive queue = .ok (a1, queue1)) :
    a1.sectionTable = a.sectionTable := by
  unfold firstPassDirective at h
  split at h
  · simp [Assembler.fail] at h
  · next key =>
    by_cases hequ : directive = ".equ"
    · simp only [hequ, if_true] at h
      cases queue with
      | nil => simp [Assembler.fail] at h
      | cons symbol queue2 =>
        simp only at h
        split at h
        · simp [Assembler.fail] at h
        · cases queue2 with
          | nil => simp [Assembler.fail] at h
          | cons t queue3 =>
            simp only at h
            split at h
            · simp at h
            · next a0 h0 =>
              simp at h
              obtain ⟨rfl, -⟩ := h
              exact (symbolsOnly_sectionTable _ _ (symbolsOnly_evaluateEQU _ _ _ _ _ _ h0)).1
    · simp only [hequ, if_false] at h
      by_cases halign : directive = ".align"
      · simp only [halign, if_true] at h
        cases queue with
        | nil =>
          simp only at h
          split at h
          · simp [Assembler.fail] at h
          · simp at h
            obtain ⟨rfl, -⟩ := h
            rfl
        | cons token queue2 =>
          simp only at h
          split at h
          · split at h
            · simp [Assembler.fail] at h
            · simp at h
              obtain ⟨rfl, -⟩ := h
              rfl
          · simp [Assembler.fail] at h
      · simp only [halign, if_false] at h
        by_cases hskip : directive = ".skip"
        · simp only [hskip, if_true] at h
          cases queue with
          | nil =>
            simp at h
            obtain ⟨rfl, -⟩ := h
            rfl
          | cons token queue2 =>
            simp only at h
            split at h
            · cases queue2 with
              | nil =>
                simp at h
                obtain ⟨rfl, -⟩ := h
                rfl
              | cons fill queue3 =>
                simp only at h
                split at h
                · simp [Assembler.fail] at h
                · simp at h
                  obtain ⟨rfl, -⟩ := h
                  rfl
            · simp [Assembler.fail] at h
        · simp only [hskip, if_false] at h
          split at h
          · simp [Assembler.fail] at h
          · split at h
            · simp [Assembler.fail] at h
            · cases queue with
              | nil => simp [Assembler.fail] at h
              | cons token queue2 =>
                simp only at h
                split at h
                · simp at h
                  obtain ⟨rfl, -⟩ := h
                  rfl
                · split at h
                  · simp at h
                    obtain ⟨rfl, -⟩ := h
                    rfl
                  · simp [Assembler.fail] at h

theorem firstPassInstruction_sectionTable (U : Utils) (a a1 : Assembler)
    (currentSection : Option String) (ms queue queue1 : List String)
    (h : firstPassInstruction U a currentSection ms queue = .ok (a1, queue1)) :
    a1.sectionTable = a.sectionTable := by
  unfold firstPassInstruction at h
  simp only at h
  split at h
  · simp [Assembler.fail] at h
  · split at h
    · simp at h
    · simp at h
      obtain ⟨rfl, -⟩ := h
      rfl

theorem closeSection_count (a : Assembler) (currentSection : Option String) (k : String) :
    count k (closeSection a currentSection).sectionTable = count k a.sectionTable := by
  unfold closeSection
  split
  · rfl
  · split
    · rfl
    · simp only [count_update]

theorem closeSection_symbols (a : Assembler) (currentSection : Option String) :
    (closeSection a currentSection).symbolTable = a.symbolTable ∧
    (closeSection a currentSection).UST = a.UST ∧
    (closeSection a currentSection).line = a.line := by
  unfold closeSection
  split
  · exact ⟨rfl, rfl, rfl⟩
  · split <;> exact ⟨rfl, rfl, rfl⟩

/-- The result of `sectionHeader` does not depend on the state, which only supplies the line
number of an exception. -/
theorem sectionHeader_state (U : Utils) (a b : Assembler) (name : String)
    (queue : List String) (r : String × List Char × List String)
    (h : sectionHeader U a name queue = .ok r) : sectionHeader U b name queue = .ok r := by
  unfold sectionHeader at h ⊢
  split
  · rename_i hn
    simp only [hn, if_true] at h
    cases queue with
    | nil => simp [Assembler.fail] at h
    | cons nameToken queue1 =>
      simp only at h ⊢
      split at h
      · simp [Assembler.fail] at h
      · rename_i hty
        simp only [hty, if_false]
        cases queue1 with
        | nil => exact h
        | cons flagsToken queue2 =>
          simp only at h ⊢
          split at h
          · exact h
          · simp [Assembler.fail] at h
  · rename_i hn
    simp only [hn, if_false] at h
    exact h

theorem sectionHeader_error (U : Utils) (a : Assembler) (name : String)
    (queue : List String) (e : AssemblingException)
    (h : sectionHeader U a name queue = .error e) : e.kind ≠ .sectionAlreadyDefined := by
  unfold sectionHeader at h
  split at h
  · cases queue with
    | nil =>
      simp [Assembler.fail] at h
      rw [← h]; simp
    | cons nameToken queue1 =>
      simp only at h
      split at h
      · simp [Assembler.fail] at h
        rw [← h]; simp
      · cases queue1 with
        | nil => simp at h
        | cons flagsToken queue2 =>
          simp only at h
          split at h
          · simp at h
          · simp [Assembler.fail] at h
            rw [← h]; simp
  · simp at h

/-- With a defined symbol for every section, a section directive whose name is a key of the
section table is rejected by `addSymbol`. -/
theorem firstPassSection_duplicate (U : Utils) (a : Assembler) (cs : Option String)
    (name : String) (queue : List String) (name1 : String) (flags : List Char)
    (queue1 : List String) (hdef : SectionsDefined a)
    (hh : sectionHeader U a name queue = .ok (name1, flags, queue1))
    (hk : count name1 a.sectionTable = true) :
    firstPassSection U a cs name queue = .error ⟨a.line, .symbolAlreadyDefined⟩ := by
  obtain ⟨s, hs, hd⟩ := hdef name1 hk
  obtain ⟨c1, -, c3⟩ := closeSection_symbols a cs
  unfold firstPassSection
  simp only [sectionHeader_state U a _ name queue _ hh]
  have hadd : Assembler.addSymbol { closeSection a cs with locationCounter := 0 } name1 name1 0
      .LOCAL .SECTION true = .error ⟨a.line, .symbolAlreadyDefined⟩ := by
    unfold addSymbol
    simp only [c1, hs, hd, true_or, if_true, Assembler.fail, c3]
  rw [hadd]

/-- With a defined symbol for every section, a section directive does not fail in
`addSection`. -/
theorem firstPassSection_error (U : Utils) (a : Assembler) (cs : Option String)
    (name : String) (queue : List String) (e : AssemblingException)
    (hdef : SectionsDefined a) (h : firstPassSection U a cs name queue = .error e) :
    e.kind ≠ .sectionAlreadyDefined := by
  unfold firstPassSection at h
  simp only at h
  split at h
  · next e1 h1 =>
    simp at h
    subst h
    exact sectionHeader_error _ _ _ _ _ h1
  · next name1 flags queue1 hh =>
    split at h
    · next e1 h1 =>
      simp at h
      subst h
      unfold addSymbol at h1
      split at h1
      · split at h1
        · simp [Assembler.fail] at h1
          rw [← h1]; simp
        · simp at h1
      · split at h1
        · simp [Assembler.fail] at h1
          rw [← h1]; simp
        · simp at h1
    · next a1 h1 =>
      obtain ⟨-, hund, ⟨s, hs, -⟩, -⟩ := addSymbol_lookup _ _ _ _ _ _ _ _ h1
      have hst := (addSymbol_locationCounter _ _ _ _ _ _ _ _ h1).2
      simp only [hs] at h
      have hc : count name1 a1.sectionTable = false := by
        cases hcount : count name1 a1.sectionTable with
        | false => rfl
        | true =>
          have hk : count name1 a.sectionTable = true := by
            rw [hst] at hcount
            have := closeSection_count a cs name1
            simp only at hcount
            rw [← this]
            exact hcount
          obtain ⟨s0, hs0, hd0⟩ := hdef name1 hk
          have := hund s0 (by simpa [(closeSection_symbols a cs).1] using hs0)
          rw [hd0] at this
          simp at this
      simp [addSection, hc] at h

/-- The keys of the section table after a section directive: the keys before it and the name
of the section, whose symbol is defined. -/
theorem firstPassSection_keys (U : Utils) (a a2 : Assembler) (cs cs2 : Option String)
    (name : String) (queue queue1 : List String)
    (h : firstPassSection U a cs name queue = .ok (a2, cs2, queue1)) :
    ∀ k, count k a2.sectionTable = true →
      count k a.sectionTable = true ∨
        ∃ s, find? k a2.symbolTable = some s ∧ s.defined = true := by
  unfold firstPassSection at h
  simp only at h
  split at h
  · simp at h
  · next name1 flags queue0 hh =>
    split at h
    · simp at h
    · next a1 h1 =>
      obtain ⟨-, -, ⟨s, hs, -, -, -, -, hd⟩, -⟩ := addSymbol_lookup _ _ _ _ _ _ _ _ h1
      have hst := (addSymbol_locationCounter _ _ _ _ _ _ _ _ h1).2
      simp only [hs] at h
      split at h
      · simp at h
      · next a3 h3 =>
        simp at h
        obtain ⟨e, -, -⟩ := h
        subst e
        unfold addSection at h3
        split at h3
        · simp [Assembler.fail] at h3
        · simp at h3
          intro k hk
          rw [← h3] at hk ⊢
          by_cases hkn : k = name1
          · right
            exact ⟨s, by rw [hkn]; exact hs, hd⟩
          · left
            have h2 : count k (a1.sectionTable ++ [(name1,
                (⟨name1, flags, 0, [], a1.sectionTable.length, s.symbolTableEntry⟩ : Section))]) =
                count k a1.sectionTable := by
              unfold count
              cases hf : find? k a1.sectionTable with
              | some v => rw [find?_append_left _ _ _ _ hf]
              | none =>
                rw [find?_append_none _ _ _ hf]
                simp [find?, Ne.symm hkn]
            simp only at hk
            rw [h2, hst] at hk
            simp only at hk
            rw [← closeSection_count a cs k]
            exact hk

theorem addSymbol_error (a : Assembler) (name sect : String) (value : Int)
    (scope : ScopeType) (type : SymbolType) (defined : Bool) (e : AssemblingException)
    (h : a.addSymbol name sect value scope type defined = .error e) :
    e = ⟨a.line, .symbolAlreadyDefined⟩ := by
  unfold addSymbol at h
  split at h
  · split at h
    · simp [Assembler.fail] at h
      exact h.symm
    · simp at h
  · split at h
    · simp [Assembler.fail] at h
      exact h.symm
    · simp at h

theorem sectionsDefined_addSymbol (a a1 : Assembler) (name sect : String) (value : Int)
    (scope : ScopeType) (type : SymbolType)
    (h : a.addSymbol name sect value scope type true = .ok a1) (hdef : SectionsDefined a) :
    SectionsDefined a1 := by
  obtain ⟨-, -, ⟨e, he, -, -, -, -, hd⟩, hother⟩ := addSymbol_lookup _ _ _ _ _ _ _ _ h
  have hst := (addSymbol_locationCounter _ _ _ _ _ _ _ _ h).2
  intro k hk
  by_cases hkn : k = name
  · exact ⟨e, by rw [hkn]; exact he, hd⟩
  · rw [hst] at hk
    obtain ⟨s, hs, hsd⟩ := hdef k hk
    exact ⟨s, by rw [hother k hkn]; exact hs, hsd⟩

theorem firstPassSwitch_keys (U : Utils) (p p1 : Pass) (token : String) (type : TokenType)
    (ms queue : List String) (h : firstPassSwitch U p token type ms queue = .ok p1) :
    ∀ k, count k p1.asm.sectionTable = true →
      count k p.asm.sectionTable = true ∨
        ∃ s, find? k p1.asm.symbolTable = some s ∧ s.defined = true := by
  unfold firstPassSwitch at h
  simp only at h
  split at h
  · simp at h
  · next a1 cs hstep =>
    simp at h
    subst h
    intro k hk
    simp only at hk ⊢
    cases type with
    | GLOBAL_EXTERN =>
      simp only at hstep
      split at hstep
      · simp [Assembler.fail] at hstep
      · split at hstep
        · simp at hstep
        · next a2 h2 =>
          simp at hstep
          obtain ⟨e1, -⟩ := hstep
          subst e1
          left
          rw [← (symbolsOnly_sectionTable _ _
            (symbolsOnly_firstPassGlobalExtern _ _ _ _ _ h2)).1]
          exact hk
    | SECTION => exact firstPassSection_keys U _ _ _ _ _ _ _ hstep k hk
    | DIRECTIVE =>
      simp only at hstep
      split at hstep
      · simp at hstep
      · next a2 q2 h2 =>
        simp at hstep
        obtain ⟨e1, -⟩ := hstep
        subst e1
        left
        rw [← firstPassDirective_sectionTable _ _ _ _ _ _ _ h2]
        exact hk
    | INSTRUCTION =>
      simp only at hstep
      split at hstep
      · simp at hstep
      · next a2 q2 h2 =>
        simp at hstep
        obtain ⟨e1, -⟩ := hstep
        subst e1
        left
        rw [← firstPassInstruction_sectionTable _ _ _ _ _ _ _ h2]
        exact hk
    | _ => simp [Assembler.fail] at hstep
  · simp [Assembler.fail] at h

theorem firstPassLine_keys (U : Utils) (p p1 : Pass) (tokens : List String)
    (h : firstPassLine U p tokens = .ok p1) :
    ∀ k, count k p1.asm.sectionTable = true →
      count k p.asm.sectionTable = true ∨
        ∃ s, find? k p1.asm.symbolTable = some s ∧ s.defined = true := by
  unfold firstPassLine at h
  simp only at h
  split at h
  · simp [Assembler.fail] at h
  · next token queue =>
    split at h
    · next ms hms =>
      split at h
      · simp [Assembler.fail] at h
      · split at h
        · simp [Assembler.fail] at h
        · next key hkey =>
          split at h
          · simp [Assembler.fail] at h
          · next sec hsec =>
            split at h
            · simp at h
            · next a1 h1 =>
              have hst := (addSymbol_locationCounter _ _ _ _ _ _ _ _ h1).2
              cases queue with
              | nil =>
                simp at h
                subst h
                intro k hk
                left
                simp only at hk
                rw [hst] at hk
                exact hk
              | cons token1 queue1 =>
                simp only at h
                intro k hk
                rcases firstPassSwitch_keys U _ _ _ _ _ _ h k hk with hl | hr
                · left
                  simp only at hl
                  rw [hst] at hl
                  exact hl
                · exact Or.inr hr
    · intro k hk
      exact firstPassSwitch_keys U _ _ _ _ _ _ h k hk

theorem sectionsDefined_firstPassLine (U : Utils) (p p1 : Pass) (tokens : List String)
    (hwf : WellFormed p.asm) (hdef : SectionsDefined p.asm)
    (h : firstPassLine U p tokens = .ok p1) : SectionsDefined p1.asm := by
  intro k hk
  rcases firstPassLine_keys U p p1 tokens h k hk with hl | hr
  · obtain ⟨s, hs, hd⟩ := hdef k hl
    obtain ⟨s1, hs1, hkeep⟩ := (step_firstPassLine U p p1 tokens hwf h).keep k s hs
    exact ⟨s1, hs1, by rw [(hkeep (Or.inl hd)).1, hd]⟩
  · exact hr

/-- Every state of the loop of the first pass has the invariant of the tables and a defined
symbol for every section. -/
theorem passLoop_sectionsDefined (U : Utils) (pre : List (List String)) :
    ∀ (p0 p : Pass), WellFormed p0.asm → SectionsDefined p0.asm →
      passLoop (firstPassLine U) pre p0 = .ok p → WellFormed p.asm ∧ SectionsDefined p.asm := by
  induction pre with
  | nil =>
    intro p0 p hwf hdef h
    simp [passLoop] at h
    subst h
    exact ⟨hwf, hdef⟩
  | cons l pre ih =>
    intro p0 p hwf hdef h
    unfold passLoop at h
    split at h
    · simp at h
    · next p1 h1 =>
      exact ih p1 p (step_firstPassLine U p0 p1 l hwf h1).wf
        (sectionsDefined_firstPassLine U p0 p1 l hwf hdef h1) h

theorem firstPassSwitch_section_error (U : Utils) (p : Pass) (token : String)
    (ms queue : List String) (e : AssemblingException) (hdef : SectionsDefined p.asm)
    (h : firstPassSwitch U p token .SECTION ms queue = .error e) :
    e.kind ≠ .sectionAlreadyDefined := by
  unfold firstPassSwitch at h
  simp only at h
  split at h
  · next e1 h1 =>
    simp at h
    subst h
    exact firstPassSection_error U _ _ _ _ _ hdef h1
  · simp at h
  · simp [Assembler.fail] at h
    rw [← h]
    simp

theorem firstPassSwitch_section_duplicate (U : Utils) (p : Pass) (token : String)
    (ms queue : List String) (name1 : String) (flags : List Char) (queue1 : List String)
    (hdef : SectionsDefined p.asm)
    (hh : sectionHeader U p.asm (group ms 0) queue = .ok (name1, flags, queue1))
    (hk : count name1 p.asm.sectionTable = true) :
    firstPassSwitch U p token .SECTION ms queue =
      .error ⟨p.asm.line, .symbolAlreadyDefined⟩ := by
  unfold firstPassSwitch
  simp only [firstPassSection_duplicate U p.asm p.currentSection (group ms 0) queue name1 flags
    queue1 hdef hh hk]

/-- C37: let `p` be a state of the loop of the first pass, reached from the fresh state over
the lines `pre`.  A line that begins with a section directive whose section name is a key of
the section table is rejected with the error of `addSymbol` for a symbol that is already
defined, at that line; the same line behind a label is rejected too.  No line with a section
directive, and no call of `firstPassSection` in the state `p`, fails with the error of
`addSection` for a section that is already defined. -/
theorem section_opened_once (U : Utils) (assembly pre : List (List String)) (p : Pass)
    (hrun : passLoop (firstPassLine U) pre
      ⟨{ init assembly with line := 0 }, false, none⟩ = .ok p) :
    (∀ (token : String) (queue ms : List String) (name1 : String) (flags : List Char)
      (queue1 : List String), U.getTokenType token = (.SECTION, ms) →
      sectionHeader U p.asm (group ms 0) queue = .ok (name1, flags, queue1) →
      count name1 p.asm.sectionTable = true →
      firstPassLine U p (token :: queue) =
        .error ⟨p.asm.line + 1, .symbolAlreadyDefined⟩) ∧
    (∀ (label token : String) (queue ms : List String) (name1 : String) (flags : List Char)
      (queue1 : List String), (U.getTokenType label).1 = .LABEL →
      U.getTokenType token = (.SECTION, ms) →
      sectionHeader U p.asm (group ms 0) queue = .ok (name1, flags, queue1) →
      count name1 p.asm.sectionTable = true →
      ∃ e, firstPassLine U p (label :: token :: queue) = .error e ∧
        e.kind ≠ .sectionAlreadyDefined) ∧
    (∀ (token : String) (queue : List String) (e : AssemblingException),
      (U.getTokenType token).1 = .SECTION →
      firstPassLine U p (token :: queue) = .error e → e.kind ≠ .sectionAlreadyDefined) ∧
    (∀ (label token : String) (queue : List String) (e : AssemblingException),
      (U.getTokenType label).1 = .LABEL → (U.getTokenType token).1 = .SECTION →
      firstPassLine U p (label :: token :: queue) = .error e →
      e.kind ≠ .sectionAlreadyDefined) ∧
    (∀ (cs : Option String) (name : String) (queue : List String) (e : AssemblingException),
      firstPassSection U p.asm cs name queue = .error e →
      e.kind ≠ .sectionAlreadyDefined) := by
  have hstart : SectionsDefined ({ init assembly with line := 0 } : Assembler) := by
    intro k hk
    simp [count, find?, init] at hk
  obtain ⟨hwf, hdef⟩ := passLoop_sectionsDefined U pre _ p
    (show WellFormed (init assembly) from wellFormed_init assembly) hstart hrun
  have hdef1 : SectionsDefined ({ p.asm with line := p.asm.line + 1 } : Assembler) := hdef
  have hlabelled : ∀ (label token : String) (queue : List String) (e : AssemblingException),
      (U.getTokenType label).1 = .LABEL → (U.getTokenType token).1 = .SECTION →
      firstPassLine U p (label :: token :: queue) = .error e →
      e.kind ≠ .sectionAlreadyDefined := by
    intro label token queue e hl ht h
    obtain ⟨ls, hls⟩ : ∃ ls, U.getTokenType label = (.LABEL, ls) :=
      ⟨(U.getTokenType label).2, by rw [← hl]⟩
    obtain ⟨ms, hms⟩ : ∃ ms, U.getTokenType token = (.SECTION, ms) :=
      ⟨(U.getTokenType token).2, by rw [← ht]⟩
    simp only [firstPassLine, hls] at h
    split at h
    · simp [Assembler.fail] at h
      rw [← h]; simp
    · split at h
      · simp [Assembler.fail] at h
        rw [← h]; simp
      · split at h
        · simp [Assembler.fail] at h
          rw [← h]; simp
        · split at h
          · next e1 h1 =>
            simp at h
            subst h
            rw [addSymbol_error _ _ _ _ _ _ _ _ h1]
            simp
          · next a1 h1 =>
            simp only [hms] at h
            exact firstPassSwitch_section_error U _ _ _ _ _
              (sectionsDefined_addSymbol _ _ _ _ _ _ _ h1 hdef1) h
  refine ⟨?_, ?_, ?_, hlabelled, ?_⟩
  · intro token queue ms name1 flags queue1 hms hh hk
    have hne : ∀ ls, U.getTokenType token ≠ (.LABEL, ls) := by
      intro ls hls
      rw [hms] at hls
      simp at hls
    have hsw := firstPassSwitch_section_duplicate U
      ⟨{ p.asm with line := p.asm.line + 1 }, false, p.currentSection⟩ token ms queue name1
      flags queue1 hdef1 (sectionHeader_state U p.asm _ _ _ _ hh) hk
    simp only [firstPassLine, hms]
    exact hsw
  · intro label token queue ms name1 flags queue1 hl hms hh hk
    cases hr : firstPassLine U p (label :: token :: queue) with
    | error e => exact ⟨e, rfl, hlabelled label token queue e hl (by rw [hms]) hr⟩
    | ok p1 =>
      exfalso
      obtain ⟨ls, hls⟩ : ∃ ls, U.getTokenType label = (.LABEL, ls) :=
        ⟨(U.getTokenType label).2, by rw [← hl]⟩
      simp only [firstPassLine, hls] at hr
      split at hr
      · simp [Assembler.fail] at hr
      · split at hr
        · simp [Assembler.fail] at hr
        · split at hr
          · simp [Assembler.fail] at hr
          · split at hr
            · simp at hr
            · next a1 h1 =>
              simp only [hms] at hr
              have hst := (addSymbol_locationCounter _ _ _ _ _ _ _ _ h1).2
              rw [firstPassSwitch_section_duplicate U ⟨a1, false, p.currentSection⟩ token ms
                queue name1 flags queue1 (sectionsDefined_addSymbol _ _ _ _ _ _ _ h1 hdef1)
                (sectionHeader_state U p.asm _ _ _ _ hh) (by rw [hst]; exact hk)] at hr
              simp at hr
  · intro token queue e ht h
    obtain ⟨ms, hms⟩ : ∃ ms, U.getTokenType token = (.SECTION, ms) :=
      ⟨(U.getTokenType token).2, by rw [← ht]⟩
    simp only [firstPassLine, hms] at h
    exact firstPassSwitch_section_error U
      ⟨{ p.asm with line := p.asm.line + 1 }, false, p.currentSection⟩ _ _ _ _ hdef1 h
  · intro cs name queue e h
    exact firstPassSection_error U _ _ _ _ _ hdef h

/-- C37, witness: after the lines `.text` and `.data` the line `.text` is rejected with the
error for a symbol that is already defined, and so is the whole program on its line 3; the
line `.section .text` after `.text` is rejected in the same way. -/
theorem section_opened_once_witness :
    firstPassLine Spec.utils Spec.reopenedPass [".text"] =
      .error ⟨Spec.reopenedPass.asm.line + 1, .symbolAlreadyDefined⟩ ∧
    firstPass Spec.utils (init Spec.reopenedLines) = .error ⟨3, .symbolAlreadyDefined⟩ ∧
    firstPass Spec.utils (init [[".text"], [".section", ".text"]]) =
      .error ⟨2, .symbolAlreadyDefined⟩ :=
  ⟨(section_opened_once Spec.utils Spec.reopenedLines [[".text"], [".data"]]
      Spec.reopenedPass (by decide)).1 ".text" [] [".text"] ".text" (defaultFlags ".text") []
      (by decide) (by decide) (by decide),
   by decide, by decide⟩

/-! ## C19: relocations and section sizes over a run -/

theorem shape_update (key : String) (sec sec1 : Section) (t : List (String × Section))
    (h : find? key t = some sec) (hn : sec1.name = sec.name) (hs : sec1.size = sec.size) :
    shape (update key sec1 t) = shape t := by
  induction t with
  | nil => rfl
  | cons e t ih =>
    obtain ⟨k, w⟩ := e
    by_cases hk : k = key
    · simp only [find?, hk, if_true, Option.some.injEq] at h
      subst h
      simp [update, hk, shape, hn, hs]
    · simp only [find?, hk, if_false] at h
      have := ih h
      simp only [shape] at this
      simp [update, hk, shape, this]

theorem find?_shape (key : String) (t t1 : List (String × Section)) (h : shape t1 = shape t) :
    (find? key t1).map (fun s => (s.name, s.size)) =
      (find? key t).map (fun s => (s.name, s.size)) := by
  induction t generalizing t1 with
  | nil =>
    cases t1 with
    | nil => rfl
    | cons e t1 => simp [shape] at h
  | cons e t ih =>
    cases t1 with
    | nil => simp [shape] at h
    | cons e1 t1 =>
      obtain ⟨k, w⟩ := e
      obtain ⟨k1, w1⟩ := e1
      simp only [shape, List.map_cons, List.cons.injEq, Prod.mk.injEq] at h
      obtain ⟨⟨rfl, hn, hs⟩, ht⟩ := h
      by_cases hk : k1 = key
      · simp [find?, hk, hn, hs]
      · simp only [find?, hk, if_false]
        exact ih t1 ht

theorem symbolsOnly_secondPassGlobalExtern (U : Utils) (directive : String)
    (queue : List String) (a a1 : Assembler)
    (h : secondPassGlobalExtern U directive queue a = .ok a1) : SymbolsOnly a a1 := by
  induction queue generalizing a with
  | nil =>
    simp [secondPassGlobalExtern] at h
    subst h
    exact symbolsOnly_refl _
  | cons t queue ih =>
    unfold secondPassGlobalExtern at h
    split at h
    · simp [Assembler.fail] at h
    · simp only at h
      have hu : ∀ r : Except AssemblingException Assembler,
          (if directive = ".global" then a.fail .globalButUndefined
            else
              match a.addSymbol t UNDEFINED 0 .GLOBAL .EXTERN false with
              | .error e => .error e
              | .ok a1 => secondPassGlobalExtern U directive queue a1) = r →
          r = .ok a1 → SymbolsOnly a a1 := by
        intro r hr hok
        subst hok
        split at hr
        · simp [Assembler.fail] at hr
        · split at hr
          · simp at hr
          · next a0 h0 =>
            exact symbolsOnly_trans _ _ _ (symbolsOnly_addSymbol _ _ _ _ _ _ _ _ h0) (ih _ hr)
      split at h
      · split at h
        · split at h
          · simp [Assembler.fail] at h
          · exact symbolsOnly_trans _ _ _ (by unfold SymbolsOnly; rfl) (ih _ h)
        · exact hu _ rfl h
      · exact hu _ rfl h

theorem fillSection_effect (a a1 : Assembler) (key : String) (start : Nat) (count value : Int)
    (h : fillSection a key start count value = .ok a1) :
    a1 = { a with sectionTable := a1.sectionTable } ∧
      shape a1.sectionTable = shape a.sectionTable := by
  unfold fillSection at h
  split at h
  · simp [Assembler.fail] at h
  · next sec hsec =>
    split at h
    · simp at h
      subst h
      exact ⟨rfl, shape_update _ _ _ _ hsec rfl rfl⟩
    · simp at h
      subst h
      exact ⟨rfl, rfl⟩

theorem emitsWithin_of_empty (a a1 : Assembler) (sectName : String) (lo hi lo1 hi1 : Nat)
    (h : EmitsWithin a a1 sectName lo hi) (he : hi ≤ lo) :
    EmitsWithin a a1 sectName lo1 hi1 := by
  obtain ⟨new, e, p⟩ := h
  refine ⟨new, e, fun r hr => ?_⟩
  obtain ⟨-, h2, h3⟩ := p r hr
  have := width_pos r.type
  omega

theorem evaluateData_effect (U : Utils) (directive key : String) (fuel : Nat)
    (queue : List String) (a a1 : Assembler)
    (h : evaluateData U directive key fuel queue a = .ok a1) (hf : queue.length ≤ fuel)
    (hlc : a.locationCounter < 65536) :
    a1.instructions = a.instructions ∧ shape a1.sectionTable = shape a.sectionTable ∧
      a1.locationCounter =
        (a.locationCounter + groups U fuel queue * datumSize directive) % 65536 ∧
      ∀ name, (∀ sec, find? key a.sectionTable = some sec → sec.name = name) →
        a.locationCounter + groups U fuel queue * datumSize directive ≤ 65536 →
        EmitsWithin a a1 name a.locationCounter
          (a.locationCounter + groups U fuel queue * datumSize directive) := by
  induction fuel generalizing queue a with
  | zero =>
    cases queue with
    | nil =>
      simp [evaluateData] at h
      subst h
      refine ⟨rfl, rfl, ?_, fun name _ _ => emitsWithin_refl _ _ _ _⟩
      simp [groups]
      omega
    | cons t queue => simp at hf
  | succ fuel ih =>
    cases queue with
    | nil =>
      simp [evaluateData] at h
      subst h
      refine ⟨rfl, rfl, ?_, fun name _ _ => emitsWithin_refl _ _ _ _⟩
      simp [groups]
      omega
    | cons t queue =>
      unfold evaluateData at h
      simp only at h
      split at h
      · simp at h
      · next a0 h0 =>
        obtain ⟨sec, hsec, e0, hlc0, hi0, -, -, bs, -, ht0⟩ := evaluate_emits _ _ _ _ _ _ h0
        have hlen : (nextExpression U (t :: queue) false "").2.length ≤ fuel :=
          le_trans (nextExpression_length_lt _ _ _ _) (by simpa using hf)
        have hlc0' : a0.locationCounter < 65536 := by
          rw [hlc0]; exact Nat.mod_lt _ (by norm_num)
        obtain ⟨i1, s1, l1, e1⟩ := ih _ _ h hlen hlc0'
        have hshape : shape a0.sectionTable = shape a.sectionTable := by
          rw [ht0]; exact shape_update _ _ _ _ hsec rfl rfl
        refine ⟨i1.trans hi0, s1.trans hshape, ?_, ?_⟩
        · rw [l1, hlc0]
          simp only [groups]
          rw [Nat.mod_add_mod]
          congr 1
          ring
        · intro name hname hbound
          simp only [groups] at hbound ⊢
          have hn : sec.name = name := hname sec hsec
          rw [hn] at e0
          have hw : 1 ≤ datumSize directive := by
            unfold datumSize; split <;> simp [BYTE, WORD]
          have hname0 : ∀ sec0, find? key a0.sectionTable = some sec0 → sec0.name = name := by
            intro sec0 h0'
            rw [ht0, find?_update_self _ _ _ _ hsec] at h0'
            simp at h0'
            rw [← h0']
            exact hn
          have e0' := emitsWithin_mono _ _ _ _ _ a.locationCounter
            (a.locationCounter +
              (1 + groups U fuel (nextExpression U (t :: queue) false "").2) *
                datumSize directive) e0 (le_refl _) (by nlinarith)
          refine emitsWithin_trans _ _ _ _ _ _ e0' ?_
          by_cases hz : groups U fuel (nextExpression U (t :: queue) false "").2 = 0
          · have := e1 name hname0 (by rw [hz]; omega)
            rw [hz] at this
            exact emitsWithin_of_empty _ _ _ _ _ _ _ this (by omega)
          · have hlt : a.locationCounter + datumSize directive < 65536 := by
              have : 1 ≤ groups U fuel (nextExpression U (t :: queue) false "").2 := by omega
              nlinarith
            have hlc1 : a0.locationCounter = a.locationCounter + datumSize directive := by
              rw [hlc0]; exact Nat.mod_eq_of_lt hlt
            have := e1 name hname0 (by rw [hlc1]; nlinarith)
            rw [hlc1] at this
            exact emitsWithin_mono _ _ _ _ _ _ _ this (by omega) (by nlinarith)

theorem secondPassLine_eq (U : Utils) (p : Pass) (first : String) (firstQueue : List String) :
    secondPassLine U p (first :: firstQueue) =
      match (U.getTokenType first).1, firstQueue with
      | .LABEL, [] => .ok ⟨{ p.asm with line := p.asm.line + 1 }, p.labelDefined, p.currentSection⟩
      | .LABEL, token :: queue =>
        secondPassStatement U p { p.asm with line := p.asm.line + 1 } token queue
      | _, _ => secondPassStatement U p { p.asm with line := p.asm.line + 1 } first firstQueue := by
  unfold secondPassLine secondPassStatement
  cases hty : (U.getTokenType first).1 <;> cases firstQueue <;>
    first | (simp only [hty]; done) | (simp only [hty]; rfl)

theorem evaluateData_frame (U : Utils) (directive key : String) (fuel : Nat)
    (queue : List String) (a a1 : Assembler)
    (h : evaluateData U directive key fuel queue a = .ok a1) :
    a1.instructions = a.instructions ∧ shape a1.sectionTable = shape a.sectionTable := by
  induction fuel generalizing queue a with
  | zero =>
    cases queue with
    | nil =>
      simp [evaluateData] at h
      subst h
      exact ⟨rfl, rfl⟩
    | cons t queue => simp [evaluateData, Assembler.fail] at h
  | succ fuel ih =>
    cases queue with
    | nil =>
      simp [evaluateData] at h
      subst h
      exact ⟨rfl, rfl⟩
    | cons t queue =>
      unfold evaluateData at h
      simp only at h
      split at h
      · simp at h
      · next a0 h0 =>
        obtain ⟨sec, hsec, -, -, hi0, -, -, bs, -, ht0⟩ := evaluate_emits _ _ _ _ _ _ h0
        obtain ⟨i1, s1⟩ := ih _ _ h
        have hshape : shape a0.sectionTable = shape a.sectionTable := by
          rw [ht0]; exact shape_update _ _ _ _ hsec rfl rfl
        exact ⟨i1.trans hi0, s1.trans hshape⟩

theorem instructionBytes_frame (a a1 : Assembler) (i : Instruction) (sectName : String)
    (bs : List Nat) (h : instructionBytes a i sectName = .ok (a1, bs)) : Frame a a1 := by
  unfold instructionBytes at h
  simp only at h
  cases hdest : i.destination with
  | none =>
    rw [hdest] at h
    simp only at h
    cases hsrc : i.source with
    | none =>
      rw [hsrc] at h
      simp at h
      obtain ⟨rfl, -⟩ := h
      exact ⟨rfl, rfl, rfl, rfl, rfl⟩
    | some s =>
      rw [hsrc] at h
      simp only at h
      split at h
      · simp at h
      · next a2 bs2 hp =>
        simp at h
        obtain ⟨rfl, -⟩ := h
        exact (operandCode_emits _ _ _ _ _ _ _ hp).2
  | some d =>
    rw [hdest] at h
    simp only at h
    split at h
    · simp at h
    · next a0 bs1 hp1 =>
      have f1 := (operandCode_emits _ _ _ _ _ _ _ hp1).2
      cases hsrc : i.source with
      | none =>
        rw [hsrc] at h
        simp at h
        obtain ⟨rfl, -⟩ := h
        exact f1
      | some s =>
        rw [hsrc] at h
        simp only at h
        split at h
        · simp at h
        · next a2 bs2 hp2 =>
          simp at h
          obtain ⟨rfl, -⟩ := h
          exact frame_trans _ _ _ f1 (operandCode_emits _ _ _ _ _ _ _ hp2).2

theorem generateInstructionCode_frame (a a2 : Assembler) (i : Instruction) (sect : String)
    (h : generateInstructionCode a i sect = .ok a2) :
    a2.locationCounter = a.locationCounter ∧ a2.instructions = a.instructions ∧
      shape a2.sectionTable = shape a.sectionTable := by
  unfold generateInstructionCode at h
  split at h
  · simp [Assembler.fail] at h
  · next sec hsec =>
    split at h
    · simp at h
    · next a1 bs hb =>
      simp at h
      subst h
      have f := instructionBytes_frame _ _ _ _ _ hb
      refine ⟨by simp [writeSection, f.locationCounter], by simp [writeSection, f.instructions],
        ?_⟩
      simp only [writeSection, f.sectionTable]
      exact shape_update _ _ _ _ hsec rfl rfl

theorem effect2_statement (U : Utils) (q q1 : Pass) (token : String) (queue : List String)
    (h : secondPassStatement U q { q.asm with line := q.asm.line + 1 } token queue = .ok q1) :
    Effect2 U (kindOf U token queue) q q1 := by
  unfold secondPassStatement at h
  unfold kindOf
  split at h
  · -- GLOBAL_EXTERN
    next ms ht =>
    split at h
    · simp [Assembler.fail] at h
    · split at h
      · simp at h
      · next a1 h1 =>
        simp at h
        subst h
        have hs := symbolsOnly_secondPassGlobalExtern _ _ _ _ _ h1
        unfold SymbolsOnly at hs
        refine ⟨by rw [hs], rfl, by rw [hs], by rw [hs], by rw [hs]⟩
  · -- SECTION
    next ms ht =>
    dsimp only at h ⊢
    unfold sectionKind
    split at h
    · next hsec =>
      simp only [hsec, if_true]
      split at h
      · simp [Assembler.fail] at h
      · next name rest =>
        simp at h
        subst h
        exact ⟨rfl, rfl, rfl, rfl, rfl⟩
    · next hsec =>
      simp only [hsec, if_false]
      simp at h
      subst h
      exact ⟨rfl, rfl, rfl, rfl, rfl⟩
  · -- DIRECTIVE
    next ms ht =>
    split at h
    · simp at h
    · next a1 h1 =>
      simp at h
      subst h
      unfold secondPassDirective at h1
      split at h1
      · simp [Assembler.fail] at h1
      · next key hkey =>
        split at h1
        · next hequ =>
          simp only [hequ, if_true]
          simp at h1
          subst h1
          exact ⟨rfl, rfl, rfl, rfl, rfl⟩
        · next hequ =>
          simp only [hequ, if_false]
          split at h1
          · next halign =>
            simp only [halign, if_true]
            simp only at h1
            split at h1
            · simp [Assembler.fail] at h1
            · next lc hlc =>
              split at h1
              · next hmod =>
                simp at h1
                subst h1
                have : lc = q.asm.locationCounter := by
                  unfold alignCounter at hlc
                  split at hlc
                  · simp only at hlc
                    rw [if_pos hmod] at hlc
                    simpa using hlc.symm
                  · simp at hlc
                subst this
                refine ⟨rfl, rfl, ?_, rfl, rfl⟩
                cases queue <;> exact hlc
              · obtain ⟨he, hs⟩ := fillSection_effect _ _ _ _ _ _ h1
                refine ⟨hs, rfl, ?_, ?_, ?_⟩
                · rw [he]
                  cases queue <;> exact hlc
                · rw [he]
                · rw [he]
          · next halign =>
            simp only [halign, if_false]
            split at h1
            · next hskip =>
              simp only [hskip, if_true]
              simp only at h1
              obtain ⟨he, hs⟩ := fillSection_effect _ _ _ _ _ _ h1
              refine ⟨hs, rfl, ?_, ?_, ?_⟩
              · rw [he]
                cases queue <;> rfl
              · rw [he]
              · rw [he]
            · next hskip =>
              simp only [hskip, if_false]
              obtain ⟨hi, hs⟩ := evaluateData_frame _ _ _ _ _ _ _ h1
              refine ⟨hs, rfl, hi, key, hkey, fun hlc => ?_⟩
              obtain ⟨-, -, hl, he⟩ := evaluateData_effect _ _ _ _ _ _ _ h1 (le_refl _) hlc
              exact ⟨hl, he⟩
  · -- INSTRUCTION
    next ms ht =>
    split at h
    · next instruction rest key hi hk =>
      split at h
      · simp at h
      · next a1 h1 =>
        simp at h
        subst h
        obtain ⟨hlc, hin, hs⟩ := generateInstructionCode_frame _ _ _ _ h1
        refine ⟨hs, rfl, key, instruction, rest, hk, hi, rfl, ?_, ?_⟩
        · simp [hlc]
        · intro hlaw hwrap
          obtain ⟨sec, hsec, ⟨new, e, p⟩, -⟩ :=
            generateInstructionCode_emits { q.asm with line := q.asm.line + 1 } _ _ _ hlaw
              hwrap h1
          exact ⟨sec, hsec, new, e, p⟩
    · simp [Assembler.fail] at h
  · -- other tags
    simp [Assembler.fail] at h

theorem effect2_line (U : Utils) (q q1 : Pass) (tokens : List String)
    (h : secondPassLine U q tokens = .ok q1) : Effect2 U (lineKind U tokens) q q1 := by
  cases tokens with
  | nil => simp [secondPassLine, Assembler.fail] at h
  | cons first firstQueue =>
    rw [secondPassLine_eq] at h
    unfold lineKind
    cases hty : (U.getTokenType first).1 <;> cases firstQueue <;> simp only [hty] at h ⊢ <;>
      first
      | exact effect2_statement _ _ _ _ _ h
      | (simp at h; subst h; exact ⟨rfl, rfl, rfl, rfl, rfl⟩)

theorem closeSection_sectionTable (a : Assembler) (currentSection : Option String) :
    (closeSection a currentSection).sectionTable =
      closeTable a.sectionTable currentSection a.locationCounter := by
  cases currentSection with
  | none => rfl
  | some key =>
    cases hf : find? key a.sectionTable <;> simp [closeSection, closeTable, hf]

theorem closeSection_frame (a : Assembler) (currentSection : Option String) :
    closeSection a currentSection =
      { a with sectionTable := (closeSection a currentSection).sectionTable } := by
  cases currentSection with
  | none => rfl
  | some key =>
    cases hf : find? key a.sectionTable <;> simp [closeSection, hf]

theorem count_closeTable (k : String) (table : List (String × Section))
    (currentSection : Option String) (locationCounter : Nat) :
    count k (closeTable table currentSection locationCounter) = count k table := by
  cases currentSection with
  | none => rfl
  | some key =>
    cases hf : find? key table <;> simp [closeTable, hf, count_update]

theorem symbolsOnly_fields (a a1 : Assembler) (h : SymbolsOnly a a1) :
    a1.line = a.line ∧ a1.locationCounter = a.locationCounter ∧
      a1.instructions = a.instructions ∧ a1.assembly = a.assembly ∧
      a1.sectionTable = a.sectionTable ∧ a1.relocationTable = a.relocationTable := by
  unfold SymbolsOnly at h
  exact ⟨(congrArg Assembler.line h).trans rfl, (congrArg Assembler.locationCounter h).trans rfl,
    (congrArg Assembler.instructions h).trans rfl, (congrArg Assembler.assembly h).trans rfl,
    (congrArg Assembler.sectionTable h).trans rfl,
    (congrArg Assembler.relocationTable h).trans rfl⟩

theorem sectionHeader_name (U : Utils) (hU : Faithful U) (a : Assembler) (token : String)
    (queue : List String) (name1 : String) (flags : List Char) (queue0 : List String)
    (hh : sectionHeader U a token queue = .ok (name1, flags, queue0)) :
    sectionKind token queue = LineKind.opens name1 := by
  unfold sectionKind
  by_cases hsec : token = ".section"
  · simp only [sectionHeader, hsec, if_true] at hh ⊢
    cases queue with
    | nil => simp [Assembler.fail] at hh
    | cons nameToken queue2 =>
      simp only at hh ⊢
      split at hh
      · simp [Assembler.fail] at hh
      · next hty =>
        have hg : group (U.getTokenType nameToken).2 0 = nameToken := by
          apply hU.name nameToken (U.getTokenType nameToken).1 _ rfl
          by_cases h1 : (U.getTokenType nameToken).1 = .SYMBOL
          · exact Or.inl h1
          · by_cases h2 : (U.getTokenType nameToken).1 = .SECTION
            · exact Or.inr (Or.inl h2)
            · by_cases h3 : (U.getTokenType nameToken).1 = .SECTION_NAME
              · exact Or.inr (Or.inr (Or.inl h3))
              · exact absurd ⟨h1, h2, h3⟩ hty
        cases queue2 with
        | nil =>
          simp at hh
          rw [← hh.1, hg]
        | cons flagsToken queue3 =>
          simp only at hh
          split at hh
          · simp at hh
            rw [← hh.1, hg]
          · simp [Assembler.fail] at hh
  · simp only [sectionHeader, hsec, if_false] at hh ⊢
    simp at hh
    rw [hh.1]

theorem firstPassSection_effect (U : Utils) (hU : Faithful U) (a a2 : Assembler)
    (currentSection cs2 : Option String) (token : String) (queue queue1 : List String)
    (h : firstPassSection U a currentSection token queue = .ok (a2, cs2, queue1)) :
    ∃ name sec, sectionKind token queue = LineKind.opens name ∧
      cs2 = some name ∧ sec.name = name ∧ a2.locationCounter = 0 ∧
      a2.instructions = a.instructions ∧
      (a2.relocationTable = a.relocationTable ∧ a2.assembly = a.assembly) ∧
      count name a.sectionTable = false ∧
      a2.sectionTable =
        closeTable a.sectionTable currentSection a.locationCounter ++ [(name, sec)] := by
  unfold firstPassSection at h
  simp only at h
  split at h
  · simp at h
  · next name1 flags queue0 hh =>
    split at h
    · simp at h
    · next a1 h1 =>
      obtain ⟨-, f2, f3, f4, f5, f6⟩ :=
        symbolsOnly_fields _ _ (symbolsOnly_addSymbol _ _ _ _ _ _ _ _ h1)
      simp only at f2 f3 f4 f5 f6
      split at h
      · simp [Assembler.fail] at h
      · next s hs =>
        split at h
        · simp at h
        · next a3 h3 =>
          simp at h
          obtain ⟨rfl, rfl, rfl⟩ := h
          unfold addSection at h3
          split at h3
          · simp [Assembler.fail] at h3
          · next hc =>
            simp at h3
            subst h3
            have hname := sectionHeader_name U hU _ _ _ _ _ _ hh
            have hct : (closeSection a currentSection).sectionTable =
                closeTable a.sectionTable currentSection a.locationCounter :=
              closeSection_sectionTable _ _
            have hcf := closeSection_frame a currentSection
            refine ⟨name1, ⟨name1, flags, 0, [], a1.sectionTable.length, s.symbolTableEntry⟩,
              hname, rfl, rfl, ?_, ?_, ?_, ?_, ?_⟩
            · exact f2
            · rw [f3, hcf]
            · constructor
              · rw [f6, hcf]
              · rw [f4, hcf]
            · have : count name1 a1.sectionTable = false := by simpa using hc
              rw [f5, hct, count_closeTable] at this
              exact this
            · simp only
              rw [f5, hct]

theorem firstPassDirective_effect (U : Utils) (hU : Faithful U) (a a1 : Assembler)
    (currentSection : Option String) (directive : String) (queue queue1 : List String)
    (h : firstPassDirective U a currentSection directive queue = .ok (a1, queue1)) :
    (a1.relocationTable = a.relocationTable ∧ a1.assembly = a.assembly) ∧
      a1.sectionTable = a.sectionTable ∧ a1.instructions = a.instructions ∧
      (if directive = ".equ" then a1.locationCounter = a.locationCounter
        else if directive = ".align" then
          alignCounter a.locationCounter (firstOperand queue) = some a1.locationCounter
        else if directive = ".skip" then
          a1.locationCounter = toUInt16 (a.locationCounter + firstOperand queue)
        else
          a1.locationCounter =
            (a.locationCounter + countData U queue true 0 * datumSize directive) % 65536) := by
  unfold firstPassDirective at h
  split at h
  · simp [Assembler.fail] at h
  · next key =>
    by_cases hequ : directive = ".equ"
    · simp only [hequ, if_true] at h ⊢
      cases queue with
      | nil => simp [Assembler.fail] at h
      | cons symbol queue2 =>
        simp only at h
        split at h
        · simp [Assembler.fail] at h
        · cases queue2 with
          | nil => simp [Assembler.fail] at h
          | cons t queue3 =>
            simp only at h
            split at h
            · simp at h
            · next a0 h0 =>
              simp at h
              obtain ⟨rfl, -⟩ := h
              obtain ⟨-, f2, f3, f4, f5, f6⟩ :=
                symbolsOnly_fields _ _ (symbolsOnly_evaluateEQU _ _ _ _ _ _ h0)
              exact ⟨⟨f6, f4⟩, f5, f3, f2⟩
    · simp only [hequ, if_false] at h ⊢
      by_cases halign : directive = ".align"
      · simp only [halign, if_true] at h ⊢
        cases queue with
        | nil =>
          simp only at h
          split at h
          · simp [Assembler.fail] at h
          · next lc hlc =>
            simp at h
            obtain ⟨rfl, -⟩ := h
            exact ⟨⟨rfl, rfl⟩, rfl, rfl, hlc⟩
        | cons token queue2 =>
          simp only at h
          split at h
          · next ms htok =>
            have hg : group ms 0 = token :=
              hU.name _ _ _ htok (Or.inr (Or.inr (Or.inr rfl)))
            split at h
            · simp [Assembler.fail] at h
            · next lc hlc =>
              simp at h
              obtain ⟨rfl, -⟩ := h
              rw [hg] at hlc
              exact ⟨⟨rfl, rfl⟩, rfl, rfl, hlc⟩
          · simp [Assembler.fail] at h
      · simp only [halign, if_false] at h ⊢
        by_cases hskip : directive = ".skip"
        · simp only [hskip, if_true] at h ⊢
          cases queue with
          | nil =>
            simp at h
            obtain ⟨rfl, -⟩ := h
            exact ⟨⟨rfl, rfl⟩, rfl, rfl, rfl⟩
          | cons token queue2 =>
            simp only at h
            split at h
            · next ms htok =>
              have hg : group ms 0 = token :=
                hU.name _ _ _ htok (Or.inr (Or.inr (Or.inr rfl)))
              cases queue2 with
              | nil =>
                simp at h
                obtain ⟨rfl, -⟩ := h
                simp [firstOperand, hg]
              | cons fill queue3 =>
                simp only at h
                split at h
                · simp [Assembler.fail] at h
                · simp at h
                  obtain ⟨rfl, -⟩ := h
                  simp [firstOperand, hg]
            · simp [Assembler.fail] at h
        · simp only [hskip, if_false] at h ⊢
          split at h
          · simp [Assembler.fail] at h
          · split at h
            · simp [Assembler.fail] at h
            · cases queue with
              | nil => simp [Assembler.fail] at h
              | cons token queue2 =>
                simp only at h
                split at h
                · next hb =>
                  simp at h
                  obtain ⟨rfl, -⟩ := h
                  simp [datumSize, hb]
                · next hb =>
                  split at h
                  · simp at h
                    obtain ⟨rfl, -⟩ := h
                    simp [datumSize, hb]
                  · simp [Assembler.fail] at h

theorem firstPassInstruction_effect (U : Utils) (hU : Faithful U) (a a1 : Assembler)
    (currentSection : Option String) (ms queue queue1 : List String)
    (h : firstPassInstruction U a currentSection ms queue = .ok (a1, queue1)) :
    (a1.relocationTable = a.relocationTable ∧ a1.assembly = a.assembly) ∧
      a1.sectionTable = a.sectionTable ∧
      ∃ instruction, instruction.sizeLaw ∧
        a1.instructions = a.instructions ++ [instruction] ∧
        a1.locationCounter = (a.locationCounter + instruction.size) % 65536 := by
  unfold firstPassInstruction at h
  simp only at h
  split at h
  · simp [Assembler.fail] at h
  · split at h
    · simp at h
    · next instruction queue0 he =>
      simp at h
      obtain ⟨rfl, -⟩ := h
      exact ⟨⟨rfl, rfl⟩, rfl, instruction, hU.sizeLaw _ _ _ _ _ he, rfl, rfl⟩

theorem effect1_switch (U : Utils) (hU : Faithful U) (p p1 : Pass) (token : String)
    (type : TokenType) (ms queue : List String) (ht : U.getTokenType token = (type, ms))
    (h : firstPassSwitch U p token type ms queue = .ok p1) :
    Effect1 U (kindOf U token queue) p p1 := by
  unfold firstPassSwitch at h
  unfold kindOf
  rw [ht]
  simp only at h
  split at h
  · simp at h
  · next a1 cs1 hstep =>
    simp at h
    subst h
    cases type <;> simp only at hstep ⊢
    case GLOBAL_EXTERN =>
      split at hstep
      · simp [Assembler.fail] at hstep
      · split at hstep
        · simp at hstep
        · next a0 h0 =>
          simp at hstep
          obtain ⟨rfl, rfl⟩ := hstep
          obtain ⟨-, f2, f3, f4, f5, f6⟩ :=
            symbolsOnly_fields _ _ (symbolsOnly_firstPassGlobalExtern _ _ _ _ _ h0)
          exact ⟨⟨f6, f4⟩, rfl, f2, f5, f3⟩
    case SECTION =>
      have hg : group ms 0 = token := hU.name _ _ _ ht (Or.inr (Or.inl rfl))
      rw [hg] at hstep
      obtain ⟨name, sec, hk, hcs, hn, hlc, hi, hr, hc, htab⟩ :=
        firstPassSection_effect U hU _ _ _ _ _ _ _ hstep
      rw [hk]
      exact ⟨hr, hcs, hlc, hi, hc, sec, hn, htab⟩
    case DIRECTIVE =>
      split at hstep
      · simp at hstep
      · next a0 q0 h0 =>
        simp at hstep
        obtain ⟨rfl, rfl, rfl⟩ := hstep
        obtain ⟨hr, hs, hi, hl⟩ := firstPassDirective_effect U hU _ _ _ _ _ _ h0
        by_cases hequ : group ms 0 = ".equ"
        · simp only [hequ, if_true] at hl ⊢
          exact ⟨hr, rfl, hl, hs, hi⟩
        · simp only [hequ, if_false] at hl ⊢
          by_cases halign : group ms 0 = ".align"
          · simp only [halign, if_true] at hl ⊢
            exact ⟨hr, rfl, hl, hs, hi⟩
          · simp only [halign, if_false] at hl ⊢
            by_cases hskip : group ms 0 = ".skip"
            · simp only [hskip, if_true] at hl ⊢
              exact ⟨hr, rfl, hl, hs, hi⟩
            · simp only [hskip, if_false] at hl ⊢
              exact ⟨hr, rfl, hl, hs, hi⟩
    case INSTRUCTION =>
      split at hstep
      · simp at hstep
      · next a0 q0 h0 =>
        simp at hstep
        obtain ⟨rfl, rfl, rfl⟩ := hstep
        obtain ⟨hr, hs, i, hlaw, hi, hl⟩ := firstPassInstruction_effect U hU _ _ _ _ _ _ h0
        exact ⟨hr, rfl, hs, i, hlaw, hi, hl⟩
    all_goals simp [Assembler.fail] at hstep
  · simp [Assembler.fail] at h

theorem effect1_transfer (U : Utils) (kind : LineKind) (p0 p p1 : Pass)
    (hcs : p0.currentSection = p.currentSection)
    (hlc : p0.asm.locationCounter = p.asm.locationCounter)
    (hs : p0.asm.sectionTable = p.asm.sectionTable)
    (hi : p0.asm.instructions = p.asm.instructions)
    (hr : p0.asm.relocationTable = p.asm.relocationTable)
    (ha : p0.asm.assembly = p.asm.assembly)
    (h : Effect1 U kind p0 p1) : Effect1 U kind p p1 := by
  unfold Effect1 at *
  cases kind <;> simp only [hcs, hlc, hs, hi, hr, ha] at h <;> exact h

theorem lineKind_not_label (U : Utils) (first : String) (queue : List String)
    (h : (U.getTokenType first).1 ≠ .LABEL) :
    lineKind U (first :: queue) = kindOf U first queue := by
  unfold lineKind
  split <;> simp_all

theorem lineKind_label_nil (U : Utils) (first : String)
    (h : (U.getTokenType first).1 = .LABEL) : lineKind U [first] = .idle := by
  unfold lineKind
  simp only [h]

theorem lineKind_label_cons (U : Utils) (first token : String) (queue : List String)
    (h : (U.getTokenType first).1 = .LABEL) :
    lineKind U (first :: token :: queue) = kindOf U token queue := by
  unfold lineKind
  simp only [h]

theorem effect1_line (U : Utils) (hU : Faithful U) (p p1 : Pass) (tokens : List String)
    (h : firstPassLine U p tokens = .ok p1) : Effect1 U (lineKind U tokens) p p1 := by
  cases tokens with
  | nil => simp [firstPassLine, Assembler.fail] at h
  | cons first queue =>
    unfold firstPassLine at h
    simp only at h
    split at h
    · next ms ht =>
      have hty : (U.getTokenType first).1 = .LABEL := by rw [ht]
      split at h
      · simp [Assembler.fail] at h
      · split at h
        · simp [Assembler.fail] at h
        · next key hkey =>
          split at h
          · simp [Assembler.fail] at h
          · next sec hsec =>
            split at h
            · simp at h
            · next a1 h1 =>
              obtain ⟨-, f2, f3, f4, f5, f6⟩ :=
                symbolsOnly_fields _ _ (symbolsOnly_addSymbol _ _ _ _ _ _ _ _ h1)
              cases queue with
              | nil =>
                simp at h
                subst h
                rw [lineKind_label_nil U first hty]
                exact ⟨⟨f6, f4⟩, rfl, f2, f5, f3⟩
              | cons t1 q1 =>
                rw [lineKind_label_cons U first t1 q1 hty]
                simp only at h
                refine effect1_transfer U _ ⟨a1, false, p.currentSection⟩ p p1 rfl f2 f5 f3 f6
                  f4 ?_
                exact effect1_switch U hU _ _ _ _ _ _ rfl h
    · next type ms hne ht =>
      have hty : (U.getTokenType first).1 ≠ .LABEL := by
        rw [ht]
        exact fun hl => hne hl
      rw [lineKind_not_label U first queue hty]
      refine effect1_transfer U _ ⟨{ p.asm with line := p.asm.line + 1 }, false,
        p.currentSection⟩ p p1 rfl rfl rfl rfl rfl rfl ?_
      exact effect1_switch U hU _ _ _ _ _ _ ht h

theorem count_iff_find? {α : Type} (k : String) (t : List (String × α)) :
    count k t = true ↔ ∃ s, find? k t = some s := by
  unfold count
  cases find? k t <;> simp

theorem count_false_iff {α : Type} (k : String) (t : List (String × α)) :
    count k t = false ↔ find? k t = none := by
  unfold count
  cases find? k t <;> simp

theorem find?_append_some {α : Type} (k : String) (t r : List (String × α)) (s : α)
    (h : find? k t = some s) : find? k (t ++ r) = some s := by
  induction t with
  | nil => simp [find?] at h
  | cons e t ih =>
    obtain ⟨k1, w⟩ := e
    by_cases hk : k1 = k
    · simpa [find?, hk] using h
    · simp only [find?, hk, if_false] at h
      simpa [find?, hk] using ih h

theorem count_of_shape (k : String) (t t1 : List (String × Section))
    (h : shape t1 = shape t) : count k t1 = count k t := by
  have := find?_shape k t t1 h
  unfold count
  cases h1 : find? k t1 <;> cases h2 : find? k t <;> simp [h1, h2] at this ⊢

theorem namesOK_of_shape (t t1 : List (String × Section)) (h : shape t1 = shape t)
    (hn : NamesOK t) : NamesOK t1 := by
  intro k sec hs
  have := find?_shape k t t1 h
  rw [hs] at this
  cases h2 : find? k t with
  | none => simp [h2] at this
  | some sec0 =>
    simp [h2] at this
    rw [this.1]
    exact hn k sec0 h2

theorem size_of_shape (k : String) (t t1 : List (String × Section)) (sec : Section)
    (h : shape t1 = shape t) (hs : find? k t = some sec) :
    ∃ sec1, find? k t1 = some sec1 ∧ sec1.size = sec.size := by
  have := find?_shape k t t1 h
  rw [hs] at this
  cases h1 : find? k t1 with
  | none => simp [h1] at this
  | some sec1 =>
    simp [h1] at this
    exact ⟨sec1, rfl, this.2⟩

theorem namesOK_update (key : String) (sec sec1 : Section) (t : List (String × Section))
    (h : find? key t = some sec) (hn : sec1.name = sec.name) (hs : NamesOK t) :
    NamesOK (update key sec1 t) := by
  intro k s hk
  by_cases hkk : k = key
  · subst hkk
    rw [find?_update_self _ _ _ _ h] at hk
    simp at hk
    rw [← hk, hn]
    exact hs _ _ h
  · rw [find?_update_ne _ _ _ _ hkk] at hk
    exact hs _ _ hk

theorem namesOK_closeTable (t : List (String × Section)) (cs : Option String) (lc : Nat)
    (hs : NamesOK t) : NamesOK (closeTable t cs lc) := by
  cases cs with
  | none => exact hs
  | some key =>
    cases hf : find? key t with
    | none => simpa [closeTable, hf] using hs
    | some sec =>
      simp only [closeTable, hf]
      exact namesOK_update _ _ _ _ hf rfl hs

theorem namesOK_append (t : List (String × Section)) (name : String) (sec : Section)
    (hn : sec.name = name) (hs : NamesOK t) : NamesOK (t ++ [(name, sec)]) := by
  intro k s hk
  cases hf : find? k t with
  | some s0 =>
    rw [find?_append_some _ _ _ _ hf] at hk
    simp at hk
    rw [← hk]
    exact hs _ _ hf
  | none =>
    rw [find?_append_none _ _ _ hf] at hk
    by_cases hkn : name = k
    · simp [find?, hkn] at hk
      rw [← hk, hn, hkn]
    · simp [find?, hkn] at hk

theorem count_append_self {α : Type} (k : String) (t : List (String × α)) (v : α) :
    count k (t ++ [(k, v)]) = true := by
  cases hf : find? k t with
  | some s => exact (count_iff_find? _ _).2 ⟨s, find?_append_some _ _ _ _ hf⟩
  | none =>
    apply (count_iff_find? _ _).2
    exact ⟨v, by rw [find?_append_none _ _ _ hf]; simp [find?]⟩

/-- What every line of the first pass preserves or extends. -/
theorem effect1_summary (U : Utils) (kind : LineKind) (p p1 : Pass)
    (h : Effect1 U kind p p1) :
    (∃ ext, p1.asm.instructions = p.asm.instructions ++ ext) ∧
      (∀ k, count k p.asm.sectionTable = true → count k p1.asm.sectionTable = true) ∧
      (NamesOK p.asm.sectionTable → NamesOK p1.asm.sectionTable) ∧
      p1.asm.relocationTable = p.asm.relocationTable ∧
      p1.asm.assembly = p.asm.assembly := by
  unfold Effect1 at h
  obtain ⟨⟨hr, ha⟩, h⟩ := h
  cases kind with
  | idle =>
    obtain ⟨-, -, hs, hi⟩ := h
    exact ⟨⟨[], by simp [hi]⟩, by rw [hs]; exact fun _ h => h, by rw [hs]; exact id, hr, ha⟩
  | opens name =>
    obtain ⟨-, -, hi, hc, sec, hn, hs⟩ := h
    refine ⟨⟨[], by simp [hi]⟩, ?_, ?_, hr, ha⟩
    · intro k hk
      rw [hs]
      apply count_append_left
      rw [count_closeTable]
      exact hk
    · intro hnames
      rw [hs]
      exact namesOK_append _ _ _ hn (namesOK_closeTable _ _ _ hnames)
  | align e =>
    obtain ⟨-, -, hs, hi⟩ := h
    exact ⟨⟨[], by simp [hi]⟩, by rw [hs]; exact fun _ h => h, by rw [hs]; exact id, hr, ha⟩
  | skip b =>
    obtain ⟨-, -, hs, hi⟩ := h
    exact ⟨⟨[], by simp [hi]⟩, by rw [hs]; exact fun _ h => h, by rw [hs]; exact id, hr, ha⟩
  | data d q =>
    obtain ⟨-, -, hs, hi⟩ := h
    exact ⟨⟨[], by simp [hi]⟩, by rw [hs]; exact fun _ h => h, by rw [hs]; exact id, hr, ha⟩
  | instruction ms q =>
    obtain ⟨-, hs, i, -, hi, -⟩ := h
    exact ⟨⟨[i], hi⟩, by rw [hs]; exact fun _ h => h, by rw [hs]; exact id, hr, ha⟩
  | bad => exact absurd h id

theorem passLoop_cons (step : Pass → List String → Except AssemblingException Pass)
    (tokens : List String) (rest : List (List String)) (p pf : Pass)
    (h : passLoop step (tokens :: rest) p = .ok pf) :
    ∃ p1, step p tokens = .ok p1 ∧ passLoop step rest p1 = .ok pf := by
  unfold passLoop at h
  split at h
  · simp at h
  · next p1 h1 => exact ⟨p1, h1, h⟩

theorem firstPass_run_summary (U : Utils) (hU : Faithful U) (lines : List (List String))
    (p pf : Pass) (h : passLoop (firstPassLine U) lines p = .ok pf) :
    (∃ ext, pf.asm.instructions = p.asm.instructions ++ ext) ∧
      (∀ k, count k p.asm.sectionTable = true → count k pf.asm.sectionTable = true) ∧
      (NamesOK p.asm.sectionTable → NamesOK pf.asm.sectionTable) ∧
      pf.asm.relocationTable = p.asm.relocationTable ∧
      pf.asm.assembly = p.asm.assembly := by
  induction lines generalizing p with
  | nil =>
    simp [passLoop] at h
    subst h
    exact ⟨⟨[], by simp⟩, fun _ h => h, id, rfl, rfl⟩
  | cons tokens rest ih =>
    obtain ⟨p1, h1, h2⟩ := passLoop_cons _ _ _ _ _ h
    obtain ⟨⟨e1, he1⟩, k1, n1, r1, a1⟩ := effect1_summary U _ _ _ (effect1_line U hU _ _ _ h1)
    obtain ⟨⟨e2, he2⟩, k2, n2, r2, a2⟩ := ih _ h2
    exact ⟨⟨e1 ++ e2, by rw [he2, he1, List.append_assoc]⟩, fun k hk => k2 k (k1 k hk),
      fun hn => n2 (n1 hn), r2.trans r1, a2.trans a1⟩

theorem secondPass_run_shape (U : Utils) (lines : List (List String)) (q qf : Pass)
    (h : passLoop (secondPassLine U) lines q = .ok qf) :
    shape qf.asm.sectionTable = shape q.asm.sectionTable := by
  induction lines generalizing q with
  | nil =>
    simp [passLoop] at h
    subst h
    rfl
  | cons tokens rest ih =>
    obtain ⟨q1, h1, h2⟩ := passLoop_cons _ _ _ _ _ h
    have e := effect2_line U _ _ _ h1
    unfold Effect2 at e
    exact (ih _ h2).trans e.1

theorem symbolsOnly_resolveDependencies (name : String) (deps : List (String × String)) :
    ∀ (a a1 : Assembler) (deps1 : List (String × String)) (defined : Bool),
      resolveDependencies name deps a = .ok (a1, deps1, defined) → SymbolsOnly a a1 := by
  induction deps with
  | nil =>
    intro a a1 deps1 defined h
    simp [resolveDependencies] at h
    rw [← h.1]
    exact symbolsOnly_refl _
  | cons d rest ih =>
    intro a a1 deps1 defined h
    unfold resolveDependencies at h
    split at h
    · simp [Assembler.fail] at h
    · split at h
      · split at h
        · simp [Assembler.fail] at h
        · simp only at h
          split at h
          · simp at h
          · next a2 r2 d2 h2 =>
            simp at h
            rw [← h.1]
            exact symbolsOnly_trans _ _ _ (by unfold SymbolsOnly; rfl) (ih _ _ _ _ h2)
      · split at h
        · simp at h
        · next a2 r2 d2 h2 =>
          simp at h
          rw [← h.1]
          exact ih _ _ _ _ h2

theorem symbolsOnly_resolveEntry (a a1 : Assembler) (name : String)
    (h : resolveEntry a name = .ok a1) : SymbolsOnly a a1 := by
  unfold resolveEntry at h
  split at h
  · simp [Assembler.fail] at h
  · split at h
    · simp at h
    · next a2 deps1 defined h2 =>
      split at h
      · simp [Assembler.fail] at h
      · simp at h
        subst h
        exact symbolsOnly_trans _ _ _ (symbolsOnly_resolveDependencies _ _ _ _ _ _ h2)
          (by unfold SymbolsOnly; rfl)

theorem symbolsOnly_resolveLoop (order : List String) :
    ∀ (a a1 : Assembler), resolveLoop order a = .ok a1 → SymbolsOnly a a1 := by
  induction order with
  | nil =>
    intro a a1 h
    simp [resolveLoop] at h
    subst h
    exact symbolsOnly_refl _
  | cons name rest ih =>
    intro a a1 h
    unfold resolveLoop at h
    split at h
    · simp at h
    · next a2 h2 =>
      exact symbolsOnly_trans _ _ _ (symbolsOnly_resolveEntry _ _ _ h2) (ih _ _ h)

theorem symbolsOnly_resolveSymbols (a a1 : Assembler) (order : List String)
    (h : resolveSymbols a order = .ok a1) : SymbolsOnly a a1 := by
  unfold resolveSymbols at h
  split at h
  · simp [Assembler.fail] at h
  · simp [Assembler.fail] at h
  · exact symbolsOnly_resolveLoop _ _ _ h

theorem alignCounter_lt (lc lc1 : Nat) (e : Int) (h : alignCounter lc e = some lc1)
    (hlc : lc < 65536) : lc1 < 65536 := by
  unfold alignCounter at h
  split at h
  · simp only at h
    split at h
    · simp at h; omega
    · simp at h
      rw [← h]
      exact Nat.mod_lt _ (by norm_num)
  · simp at h

theorem toUInt16_lt (x : Int) : toUInt16 x < 65536 := by
  unfold toUInt16
  omega

theorem groups_le_length (U : Utils) (fuel : Nat) :
    ∀ queue : List String, queue.length ≤ fuel → groups U fuel queue ≤ queue.length := by
  induction fuel with
  | zero =>
    intro queue hf
    cases queue with
    | nil => simp [groups]
    | cons t queue => simp at hf
  | succ fuel ih =>
    intro queue hf
    cases queue with
    | nil => simp [groups]
    | cons t queue =>
      simp only [groups, List.length_cons]
      have h1 := nextExpression_length_lt U t queue ""
      have h2 := ih _ (le_trans h1 (by simpa using hf))
      omega

/-- Outside a section the first pass accepts only lines that leave the counter alone or open
a section. -/
theorem lineKind_outside (U : Utils) (p p1 : Pass) (tokens : List String)
    (hsec : p.currentSection = none) (h : firstPassLine U p tokens = .ok p1) :
    lineKind U tokens = .idle ∨ lineKind U tokens = .bad ∨
      ∃ name, lineKind U tokens = .opens name := by
  obtain ⟨token, queue, rfl, hcase⟩ := firstPassLine_outside U p p1 _ hsec h
  rcases hcase with ⟨hg, -⟩ | hs
  · left
    rw [lineKind_not_label U token queue (by rw [hg]; simp)]
    unfold kindOf
    obtain ⟨ms, hms⟩ : ∃ ms, U.getTokenType token = (.GLOBAL_EXTERN, ms) :=
      ⟨(U.getTokenType token).2, by rw [← hg]⟩
    rw [hms]
  · right
    rw [lineKind_not_label U token queue (by rw [hs]; simp)]
    unfold kindOf
    obtain ⟨ms, hms⟩ : ∃ ms, U.getTokenType token = (.SECTION, ms) :=
      ⟨(U.getTokenType token).2, by rw [← hs]⟩
    rw [hms]
    simp only
    unfold sectionKind
    split
    · cases queue with
      | nil => left; rfl
      | cons n q => right; exact ⟨n, rfl⟩
    · right; exact ⟨token, rfl⟩

theorem kindOf_data (U : Utils) (token : String) (queue queue1 : List String)
    (directive : String) (h : kindOf U token queue = .data directive queue1) :
    queue1 = queue := by
  unfold kindOf at h
  split at h
  · simp at h
  · unfold sectionKind at h
    split at h
    · split at h <;> simp at h
    · simp at h
  · split_ifs at h <;> simp at h
    exact h.2.symm
  · simp at h
  · simp at h

theorem lineKind_data (U : Utils) (tokens queue : List String) (directive : String)
    (h : lineKind U tokens = .data directive queue) : queue.length < tokens.length := by
  cases tokens with
  | nil => simp [lineKind] at h
  | cons first rest =>
    by_cases hl : (U.getTokenType first).1 = .LABEL
    · cases rest with
      | nil =>
        rw [lineKind_label_nil U first hl] at h
        simp at h
      | cons token rest1 =>
        rw [lineKind_label_cons U first token rest1 hl] at h
        rw [kindOf_data U _ _ _ _ h]
        simp
        omega
    · rw [lineKind_not_label U first rest hl] at h
      rw [kindOf_data U _ _ _ _ h]
      simp

theorem find?_closeTable_ne (k : String) (table : List (String × Section))
    (currentSection : Option String) (locationCounter : Nat)
    (h : currentSection ≠ some k) :
    find? k (closeTable table currentSection locationCounter) = find? k table := by
  unfold closeTable
  split
  · rfl
  · next key =>
    split
    · rfl
    · exact find?_update_ne _ _ _ _ (fun e => h (by rw [e]))

/-- A line that opens no section keeps the simulation when the counters of the two passes
move alike and forwards and the new relocations lie in the current section below the new
counter. -/
theorem sim_advance (p p1 q q1 : Pass) (final : List Instruction)
    (sizes : List (String × String × Nat)) (hs : Sim p q final sizes)
    (c1 : p1.currentSection = p.currentSection) (c2 : q1.currentSection = q.currentSection)
    (t1 : p1.asm.sectionTable = p.asm.sectionTable)
    (hshape : shape q1.asm.sectionTable = shape q.asm.sectionTable)
    (hi : final = p1.asm.instructions ++ q1.asm.instructions)
    (hlc : ∀ key, p.currentSection = some key →
      q1.asm.locationCounter = p1.asm.locationCounter ∧ p1.asm.locationCounter < 65536)
    (hmono : ∀ key, p.currentSection = some key →
      q.asm.locationCounter ≤ q1.asm.locationCounter)
    (hnew : ∃ new, q1.asm.relocationTable = q.asm.relocationTable ++ new ∧
      ∀ r ∈ new, p.currentSection = some r.sect ∧
        r.offset + r.type.width ≤ q1.asm.locationCounter) :
    Sim p1 q1 final sizes := by
  refine ⟨by rw [c2, c1, hs.current], ?_, by rw [t1]; exact hs.names,
    namesOK_of_shape _ _ hshape hs.names2, hi, hshape.trans hs.sizes, ?_⟩
  · intro key hkey
    rw [c1] at hkey
    obtain ⟨a, b⟩ := hlc key hkey
    exact ⟨a, b, by rw [t1]; exact (hs.counter key hkey).2.2⟩
  · obtain ⟨new, hnewEq, hnewP⟩ := hnew
    intro r hr
    rw [hnewEq] at hr
    rw [c1, t1]
    rcases List.mem_append.1 hr with hold | hn
    · rcases hs.relocations r hold with ⟨hc, hb⟩ | hclosed
      · exact Or.inl ⟨hc, le_trans hb (hmono _ hc)⟩
      · exact Or.inr hclosed
    · exact Or.inl (hnewP r hn)

theorem sim_step (U : Utils) (hU : Faithful U) (p p1 q q1 pf : Pass) (tokens : List String)
    (rest : List (List String))
    (h1 : firstPassLine U p tokens = .ok p1) (h2 : secondPassLine U q tokens = .ok q1)
    (hrest : passLoop (firstPassLine U) rest p1 = .ok pf)
    (hlen : tokens.length < 32768)
    (hmono : (match lineKind U tokens with
        | .opens _ => true
        | _ => decide (q.asm.locationCounter ≤ q1.asm.locationCounter)) = true)
    (hop : (match lineKind U tokens with
        | .data _ (token :: _) => U.isExpression token
        | _ => true) = true)
    (hs : Sim p q pf.asm.instructions
      (shape (closeTable pf.asm.sectionTable pf.currentSection pf.asm.locationCounter))) :
    Sim p1 q1 pf.asm.instructions
      (shape (closeTable pf.asm.sectionTable pf.currentSection pf.asm.locationCounter)) := by
  have e1 := effect1_line U hU p p1 tokens h1
  have e2 := effect2_line U q q1 tokens h2
  obtain ⟨⟨ext, hext⟩, hkeys, -, -, -⟩ := firstPass_run_summary U hU rest p1 pf hrest
  have hdata := lineKind_data U tokens
  generalize lineKind U tokens = kind at e1 e2 hmono hop hdata
  unfold Effect1 at e1
  unfold Effect2 at e2
  obtain ⟨-, e1⟩ := e1
  obtain ⟨hshape, e2⟩ := e2
  cases kind with
  | idle =>
    obtain ⟨c1, l1, t1, i1⟩ := e1
    obtain ⟨c2, l2, r2, i2⟩ := e2
    refine sim_advance p p1 q q1 _ _ hs c1 c2 t1 hshape (by rw [i1, i2]; exact hs.instructions)
      ?_ (fun _ _ => le_of_eq l2.symm) ⟨[], by simp [r2], by simp⟩
    intro key hkey
    obtain ⟨a, b, -⟩ := hs.counter key hkey
    exact ⟨by rw [l2, l1, a], by rw [l1]; exact b⟩
  | opens name =>
    obtain ⟨c1, l1, i1, hc, sec, hn, t1⟩ := e1
    obtain ⟨c2, l2, r2, i2⟩ := e2
    have hin1 : count name p1.asm.sectionTable = true := by
      rw [t1]; exact count_append_self _ _ _
    have hq : count name q.asm.sectionTable = true := by
      rw [count_of_shape name _ _ hs.sizes, count_closeTable]
      exact hkeys name hin1
    rw [hq] at c2
    simp only [if_true] at c2
    have hne : ∀ k, count k p.asm.sectionTable = true → name ≠ k := by
      intro k hk e
      rw [e, hk] at hc
      simp at hc
    refine ⟨by rw [c2, c1], ?_, ?_, namesOK_of_shape _ _ hshape hs.names2,
      by rw [i1, i2]; exact hs.instructions, hshape.trans hs.sizes, ?_⟩
    · intro key hkey
      rw [c1] at hkey
      simp at hkey
      subst hkey
      exact ⟨by rw [l2, l1], by rw [l1]; norm_num, hin1⟩
    · rw [t1]
      exact namesOK_append _ _ _ hn (namesOK_closeTable _ _ _ hs.names)
    · intro r hr
      rw [r2] at hr
      right
      rw [c1, t1]
      rcases hs.relocations r hr with ⟨hcur, hb⟩ | ⟨hncur, sec0, hf, hb⟩
      · obtain ⟨a, -, c⟩ := hs.counter r.sect hcur
        obtain ⟨sec0, hf⟩ := (count_iff_find? _ _).1 c
        refine ⟨fun e => hne r.sect c (by simpa using e), { sec0 with size := p.asm.locationCounter },
          ?_, by simpa [a] using hb⟩
        apply find?_append_some
        simp only [closeTable, hcur, hf]
        exact find?_update_self _ _ _ _ hf
      · have c : count r.sect p.asm.sectionTable = true := (count_iff_find? _ _).2 ⟨sec0, hf⟩
        refine ⟨fun e => hne r.sect c (by simpa using e), sec0, ?_, hb⟩
        apply find?_append_some
        rw [find?_closeTable_ne _ _ _ _ hncur]
        exact hf
  | align e =>
    obtain ⟨c1, l1, t1, i1⟩ := e1
    obtain ⟨c2, l2, r2, i2⟩ := e2
    have hm : q.asm.locationCounter ≤ q1.asm.locationCounter := by simpa using hmono
    refine sim_advance p p1 q q1 _ _ hs c1 c2 t1 hshape (by rw [i1, i2]; exact hs.instructions)
      ?_ (fun _ _ => hm) ⟨[], by simp [r2], by simp⟩
    intro key hkey
    obtain ⟨a, b, -⟩ := hs.counter key hkey
    rw [a, l1] at l2
    simp at l2
    exact ⟨l2.symm, alignCounter_lt _ _ _ l1 b⟩
  | skip b =>
    obtain ⟨c1, l1, t1, i1⟩ := e1
    obtain ⟨c2, l2, r2, i2⟩ := e2
    have hm : q.asm.locationCounter ≤ q1.asm.locationCounter := by simpa using hmono
    refine sim_advance p p1 q q1 _ _ hs c1 c2 t1 hshape (by rw [i1, i2]; exact hs.instructions)
      ?_ (fun _ _ => hm) ⟨[], by simp [r2], by simp⟩
    intro key hkey
    obtain ⟨a, -, -⟩ := hs.counter key hkey
    exact ⟨by rw [l2, l1, a], by rw [l1]; exact toUInt16_lt _⟩
  | data d queue =>
    obtain ⟨c1, l1, t1, i1⟩ := e1
    obtain ⟨c2, i2, key, hkey, hd⟩ := e2
    have hm : q.asm.locationCounter ≤ q1.asm.locationCounter := by simpa using hmono
    have hpkey : p.currentSection = some key := by rw [← hs.current]; exact hkey
    obtain ⟨a, b, -⟩ := hs.counter key hpkey
    obtain ⟨l2, hem⟩ := hd (by rw [a]; exact b)
    have hcount : countData U queue true 0 = groups U queue.length queue := by
      apply countData_eq_groups U queue.length queue (le_refl _)
      cases queue with
      | nil => exact Or.inl rfl
      | cons t r => exact Or.inr ⟨t, r, rfl, by simpa using hop⟩
    have hql : queue.length < tokens.length := hdata queue d rfl
    have hg := groups_le_length U queue.length queue (le_refl _)
    have hsz : datumSize d ≤ 2 := by
      unfold datumSize; split <;> simp [BYTE, WORD]
    have hX : groups U queue.length queue * datumSize d < 65536 := by nlinarith
    have hqlc : q.asm.locationCounter < 65536 := by rw [a]; exact b
    have hnowrap : q.asm.locationCounter + groups U queue.length queue * datumSize d <
        65536 := by
      generalize groups U queue.length queue * datumSize d = X at hX l2
      omega
    have hq1 : q1.asm.locationCounter =
        q.asm.locationCounter + groups U queue.length queue * datumSize d := by
      rw [l2]; exact Nat.mod_eq_of_lt hnowrap
    obtain ⟨new, hnewEq, hnewP⟩ := hem key (fun sec0 h0 => hs.names2 _ _ h0) (le_of_lt hnowrap)
    refine sim_advance p p1 q q1 _ _ hs c1 c2 t1 hshape (by rw [i1, i2]; exact hs.instructions)
      ?_ (fun _ _ => hm) ⟨new, hnewEq, ?_⟩
    · intro key1 _
      exact ⟨by rw [l2, l1, a, hcount], by rw [l1]; exact Nat.mod_lt _ (by norm_num)⟩
    · intro r hr
      obtain ⟨s1, -, s3⟩ := hnewP r hr
      exact ⟨by rw [s1]; exact hpkey, by rw [hq1]; exact s3⟩
  | instruction ms queue =>
    obtain ⟨c1, t1, i, hlaw, i1, l1⟩ := e1
    obtain ⟨c2, key, i0, rest0, hkey, hq, hq1, l2, hem⟩ := e2
    have hm : q.asm.locationCounter ≤ q1.asm.locationCounter := by simpa using hmono
    have hpkey : p.currentSection = some key := by rw [← hs.current]; exact hkey
    obtain ⟨a, b, -⟩ := hs.counter key hpkey
    have hinst : i0 :: rest0 = i :: ext := by
      have := hs.instructions
      rw [hext, i1, hq, List.append_assoc] at this
      have h3 := List.append_cancel_left this
      simpa using h3.symm
    simp only [List.cons.injEq] at hinst
    obtain ⟨rfl, rfl⟩ := hinst
    have hsz := (instruction_sizeLaw_bounds i0 hlaw).2
    have hqlc : q.asm.locationCounter < 65536 := by rw [a]; exact b
    have hnowrap : q.asm.locationCounter + i0.size < 65536 := by omega
    have hq1lc : q1.asm.locationCounter = q.asm.locationCounter + i0.size := by
      rw [l2]; exact Nat.mod_eq_of_lt hnowrap
    obtain ⟨sec0, hf0, new, hnewEq, hnewP⟩ := hem hlaw (le_of_lt hnowrap)
    have hname : sec0.name = key := hs.names2 _ _ hf0
    refine sim_advance p p1 q q1 _ _ hs c1 c2 t1 hshape (by rw [hext, i1, hq1]) ?_
      (fun _ _ => hm) ⟨new, hnewEq, ?_⟩
    · intro key1 _
      exact ⟨by rw [l2, l1, a], by rw [l1]; exact Nat.mod_lt _ (by norm_num)⟩
    · intro r hr
      obtain ⟨s1, -, s3⟩ := hnewP r hr
      exact ⟨by rw [s1, hname]; exact hpkey, by rw [hq1lc]; exact s3⟩
  | bad => exact absurd e1 id

theorem sim_run (U : Utils) (hU : Faithful U) (rest : List (List String)) :
    ∀ (p q pf qf : Pass), passLoop (firstPassLine U) rest p = .ok pf →
      passLoop (secondPassLine U) rest q = .ok qf → noWrap U rest q = true →
      operandFirst U rest = true →
      Sim p q pf.asm.instructions
        (shape (closeTable pf.asm.sectionTable pf.currentSection pf.asm.locationCounter)) →
      Sim pf qf pf.asm.instructions
        (shape (closeTable pf.asm.sectionTable pf.currentSection pf.asm.locationCounter)) := by
  induction rest with
  | nil =>
    intro p q pf qf h1 h2 _ _ hs
    simp [passLoop] at h1 h2
    subst h1
    subst h2
    exact hs
  | cons tokens rest ih =>
    intro p q pf qf h1 h2 hw ho hs
    obtain ⟨p1, hp1, hrest1⟩ := passLoop_cons _ _ _ _ _ h1
    obtain ⟨q1, hq1, hrest2⟩ := passLoop_cons _ _ _ _ _ h2
    simp only [noWrap, hq1, Bool.and_eq_true, decide_eq_true_eq] at hw
    obtain ⟨⟨hlen, hmono⟩, hw1⟩ := hw
    simp only [operandFirst, List.all_cons, Bool.and_eq_true] at ho
    obtain ⟨hop, ho1⟩ := ho
    exact ih p1 q1 pf qf hrest1 hrest2 hw1 ho1
      (sim_step U hU p p1 q q1 pf tokens rest hp1 hq1 hrest1 hlen hmono hop hs)

/-- C19, amended: on every successful run of the first pass, `resolveSymbols` and the second
pass, with a lexer that returns a name or an immediate as its own first match group and a
parser whose instructions obey the size law, in which the operand list of every
`.byte`/`.word` line starts with an operand and no line of the second pass takes the location
counter around 2^16, every relocation of the relocation table names a section of the section
table, stored under its name, and its patch site (offset plus width) lies within the size of
that section. -/
theorem relocations_within_section_sizes (U : Utils) (hU : Faithful U)
    (lines : List (List String)) (order : List String) (a1 a2 a3 : Assembler)
    (h1 : firstPass U (init lines) = .ok a1) (h2 : resolveSymbols a1 order = .ok a2)
    (h3 : secondPass U a2 = .ok a3) (hdata : operandFirst U lines = true)
    (hwrap : noWrap U lines ⟨{ a2 with line := 0 }, false, none⟩ = true) :
    ∀ r ∈ a3.relocationTable, ∃ sec, find? r.sect a3.sectionTable = some sec ∧
      sec.name = r.sect ∧ r.offset + r.type.width ≤ sec.size := by
  unfold firstPass at h1
  split at h1
  · simp at h1
  · next pf hpf =>
    simp at h1
    have hpf1 : passLoop (firstPassLine U) lines ⟨{ init lines with line := 0 }, false, none⟩ =
        .ok pf := hpf
    obtain ⟨-, -, hnames, hrel, hasm⟩ := firstPass_run_summary U hU lines _ pf hpf1
    have hnamesT : NamesOK
        (closeTable pf.asm.sectionTable pf.currentSection pf.asm.locationCounter) :=
      namesOK_closeTable _ _ _ (hnames (by intro k sec hk; simp [init, find?] at hk))
    obtain ⟨-, -, f3, f4, f5, f6⟩ := symbolsOnly_fields _ _ (symbolsOnly_resolveSymbols _ _ _ h2)
    have hframe := closeSection_frame pf.asm pf.currentSection
    have htable := closeSection_sectionTable pf.asm pf.currentSection
    have g3 : a2.instructions = pf.asm.instructions := by rw [f3, ← h1, hframe]
    have g4 : a2.assembly = lines := by
      rw [f4, ← h1, hframe]
      exact hasm
    have g5 : a2.sectionTable =
        closeTable pf.asm.sectionTable pf.currentSection pf.asm.locationCounter := by
      rw [f5, ← h1, htable]
    have g6 : a2.relocationTable = [] := by
      rw [f6, ← h1, hframe]
      exact hrel
    unfold secondPass at h3
    split at h3
    · simp at h3
    · next qf hqf =>
      simp at h3
      subst h3
      have hqf1 : passLoop (secondPassLine U) lines ⟨{ a2 with line := 0 }, false, none⟩ =
          .ok qf := by
        rw [← g4]
        exact hqf
      have hstart : Sim ⟨{ init lines with line := 0 }, false, none⟩
          ⟨{ a2 with line := 0 }, false, none⟩ pf.asm.instructions
          (shape (closeTable pf.asm.sectionTable pf.currentSection pf.asm.locationCounter)) := by
        refine ⟨rfl, ?_, ?_, ?_, ?_, ?_, ?_⟩
        · intro key hkey
          simp at hkey
        · intro k sec hk
          simp [init, find?] at hk
        · show NamesOK a2.sectionTable
          rw [g5]
          exact hnamesT
        · show pf.asm.instructions = (init lines).instructions ++ a2.instructions
          rw [g3]
          simp [init]
        · show shape a2.sectionTable = _
          rw [g5]
        · intro r hr
          have : r ∈ a2.relocationTable := hr
          rw [g6] at this
          simp at this
      have hend := sim_run U hU lines _ _ pf qf hpf1 hqf1 hwrap hdata hstart
      intro r hr
      have hshape : shape qf.asm.sectionTable = shape
          (closeTable pf.asm.sectionTable pf.currentSection pf.asm.locationCounter) :=
        hend.sizes
      rcases hend.relocations r hr with ⟨hcur, hb⟩ | ⟨hncur, sec0, hf, hb⟩
      · obtain ⟨a, -, c⟩ := hend.counter r.sect hcur
        obtain ⟨sec0, hf⟩ := (count_iff_find? _ _).1 c
        have hfT : find? r.sect
            (closeTable pf.asm.sectionTable pf.currentSection pf.asm.locationCounter) =
            some { sec0 with size := pf.asm.locationCounter } := by
          simp only [closeTable, hcur, hf]
          exact find?_update_self _ _ _ _ hf
        obtain ⟨sec1, hf1, hsize⟩ := size_of_shape _ _ _ _ hshape hfT
        exact ⟨sec1, hf1, hend.names2 _ _ hf1, by rw [hsize]; simpa [a] using hb⟩
      · have hfT : find? r.sect
            (closeTable pf.asm.sectionTable pf.currentSection pf.asm.locationCounter) =
            some sec0 := by
          rw [find?_closeTable_ne _ _ _ _ hncur]
          exact hf
        obtain ⟨sec1, hf1, hsize⟩ := size_of_shape _ _ _ _ hshape hfT
        exact ⟨sec1, hf1, hend.names2 _ _ hf1, by rw [hsize]; exact hb⟩

theorem getTokenType_name (token : String) (type : TokenType) (ms : List String)
    (h : Spec.getTokenType token = (type, ms))
    (hty : type = .SYMBOL ∨ type = .SECTION ∨ type = .SECTION_NAME ∨ type = .OPERAND_IMMED) :
    group ms 0 = token := by
  unfold Spec.getTokenType at h
  split_ifs at h
  all_goals first
    | (simp only [Prod.mk.injEq] at h
       obtain ⟨-, rfl⟩ := h
       rfl)
    | skip
  split at h
  · split_ifs at h
    · simp only [Prod.mk.injEq] at h
      obtain ⟨-, rfl⟩ := h
      rfl
    · simp only [Prod.mk.injEq] at h
      obtain ⟨rfl, -⟩ := h
      simp at hty
  · split_ifs at h
    · simp only [Prod.mk.injEq] at h
      obtain ⟨rfl, -⟩ := h
      simp at hty
    · split at h
      · split_ifs at h
        · simp only [Prod.mk.injEq] at h
          obtain ⟨rfl, -⟩ := h
          simp at hty
        · simp only [Prod.mk.injEq] at h
          obtain ⟨rfl, -⟩ := h
          simp at hty
      · simp only [Prod.mk.injEq] at h
        obtain ⟨rfl, -⟩ := h
        simp at hty

/-- The lexer written from the specification returns a name or an immediate as its own first
match group; its parser recognises no instruction. -/
theorem faithful_utils : Faithful Spec.utils := by
  constructor
  · intro token type ms h hty
    exact getTokenType_name token type ms h hty
  · intro queue ms line instruction rest h
    simp [Spec.utils] at h

/-- The lexer with the mnemonics `jmp` and `call` returns a name or an immediate as its own
first match group, and the instructions of its parser obey the size law. -/
theorem faithful_instructionUtils : Faithful Spec.instructionUtils := by
  constructor
  · intro token type ms h hty
    simp only [Spec.instructionUtils] at h
    unfold Spec.getTokenTypeWithInstructions at h
    split_ifs at h
    · simp only [Prod.mk.injEq] at h
      obtain ⟨rfl, -⟩ := h
      simp at hty
    · exact getTokenType_name token type ms h hty
  · intro queue ms line instruction rest h
    simp only [Spec.instructionUtils] at h
    unfold Spec.extract at h
    split at h
    · split at h
      · split_ifs at h
        · simp only [Except.ok.injEq, Prod.mk.injEq] at h
          obtain ⟨rfl, -⟩ := h
          simp [Instruction.sizeLaw, Operand.sizeLaw, operandSizeOf]
        · simp only [Except.ok.injEq, Prod.mk.injEq] at h
          obtain ⟨rfl, -⟩ := h
          exact immediateSymbolInstruction_sizeLaw _ _ _
      · simp at h
    · simp at h

/-- C19, witness: on `.data` / `.word X` / `.word X` the run succeeds, the relocation table
holds the two relocations of `X` at the offsets 0 and 2 of `.data`, and the patch site of the
second one, the bytes 2 and 3, lies within the size of `.data`.  On `.text` /
`start: jmp $end` / `end:` the relocation of the operand sits at offset 2 of `.text` and its
patch site lies within the size of `.text`.  The run over `Spec.wrapLines` wraps the counter
and the operand list of `Spec.signedWordLines` starts with an operator. -/
theorem relocations_within_section_sizes_witness :
    Spec.twoWordFinal.relocationTable =
      [⟨"X", ".data", 0, .R_386_16⟩, ⟨"X", ".data", 2, .R_386_16⟩] ∧
    (∃ sec, find? ".data" Spec.twoWordFinal.sectionTable = some sec ∧
      sec.name = ".data" ∧ 2 + RelocationType.width .R_386_16 ≤ sec.size) ∧
    Spec.jumpFinal.relocationTable = [⟨".text", ".text", 2, .R_386_16⟩] ∧
    (∃ sec, find? ".text" Spec.jumpFinal.sectionTable = some sec ∧
      sec.name = ".text" ∧ 2 + RelocationType.width .R_386_16 ≤ sec.size) ∧
    noWrap Spec.utils Spec.wrapLines
      ⟨{ Spec.afterFirstPass Spec.wrapLines with line := 0 }, false, none⟩ = false ∧
    operandFirst Spec.utils Spec.signedWordLines = false :=
  ⟨by decide,
   relocations_within_section_sizes Spec.utils faithful_utils Spec.twoWordLines []
     Spec.twoWordState Spec.twoWordState Spec.twoWordFinal (by decide) (by decide) (by decide)
     (by decide) (by decide) ⟨"X", ".data", 2, .R_386_16⟩ (by decide),
   by decide,
   relocations_within_section_sizes Spec.instructionUtils faithful_instructionUtils
     Spec.forwardLines [] Spec.jumpState Spec.jumpState Spec.jumpFinal (by decide) (by decide)
     (by decide) (by decide) (by decide) ⟨".text", ".text", 2, .R_386_16⟩ (by decide),
   by decide, by decide⟩
end Asm
